import Mathlib

/-!
# Boolean inverted-index search engine: embedding and verified properties

A shallow embedding of the C++ sources (`indexer.h`, `indexer.cpp`,
`build_index.cpp`, `turkish_stemmer.h`, `searcher.h`, `search.cpp`) and
theorems about it.

Conventions of the embedding:

* a byte is a `Nat` below 256 and a C string is the `List Nat` of its bytes
  before the terminating NUL, so a string never contains the byte 0;
* a `uint32_t` array handed over as pointer and size is the `List Nat` of its
  elements, an index into it is the suffix that starts there;
* arithmetic on machine integers is written out with its modulus wherever the
  value can leave the range of the type;
* code that can fail to return, or that would read or write out of bounds,
  returns an `Option`, with `none` for "no result".
-/

namespace Search

/-! ## Definitions -/

/-! ### The C library in the "C" locale -/

/-- The libc `isupper`: the bytes `A`..`Z`. -/
def isupper (c : Nat) : Bool := decide (65 ≤ c) && decide (c ≤ 90)

/-- The libc `islower`: the bytes `a`..`z`. -/
def islower (c : Nat) : Bool := decide (97 ≤ c) && decide (c ≤ 122)

/-- The libc `isalpha`. -/
def isalpha (c : Nat) : Bool := isupper c || islower c

/-- The libc `isdigit`: the bytes `0`..`9`. -/
def isdigit (c : Nat) : Bool := decide (48 ≤ c) && decide (c ≤ 57)

/-- The libc `isalnum`. -/
def isalnum (c : Nat) : Bool := isalpha c || isdigit c

/-- The libc `isspace`: space, `\t`, `\n`, `\v`, `\f`, `\r`. -/
def isspace (c : Nat) : Bool := decide (c = 32) || (decide (9 ≤ c) && decide (c ≤ 13))

/-- The libc `strcmp`: the difference of the first pair of bytes that differ,
the end of a list counting as the byte 0, and 0 when the strings agree up to
their NUL. -/
def strcmp : List Nat → List Nat → Int
  | [], [] => 0
  | [], b :: _ => - (b : Int)
  | a :: _, [] => (a : Int)
  | a :: as, b :: bs =>
    if a = b then (if a = 0 then 0 else strcmp as bs) else (a : Int) - (b : Int)

/-! ### Posting algebra (`searcher.h`) -/

/-- The function `intersect_postings` of `searcher.h`: the two lists are the
parts of `list1` and `list2` from `i` and `j` on, the value is what the loop
still appends to `result`. -/
def intersect_postings : List Nat → List Nat → List Nat
  | a :: as, b :: bs =>
    if a = b then a :: intersect_postings as bs
    else if a < b then intersect_postings as (b :: bs)
    else intersect_postings (a :: as) bs
  | _, _ => []
termination_by l1 l2 => l1.length + l2.length

/-- The function `union_postings` of `searcher.h`: the first loop runs while
both lists have elements left, the two trailing loops copy what remains. -/
def union_postings : List Nat → List Nat → List Nat
  | a :: as, b :: bs =>
    if a = b then a :: union_postings as bs
    else if a < b then a :: union_postings as (b :: bs)
    else b :: union_postings (a :: as) bs
  | a :: as, [] => a :: as
  | [], l2 => l2
termination_by l1 l2 => l1.length + l2.length

/-- The `for` loop of `negate_postings`: `list` is the part of the array from
`j` on, `doc_id` the 32-bit loop counter and `result` what was pushed so far.
The counter wraps at `2^32`, so the loop need not end; `fuel` bounds the number
of tests of the loop condition and `none` means the bound was reached. -/
def negate_loop : Nat → List Nat → Nat → Nat → List Nat → Option (List Nat)
  | 0, _, _, _, _ => none
  | fuel + 1, list, doc_id, total_docs, result =>
    if doc_id ≤ total_docs then
      match list with
      | x :: rest =>
        if x = doc_id then negate_loop fuel rest ((doc_id + 1) % 2 ^ 32) total_docs result
        else negate_loop fuel (x :: rest) ((doc_id + 1) % 2 ^ 32) total_docs (result ++ [doc_id])
      | [] => negate_loop fuel [] ((doc_id + 1) % 2 ^ 32) total_docs (result ++ [doc_id])
    else some result

/-- The function `negate_postings` of `searcher.h`. A run that ends tests the
loop condition `total_docs + 1` times, which is the fuel given; `none` is a run
that does not end. -/
def negate_postings (list : List Nat) (total_docs : Nat) : Option (List Nat) :=
  negate_loop (total_docs + 1) list 1 total_docs []

/-- A C string of the embedding: no byte is NUL and every byte is below 256. -/
def is_c_string (s : List Nat) : Bool :=
  s.all (fun c => decide (0 < c) && decide (c < 256))

/-! ### Index structures (`indexer.h`) -/

/-- The struct `IndexMetadata` of `indexer.h`. -/
structure IndexMetadata where
  magic : Nat
  version : Nat
  flags : Nat
  total_documents : Nat
  total_unique_terms : Nat
  timestamp : Nat
  forward_offset : Nat
  forward_size : Nat
  inverted_offset : Nat
  inverted_size : Nat
  reserved : List Nat
  deriving DecidableEq

/-- The struct `Document` of `indexer.h`. -/
structure Document where
  doc_id : Nat
  url : List Nat
  url_length : Nat
  title : List Nat
  title_length : Nat
  content_length : Nat
  token_count : Nat
  unique_terms : Nat
  deriving DecidableEq

/-- The struct `Term` of `indexer.h`. -/
structure Term where
  term : List Nat
  term_length : Nat
  document_frequency : Nat
  doc_ids : List Nat
  deriving DecidableEq

/-- The data members of the class `IndexLoader` of `searcher.h`, and the one
fact about the process that its methods read: `debug_search` says whether the
environment variable `DEBUG_SEARCH` is set, which `find_term` asks with
`getenv` at every call. -/
structure IndexLoader where
  metadata : IndexMetadata
  documents : List Document
  terms : List Term
  debug_search : Bool
  deriving DecidableEq

/-! ### Turkish stemmer (`turkish_stemmer.h`) -/

namespace TurkishStemmer

/-- The function `ends_with`. -/
def ends_with (word suffix : List Nat) : Bool :=
  if word.length < suffix.length then false
  else decide (strcmp (word.drop (word.length - suffix.length)) suffix = 0)

/-- The function `remove_suffix`: it writes the NUL at index
`word_len - suffix_len`, computed in `size_t`; `none` when the suffix is longer
than the word and the index lies outside the buffer. -/
def remove_suffix (word suffix : List Nat) : Option (List Nat) :=
  if suffix.length ≤ word.length then some (word.take (word.length - suffix.length))
  else none

/-- The array `case_suffixes` of `stem`: `nda nde dan den nin nun nan nen yi yu
ya ye da de ta te`. -/
def case_suffixes : List (List Nat) :=
  [[110, 100, 97], [110, 100, 101], [100, 97, 110], [100, 101, 110], [110, 105, 110],
    [110, 117, 110], [110, 97, 110], [110, 101, 110], [121, 105], [121, 117], [121, 97],
    [121, 101], [100, 97], [100, 101], [116, 97], [116, 101]]

/-- The `for` loop of `stem` over `case_suffixes`: whether a suffix matched and
the word after the loop. -/
def case_suffix_loop : List (List Nat) → List Nat → Option (Bool × List Nat)
  | [], word => some (false, word)
  | suffix :: rest, word =>
    if ends_with word suffix then
      match remove_suffix word suffix with
      | none => none
      | some w => some (true, w)
    else case_suffix_loop rest word

/-- The first `if` of `stem`: a word that ends in `lar` or `ler` loses it. The
value is `modified` and the word. -/
def strip_plural (word : List Nat) : Option (Bool × List Nat) :=
  if ends_with word [108, 97, 114] || ends_with word [108, 101, 114] then
    match remove_suffix word
        (if ends_with word [108, 97, 114] then [108, 97, 114] else [108, 101, 114]) with
    | none => none
    | some w => some (true, w)
  else some (false, word)

/-- The second `if` of `stem`: a word of at least four bytes that ends in `im`,
`in`, `um` or `un` has the suffix `im` removed. -/
def strip_possessive (modified : Bool) (word : List Nat) : Option (Bool × List Nat) :=
  if 4 ≤ word.length then
    if ends_with word [105, 109] || ends_with word [105, 110] ||
        ends_with word [117, 109] || ends_with word [117, 110] then
      match remove_suffix word [105, 109] with
      | none => none
      | some w => some (true, w)
    else some (modified, word)
  else some (modified, word)

/-- The third `if` of `stem`: a word of at least four bytes loses the first
case suffix of the array that it ends in. -/
def strip_case (modified : Bool) (word : List Nat) : Option (Bool × List Nat) :=
  if 4 ≤ word.length then
    match case_suffix_loop case_suffixes word with
    | none => none
    | some (matched, w) => some (modified || matched, w)
  else some (modified, word)

/-- The function `stem`: the value returned and the word left in the buffer. -/
def stem (word : List Nat) : Option (Bool × List Nat) :=
  if word.length < 5 then some (false, word)
  else
    match strip_plural word with
    | none => none
    | some (m1, w1) =>
      match strip_possessive m1 w1 with
      | none => none
      | some (m2, w2) => strip_case m2 w2

end TurkishStemmer

/-! ### Posting map (`indexer.h`) -/

/-- The struct `HashNode` without its `next` pointer: a chain is a list. -/
structure HashNode where
  key : List Nat
  doc_ids : List Nat
  deriving DecidableEq

/-- The class `HashMap`. The array `buckets` is kept sparse: the list holds,
in ascending order of the index, the pairs of an index and the chain that
starts there, and an index that is not listed is a `nullptr` bucket. -/
structure HashMap where
  buckets : List (Nat × List HashNode)
  bucket_count : Nat
  item_count : Nat
  deriving DecidableEq

namespace HashMap

/-- The constructor `HashMap(num_buckets)`. -/
def create (num_buckets : Nat) : HashMap :=
  ⟨[], num_buckets, 0⟩

/-- The loop of `hash`: `h = ((h << 5) + h) + c` in a 64-bit `size_t`, `c` being
the `char` as a signed `int` (bytes from 128 on are negative). -/
def hash_loop : List Nat → Nat → Nat
  | [], h => h
  | c :: rest, h =>
    hash_loop rest
      (((h * 32) % 2 ^ 64 + h + (if c < 128 then c else c + 2 ^ 64 - 256)) % 2 ^ 64)

/-- The method `hash`. -/
def hash (m : HashMap) (str : List Nat) : Nat :=
  hash_loop str 5381 % m.bucket_count

/-- The read of `buckets[idx]`: the chain there, empty for `nullptr`. -/
def bucket_get : List (Nat × List HashNode) → Nat → List HashNode
  | [], _ => []
  | (i, chain) :: rest, idx => if i = idx then chain else bucket_get rest idx

/-- The write `buckets[idx] = chain`. -/
def bucket_set : List (Nat × List HashNode) → Nat → List HashNode → List (Nat × List HashNode)
  | [], idx, chain => [(idx, chain)]
  | (i, c) :: rest, idx, chain =>
    if i = idx then (idx, chain) :: rest
    else if idx < i then (idx, chain) :: (i, c) :: rest
    else (i, c) :: bucket_set rest idx chain

/-- The `while` loop of `get_or_create`: the first node of the chain whose key
compares equal. -/
def chain_find : List HashNode → List Nat → Option HashNode
  | [], _ => none
  | node :: rest, key => if strcmp node.key key = 0 then some node else chain_find rest key

/-- The method `get_or_create`: the map after the call and the contents of the
list the returned pointer refers to. -/
def get_or_create (m : HashMap) (key : List Nat) : HashMap × List Nat :=
  match chain_find (bucket_get m.buckets (m.hash key)) key with
  | some node => (m, node.doc_ids)
  | none =>
    (⟨bucket_set m.buckets (m.hash key) (⟨key, []⟩ :: bucket_get m.buckets (m.hash key)),
      m.bucket_count, m.item_count + 1⟩, [])

/-- A chain after a write through the pointer `get_or_create` returned for
`key`: the list of the first node whose key compares equal is replaced. -/
def chain_store : List HashNode → List Nat → List Nat → List HashNode
  | [], _, _ => []
  | node :: rest, key, doc_ids =>
    if strcmp node.key key = 0 then ⟨node.key, doc_ids⟩ :: rest
    else node :: chain_store rest key doc_ids

/-- The map after a write through the pointer `get_or_create` returned for
`key`. -/
def store (m : HashMap) (key : List Nat) (doc_ids : List Nat) : HashMap :=
  ⟨bucket_set m.buckets (m.hash key)
    (chain_store (bucket_get m.buckets (m.hash key)) key doc_ids),
    m.bucket_count, m.item_count⟩

/-- The method `size`. -/
def size (m : HashMap) : Nat :=
  m.item_count

/-- The nodes in the order in which `Iterator` visits them: bucket after
bucket, each chain from its head. -/
def nodes : List (Nat × List HashNode) → List HashNode
  | [] => []
  | (_, chain) :: rest => chain ++ nodes rest

/-- A loop over the iterator that replaces the list of every node by `f` of
it. -/
def map_doc_ids (f : List Nat → List Nat) :
    List (Nat × List HashNode) → List (Nat × List HashNode)
  | [] => []
  | (i, chain) :: rest =>
    (i, chain.map (fun node => ⟨node.key, f node.doc_ids⟩)) :: map_doc_ids f rest

end HashMap

/-- The representation invariant of a `HashMap`: the listed bucket indices
ascend, every node lies in the bucket of its hash, no two nodes have the same
key, no key contains a NUL, and `item_count` is the number of nodes. -/
def HashMap.well_formed (m : HashMap) : Prop :=
  (m.buckets.map Prod.fst).Sorted (· < ·) ∧
    (∀ p ∈ m.buckets, ∀ n ∈ p.2, m.hash n.key = p.1) ∧
    ((HashMap.nodes m.buckets).map HashNode.key).Nodup ∧
    (∀ n ∈ HashMap.nodes m.buckets, ∀ c ∈ n.key, 0 < c) ∧
    (HashMap.nodes m.buckets).length = m.item_count

/-- Every posting list of the map is free of duplicates. -/
def HashMap.lists_nodup (m : HashMap) : Prop :=
  ∀ n ∈ HashMap.nodes m.buckets, n.doc_ids.Nodup

/-- The doc ID `x` occurs in the posting list that the map holds for the term
`k`. -/
def HashMap.has_posting (m : HashMap) (k : List Nat) (x : Nat) : Prop :=
  ∃ n ∈ HashMap.nodes m.buckets, n.key = k ∧ x ∈ n.doc_ids

/-! ### Index builder (`indexer.cpp`) -/

/-- The libc `qsort` by its contract: the elements in ascending order of the
comparison function. -/
def qsort {α : Type} (compare : α → α → Int) (l : List α) : List α :=
  l.insertionSort (fun a b => compare a b ≤ 0)

/-- The function `compare_uint32`. -/
def compare_uint32 (a b : Nat) : Int :=
  (if a > b then 1 else 0) - (if a < b then 1 else 0)

/-- The function `compare_terms`. -/
def compare_terms (na nb : HashNode) : Int :=
  strcmp na.key nb.key

/-- The struct `IndexOptions`. -/
structure IndexOptions where
  use_stemming : Bool
  deriving DecidableEq

/-- The data members of the class `Indexer`. -/
structure Indexer where
  documents : List Document
  inverted_index : HashMap
  metadata : IndexMetadata
  options : IndexOptions
  deriving DecidableEq

namespace Indexer

/-- The constructor `Indexer::Indexer`. It assigns seven fields of `metadata`;
`forward_offset`, `forward_size`, `inverted_offset` and `inverted_size` are not
assigned and keep what the memory held, given here as `stale`. `now` is the
value of `time(nullptr)`. -/
def construct (now : Nat) (stale : IndexMetadata) : Indexer :=
  { documents := []
    inverted_index := HashMap.create 100000
    metadata :=
      { magic := 0x49444558
        version := 0x0001
        flags := 0
        total_documents := 0
        total_unique_terms := 0
        timestamp := now
        forward_offset := stale.forward_offset
        forward_size := stale.forward_size
        inverted_offset := stale.inverted_offset
        inverted_size := stale.inverted_size
        reserved := List.replicate 256 0 }
    options := ⟨false⟩ }

/-- The method `set_options`; `FLAG_STEMMED` is `0x0002`. -/
def set_options (ix : Indexer) (opts : IndexOptions) : Indexer :=
  { ix with
    options := opts
    metadata :=
      if opts.use_stemming then { ix.metadata with flags := ix.metadata.flags ||| 2 }
      else ix.metadata }

/-- The loop of `Indexer::to_lowercase` from index `i` on: the argument is the
buffer from `i` to its NUL, the value is what the buffer holds there after the
loop. The rewrite of `I` followed by `0xB0` stores `0xB1` at `i + 1` and the
loop goes on to read that byte. `fuel` is the number of bytes left. -/
def to_lowercase_loop : Nat → List Nat → List Nat
  | 0, str => str
  | _ + 1, [] => []
  | fuel + 1, c :: rest =>
    if c = 0x49 ∧ rest.head? = some 0xB0 then
      0xC4 :: to_lowercase_loop fuel (0xB1 :: rest.tail)
    else if 65 ≤ c ∧ c ≤ 90 then (c + 32) :: to_lowercase_loop fuel rest
    else if 0xC0 ≤ c ∧ c ≤ 0xDE then (c + 32) :: to_lowercase_loop fuel rest
    else c :: to_lowercase_loop fuel rest

/-- The method `Indexer::to_lowercase`. -/
def to_lowercase (str : List Nat) : List Nat :=
  to_lowercase_loop str.length str

/-- The method `is_valid_term`. -/
def is_valid_term (term : List Nat) : Bool :=
  if term.length < 2 then false else term.any isalpha

/-- The statement `documents[documents.size - 1].token_count++`; `none` when
there is no document and the index lies outside the array. -/
def count_token : List Document → Option (List Document)
  | [] => none
  | [doc] => some [{ doc with token_count := (doc.token_count + 1) % 2 ^ 32 }]
  | doc :: next :: rest =>
    match count_token (next :: rest) with
    | none => none
    | some docs => some (doc :: docs)

/-- The statements of `tokenize_and_index` for a token that passed
`is_valid_term`: `get_or_create`, the scan for `doc_id`, `push_back` when it
was not found, and the count. -/
def index_term (ix : Indexer) (doc_id : Nat) (token : List Nat) : Option Indexer :=
  match count_token ix.documents with
  | none => none
  | some docs =>
    some
      { ix with
        documents := docs
        inverted_index :=
          if (ix.inverted_index.get_or_create token).2.any (fun d => decide (d = doc_id)) then
            (ix.inverted_index.get_or_create token).1
          else
            (ix.inverted_index.get_or_create token).1.store token
              ((ix.inverted_index.get_or_create token).2 ++ [doc_id]) }

/-- The branch of `tokenize_and_index` for a token that a separator byte ends:
case folding, stemming when the option is set, validation, indexing. -/
def token_in_text (ix : Indexer) (doc_id : Nat) (token : List Nat) : Option Indexer :=
  match
    (if ix.options.use_stemming then
      match TurkishStemmer.stem (to_lowercase token) with
      | none => none
      | some (_, stemmed) => some stemmed
    else some (to_lowercase token)) with
  | none => none
  | some term => if is_valid_term term then index_term ix doc_id term else some ix

/-- The statements of `tokenize_and_index` after its loop, for a token that the
end of the text ends: case folding, validation, indexing. -/
def token_at_end (ix : Indexer) (doc_id : Nat) (token : List Nat) : Option Indexer :=
  if is_valid_term (to_lowercase token) then index_term ix doc_id (to_lowercase token)
  else some ix

/-- The `for` loop of `tokenize_and_index` and the statements after it: `text`
from index `i` on, the bytes in `token` up to `token_pos`, and `in_token`. -/
def tokenize_loop : List Nat → Indexer → Nat → List Nat → Bool → Option Indexer
  | [], ix, doc_id, token, in_token =>
    if in_token = true ∧ 0 < token.length then token_at_end ix doc_id token else some ix
  | c :: rest, ix, doc_id, token, in_token =>
    if isalnum c = true ∨ c = 95 ∨ 128 ≤ c then
      tokenize_loop rest ix doc_id
        (if (if in_token then token else []).length < 255 then
          (if in_token then token else []) ++ [c]
        else (if in_token then token else [])) true
    else
      match
        (if in_token = true ∧ 0 < token.length then token_in_text ix doc_id token
        else some ix) with
      | none => none
      | some ix1 => tokenize_loop rest ix1 doc_id [] false

/-- The method `tokenize_and_index`. -/
def tokenize_and_index (ix : Indexer) (doc_id : Nat) (text : List Nat) : Option Indexer :=
  tokenize_loop text ix doc_id [] false

/-- The method `add_document`; `url_length` and `title_length` are `uint16_t`,
`content_length` and the counters are `uint32_t`. The buffers for the url and
the title have `url_length + 1` and `title_length + 1` bytes and `strcpy`
writes the whole string, so a url or a title of `2^16` bytes or more is
written past the end of its buffer: `none`. -/
def add_document (ix : Indexer) (doc_id : Nat) (url title content : List Nat) :
    Option Indexer :=
  if url.length < 2 ^ 16 ∧ title.length < 2 ^ 16 then
    match tokenize_and_index
        { ix with
          documents := ix.documents ++
            [{ doc_id := doc_id
               url := url
               url_length := url.length % 2 ^ 16
               title := title
               title_length := title.length % 2 ^ 16
               content_length := content.length % 2 ^ 32
               token_count := 0
               unique_terms := 0 }] }
        doc_id content with
    | none => none
    | some ix1 =>
      match tokenize_and_index ix1 doc_id title with
      | none => none
      | some ix2 =>
        some
          { ix2 with
            metadata :=
              { ix2.metadata with
                total_documents := (ix2.metadata.total_documents + 1) % 2 ^ 32 } }
  else none

/-- The method `sort_index`: every non-empty posting list is sorted with
`qsort` and `compare_uint32`, then the number of terms is stored. -/
def sort_index (ix : Indexer) : Indexer :=
  { ix with
    inverted_index :=
      ⟨HashMap.map_doc_ids
        (fun doc_ids => if 0 < doc_ids.length then qsort compare_uint32 doc_ids else doc_ids)
        ix.inverted_index.buckets,
        ix.inverted_index.bucket_count, ix.inverted_index.item_count⟩
    metadata :=
      { ix.metadata with total_unique_terms := ix.inverted_index.size % 2 ^ 32 } }

/-- The array `term_array` of `save_to_file` after `qsort`. It has
`num_terms` slots and the iterator loop fills one per node; `none` when the
two numbers differ and the loop writes outside the array or leaves slots
unset. -/
def term_array (ix : Indexer) : Option (List HashNode) :=
  if (HashMap.nodes ix.inverted_index.buckets).length = ix.inverted_index.size % 2 ^ 32 then
    some (qsort compare_terms (HashMap.nodes ix.inverted_index.buckets))
  else none

/-- One call of `add_document` per record `(doc_id, url, title, content)`, in
order, as the loop of `main` in `build_index.cpp` makes them. -/
def add_documents : Indexer → List (Nat × List Nat × List Nat × List Nat) → Option Indexer
  | ix, [] => some ix
  | ix, (doc_id, url, title, content) :: rest =>
    match add_document ix doc_id url title content with
    | none => none
    | some ix1 => add_documents ix1 rest

end Indexer

/-- The invariant of the builder for the list `L` of the doc IDs passed to
`add_document` so far: the document table holds these IDs in this order, the
posting map is well formed and its lists are duplicate-free, every key has at
most 255 bytes and every doc ID of a posting list is in `L`. -/
def Indexer.consistent (ix : Indexer) (L : List Nat) : Prop :=
  ix.inverted_index.well_formed ∧ ix.inverted_index.lists_nodup ∧
    ix.documents.map Document.doc_id = L ∧
    ∀ n ∈ HashMap.nodes ix.inverted_index.buckets,
      n.key.length ≤ 255 ∧ ∀ x ∈ n.doc_ids, x ∈ L

/-! ### Term lookup (`searcher.h`) -/

/-- The value of an `int` expression: `none` when it leaves the range of a
32-bit `int` (signed overflow is undefined). -/
def int32 (n : Int) : Option Int :=
  if -2 ^ 31 ≤ n ∧ n < 2 ^ 31 then some n else none

/-- The conversion of a `uint32_t` to `int`: the values from `2^31` on wrap to
the negative numbers. -/
def toInt32 (n : Nat) : Int :=
  if n < 2 ^ 31 then (n : Int) else (n : Int) - 2 ^ 32

/-- The value of `n - 1` in `uint32_t`: 0 wraps to `2^32 - 1`. -/
def uint32_pred (n : Nat) : Nat :=
  if n = 0 then 2 ^ 32 - 1 else n - 1

namespace IndexLoader

/-- The `while` loop of `find_term`. The outer `none` is a run with undefined
behaviour (`int` overflow, a read outside `terms`) or without fuel; `some none`
is the return of `nullptr`. -/
def find_term_loop : Nat → List Term → List Nat → Int → Int → Option (Option Term)
  | 0, _, _, _, _ => none
  | fuel + 1, terms, query_term, left, right =>
    if left ≤ right then
      match int32 (right - left) with
      | none => none
      | some width =>
        match int32 (left + Int.tdiv width 2) with
        | none => none
        | some mid =>
          if mid < 0 then none
          else
            match terms[mid.toNat]? with
            | none => none
            | some t =>
              let cmp := strcmp query_term t.term
              if cmp = 0 then some (some t)
              else if cmp < 0 then
                match int32 (mid - 1) with
                | none => none
                | some r => find_term_loop fuel terms query_term left r
              else
                match int32 (mid + 1) with
                | none => none
                | some l => find_term_loop fuel terms query_term l right
    else some none

/-- The reads of the first `if (getenv("DEBUG_SEARCH"))` of `find_term`: with
the variable set, `terms[0].term` and `terms[total_unique_terms - 1].term` are
printed, the index being computed in `uint32_t`; `none` when one of the two
entries lies outside `terms`. Without the variable nothing is read. -/
def debug_reads (loader : IndexLoader) : Option Unit :=
  if loader.debug_search then
    match loader.terms[0]?, loader.terms[uint32_pred loader.metadata.total_unique_terms]? with
    | some _, some _ => some ()
    | _, _ => none
  else some ()

/-- The method `IndexLoader::find_term`: the diagnostics under `DEBUG_SEARCH`,
then the loop. `right` is `total_unique_terms - 1` computed in `uint32_t` and
converted to `int`. The loop body runs at most once per entry; the diagnostics
inside the loop print `terms[mid].term`, which `strcmp` has read before. -/
def find_term (loader : IndexLoader) (query_term : List Nat) : Option (Option Term) :=
  match debug_reads loader with
  | none => none
  | some _ =>
    find_term_loop (loader.metadata.total_unique_terms + 1) loader.terms query_term 0
      (toInt32 (uint32_pred loader.metadata.total_unique_terms))

/-- The method `IndexLoader::get_total_documents`. -/
def get_total_documents (loader : IndexLoader) : Nat :=
  loader.metadata.total_documents

end IndexLoader

/-! ### Query lexer (`searcher.h`) -/

/-- The enum `TokenType` of `searcher.h`. -/
inductive TokenType
  | TOKEN_WORD
  | TOKEN_AND
  | TOKEN_OR
  | TOKEN_NOT
  | TOKEN_LPAREN
  | TOKEN_RPAREN
  | TOKEN_END
  deriving DecidableEq

/-- The struct `QueryToken` of `searcher.h`; `word` is the string in the buffer. -/
structure QueryToken where
  type : TokenType
  word : List Nat
  deriving DecidableEq

namespace BooleanQueryParser

/-- The method `skip_whitespace`: the query from `pos` on, after the loop. -/
def skip_whitespace (query : List Nat) : List Nat :=
  query.dropWhile isspace

/-- The method `BooleanQueryParser::to_lowercase`: `A`..`Z` become `a`..`z`. -/
def to_lowercase (str : List Nat) : List Nat :=
  str.map (fun c => if 65 ≤ c ∧ c ≤ 90 then c - 65 + 97 else c)

/-- The condition of the word loop of `next_token` on one byte. -/
def is_word_byte (c : Nat) : Bool :=
  isalnum c || decide (c = 45) || decide (c = 39) || decide (128 ≤ c)

/-- The word loop of `next_token`: from the query at `pos` and the bytes stored
in `token.word` so far to the stored word and the query at the new `pos`. At
most 255 bytes are stored, every byte of the run is consumed. -/
def word_loop : List Nat → List Nat → List Nat × List Nat
  | [], word => (word, [])
  | c :: rest, word =>
    if is_word_byte c then
      word_loop rest (if word.length < 255 then word ++ [c] else word)
    else (word, c :: rest)

set_option linter.unusedVariables false in
/-- The method `next_token`: the token and the query from the new `pos` on. -/
def next_token (query : List Nat) : QueryToken × List Nat :=
  match h : skip_whitespace query with
  | [] => (⟨TokenType.TOKEN_END, []⟩, [])
  | c :: rest =>
    if c = 40 then (⟨TokenType.TOKEN_LPAREN, []⟩, rest)
    else if c = 41 then (⟨TokenType.TOKEN_RPAREN, []⟩, rest)
    else if c = 33 then (⟨TokenType.TOKEN_NOT, []⟩, rest)
    else if c = 124 ∧ rest.head? = some 124 then (⟨TokenType.TOKEN_OR, []⟩, rest.tail)
    else if c = 38 ∧ rest.head? = some 38 then (⟨TokenType.TOKEN_AND, []⟩, rest.tail)
    else
      match word_loop (c :: rest) [] with
      | (word, after) =>
        if 0 < word.length then (⟨TokenType.TOKEN_WORD, to_lowercase word⟩, after)
        else next_token rest
termination_by query.length
decreasing_by
  have hlen : (skip_whitespace query).length ≤ query.length :=
    (List.dropWhile_sublist isspace).length_le
  rw [h] at hlen
  simp only [List.length_cons] at hlen
  omega

end BooleanQueryParser

/-! ### Query parser and evaluator (`search.cpp`) -/

/-- The state of a `QueryEvaluator`: the query of its parser from `pos` on and
`current_token`. -/
structure QueryEvaluator where
  parser : List Nat
  current_token : QueryToken
  deriving DecidableEq

namespace QueryEvaluator

/-- The method `advance`. -/
def advance (ev : QueryEvaluator) : QueryEvaluator :=
  ⟨(BooleanQueryParser.next_token ev.parser).2, (BooleanQueryParser.next_token ev.parser).1⟩

/-- The `TOKEN_WORD` branch of `parse_factor` up to the copy of the list: the
first `document_frequency` doc IDs of the term found, the empty list for
`nullptr`. -/
def word_postings (loader : IndexLoader) (word : List Nat) : Option (List Nat) :=
  match loader.find_term word with
  | none => none
  | some none => some []
  | some (some term) => some (term.doc_ids.take term.document_frequency)

mutual

/-- The method `parse_expression`; `fuel` bounds the depth of the calls. -/
def parse_expression : Nat → IndexLoader → QueryEvaluator → Option (List Nat × QueryEvaluator)
  | 0, _, _ => none
  | fuel + 1, loader, ev =>
    match parse_term fuel loader ev with
    | none => none
    | some (left, ev1) => parse_expression_loop fuel loader left ev1

/-- The `while` loop of `parse_expression`. -/
def parse_expression_loop :
    Nat → IndexLoader → List Nat → QueryEvaluator → Option (List Nat × QueryEvaluator)
  | 0, _, _, _ => none
  | fuel + 1, loader, left, ev =>
    if ev.current_token.type = TokenType.TOKEN_OR then
      match parse_term fuel loader (advance ev) with
      | none => none
      | some (right, ev1) => parse_expression_loop fuel loader (union_postings left right) ev1
    else some (left, ev)

/-- The method `parse_term`. -/
def parse_term : Nat → IndexLoader → QueryEvaluator → Option (List Nat × QueryEvaluator)
  | 0, _, _ => none
  | fuel + 1, loader, ev =>
    match parse_factor fuel loader ev with
    | none => none
    | some (left, ev1) => parse_term_loop fuel loader left ev1

/-- The `while` loop of `parse_term`. -/
def parse_term_loop :
    Nat → IndexLoader → List Nat → QueryEvaluator → Option (List Nat × QueryEvaluator)
  | 0, _, _, _ => none
  | fuel + 1, loader, left, ev =>
    if ev.current_token.type = TokenType.TOKEN_AND ∨
        ev.current_token.type = TokenType.TOKEN_WORD then
      match parse_factor fuel loader
          (if ev.current_token.type = TokenType.TOKEN_AND then advance ev else ev) with
      | none => none
      | some (right, ev1) => parse_term_loop fuel loader (intersect_postings left right) ev1
    else some (left, ev)

/-- The method `parse_factor`. -/
def parse_factor : Nat → IndexLoader → QueryEvaluator → Option (List Nat × QueryEvaluator)
  | 0, _, _ => none
  | fuel + 1, loader, ev =>
    if ev.current_token.type = TokenType.TOKEN_NOT then
      match parse_factor fuel loader (advance ev) with
      | none => none
      | some (operand, ev1) =>
        match negate_postings operand loader.get_total_documents with
        | none => none
        | some result => some (result, ev1)
    else if ev.current_token.type = TokenType.TOKEN_LPAREN then
      match parse_expression fuel loader (advance ev) with
      | none => none
      | some (result, ev1) =>
        some (result, if ev1.current_token.type = TokenType.TOKEN_RPAREN then advance ev1 else ev1)
    else if ev.current_token.type = TokenType.TOKEN_WORD then
      match word_postings loader ev.current_token.word with
      | none => none
      | some result => some (result, advance ev)
    else some ([], ev)

end

/-- The method `evaluate` on the query string of the parser: `reset`, `advance`,
`parse_expression`. The depth of the calls is at most three per byte of the
query plus three. -/
def evaluate (loader : IndexLoader) (query : List Nat) : Option (List Nat) :=
  match parse_expression (3 * query.length + 3) loader
      (advance ⟨query, ⟨TokenType.TOKEN_END, []⟩⟩) with
  | none => none
  | some (result, _) => some result

/-- A byte string that the lexer reads as one WORD: it is not empty and each
byte passes the condition of the word loop. -/
def is_query_word (w : List Nat) : Bool :=
  decide (w ≠ []) && w.all BooleanQueryParser.is_word_byte

/-- The word the lexer stores for such a byte string: its first 255 bytes,
`A`..`Z` folded. -/
def lexed_word (w : List Nat) : List Nat :=
  BooleanQueryParser.to_lowercase (w.take 255)

end QueryEvaluator

/-! ### Index files: writer (`indexer.cpp`) and reader (`searcher.h`) -/

/-- The bytes of a `uint16_t` in memory, least significant first. -/
def u16_bytes (n : Nat) : List Nat :=
  [n % 256, n / 256 % 256]

/-- The bytes of a `uint32_t` in memory, least significant first. -/
def u32_bytes (n : Nat) : List Nat :=
  [n % 256, n / 256 % 256, n / 65536 % 256, n / 16777216 % 256]

/-- The bytes of a `uint64_t` in memory, least significant first. -/
def u64_bytes (n : Nat) : List Nat :=
  u32_bytes (n % 2 ^ 32) ++ u32_bytes (n / 2 ^ 32 % 2 ^ 32)

/-- A read of a `uint16_t` with `fread`: the value and the rest of the file. -/
def read_u16 : List Nat → Option (Nat × List Nat)
  | b0 :: b1 :: rest => some (b0 + 256 * b1, rest)
  | _ => none

/-- A read of a `uint32_t` with `fread`: the value and the rest of the file. -/
def read_u32 : List Nat → Option (Nat × List Nat)
  | b0 :: b1 :: b2 :: b3 :: rest => some (b0 + 256 * b1 + 65536 * b2 + 16777216 * b3, rest)
  | _ => none

/-- A read of a `uint64_t`: the value and the rest of the file. -/
def read_u64 (file : List Nat) : Option (Nat × List Nat) :=
  match read_u32 file with
  | none => none
  | some (low, rest) =>
    match read_u32 rest with
    | none => none
    | some (high, rest1) => some (low + 2 ^ 32 * high, rest1)

/-- A read of `n` bytes with `fread`: the bytes and the rest of the file, `none`
when the file is shorter. -/
def read_bytes (n : Nat) (file : List Nat) : Option (List Nat × List Nat) :=
  if n ≤ file.length then some (file.take n, file.drop n) else none

/-- A read of `n` values of type `uint32_t` with `fread`. -/
def read_u32_array : Nat → List Nat → Option (List Nat × List Nat)
  | 0, file => some ([], file)
  | n + 1, file =>
    match read_u32 file with
    | none => none
    | some (v, rest) =>
      match read_u32_array n rest with
      | none => none
      | some (vs, rest1) => some (v :: vs, rest1)

/-- The three files `.meta`, `.forward`, `.inverted` of an index. -/
structure IndexFiles where
  meta_file : List Nat
  forward_file : List Nat
  inverted_file : List Nat
  deriving DecidableEq

namespace Indexer

/-- The bytes `fwrite(&metadata, sizeof(IndexMetadata), 1, meta_file)` writes:
the fields at the offsets 0, 4, 6, 8, 12, 16, 24, 28, 32, 36 and 40 that the
x86-64 ABI gives them, 296 bytes. -/
def metadata_bytes (md : IndexMetadata) : List Nat :=
  u32_bytes md.magic ++ u16_bytes md.version ++ u16_bytes md.flags ++
    u32_bytes md.total_documents ++ u32_bytes md.total_unique_terms ++
    u64_bytes md.timestamp ++ u32_bytes md.forward_offset ++ u32_bytes md.forward_size ++
    u32_bytes md.inverted_offset ++ u32_bytes md.inverted_size ++ md.reserved

/-- The bytes the loop over `documents` in `save_to_file` writes for one
document. -/
def document_bytes (doc : Document) : List Nat :=
  u32_bytes doc.doc_id ++ u16_bytes doc.url_length ++ doc.url.take doc.url_length ++
    u16_bytes doc.title_length ++ doc.title.take doc.title_length ++
    u32_bytes doc.content_length ++ u32_bytes doc.token_count ++ u32_bytes doc.unique_terms

/-- The bytes of the `.forward` file. -/
def forward_bytes (docs : List Document) : List Nat :=
  u32_bytes (docs.length % 2 ^ 32) ++ u32_bytes (docs.length % 2 ^ 32) ++
    (docs.map document_bytes).flatten

/-- The bytes the last loop of `save_to_file` writes for one node. -/
def node_bytes (node : HashNode) : List Nat :=
  u16_bytes (node.key.length % 2 ^ 16) ++ node.key.take (node.key.length % 2 ^ 16) ++
    u32_bytes (node.doc_ids.length % 2 ^ 32) ++
    ((node.doc_ids.take (node.doc_ids.length % 2 ^ 32)).map u32_bytes).flatten

/-- The bytes of the `.inverted` file for the sorted `term_array`. -/
def inverted_bytes (num_terms : Nat) (sorted : List HashNode) : List Nat :=
  u32_bytes num_terms ++ u32_bytes num_terms ++ (sorted.map node_bytes).flatten

/-- The method `save_to_file` with every `fopen` succeeding: the contents of
the three files. -/
def save_to_file (ix : Indexer) : Option IndexFiles :=
  match term_array ix with
  | none => none
  | some sorted =>
    some
      ⟨metadata_bytes ix.metadata, forward_bytes ix.documents,
        inverted_bytes (ix.inverted_index.size % 2 ^ 32) sorted⟩

end Indexer

namespace IndexLoader

/-- The method `load_metadata` on the contents of the file: one `fread` of
`sizeof(metadata)` bytes and the test of the magic number. -/
def load_metadata (file : List Nat) : Option IndexMetadata :=
  match read_u32 file with
  | none => none
  | some (magic, r1) =>
  match read_u16 r1 with
  | none => none
  | some (version, r2) =>
  match read_u16 r2 with
  | none => none
  | some (flags, r3) =>
  match read_u32 r3 with
  | none => none
  | some (total_documents, r4) =>
  match read_u32 r4 with
  | none => none
  | some (total_unique_terms, r5) =>
  match read_u64 r5 with
  | none => none
  | some (timestamp, r6) =>
  match read_u32 r6 with
  | none => none
  | some (forward_offset, r7) =>
  match read_u32 r7 with
  | none => none
  | some (forward_size, r8) =>
  match read_u32 r8 with
  | none => none
  | some (inverted_offset, r9) =>
  match read_u32 r9 with
  | none => none
  | some (inverted_size, r10) =>
  match read_bytes 256 r10 with
  | none => none
  | some (reserved, _) =>
    if magic = 0x49444558 then
      some ⟨magic, version, flags, total_documents, total_unique_terms, timestamp,
        forward_offset, forward_size, inverted_offset, inverted_size, reserved⟩
    else none

/-- The second loop of `load_forward_index`: `n` documents. -/
def read_documents : Nat → List Nat → Option (List Document)
  | 0, _ => some []
  | n + 1, file =>
    match read_u32 file with
    | none => none
    | some (doc_id, r1) =>
    match read_u16 r1 with
    | none => none
    | some (url_length, r2) =>
    match read_bytes url_length r2 with
    | none => none
    | some (url, r3) =>
    match read_u16 r3 with
    | none => none
    | some (title_length, r4) =>
    match read_bytes title_length r4 with
    | none => none
    | some (title, r5) =>
    match read_u32 r5 with
    | none => none
    | some (content_length, r6) =>
    match read_u32 r6 with
    | none => none
    | some (token_count, r7) =>
    match read_u32 r7 with
    | none => none
    | some (unique_terms, r8) =>
    match read_documents n r8 with
    | none => none
    | some docs =>
      some (⟨doc_id, url, url_length, title, title_length, content_length, token_count,
        unique_terms⟩ :: docs)

/-- The method `load_forward_index` on the contents of the file. -/
def load_forward_index (file : List Nat) : Option (List Document) :=
  match read_u32 file with
  | none => none
  | some (num_docs, r1) =>
    match read_u32 r1 with
    | none => none
    | some (_, r2) => read_documents num_docs r2

/-- The second loop of `load_inverted_index`: `n` terms. -/
def read_terms : Nat → List Nat → Option (List Term)
  | 0, _ => some []
  | n + 1, file =>
    match read_u16 file with
    | none => none
    | some (term_length, r1) =>
    match read_bytes term_length r1 with
    | none => none
    | some (term, r2) =>
    match read_u32 r2 with
    | none => none
    | some (document_frequency, r3) =>
    match read_u32_array document_frequency r3 with
    | none => none
    | some (doc_ids, r4) =>
    match read_terms n r4 with
    | none => none
    | some terms => some (⟨term, term_length, document_frequency, doc_ids⟩ :: terms)

/-- The method `load_inverted_index` on the contents of the file. -/
def load_inverted_index (file : List Nat) : Option (List Term) :=
  match read_u32 file with
  | none => none
  | some (num_terms, r1) =>
    match read_u32 r1 with
    | none => none
    | some (_, r2) => read_terms num_terms r2

/-- The method `load` on the contents of the three files, `none` for the
return of `false`; `debug_search` says whether `DEBUG_SEARCH` is set in the
process that holds the loader. -/
def load (debug_search : Bool) (files : IndexFiles) : Option IndexLoader :=
  match load_metadata files.meta_file with
  | none => none
  | some metadata =>
    match load_forward_index files.forward_file with
    | none => none
    | some documents =>
      match load_inverted_index files.inverted_file with
      | none => none
      | some terms => some ⟨metadata, documents, terms, debug_search⟩

end IndexLoader

/-! ### The two programs -/

/-- The program `build_index` after its records are parsed: a new `Indexer`,
`set_options` when `--stemming` was given, `add_document` for each record,
`sort_index`, `save_to_file`. -/
def build_index (now : Nat) (stale : IndexMetadata) (use_stemming : Bool)
    (records : List (Nat × List Nat × List Nat × List Nat)) : Option IndexFiles :=
  match Indexer.add_documents
      (if use_stemming then (Indexer.construct now stale).set_options ⟨true⟩
        else Indexer.construct now stale) records with
  | none => none
  | some ix => (Indexer.sort_index ix).save_to_file

/-- The program `search` with one query: `load`, then `evaluate`;
`debug_search` says whether `DEBUG_SEARCH` is set in its environment. -/
def search (debug_search : Bool) (files : IndexFiles) (query : List Nat) :
    Option (List Nat) :=
  match IndexLoader.load debug_search files with
  | none => none
  | some loader => QueryEvaluator.evaluate loader query

/-! ### Loaded indexes used in the examples -/

/-- A term entry as `load_inverted_index` stores it: the lengths are those of
the term and of its list. -/
def term_entry (term : List Nat) (doc_ids : List Nat) : Term :=
  ⟨term, term.length, doc_ids.length, doc_ids⟩

/-- A loader that holds the given term array, `total_unique_terms` being its
length, and no document entries, in a process without `DEBUG_SEARCH`. -/
def loader_with (total_documents : Nat) (terms : List Term) : IndexLoader :=
  ⟨⟨0x49444558, 1, 0, total_documents, terms.length, 0, 0, 0, 0, 0, List.replicate 256 0⟩,
    [], terms, false⟩

/-- Memory that holds zero bytes, for the fields the constructor of `Indexer`
leaves unassigned. -/
def zero_metadata : IndexMetadata :=
  ⟨0, 0, 0, 0, 0, 0, 0, 0, 0, 0, []⟩

/-- The two records of scenario 1: `1 http://a "Title A" "osmanlı imparatorluğu
tarih"` and `2 http://b "Title B" "osmanlı devleti"`, the text in UTF-8. -/
def scenario1_records : List (Nat × List Nat × List Nat × List Nat) :=
  [(1, [104, 116, 116, 112, 58, 47, 47, 97], [84, 105, 116, 108, 101, 32, 65],
      [111, 115, 109, 97, 110, 108, 196, 177, 32, 105, 109, 112, 97, 114, 97, 116, 111, 114,
        108, 117, 196, 159, 117, 32, 116, 97, 114, 105, 104]),
    (2, [104, 116, 116, 112, 58, 47, 47, 98], [84, 105, 116, 108, 101, 32, 66],
      [111, 115, 109, 97, 110, 108, 196, 177, 32, 100, 101, 118, 108, 101, 116, 105])]

/-- Four records with the doc IDs 5, 3, 5, 1, the words `bb aa bb` as content
and `zz` as title. -/
def unordered_records : List (Nat × List Nat × List Nat × List Nat) :=
  [(5, [117], [122, 122], [98, 98, 32, 97, 97, 32, 98, 98]),
    (3, [117], [122, 122], [98, 98, 32, 97, 97, 32, 98, 98]),
    (5, [117], [122, 122], [98, 98, 32, 97, 97, 32, 98, 98]),
    (1, [117], [122, 122], [98, 98, 32, 97, 97, 32, 98, 98])]

/-- The number `n` in `w` digits of base 16, most significant first, the digit
`d` written as the byte `97 + d` (`a`..`p`). -/
def fixed_digits : Nat → Nat → List Nat
  | 0, _ => []
  | w + 1, n => (97 + n / 16 ^ w) :: fixed_digits w (n % 16 ^ w)

/-- A term array of `2^31 + 1` entries: entry `i` has the eight-byte term
`fixed_digits 8 i` and an empty posting list. -/
@[irreducible]
def large_terms : List Term :=
  (List.range (2 ^ 31 + 1)).map (fun i => term_entry (fixed_digits 8 i) [])

/-- The index `a:[1], b:[2,3], c:[3,4]` of the precedence scenario, with four
documents. -/
def precedence_loader : IndexLoader :=
  loader_with 4 [term_entry [97] [1], term_entry [98] [2, 3], term_entry [99] [3, 4]]

/-- An index of two documents with the terms `ankara:[1,2]` and `savas:[1]`. -/
def adjacency_loader : IndexLoader :=
  loader_with 2 [term_entry [97, 110, 107, 97, 114, 97] [1, 2],
    term_entry [115, 97, 118, 97, 115] [1]]

/-- The ascending list of the `d` in `1..N` that do not occur in `A`. -/
def complement_spec (A : List Nat) (N : Nat) : List Nat :=
  (List.range' 1 N).filter (fun d => decide (d ∉ A))

/-- The two records of scenario 2: `1 http://x T kitap` and
`2 http://y T kitaplar`. -/
def scenario2_records : List (Nat × List Nat × List Nat × List Nat) :=
  [(1, [104, 116, 116, 112, 58, 47, 47, 120], [84], [107, 105, 116, 97, 112]),
    (2, [104, 116, 116, 112, 58, 47, 47, 121], [84],
      [107, 105, 116, 97, 112, 108, 97, 114])]

/-- The records of scenario 2 with a full stop after each content: `kitap.`
and `kitaplar.`. -/
def scenario2_records_stop : List (Nat × List Nat × List Nat × List Nat) :=
  [(1, [104, 116, 116, 112, 58, 47, 47, 120], [84], [107, 105, 116, 97, 112, 46]),
    (2, [104, 116, 116, 112, 58, 47, 47, 121], [84],
      [107, 105, 116, 97, 112, 108, 97, 114, 46])]

/-- Three records with the doc IDs 1, 5 and 10 and the contents `alpha`, `beta`
and `gamma`. -/
def sparse_records : List (Nat × List Nat × List Nat × List Nat) :=
  [(1, [117], [116], [97, 108, 112, 104, 97]), (5, [117], [116], [98, 101, 116, 97]),
    (10, [117], [116], [103, 97, 109, 109, 97])]

/-- A loader with three documents and the term `beta:[5]`. -/
def sparse_loader : IndexLoader :=
  loader_with 3 [term_entry [98, 101, 116, 97] [5]]

/-- A loader with `total_documents = 2^32 - 1` and the term `beta:[5]`. -/
def full_range_loader : IndexLoader :=
  loader_with (2 ^ 32 - 1) [term_entry [98, 101, 116, 97] [5]]

/-- A term array of `2^31` entries: entry `i` has the eight-byte term
`fixed_digits 8 i` and an empty posting list. -/
@[irreducible]
def full_terms : List Term :=
  (List.range (2 ^ 31)).map (fun i => term_entry (fixed_digits 8 i) [])

/-- A loader with an empty term array in a process with `DEBUG_SEARCH` set. -/
def empty_debug_loader : IndexLoader :=
  { loader_with 0 [] with debug_search := true }

/-- An `Indexer` after its constructor and the `push_back` of a document with
the doc ID 7: no term yet, stemming off. -/
def one_document_indexer : Indexer :=
  { Indexer.construct 0 zero_metadata with documents := [⟨7, [117], 1, [116], 1, 0, 0, 0⟩] }

/-! ### The text analysis as the specification words it -/

/-- The condition of `tokenize_and_index` for a byte of a token: ASCII
alphanumeric, `_`, or any byte from `0x80` on. -/
def is_token_byte (c : Nat) : Bool :=
  isalnum c || decide (c = 95) || decide (128 ≤ c)

/-- The maximal runs of token bytes of a text, in order: the text is split at
every byte that is not a token byte and the empty pieces are dropped. -/
def token_runs (text : List Nat) : List (List Nat) :=
  (text.splitOnP (fun c => !is_token_byte c)).filter (fun run => !run.isEmpty)

/-- The term candidates of a text in the words of the specification: the first
255 bytes of each maximal run of token bytes, case-folded. -/
def term_candidates (text : List Nat) : List (List Nat) :=
  (token_runs text).map (fun run => Indexer.to_lowercase (run.take 255))

/-- One byte of the case folder of the specification: 32 is added to a byte in
`0x41..0x5A` or in `0xC0..0xDE`, every other byte is unchanged. -/
def fold_byte_spec (c : Nat) : Nat :=
  if (0x41 ≤ c ∧ c ≤ 0x5A) ∨ (0xC0 ≤ c ∧ c ≤ 0xDE) then c + 32 else c

/-- The reference case folder, after the words of the specification: from left
to right, `0x49` followed by `0xB0` becomes `0xC4 0xB1` and the scan goes on
behind the pair; any other byte is folded by `fold_byte_spec`. -/
def case_fold_spec : List Nat → List Nat
  | [] => []
  | [c] => [fold_byte_spec c]
  | c :: d :: rest =>
    if c = 0x49 ∧ d = 0xB0 then 0xC4 :: 0xB1 :: case_fold_spec rest
    else fold_byte_spec c :: case_fold_spec (d :: rest)

/-- Group 1 of the stemmer of the specification: a token of at least five
bytes that ends in `lar` or `ler` loses these three bytes. -/
def plural_group_spec (word : List Nat) : List Nat :=
  if 5 ≤ word.length ∧
      ([108, 97, 114].isSuffixOf word = true ∨ [108, 101, 114].isSuffixOf word = true) then
    word.take (word.length - 3)
  else word

/-- Group 2 of the stemmer of the specification: a token of at least four
bytes that ends in `im`, `in`, `um` or `un` loses its last two bytes. -/
def possessive_group_spec (word : List Nat) : List Nat :=
  if 4 ≤ word.length ∧
      ([105, 109].isSuffixOf word = true ∨ [105, 110].isSuffixOf word = true ∨
        [117, 109].isSuffixOf word = true ∨ [117, 110].isSuffixOf word = true) then
    word.take (word.length - 2)
  else word

/-- Group 3 of the stemmer of the specification: a token of at least four
bytes loses the first suffix of the ordered list that it ends in. -/
def case_group_spec (word : List Nat) : List Nat :=
  if 4 ≤ word.length then
    match TurkishStemmer.case_suffixes.find? (fun s => s.isSuffixOf word) with
    | some s => word.take (word.length - s.length)
    | none => word
  else word

/-- The stemmer as the specification words it: the three groups in order, each
with its own length guard on what the groups before it left. -/
def stem_spec (word : List Nat) : List Nat :=
  case_group_spec (possessive_group_spec (plural_group_spec word))

/-! ### TSV reader (`build_index.cpp`) -/

/-- The digit loop of `atoi`: the value of the leading decimal digits. -/
def atoi_digits : List Nat → Nat → Nat
  | [], acc => acc
  | c :: rest, acc => if isdigit c then atoi_digits rest (acc * 10 + (c - 48)) else acc

/-- The function `atoi` of the C library: white space, an optional sign, the
leading decimal digits; `none` when the value lies outside the range of `int`
(undefined behaviour). -/
def atoi (s : List Nat) : Option Int :=
  match s.dropWhile isspace with
  | 45 :: rest => int32 (-(atoi_digits rest 0 : Int))
  | 43 :: rest => int32 (atoi_digits rest 0 : Int)
  | rest => int32 (atoi_digits rest 0 : Int)

/-- The conversion of an `int` to `uint32_t`. -/
def toUInt32 (n : Int) : Nat :=
  (n % 2 ^ 32).toNat

/-- A copy loop of `parse_tsv_line`, `while (*p && *p != stop && i < limit)
dst[i++] = *p++`: the bytes stored from index `i` on and the line from `p` on
after the loop. -/
def copy_field (stops : List Nat) (limit : Nat) : List Nat → Nat → List Nat × List Nat
  | [], _ => ([], [])
  | c :: rest, i =>
    if c ∈ stops ∨ ¬ i < limit then ([], c :: rest)
    else (c :: (copy_field stops limit rest (i + 1)).1, (copy_field stops limit rest (i + 1)).2)

/-- The function `parse_tsv_line` of `build_index.cpp`: the outer `none` is a
run with undefined behaviour, `some none` the return of `false`, otherwise the
values of `doc_id`, `url`, `title` and `content`. -/
def parse_tsv_line (line : List Nat) : Option (Option (Nat × List Nat × List Nat × List Nat)) :=
  match atoi line with
  | none => none
  | some v =>
    match line.dropWhile (fun c => decide (c ≠ 9)) with
    | [] => some none
    | _ :: p2 =>
      match copy_field [9] 511 p2 0 with
      | (_, []) => some none
      | (url, _ :: p4) =>
        match copy_field [9] 511 p4 0 with
        | (_, []) => some none
        | (title, _ :: p6) =>
          if 0 < toUInt32 v ∧ url ≠ [] ∧ (copy_field [10, 13] 99999 p6 0).1 ≠ [] then
            some (some (toUInt32 v, url, title, (copy_field [10, 13] 99999 p6 0).1))
          else some none

/-! ### Layout of the metadata record (`indexer.h`) -/

/-- The offsets of the fields of a struct in the naturally aligned layout: a
field, given by its size and its alignment, lies at the first multiple of its
alignment at or after the end of the field before it; `pos` is that end. -/
def natural_offsets : Nat → List (Nat × Nat) → List Nat
  | _, [] => []
  | pos, (size, align) :: rest =>
    (pos + align - 1) / align * align ::
      natural_offsets ((pos + align - 1) / align * align + size) rest

/-- The sizes and alignments of the fields of `IndexMetadata` in the order of
the declaration: `magic`, `version`, `flags`, `total_documents`,
`total_unique_terms`, `timestamp`, the four offset and size fields,
`reserved`. -/
def metadata_fields : List (Nat × Nat) :=
  [(4, 4), (2, 2), (2, 2), (4, 4), (4, 4), (8, 8), (4, 4), (4, 4), (4, 4), (4, 4), (256, 1)]

/-! ### Records and memory used in the examples -/

/-- Memory in which every byte is `0xFF`, for the fields the constructor of
`Indexer` leaves unassigned. -/
def ones_metadata : IndexMetadata :=
  ⟨0, 0, 0, 0, 0, 0, 0xFFFFFFFF, 0xFFFFFFFF, 0xFFFFFFFF, 0xFFFFFFFF, []⟩

/-- The line `1 <TAB> a...a <TAB> T <TAB> c <LF>` whose url field has 600
bytes `a`. -/
def long_url_line : List Nat :=
  [49, 9] ++ List.replicate 600 97 ++ [9, 84, 9, 99, 10]

/-! ### Token sequences and parser states -/

/-- The tokens that successive calls of `next_token` return, up to and with
the first `TOKEN_END`; `fuel` bounds the number of calls. -/
def tokens_loop : Nat → List Nat → List QueryToken
  | 0, _ => []
  | fuel + 1, q =>
    if (BooleanQueryParser.next_token q).1.type = TokenType.TOKEN_END then
      [(BooleanQueryParser.next_token q).1]
    else (BooleanQueryParser.next_token q).1 :: tokens_loop fuel (BooleanQueryParser.next_token q).2

/-- The token sequence of a query: every call but the last consumes a byte,
so one call more than the query has bytes reaches `TOKEN_END`. -/
def token_sequence (q : List Nat) : List QueryToken :=
  tokens_loop (q.length + 1) q

/-- The bytes the lexer has not consumed, plus one while the current token is
not `TOKEN_END`. -/
def QueryEvaluator.remaining (ev : QueryEvaluator) : Nat :=
  ev.parser.length + if ev.current_token.type = TokenType.TOKEN_END then 0 else 1

/-- Two results of a parsing method agree up to a relation on the evaluator
states: both are missing, or both hold the same list and related states. -/
def related_results (R : QueryEvaluator → QueryEvaluator → Prop)
    (o1 o2 : Option (List Nat × QueryEvaluator)) : Prop :=
  (o1 = none ∧ o2 = none) ∨ ∃ r e1 e2, o1 = some (r, e1) ∧ o2 = some (r, e2) ∧ R e1 e2

/-! ### Terms counted for a document -/

/-- The term that `tokenize_and_index` derives from a token that a separator
byte ends: the first 255 bytes of the run, case-folded, and stemmed when the
option is set. -/
def term_in_text (use_stemming : Bool) (run : List Nat) : List Nat :=
  if use_stemming then
    match TurkishStemmer.stem (Indexer.to_lowercase (run.take 255)) with
    | some (_, stemmed) => stemmed
    | none => Indexer.to_lowercase (run.take 255)
  else Indexer.to_lowercase (run.take 255)

/-- The terms that the two paths of `tokenize_and_index` derive from the
pieces between the separator bytes of a text: an empty piece gives none, the
last piece is ended by the end of the text and the block behind the loop only
case-folds it, every other piece is ended by a separator byte and goes through
the branch of the loop. This follows the code, not the specification, whose
pipeline is `pipeline_terms`. -/
def analyse_pieces (use_stemming : Bool) : List (List Nat) → List (List Nat)
  | [] => []
  | [last] => if last = [] then [] else [Indexer.to_lowercase (last.take 255)]
  | piece :: next :: rest =>
    (if piece = [] then [] else [term_in_text use_stemming piece]) ++
      analyse_pieces use_stemming (next :: rest)

/-- The terms that `tokenize_and_index` derives from the token occurrences of
a text, in order, before validation. -/
def derived_terms (use_stemming : Bool) (text : List Nat) : List (List Nat) :=
  analyse_pieces use_stemming (text.splitOnP (fun c => !is_token_byte c))

/-- The number of token occurrences of a text for which `tokenize_and_index`
finds that the derived term passes `is_valid_term`. -/
def accepted_count (use_stemming : Bool) (text : List Nat) : Nat :=
  ((derived_terms use_stemming text).filter Indexer.is_valid_term).length

/-- The method `Indexer::search_term`: `strncpy` of at most 255 bytes of the
term, `to_lowercase`, `get_or_create`. The value is the `Indexer` after the
call and the contents of the list the returned pointer refers to. -/
def Indexer.search_term (ix : Indexer) (term : List Nat) : Indexer × List Nat :=
  ({ ix with
      inverted_index :=
        (ix.inverted_index.get_or_create (Indexer.to_lowercase (term.take 255))).1 },
    (ix.inverted_index.get_or_create (Indexer.to_lowercase (term.take 255))).2)

/-! ### A record with an underscore -/

/-- The record `1 u T foo_bar`. -/
def underscore_records : List (Nat × List Nat × List Nat × List Nat) :=
  [(1, [117], [84], [102, 111, 111, 95, 98, 97, 114])]

/-! ### Order of the terms as the specification words it -/

/-- Lexicographic comparison of two strings of unsigned bytes, as the
specification words the order of the terms: the first pair of bytes that
differ decides, and a proper beginning of a string is smaller than the
string. -/
def bytes_less : List Nat → List Nat → Bool
  | [], [] => false
  | [], _ :: _ => true
  | _ :: _, [] => false
  | a :: as, b :: bs => decide (a < b) || (decide (a = b) && bytes_less as bs)

/-! ## Theorems -/

/-! ### Posting algebra -/

theorem intersect_mem_iff_aux (A B : List Nat) (hA : A.Sorted (· < ·)) (hB : B.Sorted (· < ·))
    (x : Nat) : x ∈ intersect_postings A B ↔ x ∈ A ∧ x ∈ B := by
  induction A, B using intersect_postings.induct with
  | case1 as a bs ih =>
    rw [intersect_postings, if_pos rfl]
    have ih' := ih (List.Sorted.of_cons hA) (List.Sorted.of_cons hB)
    simp only [List.mem_cons, ih']
    tauto
  | case2 a as b bs hne hlt ih =>
    rw [intersect_postings, if_neg hne, if_pos hlt]
    rw [ih (List.Sorted.of_cons hA) hB]
    have hb := (List.sorted_cons.1 hB).1
    simp only [List.mem_cons]
    constructor
    · rintro ⟨h1, h2⟩
      exact ⟨Or.inr h1, h2⟩
    · rintro ⟨h1 | h1, h2⟩
      · subst h1
        rcases h2 with h2 | h2
        · exact absurd h2 hne
        · have := hb x h2
          omega
      · exact ⟨h1, h2⟩
  | case3 a as b bs hne hlt ih =>
    rw [intersect_postings, if_neg hne, if_neg hlt]
    rw [ih hA (List.Sorted.of_cons hB)]
    have ha := (List.sorted_cons.1 hA).1
    simp only [List.mem_cons]
    constructor
    · rintro ⟨h1, h2⟩
      exact ⟨h1, Or.inr h2⟩
    · rintro ⟨h1, h2 | h2⟩
      · subst h2
        rcases h1 with h1 | h1
        · exact absurd h1.symm hne
        · have := ha x h1
          omega
      · exact ⟨h1, h2⟩
  | case4 l1 l2 hx =>
    rw [intersect_postings]
    · constructor
      · intro h
        simp at h
      · rintro ⟨h1, h2⟩
        cases l1 with
        | nil => simp at h1
        | cons a as =>
          cases l2 with
          | nil => simp at h2
          | cons b bs => exact absurd rfl (hx a as b bs rfl)
    · exact hx

theorem intersect_sorted_aux (A B : List Nat) (hA : A.Sorted (· < ·)) (hB : B.Sorted (· < ·)) :
    (intersect_postings A B).Sorted (· < ·) := by
  induction A, B using intersect_postings.induct with
  | case1 as a bs ih =>
    rw [intersect_postings, if_pos rfl]
    refine List.sorted_cons.2 ⟨?_, ih (List.Sorted.of_cons hA) (List.Sorted.of_cons hB)⟩
    intro y hy
    have hy' := (intersect_mem_iff_aux as bs (List.Sorted.of_cons hA) (List.Sorted.of_cons hB) y).1 hy
    exact (List.sorted_cons.1 hA).1 y hy'.1
  | case2 a as b bs hne hlt ih =>
    rw [intersect_postings, if_neg hne, if_pos hlt]
    exact ih (List.Sorted.of_cons hA) hB
  | case3 a as b bs hne hlt ih =>
    rw [intersect_postings, if_neg hne, if_neg hlt]
    exact ih hA (List.Sorted.of_cons hB)
  | case4 l1 l2 hx =>
    rw [intersect_postings]
    · exact List.sorted_nil
    · exact hx

theorem union_mem_iff_aux (A B : List Nat) (x : Nat) :
    x ∈ union_postings A B ↔ x ∈ A ∨ x ∈ B := by
  induction A, B using union_postings.induct with
  | case1 as a bs ih =>
    rw [union_postings, if_pos rfl]
    simp only [List.mem_cons, ih]
    tauto
  | case2 a as b bs hne hlt ih =>
    rw [union_postings, if_neg hne, if_pos hlt]
    simp only [List.mem_cons, ih]
    tauto
  | case3 a as b bs hne hlt ih =>
    rw [union_postings, if_neg hne, if_neg hlt]
    simp only [List.mem_cons, ih]
    tauto
  | case4 a as =>
    rw [union_postings]
    simp
  | case5 l2 =>
    rw [union_postings]
    simp

theorem union_sorted_aux (A B : List Nat) (hA : A.Sorted (· < ·)) (hB : B.Sorted (· < ·)) :
    (union_postings A B).Sorted (· < ·) := by
  induction A, B using union_postings.induct with
  | case1 as a bs ih =>
    rw [union_postings, if_pos rfl]
    refine List.sorted_cons.2 ⟨?_, ih (List.Sorted.of_cons hA) (List.Sorted.of_cons hB)⟩
    intro y hy
    rcases (union_mem_iff_aux as bs y).1 hy with h | h
    · exact (List.sorted_cons.1 hA).1 y h
    · exact (List.sorted_cons.1 hB).1 y h
  | case2 a as b bs hne hlt ih =>
    rw [union_postings, if_neg hne, if_pos hlt]
    refine List.sorted_cons.2 ⟨?_, ih (List.Sorted.of_cons hA) hB⟩
    intro y hy
    rcases (union_mem_iff_aux as (b :: bs) y).1 hy with h | h
    · exact (List.sorted_cons.1 hA).1 y h
    · rcases List.mem_cons.1 h with h | h
      · omega
      · have := (List.sorted_cons.1 hB).1 y h
        omega
  | case3 a as b bs hne hlt ih =>
    rw [union_postings, if_neg hne, if_neg hlt]
    refine List.sorted_cons.2 ⟨?_, ih hA (List.Sorted.of_cons hB)⟩
    intro y hy
    rcases (union_mem_iff_aux (a :: as) bs y).1 hy with h | h
    · rcases List.mem_cons.1 h with h | h
      · omega
      · have := (List.sorted_cons.1 hA).1 y h
        omega
    · exact (List.sorted_cons.1 hB).1 y h
  | case4 a as =>
    rw [union_postings]
    exact hA
  | case5 l2 =>
    rw [union_postings]
    exact hB

theorem sorted_lt_nodup (l : List Nat) (h : l.Sorted (· < ·)) : l.Nodup :=
  List.Sorted.nodup h

theorem negate_loop_diverges (fuel : Nat) : ∀ (l : List Nat) (d N : Nat) (acc : List Nat),
    2 ^ 32 - 1 ≤ N → d < 2 ^ 32 → negate_loop fuel l d N acc = none := by
  induction fuel with
  | zero => intro l d N acc _ _; rfl
  | succ n ih =>
    intro l d N acc hN hd
    have hle : d ≤ N := by omega
    have hd' : (d + 1) % 2 ^ 32 < 2 ^ 32 := Nat.mod_lt _ (by norm_num)
    cases l with
    | nil =>
      simp only [negate_loop, if_pos hle]
      exact ih _ _ _ _ hN hd'
    | cons x rest =>
      simp only [negate_loop, if_pos hle]
      split
      · exact ih _ _ _ _ hN hd'
      · exact ih _ _ _ _ hN hd'

theorem negate_loop_shape (k : Nat) : ∀ (fuel : Nat) (l : List Nat) (d N : Nat) (acc : List Nat),
    N < 2 ^ 32 - 1 → d + k = N + 1 → k + 1 ≤ fuel →
    ∃ out, negate_loop fuel l d N acc = some (acc ++ out) ∧ out.Sorted (· < ·) ∧
      ∀ y ∈ out, d ≤ y ∧ y ≤ N := by
  induction k with
  | zero =>
    intro fuel l d N acc _ hd hf
    obtain ⟨f, rfl⟩ : ∃ f, fuel = f + 1 := ⟨fuel - 1, by omega⟩
    have hgt : ¬ d ≤ N := by omega
    refine ⟨[], ?_, List.sorted_nil, by simp⟩
    simp only [negate_loop, if_neg hgt, List.append_nil]
  | succ k ih =>
    intro fuel l d N acc hN hd hf
    obtain ⟨f, rfl⟩ : ∃ f, fuel = f + 1 := ⟨fuel - 1, by omega⟩
    have hle : d ≤ N := by omega
    have hmod : (d + 1) % 2 ^ 32 = d + 1 := Nat.mod_eq_of_lt (by omega)
    have keep : ∀ l', ∃ out, negate_loop f l' (d + 1) N (acc ++ [d]) = some (acc ++ out) ∧
        out.Sorted (· < ·) ∧ ∀ y ∈ out, d ≤ y ∧ y ≤ N := by
      intro l'
      obtain ⟨out, h1, h2, h3⟩ := ih f l' (d + 1) N (acc ++ [d]) hN (by omega) (by omega)
      refine ⟨d :: out, ?_, ?_, ?_⟩
      · rw [h1]; simp
      · refine List.sorted_cons.2 ⟨fun y hy => ?_, h2⟩
        have := (h3 y hy).1
        omega
      · intro y hy
        rcases List.mem_cons.1 hy with hy | hy
        · omega
        · have := h3 y hy
          omega
    cases l with
    | nil =>
      simp only [negate_loop, if_pos hle, hmod]
      exact keep []
    | cons x rest =>
      simp only [negate_loop, if_pos hle, hmod]
      split
      · obtain ⟨out, h1, h2, h3⟩ := ih f rest (d + 1) N acc hN (by omega) (by omega)
        refine ⟨out, h1, h2, fun y hy => ?_⟩
        have := h3 y hy
        omega
      · exact keep (x :: rest)

theorem negate_loop_exact (k : Nat) : ∀ (fuel : Nat) (l : List Nat) (d N : Nat) (acc : List Nat),
    N < 2 ^ 32 - 1 → d + k = N + 1 → k + 1 ≤ fuel → l.Sorted (· < ·) → (∀ a ∈ l, d ≤ a) →
    negate_loop fuel l d N acc =
      some (acc ++ (List.range' d k).filter (fun y => decide (y ∉ l))) := by
  induction k with
  | zero =>
    intro fuel l d N acc _ hd hf _ _
    obtain ⟨f, rfl⟩ : ∃ f, fuel = f + 1 := ⟨fuel - 1, by omega⟩
    have hgt : ¬ d ≤ N := by omega
    simp [negate_loop, if_neg hgt]
  | succ k ih =>
    intro fuel l d N acc hN hd hf hs hl
    obtain ⟨f, rfl⟩ : ∃ f, fuel = f + 1 := ⟨fuel - 1, by omega⟩
    have hle : d ≤ N := by omega
    have hmod : (d + 1) % 2 ^ 32 = d + 1 := Nat.mod_eq_of_lt (by omega)
    rw [List.range'_succ]
    cases l with
    | nil =>
      simp only [negate_loop, if_pos hle, hmod]
      rw [ih f [] (d + 1) N (acc ++ [d]) hN (by omega) (by omega) hs (by simp)]
      simp
    | cons x rest =>
      have hrest := (List.sorted_cons.1 hs).1
      simp only [negate_loop, if_pos hle, hmod]
      split
      · next hx =>
        subst hx
        rw [ih f rest (x + 1) N acc hN (by omega) (by omega) (List.Sorted.of_cons hs)
          (fun a ha => hrest a ha)]
        have hcongr : (List.range' (x + 1) k).filter (fun y => decide (y ∉ rest)) =
            (List.range' (x + 1) k).filter (fun y => decide (y ∉ x :: rest)) := by
          apply List.filter_congr
          intro y hy
          have hy' := (List.mem_range'_1.1 hy).1
          have hne : y ≠ x := by omega
          simp [hne]
        rw [hcongr]
        simp
      · next hx =>
        have hxd : d < x := by
          have := hl x (List.mem_cons_self _ _)
          omega
        have hnot : d ∉ x :: rest := by
          intro hmem
          rcases List.mem_cons.1 hmem with h | h
          · omega
          · have := hrest d h
            omega
        rw [ih f (x :: rest) (d + 1) N (acc ++ [d]) hN (by omega) (by omega) hs
          (fun a ha => by
            have h1 := hl a ha
            have h2 : a ≠ d := fun h => hnot (h ▸ ha)
            omega)]
        rw [List.filter_cons_of_pos (by simpa using hnot)]
        simp

theorem complement_spec_sorted (A : List Nat) (N : Nat) :
    (complement_spec A N).Sorted (· < ·) :=
  List.Pairwise.filter _ (List.pairwise_lt_range' 1 N)

theorem complement_spec_mem (A : List Nat) (N d : Nat) :
    d ∈ complement_spec A N ↔ 1 ≤ d ∧ d ≤ N ∧ d ∉ A := by
  simp only [complement_spec, List.mem_filter, List.mem_range'_1, decide_eq_true_eq]
  constructor
  · rintro ⟨⟨h1, h2⟩, h3⟩
    exact ⟨h1, by omega, h3⟩
  · rintro ⟨h1, h2, h3⟩
    exact ⟨⟨h1, by omega⟩, h3⟩

theorem negate_postings_eq_aux (A : List Nat) (N : Nat) (hN : N < 2 ^ 32 - 1)
    (hA : A.Sorted (· < ·)) (hpos : ∀ a ∈ A, 1 ≤ a) :
    negate_postings A N = some (complement_spec A N) := by
  have h := negate_loop_exact N (N + 1) A 1 N [] hN (by omega) (by omega) hA hpos
  simpa [negate_postings, complement_spec] using h

theorem negate_postings_sorted_aux (A : List Nat) (N : Nat) (r : List Nat)
    (h : negate_postings A N = some r) : r.Sorted (· < ·) := by
  by_cases hN : N < 2 ^ 32 - 1
  · obtain ⟨out, h1, h2, _⟩ := negate_loop_shape N (N + 1) A 1 N [] hN (by omega) (by omega)
    rw [negate_postings, h1] at h
    simp only [List.nil_append, Option.some.injEq] at h
    exact h ▸ h2
  · rw [negate_postings, negate_loop_diverges (N + 1) A 1 N [] (by omega) (by norm_num)] at h
    cases h

theorem negate_postings_isSome_aux (A : List Nat) (N : Nat) (hN : N < 2 ^ 32 - 1) :
    (negate_postings A N).isSome = true := by
  obtain ⟨out, h1, _, _⟩ := negate_loop_shape N (N + 1) A 1 N [] hN (by omega) (by omega)
  rw [negate_postings, h1]
  rfl

/-- C2: for strictly ascending lists `A` and `B`, a value occurs in
`intersect_postings A B` if and only if it occurs in `A` and occurs in `B`. -/
theorem intersect_postings_mem_iff (A B : List Nat) (x : Nat)
    (hA : A.Sorted (· < ·)) (hB : B.Sorted (· < ·)) :
    x ∈ intersect_postings A B ↔ x ∈ A ∧ x ∈ B :=
  intersect_mem_iff_aux A B hA hB x

theorem intersect_postings_mem_iff_witness :
    List.Sorted (· < ·) [1, 3, 5] ∧ List.Sorted (· < ·) [3, 4, 5, 7] ∧
      (5 ∈ intersect_postings [1, 3, 5] [3, 4, 5, 7] ↔ 5 ∈ [1, 3, 5] ∧ 5 ∈ [3, 4, 5, 7]) :=
  ⟨by decide, by decide,
    intersect_postings_mem_iff [1, 3, 5] [3, 4, 5, 7] 5 (by decide) (by decide)⟩

/-- C3: for strictly ascending lists `A` and `B`, a value occurs in
`union_postings A B` if and only if it occurs in `A` or occurs in `B`, and a
value that occurs in both is emitted exactly once. -/
theorem union_postings_mem_iff_once (A B : List Nat) (x : Nat)
    (hA : A.Sorted (· < ·)) (hB : B.Sorted (· < ·)) :
    (x ∈ union_postings A B ↔ x ∈ A ∨ x ∈ B) ∧
      (x ∈ A → x ∈ B → (union_postings A B).count x = 1) :=
  ⟨union_mem_iff_aux A B x, fun h _ =>
    List.count_eq_one_of_mem (sorted_lt_nodup _ (union_sorted_aux A B hA hB))
      ((union_mem_iff_aux A B x).2 (Or.inl h))⟩

theorem union_postings_mem_iff_once_witness :
    List.Sorted (· < ·) [1, 3, 5] ∧ List.Sorted (· < ·) [3, 4, 5, 7] ∧
      ((3 ∈ union_postings [1, 3, 5] [3, 4, 5, 7] ↔ 3 ∈ [1, 3, 5] ∨ 3 ∈ [3, 4, 5, 7]) ∧
        (3 ∈ [1, 3, 5] → 3 ∈ [3, 4, 5, 7] →
          (union_postings [1, 3, 5] [3, 4, 5, 7]).count 3 = 1)) :=
  ⟨by decide, by decide,
    union_postings_mem_iff_once [1, 3, 5] [3, 4, 5, 7] 3 (by decide) (by decide)⟩

/-- C4: for `N < 2^32 - 1` and a strictly ascending list `A` with all elements
in `1..N`, `negate_postings A N` returns the list `complement_spec A N`, which
is strictly ascending and holds exactly the `d` with `1 ≤ d ≤ N` not in `A`. -/
theorem negate_postings_complement (A : List Nat) (N : Nat) (hN : N < 2 ^ 32 - 1)
    (hA : A.Sorted (· < ·)) (hr : ∀ a ∈ A, 1 ≤ a ∧ a ≤ N) :
    negate_postings A N = some (complement_spec A N) ∧
      (complement_spec A N).Sorted (· < ·) ∧
      ∀ d, d ∈ complement_spec A N ↔ 1 ≤ d ∧ d ≤ N ∧ d ∉ A :=
  ⟨negate_postings_eq_aux A N hN hA (fun a ha => (hr a ha).1),
    complement_spec_sorted A N, complement_spec_mem A N⟩

theorem negate_postings_complement_witness :
    (negate_postings [2, 3, 6] 7 = some (complement_spec [2, 3, 6] 7) ∧
      (complement_spec [2, 3, 6] 7).Sorted (· < ·) ∧
      ∀ d, d ∈ complement_spec [2, 3, 6] 7 ↔ 1 ≤ d ∧ d ≤ 7 ∧ d ∉ [2, 3, 6]) ∧
      complement_spec [2, 3, 6] 7 = [1, 4, 5, 7] :=
  ⟨negate_postings_complement [2, 3, 6] 7 (by norm_num) (by decide) (by decide), by decide⟩

/-- C5: for strictly ascending arguments the outputs of `intersect_postings`
and `union_postings` are strictly ascending and duplicate-free, and so is every
list `negate_postings` returns; it returns one whenever `N < 2^32 - 1`. -/
theorem posting_outputs_sorted (A B : List Nat) (N : Nat)
    (hA : A.Sorted (· < ·)) (hB : B.Sorted (· < ·)) :
    ((intersect_postings A B).Sorted (· < ·) ∧ (intersect_postings A B).Nodup) ∧
      ((union_postings A B).Sorted (· < ·) ∧ (union_postings A B).Nodup) ∧
      (∀ r, negate_postings A N = some r → r.Sorted (· < ·) ∧ r.Nodup) ∧
      (N < 2 ^ 32 - 1 → (negate_postings A N).isSome = true) :=
  ⟨⟨intersect_sorted_aux A B hA hB, sorted_lt_nodup _ (intersect_sorted_aux A B hA hB)⟩,
    ⟨union_sorted_aux A B hA hB, sorted_lt_nodup _ (union_sorted_aux A B hA hB)⟩,
    fun r h => ⟨negate_postings_sorted_aux A N r h,
      sorted_lt_nodup _ (negate_postings_sorted_aux A N r h)⟩,
    negate_postings_isSome_aux A N⟩

theorem posting_outputs_sorted_witness :
    (((intersect_postings [1, 3, 5] [3, 4, 5, 7]).Sorted (· < ·) ∧
        (intersect_postings [1, 3, 5] [3, 4, 5, 7]).Nodup) ∧
      ((union_postings [1, 3, 5] [3, 4, 5, 7]).Sorted (· < ·) ∧
        (union_postings [1, 3, 5] [3, 4, 5, 7]).Nodup) ∧
      (∀ r, negate_postings [1, 3, 5] 6 = some r → r.Sorted (· < ·) ∧ r.Nodup) ∧
      (6 < 2 ^ 32 - 1 → (negate_postings [1, 3, 5] 6).isSome = true)) ∧
      negate_postings [1, 3, 5] 6 = some [2, 4, 6] :=
  ⟨posting_outputs_sorted [1, 3, 5] [3, 4, 5, 7] 6 (by decide) (by decide), by decide⟩

/-! ### Term lookup -/

section Lookup

open IndexLoader

theorem is_c_string_pos (s : List Nat) (h : is_c_string s = true) : ∀ c ∈ s, 0 < c := by
  intro c hc
  have := List.all_eq_true.1 h c hc
  simp only [Bool.and_eq_true, decide_eq_true_eq] at this
  exact this.1

theorem strcmp_self (a : List Nat) : strcmp a a = 0 := by
  induction a with
  | nil => rfl
  | cons x xs ih => simp [strcmp, ih]

theorem strcmp_antisymm (a : List Nat) : ∀ b, strcmp b a = - strcmp a b := by
  induction a with
  | nil =>
    intro b
    cases b with
    | nil => rfl
    | cons y ys => simp [strcmp]
  | cons x xs ih =>
    intro b
    cases b with
    | nil => simp [strcmp]
    | cons y ys =>
      by_cases h : x = y
      · subst h
        by_cases h0 : x = 0
        · simp [strcmp, h0]
        · simp [strcmp, h0, ih]
      · have h' : ¬ y = x := fun e => h e.symm
        simp [strcmp, h, h']

theorem strcmp_eq_zero (a : List Nat) : ∀ b, (∀ c ∈ a, 0 < c) → (∀ c ∈ b, 0 < c) →
    strcmp a b = 0 → a = b := by
  induction a with
  | nil =>
    intro b _ hb h
    cases b with
    | nil => rfl
    | cons y ys =>
      have := hb y (List.mem_cons_self _ _)
      simp [strcmp] at h
      omega
  | cons x xs ih =>
    intro b ha hb h
    cases b with
    | nil =>
      have := ha x (List.mem_cons_self _ _)
      simp [strcmp] at h
      omega
    | cons y ys =>
      have hx := ha x (List.mem_cons_self _ _)
      by_cases hxy : x = y
      · subst hxy
        have h0 : ¬ x = 0 := by omega
        simp only [strcmp, if_true, if_neg h0] at h
        rw [ih ys (fun c hc => ha c (List.mem_cons_of_mem _ hc))
          (fun c hc => hb c (List.mem_cons_of_mem _ hc)) h]
      · simp only [strcmp, if_neg hxy] at h
        omega

theorem strcmp_le_trans (a : List Nat) : ∀ b c,
    strcmp a b ≤ 0 → strcmp b c ≤ 0 → strcmp a c ≤ 0 := by
  induction a with
  | nil =>
    intro b c hab hbc
    cases c with
    | nil => simp [strcmp]
    | cons z zs => simp [strcmp]
  | cons x xs ih =>
    intro b c hab hbc
    cases b with
    | nil =>
      have hx : x = 0 := by
        simp [strcmp] at hab
        omega
      subst hx
      cases c with
      | nil => simp [strcmp]
      | cons z zs =>
        by_cases hz : 0 = z
        · subst hz
          simp [strcmp]
        · simp only [strcmp, if_neg hz]
          omega
    | cons y ys =>
      cases c with
      | nil =>
        have hy : y = 0 := by
          simp [strcmp] at hbc
          omega
        subst hy
        by_cases hx : x = 0
        · subst hx
          simp [strcmp]
        · simp only [strcmp, if_neg hx] at hab
          omega
      | cons z zs =>
        by_cases hxy : x = y
        · subst hxy
          by_cases hx0 : x = 0
          · subst hx0
            by_cases hz : 0 = z
            · subst hz
              simp [strcmp]
            · simp only [strcmp, if_neg hz]
              omega
          · simp only [strcmp, if_true, if_neg hx0] at hab
            by_cases hxz : x = z
            · subst hxz
              simp only [strcmp, if_true, if_neg hx0] at hbc ⊢
              exact ih ys zs hab hbc
            · simp only [strcmp, if_neg hxz] at hbc ⊢
              exact hbc
        · simp only [strcmp, if_neg hxy] at hab
          by_cases hyz : y = z
          · subst hyz
            simp only [strcmp, if_neg hxy]
            exact hab
          · simp only [strcmp, if_neg hyz] at hbc
            have hxz : ¬ x = z := by omega
            simp only [strcmp, if_neg hxz]
            omega

theorem int32_of_range (n : Int) (h1 : -2 ^ 31 ≤ n) (h2 : n < 2 ^ 31) : int32 n = some n := by
  rw [int32, if_pos ⟨h1, h2⟩]

theorem find_term_loop_done (fuel : Nat) (terms : List Term) (key : List Nat) (left right : Int)
    (h : right < left) : find_term_loop (fuel + 1) terms key left right = some none := by
  rw [find_term_loop, if_neg (by omega)]

theorem find_term_loop_step (fuel : Nat) (terms : List Term) (key : List Nat) (left right : Int)
    (t : Term) (h0 : 0 ≤ left) (hle : left ≤ right) (hr : right < 2 ^ 31 - 1)
    (ht : terms[(left + (right - left) / 2).toNat]? = some t) :
    find_term_loop (fuel + 1) terms key left right =
      if strcmp key t.term = 0 then some (some t)
      else if strcmp key t.term < 0 then
        find_term_loop fuel terms key left (left + (right - left) / 2 - 1)
      else find_term_loop fuel terms key (left + (right - left) / 2 + 1) right := by
  have htd : Int.tdiv (right - left) 2 = (right - left) / 2 :=
    Int.tdiv_eq_ediv (by omega) (by norm_num)
  have hw : int32 (right - left) = some (right - left) :=
    int32_of_range _ (by omega) (by omega)
  have hm : int32 (left + (right - left) / 2) = some (left + (right - left) / 2) :=
    int32_of_range _ (by omega) (by omega)
  have hm1 : int32 (left + (right - left) / 2 - 1) = some (left + (right - left) / 2 - 1) :=
    int32_of_range _ (by omega) (by omega)
  have hm2 : int32 (left + (right - left) / 2 + 1) = some (left + (right - left) / 2 + 1) :=
    int32_of_range _ (by omega) (by omega)
  have hneg : ¬ (left + (right - left) / 2 < 0) := by omega
  rw [find_term_loop, if_pos hle]
  simp only [hw, htd, hm, if_neg hneg, ht, hm1, hm2]

theorem find_term_loop_correct (terms : List Term) (key : List Nat)
    (hs : terms.Pairwise (fun s t => strcmp s.term t.term < 0))
    (hkey : ∀ c ∈ key, 0 < c) (hterms : ∀ t ∈ terms, ∀ c ∈ t.term, 0 < c)
    (hn : terms.length < 2 ^ 31) :
    ∀ (fuel : Nat) (left right : Int), 0 ≤ left → left ≤ right + 1 → right < terms.length →
      right - left + 2 ≤ fuel →
      (∀ (i : Nat) (hi : i < terms.length), terms[i].term = key →
        left ≤ (i : Int) ∧ (i : Int) ≤ right) →
      (∃ t ∈ terms, t.term = key ∧ find_term_loop fuel terms key left right = some (some t)) ∨
        ((∀ t ∈ terms, t.term ≠ key) ∧ find_term_loop fuel terms key left right = some none) := by
  intro fuel
  induction fuel with
  | zero =>
    intro left right _ h1 _ h3 _
    omega
  | succ f ih =>
    intro left right h0 h1 h2 h3 hinv
    by_cases hle : left ≤ right
    · have hmlt : (left + (right - left) / 2).toNat < terms.length := by omega
      have hget : terms[(left + (right - left) / 2).toNat]? =
          some terms[(left + (right - left) / 2).toNat] := List.getElem?_eq_getElem hmlt
      have hmem : terms[(left + (right - left) / 2).toNat] ∈ terms := List.getElem_mem _
      rw [find_term_loop_step f terms key left right _ h0 hle (by omega) hget]
      by_cases hc0 : strcmp key terms[(left + (right - left) / 2).toNat].term = 0
      · rw [if_pos hc0]
        exact Or.inl ⟨_, hmem, (strcmp_eq_zero _ _ hkey (hterms _ hmem) hc0).symm, rfl⟩
      · rw [if_neg hc0]
        by_cases hclt : strcmp key terms[(left + (right - left) / 2).toNat].term < 0
        · rw [if_pos hclt]
          refine ih left _ h0 (by omega) (by omega) (by omega) ?_
          intro i hi hik
          have hb := hinv i hi hik
          refine ⟨hb.1, ?_⟩
          by_contra hgt
          have hgt' : (left + (right - left) / 2).toNat ≤ i := by omega
          rcases Nat.lt_or_eq_of_le hgt' with hlt | heq
          · have := List.pairwise_iff_getElem.1 hs _ i hmlt hi hlt
            rw [hik] at this
            have h4 := strcmp_antisymm key terms[(left + (right - left) / 2).toNat].term
            omega
          · have : terms[(left + (right - left) / 2).toNat].term = key := by
              simp only [heq]
              exact hik
            rw [this, strcmp_self] at hc0
            exact hc0 rfl
        · rw [if_neg hclt]
          refine ih _ right (by omega) (by omega) h2 (by omega) ?_
          intro i hi hik
          have hb := hinv i hi hik
          refine ⟨?_, hb.2⟩
          by_contra hgt
          have hgt' : i ≤ (left + (right - left) / 2).toNat := by omega
          rcases Nat.lt_or_eq_of_le hgt' with hlt | heq
          · have := List.pairwise_iff_getElem.1 hs i _ hi hmlt hlt
            rw [hik] at this
            omega
          · have : terms[(left + (right - left) / 2).toNat].term = key := by
              simp only [← heq]
              exact hik
            rw [this, strcmp_self] at hc0
            exact hc0 rfl
    · right
      refine ⟨?_, find_term_loop_done f terms key left right (by omega)⟩
      intro t ht hk
      obtain ⟨i, hi, rfl⟩ := List.getElem_of_mem ht
      have := hinv i hi hk
      omega

theorem toInt32_pred (n : Nat) (hn : n < 2 ^ 31) :
    toInt32 (uint32_pred n) = (n : Int) - 1 := by
  rcases Nat.eq_zero_or_pos n with h | h
  · subst h
    norm_num [toInt32, uint32_pred]
  · have h0 : ¬ n = 0 := by omega
    have e : uint32_pred n = n - 1 := by
      unfold uint32_pred
      rw [if_neg h0]
    have hlt : n - 1 < 2 ^ 31 := by omega
    rw [e, toInt32, if_pos hlt]
    omega

theorem debug_reads_unset (ld : IndexLoader) (h : ld.debug_search = false) :
    debug_reads ld = some () := by
  unfold debug_reads
  rw [h]
  rfl

theorem debug_reads_some (ld : IndexLoader)
    (hlen : ld.metadata.total_unique_terms = ld.terms.length)
    (hdbg : ld.debug_search = false ∨ ld.terms ≠ []) : debug_reads ld = some () := by
  rcases hdbg with h | h
  · exact debug_reads_unset ld h
  · unfold debug_reads
    have hpos : 0 < ld.terms.length := List.length_pos.2 h
    have h0 : ¬ ld.terms.length = 0 := by omega
    have e : uint32_pred ld.metadata.total_unique_terms = ld.terms.length - 1 := by
      unfold uint32_pred
      rw [hlen, if_neg h0]
    rw [e, List.getElem?_eq_getElem hpos,
      List.getElem?_eq_getElem (show ld.terms.length - 1 < ld.terms.length from by omega)]
    cases ld.debug_search <;> rfl

theorem debug_reads_empty (ld : IndexLoader) (hd : ld.debug_search = true)
    (he : ld.terms = []) : debug_reads ld = none := by
  unfold debug_reads
  rw [hd, he]
  rfl

theorem find_term_of_reads (ld : IndexLoader) (key : List Nat)
    (h : debug_reads ld = some ()) :
    ld.find_term key =
      find_term_loop (ld.metadata.total_unique_terms + 1) ld.terms key 0
        (toInt32 (uint32_pred ld.metadata.total_unique_terms)) := by
  unfold find_term
  rw [h]

theorem find_term_loop_of_some (ld : IndexLoader) (key : List Nat) (r : Option Term)
    (h : ld.find_term key = some r) :
    find_term_loop (ld.metadata.total_unique_terms + 1) ld.terms key 0
        (toInt32 (uint32_pred ld.metadata.total_unique_terms)) = some r := by
  unfold find_term at h
  cases hr : debug_reads ld with
  | none =>
    rw [hr] at h
    cases h
  | some u =>
    rw [hr] at h
    exact h

theorem find_term_without_reads (ld : IndexLoader) (key : List Nat)
    (h : debug_reads ld = none) : ld.find_term key = none := by
  unfold find_term
  rw [h]

theorem find_term_sorted_aux (ld : IndexLoader) (key : List Nat)
    (hlen : ld.metadata.total_unique_terms = ld.terms.length)
    (hn : ld.terms.length < 2 ^ 31)
    (hdbg : ld.debug_search = false ∨ ld.terms ≠ [])
    (hs : ld.terms.Pairwise (fun s t => strcmp s.term t.term < 0))
    (hkey : ∀ c ∈ key, 0 < c) (hterms : ∀ t ∈ ld.terms, ∀ c ∈ t.term, 0 < c) :
    (∃ t ∈ ld.terms, t.term = key ∧ ld.find_term key = some (some t)) ∨
      ((∀ t ∈ ld.terms, t.term ≠ key) ∧ ld.find_term key = some none) := by
  rw [find_term_of_reads ld key (debug_reads_some ld hlen hdbg), hlen, toInt32_pred _ hn]
  refine find_term_loop_correct ld.terms key hs hkey hterms hn _ 0 _ (by omega) (by omega)
    (by omega) (by omega) ?_
  intro i hi _
  omega

theorem fixed_digits_lt (w : Nat) : ∀ m n, m < n → n < 16 ^ w →
    strcmp (fixed_digits w m) (fixed_digits w n) < 0 := by
  induction w with
  | zero =>
    intro m n h1 h2
    simp at h2
    omega
  | succ w ih =>
    intro m n h1 h2
    have hp : 0 < 16 ^ w := pow_pos (by norm_num) w
    have hm := Nat.div_add_mod m (16 ^ w)
    have hn := Nat.div_add_mod n (16 ^ w)
    have hrm := Nat.mod_lt m hp
    have hrn := Nat.mod_lt n hp
    have hq : m / 16 ^ w ≤ n / 16 ^ w := Nat.div_le_div_right (Nat.le_of_lt h1)
    simp only [fixed_digits, strcmp]
    by_cases he : m / 16 ^ w = n / 16 ^ w
    · have h97 : ¬ (97 + m / 16 ^ w = 0) := Nat.ne_of_gt (Nat.add_pos_left (by norm_num) _)
      have heq : 97 + m / 16 ^ w = 97 + n / 16 ^ w := by omega
      rw [if_pos heq, if_neg h97]
      refine ih _ _ ?_ hrn
      rw [he] at hm
      omega
    · have hne : ¬ (97 + m / 16 ^ w = 97 + n / 16 ^ w) := by omega
      rw [if_neg hne]
      omega

theorem large_terms_length : large_terms.length = 2 ^ 31 + 1 := by
  unfold large_terms
  rw [List.length_map, List.length_range]

theorem large_terms_ascending :
    large_terms.Pairwise (fun s t => strcmp s.term t.term < 0) := by
  unfold large_terms
  rw [List.pairwise_map]
  refine List.Pairwise.imp_of_mem ?_ (List.pairwise_lt_range (2 ^ 31 + 1))
  intro a b _ hb hab
  have hb' : b < 2 ^ 31 + 1 := List.mem_range.1 hb
  exact fixed_digits_lt 8 a b hab (by omega)

theorem large_terms_first : term_entry (fixed_digits 8 0) [] ∈ large_terms := by
  unfold large_terms
  exact List.mem_map.2 ⟨0, List.mem_range.2 (by norm_num), rfl⟩

theorem loader_with_total (n : Nat) (ts : List Term) :
    (loader_with n ts).metadata.total_unique_terms = ts.length := rfl

theorem find_term_many (ld : IndexLoader) (key : List Nat)
    (h1 : 2 ^ 31 < ld.metadata.total_unique_terms)
    (h2 : ld.metadata.total_unique_terms < 2 ^ 32) (hr : debug_reads ld = some ()) :
    ld.find_term key = some none := by
  rw [find_term_of_reads ld key hr]
  refine find_term_loop_done _ _ _ _ _ ?_
  have h0 : ¬ ld.metadata.total_unique_terms = 0 := by omega
  have e : uint32_pred ld.metadata.total_unique_terms = ld.metadata.total_unique_terms - 1 := by
    unfold uint32_pred
    rw [if_neg h0]
  have hge : ¬ ld.metadata.total_unique_terms - 1 < 2 ^ 31 := by omega
  rw [e, toInt32, if_neg hge]
  omega

theorem find_term_large (key : List Nat) :
    (loader_with 0 large_terms).find_term key = some none := by
  refine find_term_many _ key ?_ ?_ (debug_reads_unset _ rfl)
  · rw [loader_with_total, large_terms_length]
    norm_num
  · rw [loader_with_total, large_terms_length]
    norm_num

theorem find_term_loop_total (terms : List Term) (key : List Nat)
    (hn : terms.length < 2 ^ 31) :
    ∀ (fuel : Nat) (left right : Int), 0 ≤ left → left ≤ right + 1 → right < terms.length →
      right - left + 2 ≤ fuel →
      ∃ r, find_term_loop fuel terms key left right = some r := by
  intro fuel
  induction fuel with
  | zero =>
    intro left right _ h1 _ h3
    omega
  | succ f ih =>
    intro left right h0 h1 h2 h3
    by_cases hle : left ≤ right
    · have hmlt : (left + (right - left) / 2).toNat < terms.length := by omega
      have hget : terms[(left + (right - left) / 2).toNat]? =
          some terms[(left + (right - left) / 2).toNat] := List.getElem?_eq_getElem hmlt
      rw [find_term_loop_step f terms key left right _ h0 hle (by omega) hget]
      by_cases hc0 : strcmp key terms[(left + (right - left) / 2).toNat].term = 0
      · rw [if_pos hc0]
        exact ⟨_, rfl⟩
      · rw [if_neg hc0]
        by_cases hclt : strcmp key terms[(left + (right - left) / 2).toNat].term < 0
        · rw [if_pos hclt]
          exact ih left _ h0 (by omega) (by omega) (by omega)
        · rw [if_neg hclt]
          exact ih _ right (by omega) (by omega) h2 (by omega)
    · exact ⟨none, find_term_loop_done f terms key left right (by omega)⟩

theorem find_term_total_aux (ld : IndexLoader) (key : List Nat)
    (hlen : ld.metadata.total_unique_terms = ld.terms.length)
    (hn : ld.terms.length < 2 ^ 31) (hdbg : ld.debug_search = false ∨ ld.terms ≠ []) :
    ∃ r, ld.find_term key = some r := by
  rw [find_term_of_reads ld key (debug_reads_some ld hlen hdbg), hlen, toInt32_pred _ hn]
  exact find_term_loop_total ld.terms key hn _ 0 _ (by omega) (by omega) (by omega) (by omega)

theorem word_postings_total_aux (ld : IndexLoader) (word : List Nat)
    (hlen : ld.metadata.total_unique_terms = ld.terms.length)
    (hn : ld.terms.length < 2 ^ 31) (hdbg : ld.debug_search = false ∨ ld.terms ≠ []) :
    ∃ ps, QueryEvaluator.word_postings ld word = some ps := by
  obtain ⟨r, hr⟩ := find_term_total_aux ld word hlen hn hdbg
  unfold QueryEvaluator.word_postings
  rw [hr]
  cases r with
  | none => exact ⟨_, rfl⟩
  | some t => exact ⟨_, rfl⟩

/-- C10 (as stated, refuted): `large_terms` is a strictly ascending array of
`2^31 + 1` terms that contains the term `fixed_digits 8 0`, and `find_term`
returns `nullptr` for that key: `total_unique_terms - 1` converted to `int`
is negative, so the loop body never runs. And on the empty array, when
`DEBUG_SEARCH` is set, `find_term` has no result for any key: it prints
`terms[0].term`, which lies outside the array. -/
theorem find_term_misses_in_large_array :
    large_terms.Pairwise (fun s t => strcmp s.term t.term < 0) ∧
      term_entry (fixed_digits 8 0) [] ∈ large_terms ∧
      (loader_with 0 large_terms).metadata.total_unique_terms = large_terms.length ∧
      (loader_with 0 large_terms).find_term (fixed_digits 8 0) = some none ∧
      empty_debug_loader.terms = [] ∧ empty_debug_loader.debug_search = true ∧
      ∀ key : List Nat, empty_debug_loader.find_term key = none :=
  ⟨large_terms_ascending, large_terms_first, loader_with_total 0 large_terms,
    find_term_large (fixed_digits 8 0), rfl, rfl,
    fun key => find_term_without_reads _ key (debug_reads_empty _ rfl rfl)⟩

/-- C10 (amended): for a term array of fewer than `2^31` entries that is
strictly ascending under `strcmp` and every key, `find_term` returns an entry
whose term equals the key when there is one, and `nullptr` when there is
none, provided the array is not empty or `DEBUG_SEARCH` is not set. -/
theorem find_term_correct (ld : IndexLoader) (key : List Nat)
    (hlen : ld.metadata.total_unique_terms = ld.terms.length)
    (hn : ld.terms.length < 2 ^ 31)
    (hdbg : ld.debug_search = false ∨ ld.terms ≠ [])
    (hs : ld.terms.Pairwise (fun s t => strcmp s.term t.term < 0))
    (hkey : is_c_string key = true) (hterms : ∀ t ∈ ld.terms, is_c_string t.term = true) :
    (∃ t ∈ ld.terms, t.term = key ∧ ld.find_term key = some (some t)) ∨
      ((∀ t ∈ ld.terms, t.term ≠ key) ∧ ld.find_term key = some none) :=
  find_term_sorted_aux ld key hlen hn hdbg hs (fun c hc => (is_c_string_pos key hkey c hc))
    (fun t ht c hc => is_c_string_pos t.term (hterms t ht) c hc)

theorem find_term_correct_witness :
    ((∃ t ∈ precedence_loader.terms, t.term = [98] ∧
          precedence_loader.find_term [98] = some (some t)) ∨
        ((∀ t ∈ precedence_loader.terms, t.term ≠ [98]) ∧
          precedence_loader.find_term [98] = some none)) ∧
      precedence_loader.find_term [98] = some (some (term_entry [98] [2, 3])) ∧
      precedence_loader.find_term [98, 98] = some none ∧
      (loader_with 0 []).find_term [98] = some none ∧
      ({ precedence_loader with debug_search := true } : IndexLoader).find_term [98] =
        some (some (term_entry [98] [2, 3])) :=
  ⟨find_term_correct precedence_loader [98] rfl (by decide) (Or.inl rfl) (by decide)
    (by decide) (by decide), by decide!, by decide!, by decide!, by decide!⟩

end Lookup

/-! ### Query lexer -/

section Lexer

open BooleanQueryParser

theorem word_loop_append (w : List Nat) : ∀ (acc rest : List Nat),
    (∀ c ∈ w, is_word_byte c = true) → (∀ c ∈ rest.head?, is_word_byte c = false) →
    acc.length ≤ 255 → word_loop (w ++ rest) acc = ((acc ++ w).take 255, rest) := by
  induction w with
  | nil =>
    intro acc rest _ hrest hacc
    rw [List.nil_append, List.append_nil, List.take_of_length_le hacc]
    cases rest with
    | nil => rfl
    | cons c r =>
      have hc : is_word_byte c = false := hrest c (by simp)
      simp [word_loop, hc]
  | cons c w ih =>
    intro acc rest hw hrest hacc
    have hc : is_word_byte c = true := hw c (List.mem_cons_self _ _)
    have hw' : ∀ d ∈ w, is_word_byte d = true := fun d hd => hw d (List.mem_cons_of_mem _ hd)
    rw [List.cons_append, word_loop, if_pos hc]
    by_cases hlt : acc.length < 255
    · rw [if_pos hlt, ih (acc ++ [c]) rest hw' hrest (by simp; omega)]
      simp
    · rw [if_neg hlt, ih acc rest hw' hrest hacc]
      have h255 : acc.length = 255 := by omega
      rw [List.take_append_of_le_length (by omega), List.take_append_of_le_length (by omega)]

theorem word_byte_not_space (c : Nat) (h : is_word_byte c = true) : isspace c = false := by
  simp only [is_word_byte, isalnum, isalpha, isupper, islower, isdigit, isspace, Bool.or_eq_true,
    Bool.and_eq_true, decide_eq_true_eq] at h ⊢
  simp only [Bool.or_eq_false_iff, Bool.and_eq_false_iff, decide_eq_false_iff_not]
  omega

theorem next_token_unfold (q : List Nat) :
    next_token q =
      match skip_whitespace q with
      | [] => (⟨TokenType.TOKEN_END, []⟩, [])
      | c :: rest =>
        if c = 40 then (⟨TokenType.TOKEN_LPAREN, []⟩, rest)
        else if c = 41 then (⟨TokenType.TOKEN_RPAREN, []⟩, rest)
        else if c = 33 then (⟨TokenType.TOKEN_NOT, []⟩, rest)
        else if c = 124 ∧ rest.head? = some 124 then (⟨TokenType.TOKEN_OR, []⟩, rest.tail)
        else if c = 38 ∧ rest.head? = some 38 then (⟨TokenType.TOKEN_AND, []⟩, rest.tail)
        else
          if 0 < (word_loop (c :: rest) []).1.length then
            (⟨TokenType.TOKEN_WORD, to_lowercase (word_loop (c :: rest) []).1⟩,
              (word_loop (c :: rest) []).2)
          else next_token rest := by
  rw [next_token]
  split
  · next h => rw [h]
  · next c rest h => rw [h]

theorem next_token_space (c : Nat) (q : List Nat) (hc : isspace c = true) :
    next_token (c :: q) = next_token q := by
  rw [next_token_unfold, next_token_unfold q]
  have : skip_whitespace (c :: q) = skip_whitespace q := by
    simp [skip_whitespace, List.dropWhile_cons, hc]
  rw [this]

theorem next_token_nil : next_token [] = (⟨TokenType.TOKEN_END, []⟩, []) := by
  rw [next_token_unfold]
  rfl

theorem next_token_or (q : List Nat) :
    next_token (124 :: 124 :: q) = (⟨TokenType.TOKEN_OR, []⟩, q) := by
  rw [next_token_unfold]
  simp [skip_whitespace, isspace]

theorem next_token_and (q : List Nat) :
    next_token (38 :: 38 :: q) = (⟨TokenType.TOKEN_AND, []⟩, q) := by
  rw [next_token_unfold]
  simp [skip_whitespace, isspace]

theorem next_token_word (w rest : List Nat) (hne : w ≠ [])
    (hw : ∀ c ∈ w, is_word_byte c = true) (hrest : ∀ c ∈ rest.head?, is_word_byte c = false) :
    next_token (w ++ rest) = (⟨TokenType.TOKEN_WORD, to_lowercase (w.take 255)⟩, rest) := by
  obtain ⟨c, w', rfl⟩ := List.exists_cons_of_ne_nil hne
  have hc : is_word_byte c = true := hw c (List.mem_cons_self _ _)
  have hsp : isspace c = false := word_byte_not_space c hc
  have hskip : skip_whitespace (c :: w' ++ rest) = c :: (w' ++ rest) := by
    simp [skip_whitespace, List.dropWhile_cons, hsp]
  have hloop := word_loop_append (c :: w') [] rest hw hrest (by simp)
  rw [List.nil_append] at hloop
  have h40 : c ≠ 40 := by rintro rfl; simp [is_word_byte, isalnum, isalpha, isupper, islower, isdigit] at hc
  have h41 : c ≠ 41 := by rintro rfl; simp [is_word_byte, isalnum, isalpha, isupper, islower, isdigit] at hc
  have h33 : c ≠ 33 := by rintro rfl; simp [is_word_byte, isalnum, isalpha, isupper, islower, isdigit] at hc
  have h124 : c ≠ 124 := by rintro rfl; simp [is_word_byte, isalnum, isalpha, isupper, islower, isdigit] at hc
  have h38 : c ≠ 38 := by rintro rfl; simp [is_word_byte, isalnum, isalpha, isupper, islower, isdigit] at hc
  rw [next_token_unfold, hskip]
  simp only [h40, h41, h33, h124, h38, if_false, false_and]
  rw [← List.cons_append, hloop]
  simp

end Lexer

/-! ### Query parser and evaluator -/

section Parser

open BooleanQueryParser QueryEvaluator

theorem parse_expression_succ (f : Nat) (ld : IndexLoader) (ev : QueryEvaluator) :
    parse_expression (f + 1) ld ev =
      match parse_term f ld ev with
      | none => none
      | some (left, ev1) => parse_expression_loop f ld left ev1 := rfl

theorem parse_expression_loop_succ (f : Nat) (ld : IndexLoader) (left : List Nat)
    (ev : QueryEvaluator) :
    parse_expression_loop (f + 1) ld left ev =
      if ev.current_token.type = TokenType.TOKEN_OR then
        match parse_term f ld (advance ev) with
        | none => none
        | some (right, ev1) => parse_expression_loop f ld (union_postings left right) ev1
      else some (left, ev) := rfl

theorem parse_term_succ (f : Nat) (ld : IndexLoader) (ev : QueryEvaluator) :
    parse_term (f + 1) ld ev =
      match parse_factor f ld ev with
      | none => none
      | some (left, ev1) => parse_term_loop f ld left ev1 := rfl

theorem parse_term_loop_succ (f : Nat) (ld : IndexLoader) (left : List Nat)
    (ev : QueryEvaluator) :
    parse_term_loop (f + 1) ld left ev =
      if ev.current_token.type = TokenType.TOKEN_AND ∨
          ev.current_token.type = TokenType.TOKEN_WORD then
        match parse_factor f ld
            (if ev.current_token.type = TokenType.TOKEN_AND then advance ev else ev) with
        | none => none
        | some (right, ev1) => parse_term_loop f ld (intersect_postings left right) ev1
      else some (left, ev) := rfl

theorem parse_factor_word (f : Nat) (ld : IndexLoader) (ev : QueryEvaluator) (ps : List Nat)
    (ht : ev.current_token.type = TokenType.TOKEN_WORD)
    (hp : word_postings ld ev.current_token.word = some ps) :
    parse_factor (f + 1) ld ev = some (ps, advance ev) := by
  simp [parse_factor, ht, hp]

theorem parse_term_loop_stop (f : Nat) (ld : IndexLoader) (left : List Nat) (ev : QueryEvaluator)
    (h1 : ev.current_token.type ≠ TokenType.TOKEN_AND)
    (h2 : ev.current_token.type ≠ TokenType.TOKEN_WORD) :
    parse_term_loop (f + 1) ld left ev = some (left, ev) := by
  simp [parse_term_loop_succ, h1, h2]

theorem parse_expression_loop_stop (f : Nat) (ld : IndexLoader) (left : List Nat)
    (ev : QueryEvaluator) (h1 : ev.current_token.type ≠ TokenType.TOKEN_OR) :
    parse_expression_loop (f + 1) ld left ev = some (left, ev) := by
  simp [parse_expression_loop_succ, h1]

theorem parse_expression_of (f : Nat) (ld : IndexLoader) (ev : QueryEvaluator)
    (left : List Nat) (ev1 : QueryEvaluator) (r : Option (List Nat × QueryEvaluator))
    (h1 : parse_term f ld ev = some (left, ev1))
    (h2 : parse_expression_loop f ld left ev1 = r) :
    parse_expression (f + 1) ld ev = r := by
  rw [parse_expression_succ, h1]
  exact h2

theorem parse_expression_loop_or (f : Nat) (ld : IndexLoader) (left : List Nat)
    (ev : QueryEvaluator) (right : List Nat) (ev1 : QueryEvaluator)
    (r : Option (List Nat × QueryEvaluator))
    (ht : ev.current_token.type = TokenType.TOKEN_OR)
    (h1 : parse_term f ld (advance ev) = some (right, ev1))
    (h2 : parse_expression_loop f ld (union_postings left right) ev1 = r) :
    parse_expression_loop (f + 1) ld left ev = r := by
  rw [parse_expression_loop_succ, if_pos ht, h1]
  exact h2

theorem parse_term_of (f : Nat) (ld : IndexLoader) (ev : QueryEvaluator)
    (left : List Nat) (ev1 : QueryEvaluator) (r : Option (List Nat × QueryEvaluator))
    (h1 : parse_factor f ld ev = some (left, ev1))
    (h2 : parse_term_loop f ld left ev1 = r) :
    parse_term (f + 1) ld ev = r := by
  rw [parse_term_succ, h1]
  exact h2

theorem parse_term_loop_word (f : Nat) (ld : IndexLoader) (left : List Nat)
    (ev : QueryEvaluator) (right : List Nat) (ev1 : QueryEvaluator)
    (r : Option (List Nat × QueryEvaluator))
    (ht : ev.current_token.type = TokenType.TOKEN_WORD)
    (h1 : parse_factor f ld ev = some (right, ev1))
    (h2 : parse_term_loop f ld (intersect_postings left right) ev1 = r) :
    parse_term_loop (f + 1) ld left ev = r := by
  rw [parse_term_loop_succ, if_pos (Or.inr ht), if_neg (by rw [ht]; simp), h1]
  exact h2

theorem parse_term_loop_and (f : Nat) (ld : IndexLoader) (left : List Nat)
    (ev : QueryEvaluator) (right : List Nat) (ev1 : QueryEvaluator)
    (r : Option (List Nat × QueryEvaluator))
    (ht : ev.current_token.type = TokenType.TOKEN_AND)
    (h1 : parse_factor f ld (advance ev) = some (right, ev1))
    (h2 : parse_term_loop f ld (intersect_postings left right) ev1 = r) :
    parse_term_loop (f + 1) ld left ev = r := by
  rw [parse_term_loop_succ, if_pos (Or.inl ht), if_pos ht, h1]
  exact h2

theorem evaluate_of (ld : IndexLoader) (query : List Nat) (r : List Nat) (ev : QueryEvaluator)
    (h : parse_expression (3 * query.length + 3) ld
      (advance ⟨query, ⟨TokenType.TOKEN_END, []⟩⟩) = some (r, ev)) :
    evaluate ld query = some r := by
  rw [evaluate, h]

theorem is_query_word_iff (w : List Nat) :
    is_query_word w = true ↔ w ≠ [] ∧ ∀ c ∈ w, is_word_byte c = true := by
  simp [is_query_word]

theorem or_and_eval_aux (ld : IndexLoader) (x y z px py pz : List Nat)
    (hx : is_query_word x = true) (hy : is_query_word y = true) (hz : is_query_word z = true)
    (hpx : word_postings ld (lexed_word x) = some px)
    (hpy : word_postings ld (lexed_word y) = some py)
    (hpz : word_postings ld (lexed_word z) = some pz) :
    evaluate ld (x ++ [32, 124, 124, 32] ++ y ++ [32] ++ z) =
      some (union_postings px (intersect_postings py pz)) := by
  obtain ⟨hxne, hxw⟩ := (is_query_word_iff x).1 hx
  obtain ⟨hyne, hyw⟩ := (is_query_word_iff y).1 hy
  obtain ⟨hzne, hzw⟩ := (is_query_word_iff z).1 hz
  have e0 : ∀ t, advance ⟨x ++ [32, 124, 124, 32] ++ y ++ [32] ++ z, t⟩ =
      ⟨[32, 124, 124, 32] ++ y ++ [32] ++ z, ⟨TokenType.TOKEN_WORD, lexed_word x⟩⟩ := by
    intro t
    have := next_token_word x ([32, 124, 124, 32] ++ y ++ [32] ++ z) hxne hxw
      (by simp [is_word_byte, isalnum, isalpha, isupper, islower, isdigit])
    simp only [List.append_assoc, List.cons_append, List.nil_append] at this ⊢
    simp [advance, this, lexed_word]
  have e1 : ∀ t, advance ⟨[32, 124, 124, 32] ++ y ++ [32] ++ z, t⟩ =
      ⟨[32] ++ y ++ [32] ++ z, ⟨TokenType.TOKEN_OR, []⟩⟩ := by
    intro t
    have := next_token_or ([32] ++ y ++ [32] ++ z)
    have h2 := next_token_space 32 (124 :: 124 :: ([32] ++ y ++ [32] ++ z)) (by decide)
    simp only [List.append_assoc, List.cons_append, List.nil_append] at this h2 ⊢
    simp [advance, this, h2]
  have e2 : ∀ t, advance ⟨[32] ++ y ++ [32] ++ z, t⟩ =
      ⟨[32] ++ z, ⟨TokenType.TOKEN_WORD, lexed_word y⟩⟩ := by
    intro t
    have := next_token_word y ([32] ++ z) hyne hyw
      (by simp [is_word_byte, isalnum, isalpha, isupper, islower, isdigit])
    have h2 := next_token_space 32 (y ++ ([32] ++ z)) (by decide)
    simp only [List.append_assoc, List.cons_append, List.nil_append] at this h2 ⊢
    simp [advance, this, h2, lexed_word]
  have e3 : ∀ t, advance ⟨[32] ++ z, t⟩ = ⟨[], ⟨TokenType.TOKEN_WORD, lexed_word z⟩⟩ := by
    intro t
    have := next_token_word z [] hzne hzw (by simp)
    have h2 := next_token_space 32 (z ++ []) (by decide)
    simp only [List.append_nil, List.cons_append, List.nil_append] at this h2 ⊢
    simp [advance, this, h2, lexed_word]
  have e4 : ∀ t, advance ⟨[], t⟩ = ⟨[], ⟨TokenType.TOKEN_END, []⟩⟩ := by
    intro t
    simp [advance, next_token_nil]
  have hlen : 3 * (x ++ [32, 124, 124, 32] ++ y ++ [32] ++ z).length + 3 =
      (3 * (x.length + y.length + z.length) + 11) + 1 + 1 + 1 + 1 + 1 + 1 + 1 := by
    simp only [List.length_append, List.length_cons, List.length_nil]
    omega
  refine evaluate_of ld _ _ ⟨[], ⟨TokenType.TOKEN_END, []⟩⟩ ?_
  rw [hlen, e0]
  generalize 3 * (x.length + y.length + z.length) + 11 = f
  refine parse_expression_of _ ld _ px ⟨[32] ++ y ++ [32] ++ z, ⟨TokenType.TOKEN_OR, []⟩⟩ _ ?_ ?_
  · refine parse_term_of _ ld _ px ⟨[32] ++ y ++ [32] ++ z, ⟨TokenType.TOKEN_OR, []⟩⟩ _ ?_ ?_
    · refine Eq.trans (parse_factor_word _ ld _ px ?_ ?_) ?_
      · rfl
      · exact hpx
      · rw [e1]
    · exact parse_term_loop_stop _ ld _ _ (by simp) (by simp)
  · refine parse_expression_loop_or _ ld _ _ (intersect_postings py pz)
      ⟨[], ⟨TokenType.TOKEN_END, []⟩⟩ _ rfl ?_ ?_
    · rw [e2]
      refine parse_term_of _ ld _ py ⟨[], ⟨TokenType.TOKEN_WORD, lexed_word z⟩⟩ _ ?_ ?_
      · refine Eq.trans (parse_factor_word _ ld _ py ?_ ?_) ?_
        · rfl
        · exact hpy
        · rw [e3]
      · refine parse_term_loop_word _ ld _ _ pz ⟨[], ⟨TokenType.TOKEN_END, []⟩⟩ _ rfl ?_ ?_
        · refine Eq.trans (parse_factor_word _ ld _ pz ?_ ?_) ?_
          · rfl
          · exact hpz
          · rw [e4]
        · exact parse_term_loop_stop _ ld _ _ (by simp) (by simp)
    · exact parse_expression_loop_stop _ ld _ _ (by simp)

theorem or_explicit_and_eval_aux (ld : IndexLoader) (x y z px py pz : List Nat)
    (hx : is_query_word x = true) (hy : is_query_word y = true) (hz : is_query_word z = true)
    (hpx : word_postings ld (lexed_word x) = some px)
    (hpy : word_postings ld (lexed_word y) = some py)
    (hpz : word_postings ld (lexed_word z) = some pz) :
    evaluate ld (x ++ [32, 124, 124, 32] ++ y ++ [32, 38, 38, 32] ++ z) =
      some (union_postings px (intersect_postings py pz)) := by
  obtain ⟨hxne, hxw⟩ := (is_query_word_iff x).1 hx
  obtain ⟨hyne, hyw⟩ := (is_query_word_iff y).1 hy
  obtain ⟨hzne, hzw⟩ := (is_query_word_iff z).1 hz
  have e0 : ∀ t, advance ⟨x ++ [32, 124, 124, 32] ++ y ++ [32, 38, 38, 32] ++ z, t⟩ =
      ⟨[32, 124, 124, 32] ++ y ++ [32, 38, 38, 32] ++ z,
        ⟨TokenType.TOKEN_WORD, lexed_word x⟩⟩ := by
    intro t
    have := next_token_word x ([32, 124, 124, 32] ++ y ++ [32, 38, 38, 32] ++ z) hxne hxw
      (by simp [is_word_byte, isalnum, isalpha, isupper, islower, isdigit])
    simp only [List.append_assoc, List.cons_append, List.nil_append] at this ⊢
    simp [advance, this, lexed_word]
  have e1 : ∀ t, advance ⟨[32, 124, 124, 32] ++ y ++ [32, 38, 38, 32] ++ z, t⟩ =
      ⟨[32] ++ y ++ [32, 38, 38, 32] ++ z, ⟨TokenType.TOKEN_OR, []⟩⟩ := by
    intro t
    have := next_token_or ([32] ++ y ++ [32, 38, 38, 32] ++ z)
    have h2 := next_token_space 32 (124 :: 124 :: ([32] ++ y ++ [32, 38, 38, 32] ++ z))
      (by decide)
    simp only [List.append_assoc, List.cons_append, List.nil_append] at this h2 ⊢
    simp [advance, this, h2]
  have e2 : ∀ t, advance ⟨[32] ++ y ++ [32, 38, 38, 32] ++ z, t⟩ =
      ⟨[32, 38, 38, 32] ++ z, ⟨TokenType.TOKEN_WORD, lexed_word y⟩⟩ := by
    intro t
    have := next_token_word y ([32, 38, 38, 32] ++ z) hyne hyw
      (by simp [is_word_byte, isalnum, isalpha, isupper, islower, isdigit])
    have h2 := next_token_space 32 (y ++ ([32, 38, 38, 32] ++ z)) (by decide)
    simp only [List.append_assoc, List.cons_append, List.nil_append] at this h2 ⊢
    simp [advance, this, h2, lexed_word]
  have e3 : ∀ t, advance ⟨[32, 38, 38, 32] ++ z, t⟩ =
      ⟨[32] ++ z, ⟨TokenType.TOKEN_AND, []⟩⟩ := by
    intro t
    have := next_token_and ([32] ++ z)
    have h2 := next_token_space 32 (38 :: 38 :: ([32] ++ z)) (by decide)
    simp only [List.append_assoc, List.cons_append, List.nil_append] at this h2 ⊢
    simp [advance, this, h2]
  have e4 : ∀ t, advance ⟨[32] ++ z, t⟩ = ⟨[], ⟨TokenType.TOKEN_WORD, lexed_word z⟩⟩ := by
    intro t
    have := next_token_word z [] hzne hzw (by simp)
    have h2 := next_token_space 32 (z ++ []) (by decide)
    simp only [List.append_nil, List.cons_append, List.nil_append] at this h2 ⊢
    simp [advance, this, h2, lexed_word]
  have e5 : ∀ t, advance ⟨[], t⟩ = ⟨[], ⟨TokenType.TOKEN_END, []⟩⟩ := by
    intro t
    simp [advance, next_token_nil]
  have hlen : 3 * (x ++ [32, 124, 124, 32] ++ y ++ [32, 38, 38, 32] ++ z).length + 3 =
      (3 * (x.length + y.length + z.length) + 20) + 1 + 1 + 1 + 1 + 1 + 1 + 1 := by
    simp only [List.length_append, List.length_cons, List.length_nil]
    omega
  refine evaluate_of ld _ _ ⟨[], ⟨TokenType.TOKEN_END, []⟩⟩ ?_
  rw [hlen, e0]
  generalize 3 * (x.length + y.length + z.length) + 20 = f
  refine parse_expression_of _ ld _ px
    ⟨[32] ++ y ++ [32, 38, 38, 32] ++ z, ⟨TokenType.TOKEN_OR, []⟩⟩ _ ?_ ?_
  · refine parse_term_of _ ld _ px
      ⟨[32] ++ y ++ [32, 38, 38, 32] ++ z, ⟨TokenType.TOKEN_OR, []⟩⟩ _ ?_ ?_
    · refine Eq.trans (parse_factor_word _ ld _ px ?_ ?_) ?_
      · rfl
      · exact hpx
      · rw [e1]
    · exact parse_term_loop_stop _ ld _ _ (by simp) (by simp)
  · refine parse_expression_loop_or _ ld _ _ (intersect_postings py pz)
      ⟨[], ⟨TokenType.TOKEN_END, []⟩⟩ _ rfl ?_ ?_
    · rw [e2]
      refine parse_term_of _ ld _ py ⟨[32] ++ z, ⟨TokenType.TOKEN_AND, []⟩⟩ _ ?_ ?_
      · refine Eq.trans (parse_factor_word _ ld _ py ?_ ?_) ?_
        · rfl
        · exact hpy
        · rw [e3]
      · refine parse_term_loop_and _ ld _ _ pz ⟨[], ⟨TokenType.TOKEN_END, []⟩⟩ _ rfl ?_ ?_
        · rw [e4]
          refine Eq.trans (parse_factor_word _ ld _ pz ?_ ?_) ?_
          · rfl
          · exact hpz
          · rw [e5]
        · exact parse_term_loop_stop _ ld _ _ (by simp) (by simp)
    · exact parse_expression_loop_stop _ ld _ _ (by simp)

/-- C7: AND, written `&&` or by juxtaposition, binds tighter than OR. For all
words `x`, `y`, `z` and every loader in which their lookups return, evaluating
`x || y && z` and evaluating `x || y z` both yield
`union_postings (P x) (intersect_postings (P y) (P z))`. -/
theorem and_binds_tighter_than_or (ld : IndexLoader) (x y z px py pz : List Nat)
    (hx : is_query_word x = true) (hy : is_query_word y = true) (hz : is_query_word z = true)
    (hpx : word_postings ld (lexed_word x) = some px)
    (hpy : word_postings ld (lexed_word y) = some py)
    (hpz : word_postings ld (lexed_word z) = some pz) :
    evaluate ld (x ++ [32, 124, 124, 32] ++ y ++ [32, 38, 38, 32] ++ z) =
        some (union_postings px (intersect_postings py pz)) ∧
      evaluate ld (x ++ [32, 124, 124, 32] ++ y ++ [32] ++ z) =
        some (union_postings px (intersect_postings py pz)) :=
  ⟨or_explicit_and_eval_aux ld x y z px py pz hx hy hz hpx hpy hpz,
    or_and_eval_aux ld x y z px py pz hx hy hz hpx hpy hpz⟩

theorem and_binds_tighter_than_or_witness :
    (evaluate precedence_loader
          ([97] ++ [32, 124, 124, 32] ++ [98] ++ [32, 38, 38, 32] ++ [99]) =
        some (union_postings [1] (intersect_postings [2, 3] [3, 4])) ∧
      evaluate precedence_loader ([97] ++ [32, 124, 124, 32] ++ [98] ++ [32] ++ [99]) =
        some (union_postings [1] (intersect_postings [2, 3] [3, 4]))) ∧
      union_postings [1] (intersect_postings [2, 3] [3, 4]) = [1, 3] ∧
      intersect_postings (union_postings [1] [2, 3]) [3, 4] = [3] :=
  ⟨and_binds_tighter_than_or precedence_loader [97] [98] [99] [1] [2, 3] [3, 4]
    (by decide) (by decide) (by decide) (by decide!) (by decide!) (by decide!), by decide!,
    by decide!⟩

/-- C6: on `adjacency_loader` the query `ankara !savas` evaluates to the
postings `[1, 2]` of `ankara`, not to their intersection `[2]` with the
complement of the postings of `savas`, and `ankara (savas)` evaluates to
`[1, 2]`, not to the intersection `[1]`: a factor that starts with `!` or `(`
is not joined to the factor before it. -/
theorem adjacency_only_before_word :
    word_postings adjacency_loader [97, 110, 107, 97, 114, 97] = some [1, 2] ∧
      word_postings adjacency_loader [115, 97, 118, 97, 115] = some [1] ∧
      evaluate adjacency_loader
        [97, 110, 107, 97, 114, 97, 32, 33, 115, 97, 118, 97, 115] = some [1, 2] ∧
      (negate_postings [1] adjacency_loader.get_total_documents).map
        (intersect_postings [1, 2]) = some [2] ∧
      evaluate adjacency_loader
        [97, 110, 107, 97, 114, 97, 32, 40, 115, 97, 118, 97, 115, 41] = some [1, 2] ∧
      intersect_postings [1, 2] [1] = [1] := by
  decide!

end Parser

/-! ### Stemmer -/

section Stemmer

theorem ends_with_length (word suffix : List Nat) (h : TurkishStemmer.ends_with word suffix = true) :
    suffix.length ≤ word.length := by
  unfold TurkishStemmer.ends_with at h
  by_contra hlt
  rw [if_pos (by omega)] at h
  cases h

theorem remove_suffix_of_ends_with (word suffix : List Nat)
    (h : TurkishStemmer.ends_with word suffix = true) :
    TurkishStemmer.remove_suffix word suffix =
      some (word.take (word.length - suffix.length)) := by
  rw [TurkishStemmer.remove_suffix, if_pos (ends_with_length word suffix h)]

theorem case_suffix_loop_total (suffixes : List (List Nat)) (word : List Nat) :
    ∃ r, TurkishStemmer.case_suffix_loop suffixes word = some r := by
  induction suffixes with
  | nil => exact ⟨_, rfl⟩
  | cons s rest ih =>
    rw [TurkishStemmer.case_suffix_loop]
    by_cases h : TurkishStemmer.ends_with word s = true
    · rw [if_pos h, remove_suffix_of_ends_with word s h]
      exact ⟨_, rfl⟩
    · rw [if_neg h]
      exact ih

theorem strip_plural_total (word : List Nat) :
    ∃ r, TurkishStemmer.strip_plural word = some r := by
  unfold TurkishStemmer.strip_plural
  by_cases ha : TurkishStemmer.ends_with word [108, 97, 114] = true
  · simp only [ha, Bool.true_or, if_true, remove_suffix_of_ends_with word _ ha]
    exact ⟨_, rfl⟩
  · by_cases hb : TurkishStemmer.ends_with word [108, 101, 114] = true
    · simp only [Bool.not_eq_true] at ha
      simp only [ha, hb, Bool.false_or, if_true, Bool.false_eq_true, if_false,
        remove_suffix_of_ends_with word _ hb]
      exact ⟨_, rfl⟩
    · simp only [Bool.not_eq_true] at ha hb
      simp only [ha, hb, Bool.or_self, Bool.false_eq_true, if_false]
      exact ⟨_, rfl⟩

theorem strip_possessive_total (m : Bool) (word : List Nat) :
    ∃ r, TurkishStemmer.strip_possessive m word = some r := by
  unfold TurkishStemmer.strip_possessive
  by_cases h4 : 4 ≤ word.length
  · rw [if_pos h4]
    split
    · have : TurkishStemmer.remove_suffix word [105, 109] =
          some (word.take (word.length - 2)) := by
        rw [TurkishStemmer.remove_suffix, if_pos (by simp; omega)]
        rfl
      rw [this]
      exact ⟨_, rfl⟩
    · exact ⟨_, rfl⟩
  · rw [if_neg h4]
    exact ⟨_, rfl⟩

theorem strip_case_total (m : Bool) (word : List Nat) :
    ∃ r, TurkishStemmer.strip_case m word = some r := by
  unfold TurkishStemmer.strip_case
  split
  · obtain ⟨⟨m3, w3⟩, e3⟩ := case_suffix_loop_total TurkishStemmer.case_suffixes word
    rw [e3]
    exact ⟨_, rfl⟩
  · exact ⟨_, rfl⟩

theorem stem_total (word : List Nat) : ∃ r, TurkishStemmer.stem word = some r := by
  unfold TurkishStemmer.stem
  split
  · exact ⟨_, rfl⟩
  · obtain ⟨⟨m1, w1⟩, e1⟩ := strip_plural_total word
    obtain ⟨⟨m2, w2⟩, e2⟩ := strip_possessive_total m1 w1
    rw [e1]
    simp only [e2]
    exact strip_case_total m2 w2

end Stemmer

/-! ### Posting map -/

section PostingMap

open HashMap

theorem mem_nodes (bs : List (Nat × List HashNode)) (n : HashNode) :
    n ∈ nodes bs ↔ ∃ p ∈ bs, n ∈ p.2 := by
  induction bs with
  | nil => simp [nodes]
  | cons p rest ih =>
    obtain ⟨i, c⟩ := p
    simp only [nodes, List.mem_append, ih, List.mem_cons]
    constructor
    · rintro (h | ⟨p, hp, hn⟩)
      · exact ⟨(i, c), Or.inl rfl, h⟩
      · exact ⟨p, Or.inr hp, hn⟩
    · rintro ⟨p, rfl | hp, hn⟩
      · exact Or.inl hn
      · exact Or.inr ⟨p, hp, hn⟩

theorem mem_bucket_get (bs : List (Nat × List HashNode)) (idx : Nat) (n : HashNode)
    (h : n ∈ bucket_get bs idx) : ∃ p ∈ bs, p.1 = idx ∧ n ∈ p.2 := by
  induction bs with
  | nil => simp [bucket_get] at h
  | cons p rest ih =>
    obtain ⟨i, c⟩ := p
    rw [bucket_get] at h
    by_cases hi : i = idx
    · rw [if_pos hi] at h
      exact ⟨(i, c), List.mem_cons_self _ _, hi, h⟩
    · rw [if_neg hi] at h
      obtain ⟨p, hp, h1, h2⟩ := ih h
      exact ⟨p, List.mem_cons_of_mem _ hp, h1, h2⟩

theorem bucket_get_of_mem (bs : List (Nat × List HashNode))
    (hs : (bs.map Prod.fst).Sorted (· < ·)) (p : Nat × List HashNode) (hp : p ∈ bs) :
    bucket_get bs p.1 = p.2 := by
  induction bs with
  | nil => simp at hp
  | cons q rest ih =>
    obtain ⟨i, c⟩ := q
    rw [List.map_cons, List.sorted_cons] at hs
    rw [bucket_get]
    rcases List.mem_cons.1 hp with rfl | hp'
    · rw [if_pos rfl]
    · have : i < p.1 := hs.1 p.1 (List.mem_map_of_mem _ hp')
      rw [if_neg (by omega)]
      exact ih hs.2 hp'

theorem filter_ne_of_lt (bs : List (Nat × List HashNode)) (idx : Nat)
    (h : ∀ i ∈ bs.map Prod.fst, idx < i) :
    bs.filter (fun p => decide (p.1 ≠ idx)) = bs := by
  rw [List.filter_eq_self]
  intro p hp
  have := h p.1 (List.mem_map_of_mem _ hp)
  simp only [ne_eq, decide_eq_true_eq]
  omega

theorem bucket_get_of_lt (bs : List (Nat × List HashNode)) (idx : Nat)
    (h : ∀ i ∈ bs.map Prod.fst, idx < i) : bucket_get bs idx = [] := by
  induction bs with
  | nil => rfl
  | cons q rest ih =>
    obtain ⟨i, c⟩ := q
    have hi : idx < i := h i (by simp)
    rw [bucket_get, if_neg (by omega)]
    exact ih (fun j hj => h j (by simp only [List.map_cons, List.mem_cons]; exact Or.inr hj))

theorem mem_fst_bucket_set (bs : List (Nat × List HashNode)) (idx : Nat) (chain : List HashNode)
    (i : Nat) (h : i ∈ (bucket_set bs idx chain).map Prod.fst) :
    i = idx ∨ i ∈ bs.map Prod.fst := by
  induction bs with
  | nil =>
    simp only [bucket_set, List.map_cons, List.map_nil, List.mem_singleton] at h
    exact Or.inl h
  | cons q rest ih =>
    obtain ⟨j, c⟩ := q
    rw [bucket_set] at h
    by_cases h1 : j = idx
    · rw [if_pos h1] at h
      simp only [List.map_cons, List.mem_cons] at h ⊢
      rcases h with h | h
      · exact Or.inl h
      · exact Or.inr (Or.inr h)
    · rw [if_neg h1] at h
      by_cases h2 : idx < j
      · rw [if_pos h2] at h
        simp only [List.map_cons, List.mem_cons] at h ⊢
        tauto
      · rw [if_neg h2] at h
        simp only [List.map_cons, List.mem_cons] at h ⊢
        rcases h with h | h
        · exact Or.inr (Or.inl h)
        · rcases ih h with h | h
          · exact Or.inl h
          · exact Or.inr (Or.inr h)

theorem bucket_set_sorted (bs : List (Nat × List HashNode)) (idx : Nat) (chain : List HashNode)
    (hs : (bs.map Prod.fst).Sorted (· < ·)) :
    ((bucket_set bs idx chain).map Prod.fst).Sorted (· < ·) := by
  induction bs with
  | nil => simp [bucket_set]
  | cons q rest ih =>
    obtain ⟨j, c⟩ := q
    rw [List.map_cons, List.sorted_cons] at hs
    rw [bucket_set]
    by_cases h1 : j = idx
    · rw [if_pos h1]
      rw [List.map_cons, List.sorted_cons]
      exact ⟨fun i hi => h1 ▸ hs.1 i hi, hs.2⟩
    · rw [if_neg h1]
      by_cases h2 : idx < j
      · rw [if_pos h2]
        simp only [List.map_cons, List.sorted_cons, List.mem_cons]
        refine ⟨?_, hs.1, hs.2⟩
        rintro i (rfl | hi)
        · exact h2
        · have := hs.1 i hi
          omega
      · rw [if_neg h2]
        rw [List.map_cons, List.sorted_cons]
        refine ⟨?_, ih hs.2⟩
        intro i hi
        rcases mem_fst_bucket_set rest idx chain i hi with rfl | h
        · show j < i
          omega
        · exact hs.1 i h

theorem nodes_bucket_set_perm (bs : List (Nat × List HashNode)) (idx : Nat)
    (chain : List HashNode) (hs : (bs.map Prod.fst).Sorted (· < ·)) :
    (nodes (bucket_set bs idx chain)).Perm
      (chain ++ nodes (bs.filter (fun p => decide (p.1 ≠ idx)))) := by
  induction bs with
  | nil => simp [bucket_set, nodes]
  | cons q rest ih =>
    obtain ⟨j, c⟩ := q
    rw [List.map_cons, List.sorted_cons] at hs
    rw [bucket_set]
    by_cases h1 : j = idx
    · subst h1
      rw [if_pos rfl, List.filter_cons_of_neg (by simp), filter_ne_of_lt rest j hs.1]
      simp [nodes]
    · rw [if_neg h1]
      by_cases h2 : idx < j
      · rw [if_pos h2, List.filter_cons_of_pos (by simpa using h1),
          filter_ne_of_lt rest idx (fun i hi => by have := hs.1 i hi; omega)]
        simp [nodes]
      · rw [if_neg h2, List.filter_cons_of_pos (by simpa using h1)]
        simp only [nodes]
        refine (List.Perm.append_left c (ih hs.2)).trans ?_
        rw [← List.append_assoc, ← List.append_assoc]
        exact List.Perm.append_right _ List.perm_append_comm

theorem nodes_split_perm (bs : List (Nat × List HashNode)) (idx : Nat)
    (hs : (bs.map Prod.fst).Sorted (· < ·)) :
    (nodes bs).Perm (bucket_get bs idx ++ nodes (bs.filter (fun p => decide (p.1 ≠ idx)))) := by
  induction bs with
  | nil => simp [bucket_get, nodes]
  | cons q rest ih =>
    obtain ⟨j, c⟩ := q
    rw [List.map_cons, List.sorted_cons] at hs
    rw [bucket_get]
    by_cases h1 : j = idx
    · subst h1
      rw [if_pos rfl, List.filter_cons_of_neg (by simp), filter_ne_of_lt rest j hs.1]
      simp [nodes]
    · rw [if_neg h1, List.filter_cons_of_pos (by simpa using h1)]
      simp only [nodes]
      refine (List.Perm.append_left c (ih hs.2)).trans ?_
      rw [← List.append_assoc, ← List.append_assoc]
      exact List.Perm.append_right _ List.perm_append_comm

theorem mem_bucket_set (bs : List (Nat × List HashNode)) (idx : Nat) (chain : List HashNode)
    (p : Nat × List HashNode) (h : p ∈ bucket_set bs idx chain) :
    p = (idx, chain) ∨ p ∈ bs := by
  induction bs with
  | nil =>
    simp only [bucket_set, List.mem_singleton] at h
    exact Or.inl h
  | cons q rest ih =>
    obtain ⟨j, c⟩ := q
    rw [bucket_set] at h
    by_cases h1 : j = idx
    · rw [if_pos h1] at h
      rcases List.mem_cons.1 h with h | h
      · exact Or.inl h
      · exact Or.inr (List.mem_cons_of_mem _ h)
    · rw [if_neg h1] at h
      by_cases h2 : idx < j
      · rw [if_pos h2] at h
        rcases List.mem_cons.1 h with h | h
        · exact Or.inl h
        · exact Or.inr h
      · rw [if_neg h2] at h
        rcases List.mem_cons.1 h with h | h
        · exact Or.inr (h ▸ List.mem_cons_self _ _)
        · rcases ih h with h | h
          · exact Or.inl h
          · exact Or.inr (List.mem_cons_of_mem _ h)

theorem chain_find_none (chain : List HashNode) (key : List Nat)
    (h : chain_find chain key = none) : ∀ n ∈ chain, strcmp n.key key ≠ 0 := by
  induction chain with
  | nil => simp
  | cons node rest ih =>
    rw [chain_find] at h
    by_cases h0 : strcmp node.key key = 0
    · rw [if_pos h0] at h
      cases h
    · rw [if_neg h0] at h
      intro n hn
      rcases List.mem_cons.1 hn with rfl | hn
      · exact h0
      · exact ih h n hn

theorem chain_find_some (chain : List HashNode) (key : List Nat) (node : HashNode)
    (h : chain_find chain key = some node) : node ∈ chain ∧ strcmp node.key key = 0 := by
  induction chain with
  | nil => simp [chain_find] at h
  | cons n rest ih =>
    rw [chain_find] at h
    by_cases h0 : strcmp n.key key = 0
    · rw [if_pos h0] at h
      cases h
      exact ⟨List.mem_cons_self _ _, h0⟩
    · rw [if_neg h0] at h
      exact ⟨List.mem_cons_of_mem _ (ih h).1, (ih h).2⟩

theorem chain_store_keys (chain : List HashNode) (key ids : List Nat) :
    (chain_store chain key ids).map HashNode.key = chain.map HashNode.key := by
  induction chain with
  | nil => rfl
  | cons n rest ih =>
    rw [chain_store]
    split
    · rfl
    · simp [ih]

theorem chain_store_length (chain : List HashNode) (key ids : List Nat) :
    (chain_store chain key ids).length = chain.length := by
  have := congrArg List.length (chain_store_keys chain key ids)
  simpa using this

theorem mem_chain_store (chain : List HashNode) (key ids : List Nat) (n : HashNode)
    (h : n ∈ chain_store chain key ids) : n ∈ chain ∨ n.doc_ids = ids := by
  induction chain with
  | nil => simp [chain_store] at h
  | cons m rest ih =>
    rw [chain_store] at h
    split at h
    · rcases List.mem_cons.1 h with rfl | h
      · exact Or.inr rfl
      · exact Or.inl (List.mem_cons_of_mem _ h)
    · rcases List.mem_cons.1 h with rfl | h
      · exact Or.inl (List.mem_cons_self _ _)
      · rcases ih h with h | h
        · exact Or.inl (List.mem_cons_of_mem _ h)
        · exact Or.inr h

theorem nodes_map_doc_ids (f : List Nat → List Nat) (bs : List (Nat × List HashNode)) :
    nodes (map_doc_ids f bs) = (nodes bs).map (fun node => ⟨node.key, f node.doc_ids⟩) := by
  induction bs with
  | nil => rfl
  | cons q rest ih =>
    obtain ⟨j, c⟩ := q
    simp [map_doc_ids, nodes, ih]

theorem map_doc_ids_fst (f : List Nat → List Nat) (bs : List (Nat × List HashNode)) :
    (map_doc_ids f bs).map Prod.fst = bs.map Prod.fst := by
  induction bs with
  | nil => rfl
  | cons q rest ih =>
    obtain ⟨j, c⟩ := q
    simp [map_doc_ids, ih]

theorem hash_bucket_count (m m' : HashMap) (h : m'.bucket_count = m.bucket_count)
    (key : List Nat) : m'.hash key = m.hash key := by
  unfold HashMap.hash
  rw [h]

theorem get_or_create_found (m : HashMap) (key : List Nat) (node : HashNode)
    (h : chain_find (bucket_get m.buckets (m.hash key)) key = some node) :
    get_or_create m key = (m, node.doc_ids) := by
  unfold get_or_create
  rw [h]

theorem get_or_create_new (m : HashMap) (key : List Nat)
    (h : chain_find (bucket_get m.buckets (m.hash key)) key = none) :
    get_or_create m key =
      (⟨bucket_set m.buckets (m.hash key) (⟨key, []⟩ :: bucket_get m.buckets (m.hash key)),
        m.bucket_count, m.item_count + 1⟩, []) := by
  unfold get_or_create
  rw [h]

theorem nodes_insert_perm (bs : List (Nat × List HashNode)) (idx : Nat) (node : HashNode)
    (hs : (bs.map Prod.fst).Sorted (· < ·)) :
    (nodes (bucket_set bs idx (node :: bucket_get bs idx))).Perm (node :: nodes bs) := by
  refine (nodes_bucket_set_perm bs idx _ hs).trans ?_
  rw [List.cons_append]
  exact List.Perm.cons _ (nodes_split_perm bs idx hs).symm

theorem key_absent_of_chain_find_none (m : HashMap) (key : List Nat) (hwf : m.well_formed)
    (h : chain_find (bucket_get m.buckets (m.hash key)) key = none) :
    key ∉ (nodes m.buckets).map HashNode.key := by
  intro hmem
  obtain ⟨n, hn, hk⟩ := List.mem_map.1 hmem
  obtain ⟨p, hp, hnp⟩ := (mem_nodes _ _).1 hn
  have hplace := hwf.2.1 p hp n hnp
  have hget := bucket_get_of_mem m.buckets hwf.1 p hp
  rw [hk] at hplace
  rw [← hplace] at hget
  have := chain_find_none _ _ h n (hget ▸ hnp)
  rw [hk, strcmp_self] at this
  exact this rfl

theorem get_or_create_well_formed (m : HashMap) (key : List Nat) (hwf : m.well_formed)
    (hkey : ∀ c ∈ key, 0 < c) : (get_or_create m key).1.well_formed := by
  cases h : chain_find (bucket_get m.buckets (m.hash key)) key with
  | some node =>
    rw [get_or_create_found m key node h]
    exact hwf
  | none =>
    rw [get_or_create_new m key h]
    have hperm := nodes_insert_perm m.buckets (m.hash key) ⟨key, []⟩ hwf.1
    refine ⟨bucket_set_sorted _ _ _ hwf.1, ?_, ?_, ?_, ?_⟩
    · intro p hp n hn
      show m.hash n.key = p.1
      rcases mem_bucket_set _ _ _ _ hp with rfl | hp'
      · rcases List.mem_cons.1 hn with rfl | hn'
        · rfl
        · obtain ⟨q, hq, hq1, hq2⟩ := mem_bucket_get _ _ _ hn'
          rw [← hq1]
          exact hwf.2.1 q hq n hq2
      · exact hwf.2.1 p hp' n hn
    · have hk := (hperm.map HashNode.key).nodup_iff
      rw [hk, List.map_cons, List.nodup_cons]
      exact ⟨key_absent_of_chain_find_none m key hwf h, hwf.2.2.1⟩
    · intro n hn
      rcases List.mem_cons.1 (hperm.subset hn) with rfl | hn'
      · exact hkey
      · exact hwf.2.2.2.1 n hn'
    · show (nodes _).length = m.item_count + 1
      rw [hperm.length_eq, List.length_cons, hwf.2.2.2.2]

theorem get_or_create_list (m : HashMap) (key : List Nat) :
    (get_or_create m key).2 = [] ∨
      ∃ n ∈ nodes m.buckets, n.doc_ids = (get_or_create m key).2 := by
  cases h : chain_find (bucket_get m.buckets (m.hash key)) key with
  | some node =>
    rw [get_or_create_found m key node h]
    right
    obtain ⟨p, hp, _, hn⟩ := mem_bucket_get _ _ _ (chain_find_some _ _ _ h).1
    exact ⟨node, (mem_nodes _ _).2 ⟨p, hp, hn⟩, rfl⟩
  | none =>
    rw [get_or_create_new m key h]
    exact Or.inl rfl

theorem get_or_create_lists_nodup (m : HashMap) (key : List Nat) (hwf : m.well_formed)
    (hl : m.lists_nodup) :
    (get_or_create m key).1.lists_nodup ∧ (get_or_create m key).2.Nodup := by
  constructor
  · cases h : chain_find (bucket_get m.buckets (m.hash key)) key with
    | some node =>
      rw [get_or_create_found m key node h]
      exact hl
    | none =>
      rw [get_or_create_new m key h]
      intro n hn
      have hperm := nodes_insert_perm m.buckets (m.hash key) ⟨key, []⟩ hwf.1
      rcases List.mem_cons.1 (hperm.subset hn) with rfl | hn'
      · exact List.nodup_nil
      · exact hl n hn'
  · rcases get_or_create_list m key with h | ⟨n, hn, h⟩
    · rw [h]
      exact List.nodup_nil
    · rw [← h]
      exact hl n hn

theorem store_keys_perm (m : HashMap) (key ids : List Nat)
    (hs : (m.buckets.map Prod.fst).Sorted (· < ·)) :
    ((nodes (store m key ids).buckets).map HashNode.key).Perm
      ((nodes m.buckets).map HashNode.key) := by
  unfold store
  have h1 := (nodes_bucket_set_perm m.buckets (m.hash key)
    (chain_store (bucket_get m.buckets (m.hash key)) key ids) hs).map HashNode.key
  have h2 := (nodes_split_perm m.buckets (m.hash key) hs).map HashNode.key
  rw [List.map_append, chain_store_keys, ← List.map_append] at h1
  exact h1.trans h2.symm

theorem store_well_formed (m : HashMap) (key ids : List Nat) (hwf : m.well_formed) :
    (store m key ids).well_formed := by
  have hk := store_keys_perm m key ids hwf.1
  refine ⟨bucket_set_sorted _ _ _ hwf.1, ?_, ?_, ?_, ?_⟩
  · intro p hp n hn
    show m.hash n.key = p.1
    rcases mem_bucket_set _ _ _ _ hp with rfl | hp'
    · have hmem : n.key ∈ (chain_store (bucket_get m.buckets (m.hash key)) key ids).map
          HashNode.key := List.mem_map_of_mem _ hn
      rw [chain_store_keys] at hmem
      obtain ⟨n', hn', hkey⟩ := List.mem_map.1 hmem
      obtain ⟨q, hq, hq1, hq2⟩ := mem_bucket_get _ _ _ hn'
      rw [← hkey]
      show m.hash n'.key = m.hash key
      rw [← hq1]
      exact hwf.2.1 q hq n' hq2
    · exact hwf.2.1 p hp' n hn
  · exact hk.nodup_iff.2 hwf.2.2.1
  · intro n hn
    have hmem : n.key ∈ (nodes m.buckets).map HashNode.key :=
      hk.subset (List.mem_map_of_mem _ hn)
    obtain ⟨n', hn', hkey⟩ := List.mem_map.1 hmem
    rw [← hkey]
    exact hwf.2.2.2.1 n' hn'
  · have := hk.length_eq
    simp only [List.length_map] at this
    show (nodes (store m key ids).buckets).length = m.item_count
    rw [this, hwf.2.2.2.2]

theorem store_lists_nodup (m : HashMap) (key ids : List Nat) (hwf : m.well_formed)
    (hl : m.lists_nodup) (hids : ids.Nodup) : (store m key ids).lists_nodup := by
  intro n hn
  have hperm := nodes_bucket_set_perm m.buckets (m.hash key)
    (chain_store (bucket_get m.buckets (m.hash key)) key ids) hwf.1
  rcases List.mem_append.1 (hperm.subset hn) with h | h
  · rcases mem_chain_store _ _ _ _ h with h | h
    · obtain ⟨q, hq, _, hq2⟩ := mem_bucket_get _ _ _ h
      exact hl n ((mem_nodes _ _).2 ⟨q, hq, hq2⟩)
    · rw [h]
      exact hids
  · obtain ⟨p, hp, hnp⟩ := (mem_nodes _ _).1 h
    exact hl n ((mem_nodes _ _).2 ⟨p, (List.mem_filter.1 hp).1, hnp⟩)

theorem create_well_formed (n : Nat) : (HashMap.create n).well_formed ∧
    (HashMap.create n).lists_nodup := by
  refine ⟨⟨?_, ?_, ?_, ?_, ?_⟩, ?_⟩ <;> simp [HashMap.create, nodes, HashMap.lists_nodup]

end PostingMap

/-! ### Index builder -/

section Builder

open HashMap Indexer

theorem count_token_total (docs : List Document) (h : docs ≠ []) :
    ∃ docs', count_token docs = some docs' ∧ docs' ≠ [] := by
  induction docs with
  | nil => exact absurd rfl h
  | cons d rest ih =>
    cases rest with
    | nil => exact ⟨_, rfl, by simp⟩
    | cons e rest' =>
      obtain ⟨docs', h1, _⟩ := ih (by simp)
      rw [count_token, h1]
      exact ⟨_, rfl, by simp⟩

theorem index_term_total (ix : Indexer) (doc_id : Nat) (token : List Nat)
    (h : ix.documents ≠ []) :
    ∃ ix', index_term ix doc_id token = some ix' ∧ ix'.documents ≠ [] ∧
      ix'.options = ix.options := by
  obtain ⟨docs', h1, h2⟩ := count_token_total ix.documents h
  unfold index_term
  rw [h1]
  exact ⟨_, rfl, h2, rfl⟩

theorem index_term_inv (ix ix' : Indexer) (doc_id : Nat) (token : List Nat)
    (h : index_term ix doc_id token = some ix') (hwf : ix.inverted_index.well_formed)
    (hl : ix.inverted_index.lists_nodup) (htok : ∀ c ∈ token, 0 < c) :
    ix'.inverted_index.well_formed ∧ ix'.inverted_index.lists_nodup := by
  unfold index_term at h
  cases hc : count_token ix.documents with
  | none =>
    rw [hc] at h
    cases h
  | some docs =>
    rw [hc] at h
    simp only [Option.some.injEq] at h
    subst h
    have hwf1 := get_or_create_well_formed ix.inverted_index token hwf htok
    have hl1 := get_or_create_lists_nodup ix.inverted_index token hwf hl
    show (if _ then _ else _ : HashMap).well_formed ∧ (if _ then _ else _ : HashMap).lists_nodup
    split
    · exact ⟨hwf1, hl1.1⟩
    · next hany =>
      have hnot : doc_id ∉ (get_or_create ix.inverted_index token).2 := by
        intro hmem
        apply hany
        rw [List.any_eq_true]
        exact ⟨doc_id, hmem, by simp⟩
      have hnd : ((get_or_create ix.inverted_index token).2 ++ [doc_id]).Nodup := by
        rw [List.nodup_append]
        refine ⟨hl1.2, List.nodup_singleton _, ?_⟩
        intro a ha hb
        rw [List.mem_singleton] at hb
        exact hnot (hb ▸ ha)
      exact ⟨store_well_formed _ _ _ hwf1, store_lists_nodup _ _ _ hwf1 hl1.1 hnd⟩

theorem to_lowercase_loop_pos (fuel : Nat) : ∀ (str : List Nat), (∀ c ∈ str, 0 < c) →
    ∀ c ∈ to_lowercase_loop fuel str, 0 < c := by
  induction fuel with
  | zero =>
    intro str h c hc
    rw [to_lowercase_loop] at hc
    exact h c hc
  | succ n ih =>
    intro str h c hc
    cases str with
    | nil => simp [to_lowercase_loop] at hc
    | cons x rest =>
      have hx : 0 < x := h x (List.mem_cons_self _ _)
      have hrest : ∀ d ∈ rest, 0 < d := fun d hd => h d (List.mem_cons_of_mem _ hd)
      rw [to_lowercase_loop] at hc
      split at hc
      · rcases List.mem_cons.1 hc with rfl | hc'
        · norm_num
        · refine ih (0xB1 :: rest.tail) ?_ c hc'
          intro d hd
          rcases List.mem_cons.1 hd with rfl | hd'
          · norm_num
          · exact hrest d (List.mem_of_mem_tail hd')
      · split at hc
        · rcases List.mem_cons.1 hc with rfl | hc'
          · omega
          · exact ih rest hrest c hc'
        · split at hc
          · rcases List.mem_cons.1 hc with rfl | hc'
            · omega
            · exact ih rest hrest c hc'
          · rcases List.mem_cons.1 hc with rfl | hc'
            · exact hx
            · exact ih rest hrest c hc'

theorem to_lowercase_pos (str : List Nat) (h : ∀ c ∈ str, 0 < c) :
    ∀ c ∈ to_lowercase str, 0 < c :=
  to_lowercase_loop_pos str.length str h

theorem remove_suffix_subset (word suffix r : List Nat)
    (h : TurkishStemmer.remove_suffix word suffix = some r) : ∀ c ∈ r, c ∈ word := by
  unfold TurkishStemmer.remove_suffix at h
  split at h
  · simp only [Option.some.injEq] at h
    subst h
    intro c hc
    exact List.mem_of_mem_take hc
  · cases h

theorem case_suffix_loop_subset (suffixes : List (List Nat)) (word : List Nat) (m : Bool)
    (r : List Nat) (h : TurkishStemmer.case_suffix_loop suffixes word = some (m, r)) :
    ∀ c ∈ r, c ∈ word := by
  induction suffixes with
  | nil =>
    simp only [TurkishStemmer.case_suffix_loop, Option.some.injEq, Prod.mk.injEq] at h
    rw [← h.2]
    exact fun c hc => hc
  | cons s rest ih =>
    rw [TurkishStemmer.case_suffix_loop] at h
    split at h
    · cases hr : TurkishStemmer.remove_suffix word s with
      | none =>
        rw [hr] at h
        cases h
      | some w =>
        rw [hr] at h
        simp only [Option.some.injEq, Prod.mk.injEq] at h
        rw [← h.2]
        exact remove_suffix_subset word s w hr
    · exact ih h

theorem strip_plural_subset (word : List Nat) (m : Bool) (r : List Nat)
    (h : TurkishStemmer.strip_plural word = some (m, r)) : ∀ c ∈ r, c ∈ word := by
  unfold TurkishStemmer.strip_plural at h
  split at h
  · cases hr : TurkishStemmer.remove_suffix word
        (if TurkishStemmer.ends_with word [108, 97, 114] = true then [108, 97, 114]
          else [108, 101, 114]) with
    | none =>
      rw [hr] at h
      cases h
    | some w =>
      rw [hr] at h
      simp only [Option.some.injEq, Prod.mk.injEq] at h
      rw [← h.2]
      exact remove_suffix_subset word _ w hr
  · simp only [Option.some.injEq, Prod.mk.injEq] at h
    rw [← h.2]
    exact fun c hc => hc

theorem strip_possessive_subset (m0 : Bool) (word : List Nat) (m : Bool) (r : List Nat)
    (h : TurkishStemmer.strip_possessive m0 word = some (m, r)) : ∀ c ∈ r, c ∈ word := by
  unfold TurkishStemmer.strip_possessive at h
  split at h
  · split at h
    · cases hr : TurkishStemmer.remove_suffix word [105, 109] with
      | none =>
        rw [hr] at h
        cases h
      | some w =>
        rw [hr] at h
        simp only [Option.some.injEq, Prod.mk.injEq] at h
        rw [← h.2]
        exact remove_suffix_subset word _ w hr
    · simp only [Option.some.injEq, Prod.mk.injEq] at h
      rw [← h.2]
      exact fun c hc => hc
  · simp only [Option.some.injEq, Prod.mk.injEq] at h
    rw [← h.2]
    exact fun c hc => hc

theorem strip_case_subset (m0 : Bool) (word : List Nat) (m : Bool) (r : List Nat)
    (h : TurkishStemmer.strip_case m0 word = some (m, r)) : ∀ c ∈ r, c ∈ word := by
  unfold TurkishStemmer.strip_case at h
  split at h
  · cases hr : TurkishStemmer.case_suffix_loop TurkishStemmer.case_suffixes word with
    | none =>
      rw [hr] at h
      cases h
    | some q =>
      obtain ⟨m3, w3⟩ := q
      rw [hr] at h
      simp only [Option.some.injEq, Prod.mk.injEq] at h
      rw [← h.2]
      exact case_suffix_loop_subset _ word m3 w3 hr
  · simp only [Option.some.injEq, Prod.mk.injEq] at h
    rw [← h.2]
    exact fun c hc => hc

theorem stem_subset (word : List Nat) (m : Bool) (r : List Nat)
    (h : TurkishStemmer.stem word = some (m, r)) : ∀ c ∈ r, c ∈ word := by
  unfold TurkishStemmer.stem at h
  split at h
  · simp only [Option.some.injEq, Prod.mk.injEq] at h
    rw [← h.2]
    exact fun c hc => hc
  · cases h1 : TurkishStemmer.strip_plural word with
    | none =>
      rw [h1] at h
      cases h
    | some q1 =>
      obtain ⟨m1, w1⟩ := q1
      rw [h1] at h
      cases h2 : TurkishStemmer.strip_possessive m1 w1 with
      | none =>
        simp only [h2] at h
        cases h
      | some q2 =>
        obtain ⟨m2, w2⟩ := q2
        simp only [h2] at h
        intro c hc
        exact strip_plural_subset word m1 w1 h1 c
          (strip_possessive_subset m1 w1 m2 w2 h2 c (strip_case_subset m2 w2 m r h c hc))

theorem token_in_text_total (ix : Indexer) (doc_id : Nat) (token : List Nat)
    (h : ix.documents ≠ []) :
    ∃ ix', token_in_text ix doc_id token = some ix' ∧ ix'.documents ≠ [] ∧
      ix'.options = ix.options := by
  unfold token_in_text
  cases hs : ix.options.use_stemming
  · simp only [Bool.false_eq_true, if_false]
    split
    · exact index_term_total ix doc_id _ h
    · exact ⟨ix, rfl, h, rfl⟩
  · obtain ⟨⟨m, r⟩, hr⟩ := stem_total (to_lowercase token)
    simp only [if_true, hr]
    split
    · exact index_term_total ix doc_id _ h
    · exact ⟨ix, rfl, h, rfl⟩

theorem token_in_text_inv (ix ix' : Indexer) (doc_id : Nat) (token : List Nat)
    (h : token_in_text ix doc_id token = some ix') (hwf : ix.inverted_index.well_formed)
    (hl : ix.inverted_index.lists_nodup) (htok : ∀ c ∈ token, 0 < c) :
    ix'.inverted_index.well_formed ∧ ix'.inverted_index.lists_nodup := by
  unfold token_in_text at h
  cases hs : ix.options.use_stemming
  · simp only [hs, Bool.false_eq_true, if_false] at h
    split at h
    · exact index_term_inv ix ix' doc_id _ h hwf hl (to_lowercase_pos token htok)
    · simp only [Option.some.injEq] at h
      subst h
      exact ⟨hwf, hl⟩
  · obtain ⟨⟨m, r⟩, hr⟩ := stem_total (to_lowercase token)
    simp only [hs, if_true, hr] at h
    split at h
    · exact index_term_inv ix ix' doc_id _ h hwf hl
        (fun c hc => to_lowercase_pos token htok c (stem_subset _ m r hr c hc))
    · simp only [Option.some.injEq] at h
      subst h
      exact ⟨hwf, hl⟩

theorem token_at_end_total (ix : Indexer) (doc_id : Nat) (token : List Nat)
    (h : ix.documents ≠ []) :
    ∃ ix', token_at_end ix doc_id token = some ix' ∧ ix'.documents ≠ [] ∧
      ix'.options = ix.options := by
  unfold token_at_end
  split
  · exact index_term_total ix doc_id _ h
  · exact ⟨ix, rfl, h, rfl⟩

theorem token_at_end_inv (ix ix' : Indexer) (doc_id : Nat) (token : List Nat)
    (h : token_at_end ix doc_id token = some ix') (hwf : ix.inverted_index.well_formed)
    (hl : ix.inverted_index.lists_nodup) (htok : ∀ c ∈ token, 0 < c) :
    ix'.inverted_index.well_formed ∧ ix'.inverted_index.lists_nodup := by
  unfold token_at_end at h
  split at h
  · exact index_term_inv ix ix' doc_id _ h hwf hl (to_lowercase_pos token htok)
  · simp only [Option.some.injEq] at h
    subst h
    exact ⟨hwf, hl⟩

theorem token_byte_pos (c : Nat) (h : isalnum c = true ∨ c = 95 ∨ 128 ≤ c) : 0 < c := by
  rcases h with h | h | h
  · simp only [isalnum, isalpha, isupper, islower, isdigit, Bool.or_eq_true, Bool.and_eq_true,
      decide_eq_true_eq] at h
    omega
  · omega
  · omega

theorem token_buffer_pos (token : List Nat) (in_token : Bool) (c : Nat)
    (htok : ∀ d ∈ token, 0 < d) (hc : 0 < c) :
    ∀ d ∈ (if (if in_token = true then token else []).length < 255 then
        (if in_token = true then token else []) ++ [c]
      else (if in_token = true then token else [])), 0 < d := by
  have hbase : ∀ d ∈ (if in_token = true then token else []), 0 < d := by
    intro d hd
    cases in_token
    · simp at hd
    · simpa using htok d (by simpa using hd)
  intro d hd
  by_cases hlen : (if in_token = true then token else []).length < 255
  · rw [if_pos hlen] at hd
    rcases List.mem_append.1 hd with hd | hd
    · exact hbase d hd
    · rw [List.mem_singleton] at hd
      omega
  · rw [if_neg hlen] at hd
    exact hbase d hd

theorem tokenize_loop_total (text : List Nat) : ∀ (ix : Indexer) (doc_id : Nat)
    (token : List Nat) (in_token : Bool), ix.documents ≠ [] →
    ∃ ix', tokenize_loop text ix doc_id token in_token = some ix' ∧ ix'.documents ≠ [] ∧
      ix'.options = ix.options := by
  induction text with
  | nil =>
    intro ix doc_id token in_token h
    rw [tokenize_loop]
    split
    · exact token_at_end_total ix doc_id token h
    · exact ⟨ix, rfl, h, rfl⟩
  | cons c rest ih =>
    intro ix doc_id token in_token h
    rw [tokenize_loop]
    by_cases hc : isalnum c = true ∨ c = 95 ∨ 128 ≤ c
    · rw [if_pos hc]
      exact ih ix doc_id _ true h
    · rw [if_neg hc]
      by_cases hcond : in_token = true ∧ 0 < token.length
      · obtain ⟨ix1, h1, h2, h3⟩ := token_in_text_total ix doc_id token h
        rw [if_pos hcond, h1]
        obtain ⟨ix2, h4, h5, h6⟩ := ih ix1 doc_id [] false h2
        exact ⟨ix2, h4, h5, h6.trans h3⟩
      · rw [if_neg hcond]
        exact ih ix doc_id [] false h

theorem tokenize_loop_inv (text : List Nat) : ∀ (ix ix' : Indexer) (doc_id : Nat)
    (token : List Nat) (in_token : Bool),
    tokenize_loop text ix doc_id token in_token = some ix' →
    ix.inverted_index.well_formed → ix.inverted_index.lists_nodup → (∀ c ∈ token, 0 < c) →
    ix'.inverted_index.well_formed ∧ ix'.inverted_index.lists_nodup := by
  induction text with
  | nil =>
    intro ix ix' doc_id token in_token h hwf hl htok
    rw [tokenize_loop] at h
    split at h
    · exact token_at_end_inv ix ix' doc_id token h hwf hl htok
    · simp only [Option.some.injEq] at h
      subst h
      exact ⟨hwf, hl⟩
  | cons c rest ih =>
    intro ix ix' doc_id token in_token h hwf hl htok
    rw [tokenize_loop] at h
    by_cases hc : isalnum c = true ∨ c = 95 ∨ 128 ≤ c
    · rw [if_pos hc] at h
      exact ih ix ix' doc_id _ true h hwf hl
        (token_buffer_pos token in_token c htok (token_byte_pos c hc))
    · rw [if_neg hc] at h
      by_cases hcond : in_token = true ∧ 0 < token.length
      · rw [if_pos hcond] at h
        cases h1 : token_in_text ix doc_id token with
        | none =>
          rw [h1] at h
          cases h
        | some ix1 =>
          rw [h1] at h
          have := token_in_text_inv ix ix1 doc_id token h1 hwf hl htok
          exact ih ix1 ix' doc_id [] false h this.1 this.2 (by simp)
      · rw [if_neg hcond] at h
        exact ih ix ix' doc_id [] false h hwf hl (by simp)

theorem add_document_fits (ix ix' : Indexer) (doc_id : Nat) (url title content : List Nat)
    (h : add_document ix doc_id url title content = some ix') :
    url.length < 2 ^ 16 ∧ title.length < 2 ^ 16 := by
  by_contra hc
  unfold add_document at h
  rw [if_neg hc] at h
  cases h

theorem add_document_unfold (ix : Indexer) (doc_id : Nat) (url title content : List Nat)
    (hc : url.length < 2 ^ 16 ∧ title.length < 2 ^ 16) :
    add_document ix doc_id url title content =
      match tokenize_and_index
          { ix with
            documents := ix.documents ++
              [{ doc_id := doc_id
                 url := url
                 url_length := url.length % 2 ^ 16
                 title := title
                 title_length := title.length % 2 ^ 16
                 content_length := content.length % 2 ^ 32
                 token_count := 0
                 unique_terms := 0 }] }
          doc_id content with
      | none => none
      | some ix1 =>
        match tokenize_and_index ix1 doc_id title with
        | none => none
        | some ix2 =>
          some
            { ix2 with
              metadata :=
                { ix2.metadata with
                  total_documents := (ix2.metadata.total_documents + 1) % 2 ^ 32 } } := by
  unfold add_document
  rw [if_pos hc]

theorem add_document_total (ix : Indexer) (doc_id : Nat) (url title content : List Nat)
    (hc : url.length < 2 ^ 16 ∧ title.length < 2 ^ 16) :
    ∃ ix', add_document ix doc_id url title content = some ix' := by
  rw [add_document_unfold ix doc_id url title content hc]
  unfold tokenize_and_index
  obtain ⟨ix1, h1, h2, _⟩ := tokenize_loop_total content
    { ix with
      documents := ix.documents ++
        [{ doc_id := doc_id
           url := url
           url_length := url.length % 2 ^ 16
           title := title
           title_length := title.length % 2 ^ 16
           content_length := content.length % 2 ^ 32
           token_count := 0
           unique_terms := 0 }] } doc_id [] false (by simp)
  obtain ⟨ix2, h3, _, _⟩ := tokenize_loop_total title ix1 doc_id [] false h2
  simp only [h1, h3]
  exact ⟨_, rfl⟩

theorem add_document_inv (ix ix' : Indexer) (doc_id : Nat) (url title content : List Nat)
    (h : add_document ix doc_id url title content = some ix')
    (hwf : ix.inverted_index.well_formed) (hl : ix.inverted_index.lists_nodup) :
    ix'.inverted_index.well_formed ∧ ix'.inverted_index.lists_nodup := by
  rw [add_document_unfold _ _ _ _ _ (add_document_fits _ _ _ _ _ _ h)] at h
  unfold tokenize_and_index at h
  split at h
  · cases h
  · next ix1 h1 =>
    split at h
    · cases h
    · next ix2 h2 =>
      simp only [Option.some.injEq] at h
      subst h
      have i1 := tokenize_loop_inv content _ ix1 doc_id [] false h1 hwf hl (by simp)
      exact tokenize_loop_inv title ix1 ix2 doc_id [] false h2 i1.1 i1.2 (by simp)

theorem add_documents_total (records : List (Nat × List Nat × List Nat × List Nat))
    (hfit : ∀ r ∈ records, r.2.1.length < 2 ^ 16 ∧ r.2.2.1.length < 2 ^ 16) :
    ∀ ix : Indexer, ∃ ix', add_documents ix records = some ix' := by
  induction records with
  | nil => exact fun ix => ⟨ix, rfl⟩
  | cons r rest ih =>
    intro ix
    obtain ⟨doc_id, url, title, content⟩ := r
    obtain ⟨ix1, h1⟩ := add_document_total ix doc_id url title content
      (hfit _ (List.mem_cons_self _ _))
    rw [add_documents, h1]
    exact ih (fun r hr => hfit r (List.mem_cons_of_mem _ hr)) ix1

theorem add_documents_fit (records : List (Nat × List Nat × List Nat × List Nat)) :
    ∀ ix ix' : Indexer, add_documents ix records = some ix' →
    ∀ r ∈ records, r.2.1.length < 2 ^ 16 ∧ r.2.2.1.length < 2 ^ 16 := by
  induction records with
  | nil =>
    intro ix ix' _ r hr
    cases hr
  | cons r0 rest ih =>
    intro ix ix' h r hr
    obtain ⟨doc_id, url, title, content⟩ := r0
    rw [add_documents] at h
    cases h1 : add_document ix doc_id url title content with
    | none =>
      rw [h1] at h
      cases h
    | some ix1 =>
      rw [h1] at h
      rcases List.mem_cons.1 hr with hr | hr
      · rw [hr]
        exact add_document_fits ix ix1 doc_id url title content h1
      · exact ih ix1 ix' h r hr

theorem add_documents_inv (records : List (Nat × List Nat × List Nat × List Nat)) :
    ∀ ix ix' : Indexer, add_documents ix records = some ix' →
    ix.inverted_index.well_formed → ix.inverted_index.lists_nodup →
    ix'.inverted_index.well_formed ∧ ix'.inverted_index.lists_nodup := by
  induction records with
  | nil =>
    intro ix ix' h hwf hl
    simp only [add_documents, Option.some.injEq] at h
    subst h
    exact ⟨hwf, hl⟩
  | cons r rest ih =>
    intro ix ix' h hwf hl
    obtain ⟨doc_id, url, title, content⟩ := r
    rw [add_documents] at h
    cases h1 : add_document ix doc_id url title content with
    | none =>
      simp only [h1] at h
      cases h
    | some ix1 =>
      simp only [h1] at h
      have := add_document_inv ix ix1 doc_id url title content h1 hwf hl
      exact ih ix1 ix' h this.1 this.2

theorem compare_uint32_le (a b : Nat) : compare_uint32 a b ≤ 0 ↔ a ≤ b := by
  unfold compare_uint32
  by_cases h1 : a > b
  · have h2 : ¬ a < b := by omega
    rw [if_pos h1, if_neg h2]
    constructor
    · intro h
      norm_num at h
    · intro h
      omega
  · by_cases h2 : a < b
    · rw [if_neg h1, if_pos h2]
      constructor
      · intro _
        omega
      · intro _
        norm_num
    · rw [if_neg h1, if_neg h2]
      constructor
      · intro _
        omega
      · intro _
        norm_num

theorem qsort_uint32_sorted (l : List Nat) (h : l.Nodup) :
    (qsort compare_uint32 l).Sorted (· < ·) ∧ (qsort compare_uint32 l).Perm l := by
  haveI : IsTotal Nat (fun a b => compare_uint32 a b ≤ 0) :=
    ⟨fun a b => by
      rcases Nat.le_total a b with h | h
      · exact Or.inl ((compare_uint32_le a b).2 h)
      · exact Or.inr ((compare_uint32_le b a).2 h)⟩
  haveI : IsTrans Nat (fun a b => compare_uint32 a b ≤ 0) :=
    ⟨fun a b c hab hbc =>
      (compare_uint32_le a c).2
        (Nat.le_trans ((compare_uint32_le a b).1 hab) ((compare_uint32_le b c).1 hbc))⟩
  have hperm : (qsort compare_uint32 l).Perm l := List.perm_insertionSort _ l
  have hs : (qsort compare_uint32 l).Sorted (fun a b => compare_uint32 a b ≤ 0) :=
    List.sorted_insertionSort _ l
  have hle : (qsort compare_uint32 l).Sorted (· ≤ ·) :=
    List.Pairwise.imp (fun {a b} hab => (compare_uint32_le a b).1 hab) hs
  exact ⟨List.Sorted.lt_of_le hle (hperm.nodup_iff.2 h), hperm⟩

theorem qsort_terms_sorted (l : List HashNode) :
    (qsort compare_terms l).Sorted (fun a b => strcmp a.key b.key ≤ 0) ∧
      (qsort compare_terms l).Perm l := by
  haveI : IsTotal HashNode (fun a b => compare_terms a b ≤ 0) :=
    ⟨fun a b => by
      have := strcmp_antisymm a.key b.key
      unfold compare_terms
      omega⟩
  haveI : IsTrans HashNode (fun a b => compare_terms a b ≤ 0) :=
    ⟨fun a b c hab hbc => strcmp_le_trans a.key b.key c.key hab hbc⟩
  have hs : (qsort compare_terms l).Sorted (fun a b => compare_terms a b ≤ 0) :=
    List.sorted_insertionSort _ l
  exact ⟨List.Pairwise.imp (fun {a b} hab => hab) hs, List.perm_insertionSort _ l⟩

theorem sort_index_nodes (ix : Indexer) :
    nodes (sort_index ix).inverted_index.buckets =
      (nodes ix.inverted_index.buckets).map (fun node =>
        ⟨node.key, if 0 < node.doc_ids.length then qsort compare_uint32 node.doc_ids
          else node.doc_ids⟩) := by
  unfold sort_index
  exact nodes_map_doc_ids _ _

theorem sort_index_lists_sorted (ix : Indexer) (hl : ix.inverted_index.lists_nodup) :
    ∀ node ∈ nodes (sort_index ix).inverted_index.buckets,
      node.doc_ids.Sorted (· < ·) ∧ node.doc_ids.Nodup := by
  intro node hnode
  rw [sort_index_nodes] at hnode
  obtain ⟨n, hn, rfl⟩ := List.mem_map.1 hnode
  have hnd := hl n hn
  have hs : (if 0 < n.doc_ids.length then qsort compare_uint32 n.doc_ids
      else n.doc_ids).Sorted (· < ·) := by
    split
    · exact (qsort_uint32_sorted n.doc_ids hnd).1
    · next hlen =>
      have : n.doc_ids = [] := List.length_eq_zero.1 (by omega)
      rw [this]
      exact List.sorted_nil
  exact ⟨hs, List.Sorted.nodup hs⟩

theorem sort_index_keys (ix : Indexer) :
    (nodes (sort_index ix).inverted_index.buckets).map HashNode.key =
      (nodes ix.inverted_index.buckets).map HashNode.key := by
  rw [sort_index_nodes, List.map_map]
  rfl

theorem sort_index_size (ix : Indexer) :
    (sort_index ix).inverted_index.size = ix.inverted_index.size := rfl

theorem term_array_ascending (ix : Indexer) (hwf : ix.inverted_index.well_formed)
    (sorted : List HashNode) (h : (sort_index ix).term_array = some sorted) :
    sorted.Pairwise (fun a b => strcmp a.key b.key < 0) ∧
      (sorted.map HashNode.key).Perm ((nodes ix.inverted_index.buckets).map HashNode.key) := by
  unfold term_array at h
  split at h
  · simp only [Option.some.injEq] at h
    subst h
    obtain ⟨hs, hperm⟩ := qsort_terms_sorted (nodes (sort_index ix).inverted_index.buckets)
    have hkeys : ((qsort compare_terms (nodes (sort_index ix).inverted_index.buckets)).map
        HashNode.key).Perm ((nodes ix.inverted_index.buckets).map HashNode.key) := by
      rw [← sort_index_keys]
      exact hperm.map _
    refine ⟨?_, hkeys⟩
    have hnd : ((qsort compare_terms (nodes (sort_index ix).inverted_index.buckets)).map
        HashNode.key).Nodup := hkeys.nodup_iff.2 hwf.2.2.1
    have hne : (qsort compare_terms (nodes (sort_index ix).inverted_index.buckets)).Pairwise
        (fun a b => a.key ≠ b.key) := (List.pairwise_map.1 hnd)
    have hpos : ∀ n ∈ qsort compare_terms (nodes (sort_index ix).inverted_index.buckets),
        ∀ c ∈ n.key, 0 < c := by
      intro n hn
      have hk : n.key ∈ (nodes ix.inverted_index.buckets).map HashNode.key :=
        hkeys.subset (List.mem_map_of_mem _ hn)
      obtain ⟨n', hn', hk'⟩ := List.mem_map.1 hk
      rw [← hk']
      exact hwf.2.2.2.1 n' hn'
    refine List.Pairwise.imp_of_mem ?_ (hs.and hne)
    intro a b ha hb hab
    rcases lt_or_eq_of_le hab.1 with hlt | heq
    · exact hlt
    · exact absurd (strcmp_eq_zero a.key b.key (hpos a ha) (hpos b hb) heq) hab.2
  · cases h

theorem term_array_some (ix : Indexer) (hwf : ix.inverted_index.well_formed)
    (hsize : ix.inverted_index.size < 2 ^ 32) :
    ((sort_index ix).term_array).isSome = true := by
  unfold term_array
  have h1 : (nodes (sort_index ix).inverted_index.buckets).length =
      (sort_index ix).inverted_index.size % 2 ^ 32 := by
    have := congrArg List.length (sort_index_nodes ix)
    rw [List.length_map] at this
    rw [this, hwf.2.2.2.2, sort_index_size]
    exact (Nat.mod_eq_of_lt hsize).symm
  rw [if_pos h1]
  rfl

theorem construct_inv (now : Nat) (stale : IndexMetadata) (opts : IndexOptions) :
    ((Indexer.construct now stale).set_options opts).inverted_index.well_formed ∧
      ((Indexer.construct now stale).set_options opts).inverted_index.lists_nodup :=
  create_well_formed 100000

/-- C8: after any sequence of `add_document` calls on a new `Indexer` (any doc
IDs in any order, with or without stemming) that all return, every posting
list of the map after `sort_index` is strictly ascending and free of
duplicates. The calls all return exactly when the url and the title of every
record have fewer than `2^16` bytes, the size their buffers can hold. -/
theorem posting_lists_strictly_ascending (now : Nat) (stale : IndexMetadata)
    (opts : IndexOptions) (records : List (Nat × List Nat × List Nat × List Nat)) :
    (∀ ix, Indexer.add_documents ((Indexer.construct now stale).set_options opts) records =
        some ix →
      ∀ node ∈ HashMap.nodes (Indexer.sort_index ix).inverted_index.buckets,
        node.doc_ids.Sorted (· < ·) ∧ node.doc_ids.Nodup) ∧
      ((∃ ix, Indexer.add_documents ((Indexer.construct now stale).set_options opts) records =
          some ix) ↔
        ∀ r ∈ records, r.2.1.length < 2 ^ 16 ∧ r.2.2.1.length < 2 ^ 16) := by
  refine ⟨fun ix h => ?_, fun ⟨ix, h⟩ => add_documents_fit records _ ix h,
    fun hfit => add_documents_total records hfit _⟩
  have hinv := add_documents_inv records _ ix h (construct_inv now stale opts).1
    (construct_inv now stale opts).2
  exact sort_index_lists_sorted ix hinv.2

/-- The posting lists after the doc IDs 5, 3, 5, 1 were ingested in that
order: `aa`, `bb` and `zz` each have the list `[1, 3, 5]`. -/
theorem posting_lists_unordered_example :
    (Indexer.add_documents (Indexer.construct 0 zero_metadata) unordered_records).map
        (fun ix => (HashMap.nodes (Indexer.sort_index ix).inverted_index.buckets).map
          (fun node => node.doc_ids)) =
      some [[1, 3, 5], [1, 3, 5], [1, 3, 5]] := by
  decide!

theorem save_to_file_inverted (ix : Indexer) (files : IndexFiles)
    (h : ix.save_to_file = some files) :
    ∃ sorted, ix.term_array = some sorted ∧
      files.inverted_file = inverted_bytes (ix.inverted_index.size % 2 ^ 32) sorted := by
  unfold save_to_file at h
  cases ht : ix.term_array with
  | none =>
    rw [ht] at h
    cases h
  | some sorted =>
    rw [ht] at h
    simp only [Option.some.injEq] at h
    subst h
    exact ⟨sorted, rfl, rfl⟩

/-- The terms written for scenario 1, in order: `devleti`, `imparatorlu` `E4 9F`
`u`, `osmanl` `E4 B1`, `tarih`, `title`. -/
theorem saved_terms_scenario1_example :
    (Indexer.add_documents (Indexer.construct 0 zero_metadata) scenario1_records).bind
        (fun ix => ((Indexer.sort_index ix).term_array).map
          (fun sorted => sorted.map HashNode.key)) =
      some [[100, 101, 118, 108, 101, 116, 105],
        [105, 109, 112, 97, 114, 97, 116, 111, 114, 108, 117, 228, 159, 117],
        [111, 115, 109, 97, 110, 108, 228, 177], [116, 97, 114, 105, 104],
        [116, 105, 116, 108, 101]] := by
  decide!

end Builder

/-! ### Text analysis -/

section TextAnalysis

open Indexer TurkishStemmer

theorem to_lowercase_loop_byte (fuel c : Nat) (rest : List Nat)
    (h : ¬ (c = 0x49 ∧ rest.head? = some 0xB0)) :
    to_lowercase_loop (fuel + 1) (c :: rest) = fold_byte_spec c :: to_lowercase_loop fuel rest := by
  rw [to_lowercase_loop, if_neg h]
  unfold fold_byte_spec
  by_cases h1 : 65 ≤ c ∧ c ≤ 90
  · rw [if_pos h1, if_pos (Or.inl h1)]
  · rw [if_neg h1]
    by_cases h2 : 0xC0 ≤ c ∧ c ≤ 0xDE
    · rw [if_pos h2, if_pos (Or.inr h2)]
    · rw [if_neg h2, if_neg (by omega)]

theorem to_lowercase_loop_spec : ∀ (s : List Nat) (fuel : Nat), s.length ≤ fuel →
    to_lowercase_loop fuel s = case_fold_spec s
  | [], fuel, _ => by cases fuel <;> simp [to_lowercase_loop, case_fold_spec]
  | [c], fuel, h => by
    obtain ⟨f, rfl⟩ : ∃ f, fuel = f + 1 := ⟨fuel - 1, by simp at h; omega⟩
    rw [to_lowercase_loop_byte f c [] (by simp), case_fold_spec]
    cases f <;> simp [to_lowercase_loop]
  | c :: d :: rest, fuel, h => by
    obtain ⟨f, rfl⟩ : ∃ f, fuel = f + 2 := ⟨fuel - 2, by simp at h; omega⟩
    have hf : rest.length ≤ f := by simp at h; omega
    rw [case_fold_spec]
    by_cases hp : c = 0x49 ∧ d = 0xB0
    · rw [if_pos hp]
      obtain ⟨rfl, rfl⟩ := hp
      rw [to_lowercase_loop, if_pos (by simp), List.tail_cons,
        to_lowercase_loop_byte f _ rest (by simp),
        to_lowercase_loop_spec rest f hf]
      simp [fold_byte_spec]
    · rw [if_neg hp, to_lowercase_loop_byte (f + 1) c (d :: rest) (by simpa using hp),
        to_lowercase_loop_spec (d :: rest) (f + 1) (by simp; omega)]

theorem case_fold_spec_length : ∀ s : List Nat, (case_fold_spec s).length = s.length
  | [] => rfl
  | [c] => rfl
  | c :: d :: rest => by
    rw [case_fold_spec]
    split
    · simp [case_fold_spec_length rest]
    · simp [case_fold_spec_length (d :: rest)]

/-- C13: on every byte string (a list holds the bytes before the NUL)
`Indexer::to_lowercase` returns what the reference case folder `case_fold_spec`
returns: `0x49` followed by `0xB0` becomes `0xC4 0xB1` and neither byte is
folded again, any other byte in `0x41..0x5A` or `0xC0..0xDE` has 32 added, the
rest is unchanged; the length is preserved. The bytes `49 B0 53 54 41 4E 42 55
4C` fold to `C4 B1 73 74 61 6E 62 75 6C`. -/
theorem to_lowercase_eq_reference (s : List Nat) :
    Indexer.to_lowercase s = case_fold_spec s ∧
      (Indexer.to_lowercase s).length = s.length ∧
      Indexer.to_lowercase [0x49, 0xB0, 0x53, 0x54, 0x41, 0x4E, 0x42, 0x55, 0x4C] =
        [0xC4, 0xB1, 0x73, 0x74, 0x61, 0x6E, 0x62, 0x75, 0x6C] := by
  have e : Indexer.to_lowercase s = case_fold_spec s :=
    to_lowercase_loop_spec s s.length (le_refl _)
  exact ⟨e, by rw [e, case_fold_spec_length], by decide⟩

theorem to_lowercase_loop_plain (fuel : Nat) : ∀ s : List Nat, s.length ≤ fuel →
    ¬ [0x49, 0xB0] <:+: s →
    to_lowercase_loop fuel s =
      s.map (fun c => if (65 ≤ c ∧ c ≤ 90) ∨ (0xC0 ≤ c ∧ c ≤ 0xDE) then c + 32 else c) := by
  induction fuel with
  | zero =>
    intro s hs _
    have : s = [] := List.length_eq_zero.mp (Nat.le_zero.mp hs)
    subst this
    rfl
  | succ f ih =>
    intro s hs hp
    cases s with
    | nil => rfl
    | cons c rest =>
      have hrest : ¬ [0x49, 0xB0] <:+: rest := fun h => hp (h.trans (List.suffix_cons c rest).isInfix)
      have hpair : ¬ (c = 0x49 ∧ rest.head? = some 0xB0) := by
        rintro ⟨rfl, h2⟩
        cases rest with
        | nil => simp at h2
        | cons d r =>
          simp at h2
          subst h2
          exact hp ⟨[], r, rfl⟩
      have hl : rest.length ≤ f := by simp at hs; omega
      rw [to_lowercase_loop, if_neg hpair, List.map_cons, ih rest hl hrest]
      by_cases h1 : 65 ≤ c ∧ c ≤ 90
      · rw [if_pos h1, if_pos (Or.inl h1)]
      · rw [if_neg h1]
        by_cases h2 : 0xC0 ≤ c ∧ c ≤ 0xDE
        · rw [if_pos h2, if_pos (Or.inr h2)]
        · rw [if_neg h2, if_neg (by omega)]

theorem folded_no_pair (s : List Nat) :
    ¬ [0x49, 0xB0] <:+:
      s.map (fun c => if (65 ≤ c ∧ c ≤ 90) ∨ (0xC0 ≤ c ∧ c ≤ 0xDE) then c + 32 else c) := by
  intro h
  have hmem : (0x49 : Nat) ∈
      s.map (fun c => if (65 ≤ c ∧ c ≤ 90) ∨ (0xC0 ≤ c ∧ c ≤ 0xDE) then c + 32 else c) :=
    h.subset (by simp)
  obtain ⟨c, -, hc⟩ := List.mem_map.mp hmem
  split at hc <;> omega

/-- C14: for every byte string in which no `0x49` is followed at once by
`0xB0`, `Indexer::to_lowercase` applied twice gives the bytes it gives when
applied once. -/
theorem to_lowercase_idempotent (s : List Nat) (h : ¬ [0x49, 0xB0] <:+: s) :
    Indexer.to_lowercase (Indexer.to_lowercase s) = Indexer.to_lowercase s := by
  unfold Indexer.to_lowercase
  rw [to_lowercase_loop_plain _ s (le_refl _) h]
  rw [to_lowercase_loop_plain _ _ (le_refl _) (folded_no_pair s)]
  rw [List.map_map]
  apply List.map_congr_left
  intro c _
  simp only [Function.comp]
  by_cases h1 : (65 ≤ c ∧ c ≤ 90) ∨ (0xC0 ≤ c ∧ c ≤ 0xDE)
  · rw [if_pos h1, if_neg (by omega)]
  · rw [if_neg h1, if_neg h1]

theorem to_lowercase_idempotent_witness :
    ¬ [0x49, 0xB0] <:+: [0x49, 0x53, 0xB0, 0xC7, 0x5A, 0x61] ∧
      Indexer.to_lowercase (Indexer.to_lowercase [0x49, 0x53, 0xB0, 0xC7, 0x5A, 0x61]) =
        Indexer.to_lowercase [0x49, 0x53, 0xB0, 0xC7, 0x5A, 0x61] ∧
      Indexer.to_lowercase [0x49, 0x53, 0xB0, 0xC7, 0x5A, 0x61] =
        [0x69, 0x73, 0xB0, 0xE7, 0x7A, 0x61] :=
  ⟨by decide, to_lowercase_idempotent _ (by decide), by decide⟩

/-- C15: `is_valid_term` accepts a token if and only if it has at least two
bytes and one of its bytes is an ASCII letter (`A`..`Z` or `a`..`z`). Hence a
token of digits only, a token of at most one byte and a token of bytes from
`0x80` on only are rejected, such as `çığ` in UTF-8, `2024` and `a`. -/
theorem is_valid_term_iff (t : List Nat) :
    (Indexer.is_valid_term t = true ↔
      2 ≤ t.length ∧ ∃ c ∈ t, (0x41 ≤ c ∧ c ≤ 0x5A) ∨ (0x61 ≤ c ∧ c ≤ 0x7A)) ∧
    ((∀ c ∈ t, isdigit c = true) → Indexer.is_valid_term t = false) ∧
    (t.length ≤ 1 → Indexer.is_valid_term t = false) ∧
    ((∀ c ∈ t, 0x80 ≤ c) → Indexer.is_valid_term t = false) ∧
    Indexer.is_valid_term [0xC3, 0xA7, 0xC4, 0xB1, 0xC4, 0x9F] = false ∧
    Indexer.is_valid_term [0x32, 0x30, 0x32, 0x34] = false ∧
    Indexer.is_valid_term [0x61] = false := by
  have key : Indexer.is_valid_term t = true ↔
      2 ≤ t.length ∧ ∃ c ∈ t, (0x41 ≤ c ∧ c ≤ 0x5A) ∨ (0x61 ≤ c ∧ c ≤ 0x7A) := by
    unfold Indexer.is_valid_term
    by_cases hl : t.length < 2
    · rw [if_pos hl]
      constructor
      · intro h; cases h
      · rintro ⟨h, -⟩; omega
    · rw [if_neg hl, List.any_eq_true]
      simp only [isalpha, isupper, islower, Bool.or_eq_true, Bool.and_eq_true, decide_eq_true_eq]
      constructor
      · rintro ⟨c, hc, h⟩; exact ⟨by omega, c, hc, h⟩
      · rintro ⟨-, c, hc, h⟩; exact ⟨c, hc, h⟩
  have neg : ∀ P : Prop, (Indexer.is_valid_term t = true → P) → ¬ P →
      Indexer.is_valid_term t = false := by
    intro P h1 h2
    cases h : Indexer.is_valid_term t
    · rfl
    · exact absurd (h1 h) h2
  refine ⟨key, ?_, ?_, ?_, by decide, by decide, by decide⟩
  · intro hd
    apply neg _ key.mp
    rintro ⟨-, c, hc, h⟩
    have := hd c hc
    simp only [isdigit, Bool.and_eq_true, decide_eq_true_eq] at this
    omega
  · intro hl
    apply neg _ key.mp
    rintro ⟨h, -⟩
    omega
  · intro hh
    apply neg _ key.mp
    rintro ⟨-, c, hc, h⟩
    have := hh c hc
    omega

theorem ends_with_eq_isSuffixOf (word suffix : List Nat) (hw : ∀ c ∈ word, 0 < c)
    (hs : ∀ c ∈ suffix, 0 < c) : ends_with word suffix = suffix.isSuffixOf word := by
  unfold ends_with
  by_cases hl : word.length < suffix.length
  · rw [if_pos hl]
    symm
    rw [Bool.eq_false_iff]
    intro h
    have := (List.isSuffixOf_iff_suffix.1 h).length_le
    omega
  · rw [if_neg hl]
    have hd : ∀ c ∈ word.drop (word.length - suffix.length), 0 < c :=
      fun c hc => hw c (List.mem_of_mem_drop hc)
    rw [Bool.eq_iff_iff, decide_eq_true_iff, List.isSuffixOf_iff_suffix,
      List.suffix_iff_eq_drop]
    constructor
    · intro h
      exact (strcmp_eq_zero _ _ hd hs h).symm
    · intro h
      rw [← h]
      exact strcmp_self _

theorem strip_plural_spec (word : List Nat) (hw : ∀ c ∈ word, 0 < c) (h5 : 5 ≤ word.length) :
    ∃ m, strip_plural word = some (m, plural_group_spec word) := by
  unfold strip_plural
  rw [ends_with_eq_isSuffixOf word [108, 97, 114] hw (by decide),
    ends_with_eq_isSuffixOf word [108, 101, 114] hw (by decide)]
  by_cases h : [108, 97, 114].isSuffixOf word = true ∨ [108, 101, 114].isSuffixOf word = true
  · have hb : ([108, 97, 114].isSuffixOf word || [108, 101, 114].isSuffixOf word) = true := by
      simpa using h
    have e : plural_group_spec word = word.take (word.length - 3) := by
      unfold plural_group_spec
      exact if_pos ⟨h5, h⟩
    have hrem : ∀ s : List Nat, s.length = 3 →
        remove_suffix word s = some (word.take (word.length - 3)) := by
      intro s hs
      unfold remove_suffix
      rw [if_pos (by omega), hs]
    have h3 : (if [108, 97, 114].isSuffixOf word = true then [108, 97, 114]
        else [108, 101, 114]).length = 3 := by
      split <;> rfl
    rw [if_pos hb, hrem _ h3, e]
    exact ⟨true, rfl⟩
  · have hb : ¬ ([108, 97, 114].isSuffixOf word || [108, 101, 114].isSuffixOf word) = true := by
      simpa using h
    have e : plural_group_spec word = word := by
      unfold plural_group_spec
      exact if_neg (fun hc => h hc.2)
    rw [if_neg hb, e]
    exact ⟨false, rfl⟩

theorem strip_possessive_spec (m0 : Bool) (word : List Nat) (hw : ∀ c ∈ word, 0 < c) :
    ∃ m, strip_possessive m0 word = some (m, possessive_group_spec word) := by
  unfold strip_possessive
  rw [ends_with_eq_isSuffixOf word [105, 109] hw (by decide),
    ends_with_eq_isSuffixOf word [105, 110] hw (by decide),
    ends_with_eq_isSuffixOf word [117, 109] hw (by decide),
    ends_with_eq_isSuffixOf word [117, 110] hw (by decide)]
  by_cases h4 : 4 ≤ word.length
  · rw [if_pos h4]
    by_cases h : [105, 109].isSuffixOf word = true ∨ [105, 110].isSuffixOf word = true ∨
        [117, 109].isSuffixOf word = true ∨ [117, 110].isSuffixOf word = true
    · have hb : ([105, 109].isSuffixOf word || [105, 110].isSuffixOf word ||
          [117, 109].isSuffixOf word || [117, 110].isSuffixOf word) = true := by
        simpa [or_assoc] using h
      have e : possessive_group_spec word = word.take (word.length - 2) := by
        unfold possessive_group_spec
        exact if_pos ⟨h4, h⟩
      have hrem : remove_suffix word [105, 109] = some (word.take (word.length - 2)) := by
        unfold remove_suffix
        rw [if_pos (by simp; omega)]
        rfl
      rw [if_pos hb, hrem, e]
      exact ⟨true, rfl⟩
    · have hb : ¬ ([105, 109].isSuffixOf word || [105, 110].isSuffixOf word ||
          [117, 109].isSuffixOf word || [117, 110].isSuffixOf word) = true := by
        simpa [or_assoc] using h
      have e : possessive_group_spec word = word := by
        unfold possessive_group_spec
        exact if_neg (fun hc => h hc.2)
      rw [if_neg hb, e]
      exact ⟨m0, rfl⟩
  · have e : possessive_group_spec word = word := by
      unfold possessive_group_spec
      exact if_neg (fun hc => h4 hc.1)
    rw [if_neg h4, e]
    exact ⟨m0, rfl⟩

theorem case_suffix_loop_spec (suffixes : List (List Nat)) (word : List Nat)
    (hw : ∀ c ∈ word, 0 < c) (hs : ∀ s ∈ suffixes, ∀ c ∈ s, 0 < c) :
    ∃ m, case_suffix_loop suffixes word =
      some (m, match suffixes.find? (fun s => s.isSuffixOf word) with
        | some s => word.take (word.length - s.length)
        | none => word) := by
  induction suffixes with
  | nil => exact ⟨false, rfl⟩
  | cons s rest ih =>
    rw [case_suffix_loop, ends_with_eq_isSuffixOf word s hw (hs s (List.mem_cons_self _ _)),
      List.find?_cons]
    by_cases h : s.isSuffixOf word = true
    · rw [if_pos h, h]
      have hle : s.length ≤ word.length := (List.isSuffixOf_iff_suffix.1 h).length_le
      unfold remove_suffix
      rw [if_pos hle]
      exact ⟨true, rfl⟩
    · rw [if_neg h]
      have h' : s.isSuffixOf word = false := Bool.eq_false_iff.2 h
      rw [h']
      exact ih (fun t ht => hs t (List.mem_cons_of_mem _ ht))

theorem strip_case_spec (m0 : Bool) (word : List Nat) (hw : ∀ c ∈ word, 0 < c) :
    ∃ m, strip_case m0 word = some (m, case_group_spec word) := by
  unfold strip_case case_group_spec
  by_cases h4 : 4 ≤ word.length
  · rw [if_pos h4, if_pos h4]
    obtain ⟨m, hm⟩ := case_suffix_loop_spec case_suffixes word hw (by decide)
    rw [hm]
    exact ⟨_, rfl⟩
  · rw [if_neg h4, if_neg h4]
    exact ⟨m0, rfl⟩

theorem plural_group_spec_pos (word : List Nat) (hw : ∀ c ∈ word, 0 < c) :
    ∀ c ∈ plural_group_spec word, 0 < c := by
  unfold plural_group_spec
  split
  · exact fun c hc => hw c (List.mem_of_mem_take hc)
  · exact hw

theorem possessive_group_spec_pos (word : List Nat) (hw : ∀ c ∈ word, 0 < c) :
    ∀ c ∈ possessive_group_spec word, 0 < c := by
  unfold possessive_group_spec
  split
  · exact fun c hc => hw c (List.mem_of_mem_take hc)
  · exact hw

theorem stem_eq_spec_aux (word : List Nat) (hw : ∀ c ∈ word, 0 < c) (h5 : 5 ≤ word.length) :
    ∃ m, stem word = some (m, stem_spec word) := by
  unfold stem stem_spec
  rw [if_neg (by omega)]
  obtain ⟨m1, h1⟩ := strip_plural_spec word hw h5
  obtain ⟨m2, h2⟩ := strip_possessive_spec m1 _ (plural_group_spec_pos word hw)
  obtain ⟨m3, h3⟩ := strip_case_spec m2 _
    (possessive_group_spec_pos _ (plural_group_spec_pos word hw))
  rw [h1]
  simp only [h2, h3]
  exact ⟨m3, rfl⟩

/-- C17: `stem` starts with `if (len < 5) return false`, so it returns every
token of fewer than five bytes unchanged: `evim`, `evin` and `evde` stay as
they are, while the three groups of the specification (`stem_spec`) give `ev`
for each of them, as the comments of `test_stemmer.cpp` expect. For a token of
at least five bytes `stem` leaves in the buffer what the three groups give,
for example `ev` for `evden`. -/
theorem stem_returns_short_tokens_unchanged :
    stem [101, 118, 105, 109] = some (false, [101, 118, 105, 109]) ∧
      stem [101, 118, 105, 110] = some (false, [101, 118, 105, 110]) ∧
      stem [101, 118, 100, 101] = some (false, [101, 118, 100, 101]) ∧
      stem_spec [101, 118, 105, 109] = [101, 118] ∧
      stem_spec [101, 118, 105, 110] = [101, 118] ∧
      stem_spec [101, 118, 100, 101] = [101, 118] ∧
      (∀ word : List Nat, word.length < 5 → stem word = some (false, word)) ∧
      (∀ word : List Nat, is_c_string word = true → 5 ≤ word.length →
        ∃ m, stem word = some (m, stem_spec word)) ∧
      stem [101, 118, 100, 101, 110] = some (true, [101, 118]) := by
  refine ⟨by decide, by decide, by decide, by decide, by decide, by decide, ?_, ?_, by decide⟩
  · intro word h
    unfold stem
    rw [if_pos h]
  · intro word hw h5
    exact stem_eq_spec_aux word (is_c_string_pos word hw) h5

end TextAnalysis

/-! ### Contents of the posting map -/

section Postings

open HashMap Indexer

theorem bucket_get_bucket_set (bs : List (Nat × List HashNode)) (idx : Nat)
    (chain : List HashNode) : bucket_get (bucket_set bs idx chain) idx = chain := by
  induction bs with
  | nil => simp [bucket_set, bucket_get]
  | cons p rest ih =>
    obtain ⟨i, c⟩ := p
    simp only [bucket_set]
    split
    · simp [bucket_get]
    · split
      · simp [bucket_get]
      · next h1 _ => simp [bucket_get, h1, ih]

theorem chain_store_split (chain : List HashNode) (key ids : List Nat) (node : HashNode)
    (h : chain_find chain key = some node) :
    ∃ l1 l2, chain = l1 ++ node :: l2 ∧
      chain_store chain key ids = l1 ++ ⟨node.key, ids⟩ :: l2 := by
  induction chain with
  | nil => simp [chain_find] at h
  | cons n rest ih =>
    rw [chain_find] at h
    by_cases hc : strcmp n.key key = 0
    · rw [if_pos hc] at h
      simp only [Option.some.injEq] at h
      subst h
      exact ⟨[], rest, rfl, by simp [chain_store, hc]⟩
    · rw [if_neg hc] at h
      obtain ⟨l1, l2, h1, h2⟩ := ih h
      refine ⟨n :: l1, l2, by rw [h1]; rfl, ?_⟩
      rw [chain_store, if_neg hc, h2]
      rfl

/-- The effect of the statements of `tokenize_and_index` on the posting map
for one valid term: up to the order of the nodes, the node of the term has
`doc_id` appended when it was not in its list, and a term without a node gets
the node with the list `[doc_id]`. -/
theorem posting_update_perm (m : HashMap) (tok : List Nat) (d : Nat) (hwf : m.well_formed)
    (htok : ∀ c ∈ tok, 0 < c) :
    ∃ old rest,
      (nodes (if (get_or_create m tok).2.any (fun x => decide (x = d)) then
          (get_or_create m tok).1
        else (get_or_create m tok).1.store tok ((get_or_create m tok).2 ++ [d])).buckets).Perm
        (⟨tok, if d ∈ old then old else old ++ [d]⟩ :: rest) ∧
      ((nodes m.buckets).Perm (⟨tok, old⟩ :: rest) ∨
        (old = [] ∧ tok ∉ (nodes m.buckets).map HashNode.key ∧ rest = nodes m.buckets)) := by
  have hany : ∀ l : List Nat, l.any (fun x => decide (x = d)) = true ↔ d ∈ l := by
    intro l
    rw [List.any_eq_true]
    constructor
    · rintro ⟨x, hx, hxd⟩
      simp only [decide_eq_true_eq] at hxd
      exact hxd ▸ hx
    · intro h
      exact ⟨d, h, by simp⟩
  have hsplit := nodes_split_perm m.buckets (m.hash tok) hwf.1
  cases h : chain_find (bucket_get m.buckets (m.hash tok)) tok with
  | some node =>
    rw [get_or_create_found m tok node h]
    obtain ⟨hmem, hcmp⟩ := chain_find_some _ _ _ h
    obtain ⟨p, hp, _, hnp⟩ := mem_bucket_get _ _ _ hmem
    have hnode : node ∈ nodes m.buckets := (mem_nodes _ _).2 ⟨p, hp, hnp⟩
    have hkey : node.key = tok := strcmp_eq_zero _ _ (hwf.2.2.2.1 node hnode) htok hcmp
    obtain ⟨l1, l2, e1, e2⟩ := chain_store_split _ tok (node.doc_ids ++ [d]) node h
    have hold : (nodes m.buckets).Perm (⟨tok, node.doc_ids⟩ ::
        (l1 ++ (l2 ++ nodes (m.buckets.filter (fun p => decide (p.1 ≠ m.hash tok)))))) := by
      rw [e1, List.append_assoc, List.cons_append] at hsplit
      have : (⟨tok, node.doc_ids⟩ : HashNode) = node := by rw [← hkey]
      rw [this]
      exact hsplit.trans List.perm_middle
    refine ⟨node.doc_ids, _, ?_, Or.inl hold⟩
    by_cases hd : d ∈ node.doc_ids
    · rw [if_pos ((hany _).2 hd), if_pos hd]
      exact hold
    · rw [if_neg (fun hc => hd ((hany _).1 hc)), if_neg hd]
      have hnew : (nodes (m.store tok (node.doc_ids ++ [d])).buckets).Perm
          (chain_store (bucket_get m.buckets (m.hash tok)) tok (node.doc_ids ++ [d]) ++
            nodes (m.buckets.filter (fun p => decide (p.1 ≠ m.hash tok)))) :=
        nodes_bucket_set_perm m.buckets (m.hash tok) _ hwf.1
      rw [e2, List.append_assoc, List.cons_append, hkey] at hnew
      exact hnew.trans List.perm_middle
  | none =>
    rw [get_or_create_new m tok h]
    have habs := key_absent_of_chain_find_none m tok hwf h
    refine ⟨[], nodes m.buckets, ?_, Or.inr ⟨rfl, habs, rfl⟩⟩
    simp only [List.any_nil, Bool.false_eq_true, if_false, List.nil_append, List.not_mem_nil]
    have hs1 := bucket_set_sorted m.buckets (m.hash tok)
      (⟨tok, []⟩ :: bucket_get m.buckets (m.hash tok)) hwf.1
    have hins := nodes_insert_perm m.buckets (m.hash tok) ⟨tok, []⟩ hwf.1
    have hsp1 := nodes_split_perm _ (m.hash tok) hs1
    rw [bucket_get_bucket_set] at hsp1
    have hrest := (hins.symm.trans hsp1).cons_inv
    unfold store
    simp only [HashMap.hash] at *
    rw [bucket_get_bucket_set, chain_store, if_pos (strcmp_self tok)]
    have hnew := nodes_bucket_set_perm _ (hash_loop tok 5381 % m.bucket_count)
      (⟨tok, [d]⟩ :: bucket_get m.buckets (hash_loop tok 5381 % m.bucket_count)) hs1
    exact hnew.trans (List.Perm.cons _ hrest.symm)

theorem has_posting_of_perm (m : HashMap) (l : List HashNode)
    (h : (nodes m.buckets).Perm l) (k : List Nat) (x : Nat) :
    m.has_posting k x ↔ ∃ n ∈ l, n.key = k ∧ x ∈ n.doc_ids := by
  unfold HashMap.has_posting
  constructor
  · rintro ⟨n, hn, h1⟩
    exact ⟨n, h.subset hn, h1⟩
  · rintro ⟨n, hn, h1⟩
    exact ⟨n, h.symm.subset hn, h1⟩

theorem count_token_doc_ids (docs docs' : List Document) (h : count_token docs = some docs') :
    docs'.map Document.doc_id = docs.map Document.doc_id := by
  induction docs generalizing docs' with
  | nil => simp [count_token] at h
  | cons doc rest ih =>
    cases rest with
    | nil =>
      simp only [count_token, Option.some.injEq] at h
      subst h
      rfl
    | cons next rest' =>
      rw [count_token] at h
      cases hr : count_token (next :: rest') with
      | none =>
        rw [hr] at h
        cases h
      | some ds =>
        rw [hr] at h
        simp only [Option.some.injEq] at h
        subst h
        rw [List.map_cons, ih ds hr]
        rfl

theorem index_term_unfold (ix ix' : Indexer) (d : Nat) (tok : List Nat)
    (h : index_term ix d tok = some ix') :
    ix'.documents.map Document.doc_id = ix.documents.map Document.doc_id ∧
      ix'.options = ix.options ∧ ix'.metadata = ix.metadata ∧
      ix'.inverted_index =
        (if (get_or_create ix.inverted_index tok).2.any (fun x => decide (x = d)) then
          (get_or_create ix.inverted_index tok).1
        else (get_or_create ix.inverted_index tok).1.store tok
          ((get_or_create ix.inverted_index tok).2 ++ [d])) := by
  unfold index_term at h
  cases hc : count_token ix.documents with
  | none =>
    rw [hc] at h
    cases h
  | some docs =>
    rw [hc] at h
    simp only [Option.some.injEq] at h
    subst h
    exact ⟨count_token_doc_ids _ _ hc, rfl, rfl, rfl⟩

theorem index_term_well_formed (ix ix' : Indexer) (d : Nat) (tok : List Nat)
    (h : index_term ix d tok = some ix') (hwf : ix.inverted_index.well_formed)
    (htok : ∀ c ∈ tok, 0 < c) : ix'.inverted_index.well_formed := by
  rw [(index_term_unfold ix ix' d tok h).2.2.2]
  have hwf1 := get_or_create_well_formed ix.inverted_index tok hwf htok
  split
  · exact hwf1
  · exact store_well_formed _ _ _ hwf1

theorem index_term_postings (ix ix' : Indexer) (d : Nat) (tok : List Nat)
    (h : index_term ix d tok = some ix') (hwf : ix.inverted_index.well_formed)
    (htok : ∀ c ∈ tok, 0 < c) (k : List Nat) (x : Nat) :
    ix'.inverted_index.has_posting k x ↔
      ix.inverted_index.has_posting k x ∨ (k = tok ∧ x = d) := by
  obtain ⟨old, rest, hnew, hold⟩ := posting_update_perm ix.inverted_index tok d hwf htok
  rw [← (index_term_unfold ix ix' d tok h).2.2.2] at hnew
  rw [has_posting_of_perm _ _ hnew]
  have hmem : ∀ y, y ∈ (if d ∈ old then old else old ++ [d]) ↔ y ∈ old ∨ y = d := by
    intro y
    split
    · next hd =>
      constructor
      · exact Or.inl
      · rintro (hy | hy)
        · exact hy
        · exact hy ▸ hd
    · simp
  rcases hold with hold | ⟨rfl, habs, rfl⟩
  · rw [has_posting_of_perm _ _ hold]
    constructor
    · rintro ⟨n, hn, hk, hx⟩
      rcases List.mem_cons.1 hn with rfl | hn'
      · rcases (hmem x).1 hx with hx' | hx'
        · exact Or.inl ⟨⟨tok, old⟩, List.mem_cons_self _ _, hk, hx'⟩
        · exact Or.inr ⟨hk.symm, hx'⟩
      · exact Or.inl ⟨n, List.mem_cons_of_mem _ hn', hk, hx⟩
    · rintro (⟨n, hn, hk, hx⟩ | ⟨rfl, rfl⟩)
      · rcases List.mem_cons.1 hn with rfl | hn'
        · exact ⟨_, List.mem_cons_self _ _, hk, (hmem x).2 (Or.inl hx)⟩
        · exact ⟨n, List.mem_cons_of_mem _ hn', hk, hx⟩
      · exact ⟨_, List.mem_cons_self _ _, rfl, (hmem x).2 (Or.inr rfl)⟩
  · unfold HashMap.has_posting
    constructor
    · rintro ⟨n, hn, hk, hx⟩
      rcases List.mem_cons.1 hn with rfl | hn'
      · rcases (hmem x).1 hx with hx' | hx'
        · simp at hx'
        · exact Or.inr ⟨hk.symm, hx'⟩
      · exact Or.inl ⟨n, hn', hk, hx⟩
    · rintro (⟨n, hn, hk, hx⟩ | ⟨rfl, rfl⟩)
      · exact ⟨n, List.mem_cons_of_mem _ hn, hk, hx⟩
      · exact ⟨_, List.mem_cons_self _ _, rfl, (hmem x).2 (Or.inr rfl)⟩

theorem index_term_keys (ix ix' : Indexer) (d : Nat) (tok : List Nat)
    (h : index_term ix d tok = some ix') (hwf : ix.inverted_index.well_formed)
    (htok : ∀ c ∈ tok, 0 < c) :
    ∀ n ∈ nodes ix'.inverted_index.buckets,
      n.key = tok ∨ n.key ∈ (nodes ix.inverted_index.buckets).map HashNode.key := by
  obtain ⟨old, rest, hnew, hold⟩ := posting_update_perm ix.inverted_index tok d hwf htok
  rw [← (index_term_unfold ix ix' d tok h).2.2.2] at hnew
  intro n hn
  rcases List.mem_cons.1 (hnew.subset hn) with rfl | hn'
  · exact Or.inl rfl
  · right
    rcases hold with hold | ⟨_, _, rfl⟩
    · exact List.mem_map_of_mem _ (hold.symm.subset (List.mem_cons_of_mem _ hn'))
    · exact List.mem_map_of_mem _ hn'

theorem to_lowercase_length (s : List Nat) : (to_lowercase s).length = s.length := by
  have e : to_lowercase s = case_fold_spec s := to_lowercase_loop_spec s s.length (le_refl _)
  rw [e, case_fold_spec_length]

theorem remove_suffix_initial (word suffix r : List Nat)
    (h : TurkishStemmer.remove_suffix word suffix = some r) : r <+: word := by
  unfold TurkishStemmer.remove_suffix at h
  split at h
  · simp only [Option.some.injEq] at h
    subst h
    exact List.take_prefix _ _
  · cases h

theorem case_suffix_loop_initial (suffixes : List (List Nat)) (word : List Nat) (m : Bool)
    (r : List Nat) (h : TurkishStemmer.case_suffix_loop suffixes word = some (m, r)) :
    r <+: word := by
  induction suffixes with
  | nil =>
    simp only [TurkishStemmer.case_suffix_loop, Option.some.injEq, Prod.mk.injEq] at h
    rw [← h.2]
  | cons s rest ih =>
    rw [TurkishStemmer.case_suffix_loop] at h
    split at h
    · cases hr : TurkishStemmer.remove_suffix word s with
      | none =>
        rw [hr] at h
        cases h
      | some w =>
        rw [hr] at h
        simp only [Option.some.injEq, Prod.mk.injEq] at h
        rw [← h.2]
        exact remove_suffix_initial word s w hr
    · exact ih h

theorem strip_plural_initial (word : List Nat) (m : Bool) (r : List Nat)
    (h : TurkishStemmer.strip_plural word = some (m, r)) : r <+: word := by
  unfold TurkishStemmer.strip_plural at h
  split at h
  · cases hr : TurkishStemmer.remove_suffix word
        (if TurkishStemmer.ends_with word [108, 97, 114] = true then [108, 97, 114]
          else [108, 101, 114]) with
    | none =>
      rw [hr] at h
      cases h
    | some w =>
      rw [hr] at h
      simp only [Option.some.injEq, Prod.mk.injEq] at h
      rw [← h.2]
      exact remove_suffix_initial word _ w hr
  · simp only [Option.some.injEq, Prod.mk.injEq] at h
    rw [← h.2]

theorem strip_possessive_initial (m0 : Bool) (word : List Nat) (m : Bool) (r : List Nat)
    (h : TurkishStemmer.strip_possessive m0 word = some (m, r)) : r <+: word := by
  unfold TurkishStemmer.strip_possessive at h
  split at h
  · split at h
    · cases hr : TurkishStemmer.remove_suffix word [105, 109] with
      | none =>
        rw [hr] at h
        cases h
      | some w =>
        rw [hr] at h
        simp only [Option.some.injEq, Prod.mk.injEq] at h
        rw [← h.2]
        exact remove_suffix_initial word _ w hr
    · simp only [Option.some.injEq, Prod.mk.injEq] at h
      rw [← h.2]
  · simp only [Option.some.injEq, Prod.mk.injEq] at h
    rw [← h.2]

theorem strip_case_initial (m0 : Bool) (word : List Nat) (m : Bool) (r : List Nat)
    (h : TurkishStemmer.strip_case m0 word = some (m, r)) : r <+: word := by
  unfold TurkishStemmer.strip_case at h
  split at h
  · cases hr : TurkishStemmer.case_suffix_loop TurkishStemmer.case_suffixes word with
    | none =>
      rw [hr] at h
      cases h
    | some q =>
      obtain ⟨m3, w3⟩ := q
      rw [hr] at h
      simp only [Option.some.injEq, Prod.mk.injEq] at h
      rw [← h.2]
      exact case_suffix_loop_initial _ word m3 w3 hr
  · simp only [Option.some.injEq, Prod.mk.injEq] at h
    rw [← h.2]

theorem stem_initial (word : List Nat) (m : Bool) (r : List Nat)
    (h : TurkishStemmer.stem word = some (m, r)) : r <+: word := by
  unfold TurkishStemmer.stem at h
  split at h
  · simp only [Option.some.injEq, Prod.mk.injEq] at h
    rw [← h.2]
  · cases h1 : TurkishStemmer.strip_plural word with
    | none =>
      rw [h1] at h
      cases h
    | some q1 =>
      obtain ⟨m1, w1⟩ := q1
      rw [h1] at h
      cases h2 : TurkishStemmer.strip_possessive m1 w1 with
      | none =>
        simp only [h2] at h
        cases h
      | some q2 =>
        obtain ⟨m2, w2⟩ := q2
        simp only [h2] at h
        exact ((strip_case_initial m2 w2 m r h).trans
          (strip_possessive_initial m1 w1 m2 w2 h2)).trans (strip_plural_initial word m1 w1 h1)

theorem token_in_text_preserves (P : Indexer → Prop) (d : Nat)
    (hstep : ∀ ix ix' term, P ix → (∀ c ∈ term, 0 < c) → term.length ≤ 255 →
      index_term ix d term = some ix' → P ix')
    (ix ix' : Indexer) (token : List Nat) (h : token_in_text ix d token = some ix')
    (htok : ∀ c ∈ token, 0 < c) (hlen : token.length ≤ 255) (hP : P ix) : P ix' := by
  unfold token_in_text at h
  cases hs : ix.options.use_stemming
  · simp only [hs, Bool.false_eq_true, if_false] at h
    split at h
    · exact hstep ix ix' _ hP (to_lowercase_pos token htok)
        (by rw [to_lowercase_length]; exact hlen) h
    · simp only [Option.some.injEq] at h
      exact h ▸ hP
  · obtain ⟨⟨m, r⟩, hr⟩ := stem_total (to_lowercase token)
    simp only [hs, if_true, hr] at h
    split at h
    · refine hstep ix ix' _ hP
        (fun c hc => to_lowercase_pos token htok c (stem_subset _ m r hr c hc)) ?_ h
      have := (stem_initial _ m r hr).length_le
      rw [to_lowercase_length] at this
      omega
    · simp only [Option.some.injEq] at h
      exact h ▸ hP

theorem token_at_end_preserves (P : Indexer → Prop) (d : Nat)
    (hstep : ∀ ix ix' term, P ix → (∀ c ∈ term, 0 < c) → term.length ≤ 255 →
      index_term ix d term = some ix' → P ix')
    (ix ix' : Indexer) (token : List Nat) (h : token_at_end ix d token = some ix')
    (htok : ∀ c ∈ token, 0 < c) (hlen : token.length ≤ 255) (hP : P ix) : P ix' := by
  unfold token_at_end at h
  split at h
  · exact hstep ix ix' _ hP (to_lowercase_pos token htok)
      (by rw [to_lowercase_length]; exact hlen) h
  · simp only [Option.some.injEq] at h
    exact h ▸ hP

theorem token_buffer_length (token : List Nat) (in_token : Bool) (c : Nat)
    (hlen : token.length ≤ 255) :
    (if (if in_token = true then token else []).length < 255 then
        (if in_token = true then token else []) ++ [c]
      else (if in_token = true then token else [])).length ≤ 255 := by
  have hbase : (if in_token = true then token else []).length ≤ 255 := by
    cases in_token
    · simp
    · simpa using hlen
  by_cases h : (if in_token = true then token else []).length < 255
  · rw [if_pos h, List.length_append, List.length_singleton]
    omega
  · rw [if_neg h]
    exact hbase

theorem tokenize_loop_preserves (P : Indexer → Prop) (d : Nat)
    (hstep : ∀ ix ix' term, P ix → (∀ c ∈ term, 0 < c) → term.length ≤ 255 →
      index_term ix d term = some ix' → P ix')
    (text : List Nat) : ∀ (ix ix' : Indexer) (token : List Nat) (in_token : Bool),
    tokenize_loop text ix d token in_token = some ix' → (∀ c ∈ token, 0 < c) →
    token.length ≤ 255 → P ix → P ix' := by
  induction text with
  | nil =>
    intro ix ix' token in_token h htok hlen hP
    rw [tokenize_loop] at h
    split at h
    · exact token_at_end_preserves P d hstep ix ix' token h htok hlen hP
    · simp only [Option.some.injEq] at h
      exact h ▸ hP
  | cons c rest ih =>
    intro ix ix' token in_token h htok hlen hP
    rw [tokenize_loop] at h
    by_cases hc : isalnum c = true ∨ c = 95 ∨ 128 ≤ c
    · rw [if_pos hc] at h
      exact ih ix ix' _ true h (token_buffer_pos token in_token c htok (token_byte_pos c hc))
        (token_buffer_length token in_token c hlen) hP
    · rw [if_neg hc] at h
      by_cases hcond : in_token = true ∧ 0 < token.length
      · rw [if_pos hcond] at h
        cases h1 : token_in_text ix d token with
        | none =>
          rw [h1] at h
          cases h
        | some ix1 =>
          rw [h1] at h
          exact ih ix1 ix' [] false h (by simp) (by simp)
            (token_in_text_preserves P d hstep ix ix1 token h1 htok hlen hP)
      · rw [if_neg hcond] at h
        exact ih ix ix' [] false h (by simp) (by simp) hP

theorem index_term_consistent (L : List Nat) (d : Nat) (hd : d ∈ L) (ix ix' : Indexer)
    (term : List Nat) (hinv : ix.consistent L) (hterm : ∀ c ∈ term, 0 < c)
    (hlen : term.length ≤ 255) (h : index_term ix d term = some ix') : ix'.consistent L := by
  obtain ⟨hwf, hl, hdocs, hnodes⟩ := hinv
  have h1 := index_term_inv ix ix' d term h hwf hl hterm
  refine ⟨h1.1, h1.2, (index_term_unfold ix ix' d term h).1.trans hdocs, ?_⟩
  intro n hn
  constructor
  · rcases index_term_keys ix ix' d term h hwf hterm n hn with hk | hk
    · rw [hk]
      exact hlen
    · obtain ⟨n0, hn0, hk0⟩ := List.mem_map.1 hk
      rw [← hk0]
      exact (hnodes n0 hn0).1
  · intro x hx
    rcases (index_term_postings ix ix' d term h hwf hterm n.key x).1 ⟨n, hn, rfl, hx⟩ with
      ⟨n0, hn0, _, hx0⟩ | ⟨_, rfl⟩
    · exact (hnodes n0 hn0).2 x hx0
    · exact hd

theorem add_document_consistent (L : List Nat) (ix ix' : Indexer) (d : Nat)
    (url title content : List Nat) (hinv : ix.consistent L)
    (h : add_document ix d url title content = some ix') : ix'.consistent (L ++ [d]) := by
  rw [add_document_unfold _ _ _ _ _ (add_document_fits _ _ _ _ _ _ h)] at h
  unfold tokenize_and_index at h
  have hd : d ∈ L ++ [d] := by simp
  have hstep := index_term_consistent (L ++ [d]) d hd
  have hstep' : ∀ ix ix' term, ix.consistent (L ++ [d]) → (∀ c ∈ term, 0 < c) →
      term.length ≤ 255 → index_term ix d term = some ix' → ix'.consistent (L ++ [d]) :=
    fun ix ix' term h1 h2 h3 h4 => hstep ix ix' term h1 h2 h3 h4
  obtain ⟨hwf, hl, hdocs, hnodes⟩ := hinv
  split at h
  · cases h
  · next ix1 h1 =>
    split at h
    · cases h
    · next ix2 h2 =>
      simp only [Option.some.injEq] at h
      subst h
      have hinv0 : Indexer.consistent _ (L ++ [d]) :=
        tokenize_loop_preserves (fun ix => ix.consistent (L ++ [d])) d hstep' content _ ix1 []
          false h1 (by simp) (by simp)
          ⟨hwf, hl, by simp [hdocs],
            fun n hn => ⟨(hnodes n hn).1, fun x hx =>
              List.mem_append_left _ ((hnodes n hn).2 x hx)⟩⟩
      exact tokenize_loop_preserves (fun ix => ix.consistent (L ++ [d])) d hstep' title ix1
        ix2 [] false h2 (by simp) (by simp) hinv0

theorem add_documents_consistent (records : List (Nat × List Nat × List Nat × List Nat)) :
    ∀ (L : List Nat) (ix ix' : Indexer), ix.consistent L →
    add_documents ix records = some ix' →
    ix'.consistent (L ++ records.map Prod.fst) := by
  induction records with
  | nil =>
    intro L ix ix' hinv h
    simp only [add_documents, Option.some.injEq] at h
    subst h
    simpa using hinv
  | cons r rest ih =>
    intro L ix ix' hinv h
    obtain ⟨d, url, title, content⟩ := r
    rw [add_documents] at h
    cases h1 : add_document ix d url title content with
    | none =>
      rw [h1] at h
      cases h
    | some ix1 =>
      rw [h1] at h
      have := ih (L ++ [d]) ix1 ix' (add_document_consistent L ix ix1 d url title content hinv h1) h
      simpa using this

theorem construct_consistent (now : Nat) (stale : IndexMetadata) (opts : IndexOptions) :
    ((Indexer.construct now stale).set_options opts).consistent [] := by
  obtain ⟨h1, h2⟩ := construct_inv now stale opts
  refine ⟨h1, h2, rfl, ?_⟩
  intro n hn
  simp [Indexer.set_options, Indexer.construct, HashMap.create, nodes] at hn

/-- C12: after any sequence of `add_document` calls on a new `Indexer` (one
call per record) that all return, the document table holds the doc IDs of the
calls in order, and every doc ID in a posting list of the posting map is the
`doc_id` of an entry of the document table. The calls all return exactly when
the url and the title of every record have fewer than `2^16` bytes. -/
theorem posting_ids_in_document_table (now : Nat) (stale : IndexMetadata)
    (opts : IndexOptions) (records : List (Nat × List Nat × List Nat × List Nat)) :
    (∀ ix, Indexer.add_documents ((Indexer.construct now stale).set_options opts) records =
        some ix →
      ix.documents.map Document.doc_id = records.map Prod.fst ∧
      ∀ node ∈ HashMap.nodes ix.inverted_index.buckets, ∀ d ∈ node.doc_ids,
        ∃ doc ∈ ix.documents, doc.doc_id = d) ∧
      ((∃ ix, Indexer.add_documents ((Indexer.construct now stale).set_options opts) records =
          some ix) ↔
        ∀ r ∈ records, r.2.1.length < 2 ^ 16 ∧ r.2.2.1.length < 2 ^ 16) := by
  refine ⟨fun ix h => ?_, fun ⟨ix, h⟩ => add_documents_fit records _ ix h,
    fun hfit => add_documents_total records hfit _⟩
  have hinv := add_documents_consistent records [] _ ix (construct_consistent now stale opts) h
  rw [List.nil_append] at hinv
  refine ⟨hinv.2.2.1, ?_⟩
  intro node hn d hd
  have := (hinv.2.2.2 node hn).2 d hd
  rw [← hinv.2.2.1] at this
  obtain ⟨doc, hdoc, rfl⟩ := List.mem_map.1 this
  exact ⟨doc, hdoc, rfl⟩

end Postings

/-! ### Tokenizer -/

section Tokenizer

open HashMap Indexer

theorem is_token_byte_iff (c : Nat) :
    is_token_byte c = true ↔ (isalnum c = true ∨ c = 95 ∨ 128 ≤ c) := by
  simp [is_token_byte, or_assoc]

theorem token_runs_single (cur : List Nat) (hcur : ∀ c ∈ cur, is_token_byte c = true) :
    token_runs cur = if cur = [] then [] else [cur] := by
  unfold token_runs
  rw [List.splitOnP_eq_single _ _ (by
    intro x hx
    simp [hcur x hx])]
  cases cur <;> simp

theorem token_runs_separator (cur rest : List Nat) (c : Nat)
    (hcur : ∀ c ∈ cur, is_token_byte c = true) (hc : is_token_byte c = false) :
    token_runs (cur ++ c :: rest) = (if cur = [] then [] else [cur]) ++ token_runs rest := by
  unfold token_runs
  rw [List.splitOnP_first _ _ (by
    intro x hx
    simp [hcur x hx]) c (by simp [hc])]
  cases cur <;> simp

theorem token_in_text_no_stemming (ix : Indexer) (d : Nat) (t : List Nat)
    (hopt : ix.options.use_stemming = false) :
    token_in_text ix d t = token_at_end ix d t := by
  unfold token_in_text token_at_end
  simp only [hopt, Bool.false_eq_true, if_false]

theorem token_at_end_postings (ix ix' : Indexer) (d : Nat) (t : List Nat)
    (h : token_at_end ix d t = some ix') (hwf : ix.inverted_index.well_formed)
    (ht : ∀ c ∈ t, 0 < c) :
    ix'.inverted_index.well_formed ∧ ix'.options = ix.options ∧
      ∀ k x, ix'.inverted_index.has_posting k x ↔
        ix.inverted_index.has_posting k x ∨
          (x = d ∧ k = to_lowercase t ∧ is_valid_term k = true) := by
  unfold token_at_end at h
  by_cases hv : is_valid_term (to_lowercase t) = true
  · rw [if_pos hv] at h
    have htok := to_lowercase_pos t ht
    refine ⟨index_term_well_formed ix ix' d _ h hwf htok,
      (index_term_unfold ix ix' d _ h).2.1, ?_⟩
    intro k x
    rw [index_term_postings ix ix' d _ h hwf htok k x]
    constructor
    · rintro (h1 | ⟨rfl, rfl⟩)
      · exact Or.inl h1
      · exact Or.inr ⟨rfl, rfl, hv⟩
    · rintro (h1 | ⟨rfl, rfl, _⟩)
      · exact Or.inl h1
      · exact Or.inr ⟨rfl, rfl⟩
  · rw [if_neg hv] at h
    simp only [Option.some.injEq] at h
    subst h
    refine ⟨hwf, rfl, ?_⟩
    intro k x
    constructor
    · exact Or.inl
    · rintro (h1 | ⟨_, rfl, hk⟩)
      · exact h1
      · exact absurd hk hv

theorem tokenize_loop_postings (d : Nat) (text : List Nat) :
    ∀ (ix ix' : Indexer) (token : List Nat) (in_token : Bool) (cur : List Nat),
    (in_token = true → token = cur.take 255 ∧ cur ≠ []) → (in_token = false → cur = []) →
    (∀ c ∈ cur, is_token_byte c = true) → ix.options.use_stemming = false →
    ix.inverted_index.well_formed →
    tokenize_loop text ix d token in_token = some ix' →
    ∀ k x, ix'.inverted_index.has_posting k x ↔
      ix.inverted_index.has_posting k x ∨
        (x = d ∧ k ∈ term_candidates (cur ++ text) ∧ is_valid_term k = true) := by
  have hpos : ∀ cur : List Nat, (∀ c ∈ cur, is_token_byte c = true) →
      ∀ c ∈ cur.take 255, 0 < c := by
    intro cur hcur c hc
    exact token_byte_pos c ((is_token_byte_iff c).1 (hcur c (List.mem_of_mem_take hc)))
  induction text with
  | nil =>
    intro ix ix' token in_token cur h1 h2 hcur hopt hwf h k x
    rw [tokenize_loop] at h
    rw [List.append_nil]
    unfold term_candidates
    rw [token_runs_single cur hcur]
    cases in_token with
    | false =>
      have hc := h2 rfl
      subst hc
      simp only [Bool.false_eq_true, false_and, if_false, Option.some.injEq] at h
      subst h
      simp
    | true =>
      obtain ⟨htok, hne⟩ := h1 rfl
      have hlen : 0 < token.length := by
        rw [htok]
        cases cur with
        | nil => exact absurd rfl hne
        | cons a l => simp
      rw [if_pos ⟨rfl, hlen⟩, htok] at h
      rw [(token_at_end_postings ix ix' d _ h hwf (hpos cur hcur)).2.2 k x, if_neg hne]
      simp only [List.map_cons, List.map_nil, List.mem_singleton]
  | cons c rest ih =>
    intro ix ix' token in_token cur h1 h2 hcur hopt hwf h k x
    rw [tokenize_loop] at h
    by_cases hc : isalnum c = true ∨ c = 95 ∨ 128 ≤ c
    · rw [if_pos hc] at h
      have hbase : (if in_token = true then token else []) = cur.take 255 := by
        cases in_token with
        | false => rw [h2 rfl]; rfl
        | true => exact (h1 rfl).1
      rw [hbase] at h
      have hnew : (if (cur.take 255).length < 255 then cur.take 255 ++ [c] else cur.take 255) =
          (cur ++ [c]).take 255 := by
        by_cases hl : (cur.take 255).length < 255
        · rw [if_pos hl]
          have hcl : cur.length < 255 := by
            rw [List.length_take] at hl
            omega
          have e1 : cur.take 255 = cur := List.take_of_length_le (by omega)
          have e2 : (cur ++ [c]).take 255 = cur ++ [c] :=
            List.take_of_length_le (by rw [List.length_append, List.length_singleton]; omega)
          rw [e1, e2]
        · rw [if_neg hl]
          have hcl : 255 ≤ cur.length := by
            rw [List.length_take] at hl
            omega
          rw [List.take_append_of_le_length hcl]
      rw [hnew] at h
      have := ih ix ix' _ true (cur ++ [c]) (fun _ => ⟨rfl, by simp⟩) (fun hf => by cases hf)
        (by
          intro b hb
          rcases List.mem_append.1 hb with hb | hb
          · exact hcur b hb
          · rw [List.mem_singleton] at hb
            rw [hb]
            exact (is_token_byte_iff c).2 hc) hopt hwf h k x
      rw [List.append_assoc, List.singleton_append] at this
      exact this
    · rw [if_neg hc] at h
      have hsep : is_token_byte c = false := by
        rw [Bool.eq_false_iff]
        exact fun hb => hc ((is_token_byte_iff c).1 hb)
      unfold term_candidates
      rw [token_runs_separator cur rest c hcur hsep]
      cases in_token with
      | false =>
        have hcn := h2 rfl
        subst hcn
        simp only [Bool.false_eq_true, false_and, if_false] at h
        have := ih ix ix' [] false [] (fun hf => by cases hf) (fun _ => rfl) (by simp) hopt
          hwf h k x
        rw [List.nil_append] at this
        unfold term_candidates at this
        simpa using this
      | true =>
        obtain ⟨htok, hne⟩ := h1 rfl
        have hlen : 0 < token.length := by
          rw [htok]
          cases cur with
          | nil => exact absurd rfl hne
          | cons a l => simp
        rw [if_pos ⟨rfl, hlen⟩, token_in_text_no_stemming ix d token hopt, htok] at h
        cases hs : token_at_end ix d (cur.take 255) with
        | none =>
          rw [hs] at h
          cases h
        | some ix1 =>
          rw [hs] at h
          obtain ⟨hwf1, hopt1, hp1⟩ := token_at_end_postings ix ix1 d _ hs hwf (hpos cur hcur)
          have := ih ix1 ix' [] false [] (fun hf => by cases hf) (fun _ => rfl) (by simp)
            (hopt1.symm ▸ hopt) hwf1 h k x
          rw [List.nil_append] at this
          unfold term_candidates at this
          rw [this, hp1 k x, if_neg hne]
          simp only [List.singleton_append, List.map_cons, List.mem_cons]
          constructor
          · rintro ((h3 | ⟨h3, h4, h5⟩) | ⟨h3, h4, h5⟩)
            · exact Or.inl h3
            · exact Or.inr ⟨h3, Or.inl h4, h5⟩
            · exact Or.inr ⟨h3, Or.inr h4, h5⟩
          · rintro (h3 | ⟨h3, h4 | h4, h5⟩)
            · exact Or.inl (Or.inl h3)
            · exact Or.inl (Or.inr ⟨h3, h4, h5⟩)
            · exact Or.inr ⟨h3, h4, h5⟩

/-- C16: with stemming disabled, for an `Indexer` that holds a document and a
well-formed posting map, `tokenize_and_index ix d text` returns, and afterwards
a doc ID `x` is in the posting list of a term `k` if and only if it was there
before, or `x = d` and `k` is one of `term_candidates text` (the first 255
bytes of a maximal run of token bytes, case-folded) that passes
`is_valid_term`. -/
theorem tokenize_and_index_without_stemming (ix : Indexer) (d : Nat) (text : List Nat)
    (hopt : ix.options.use_stemming = false) (hdocs : ix.documents ≠ [])
    (hwf : ix.inverted_index.well_formed) :
    ∃ ix', Indexer.tokenize_and_index ix d text = some ix' ∧
      ∀ k x, ix'.inverted_index.has_posting k x ↔
        ix.inverted_index.has_posting k x ∨
          (x = d ∧ k ∈ term_candidates text ∧ Indexer.is_valid_term k = true) := by
  obtain ⟨ix', h, _, _⟩ := tokenize_loop_total text ix d [] false hdocs
  refine ⟨ix', h, ?_⟩
  have := tokenize_loop_postings d text ix ix' [] false [] (fun hf => by cases hf)
    (fun _ => rfl) (by simp) hopt hwf h
  simpa using this

theorem tokenize_and_index_without_stemming_witness :
    (∃ ix', Indexer.tokenize_and_index one_document_indexer 7
          [69, 118, 39, 100, 101, 32, 107, 105, 116, 97, 112, 45, 108, 97, 114, 32, 52, 50] =
        some ix' ∧
      ∀ k x, ix'.inverted_index.has_posting k x ↔
        one_document_indexer.inverted_index.has_posting k x ∨
          (x = 7 ∧
            k ∈ term_candidates
              [69, 118, 39, 100, 101, 32, 107, 105, 116, 97, 112, 45, 108, 97, 114, 32, 52, 50] ∧
            Indexer.is_valid_term k = true)) ∧
      term_candidates
          [69, 118, 39, 100, 101, 32, 107, 105, 116, 97, 112, 45, 108, 97, 114, 32, 52, 50] =
        [[101, 118], [100, 101], [107, 105, 116, 97, 112], [108, 97, 114], [52, 50]] ∧
      term_candidates (List.replicate 300 65 ++ [39, 98, 98]) =
        [List.replicate 255 97, [98, 98]] :=
  ⟨tokenize_and_index_without_stemming one_document_indexer 7
      [69, 118, 39, 100, 101, 32, 107, 105, 116, 97, 112, 45, 108, 97, 114, 32, 52, 50]
      rfl (by simp [one_document_indexer]) (create_well_formed 100000).1,
    by decide!, by decide!⟩

end Tokenizer

/-! ### Round trip of the inverted index -/

section RoundTrip

open HashMap Indexer IndexLoader

theorem read_u16_bytes (n : Nat) (rest : List Nat) (h : n < 2 ^ 16) :
    read_u16 (u16_bytes n ++ rest) = some (n, rest) := by
  have e : n % 256 + 256 * (n / 256 % 256) = n := by omega
  simp only [u16_bytes, List.cons_append, List.nil_append, read_u16, e]

theorem read_u32_bytes (n : Nat) (rest : List Nat) (h : n < 2 ^ 32) :
    read_u32 (u32_bytes n ++ rest) = some (n, rest) := by
  have e : n % 256 + 256 * (n / 256 % 256) + 65536 * (n / 65536 % 256) +
      16777216 * (n / 16777216 % 256) = n := by omega
  simp only [u32_bytes, List.cons_append, List.nil_append, read_u32, e]

theorem read_bytes_append (l rest : List Nat) :
    read_bytes l.length (l ++ rest) = some (l, rest) := by
  unfold read_bytes
  rw [if_pos (by simp), List.take_left, List.drop_left]

theorem read_u32_array_bytes (l : List Nat) : ∀ (rest : List Nat), (∀ x ∈ l, x < 2 ^ 32) →
    read_u32_array l.length ((l.map u32_bytes).flatten ++ rest) = some (l, rest) := by
  induction l with
  | nil =>
    intro rest _
    rfl
  | cons a l ih =>
    intro rest h
    rw [List.length_cons, read_u32_array, List.map_cons, List.flatten_cons, List.append_assoc,
      read_u32_bytes a _ (h a (List.mem_cons_self _ _))]
    simp only [ih rest (fun x hx => h x (List.mem_cons_of_mem _ hx))]

theorem read_terms_bytes (sorted : List HashNode) : ∀ (rest : List Nat),
    (∀ n ∈ sorted, n.key.length < 2 ^ 16 ∧ n.doc_ids.length < 2 ^ 32 ∧
      ∀ x ∈ n.doc_ids, x < 2 ^ 32) →
    read_terms sorted.length ((sorted.map node_bytes).flatten ++ rest) =
      some (sorted.map (fun n => term_entry n.key n.doc_ids)) := by
  induction sorted with
  | nil =>
    intro rest _
    rfl
  | cons n l ih =>
    intro rest h
    obtain ⟨h1, h2, h3⟩ := h n (List.mem_cons_self _ _)
    have e1 : n.key.length % 2 ^ 16 = n.key.length := Nat.mod_eq_of_lt h1
    have e2 : n.doc_ids.length % 2 ^ 32 = n.doc_ids.length := Nat.mod_eq_of_lt h2
    rw [List.length_cons, read_terms, List.map_cons, List.flatten_cons, node_bytes, e1, e2,
      List.take_length, List.take_length]
    simp only [List.append_assoc]
    rw [read_u16_bytes _ _ h1]
    simp only [read_bytes_append]
    rw [read_u32_bytes _ _ h2]
    simp only [read_u32_array_bytes _ _ h3, ih rest (fun m hm => h m (List.mem_cons_of_mem _ hm))]
    rfl

theorem load_inverted_bytes (sorted : List HashNode) (hlen : sorted.length < 2 ^ 32)
    (h : ∀ n ∈ sorted, n.key.length < 2 ^ 16 ∧ n.doc_ids.length < 2 ^ 32 ∧
      ∀ x ∈ n.doc_ids, x < 2 ^ 32) :
    load_inverted_index (inverted_bytes sorted.length sorted) =
      some (sorted.map (fun n => term_entry n.key n.doc_ids)) := by
  unfold load_inverted_index inverted_bytes
  rw [List.append_assoc, read_u32_bytes _ _ hlen]
  simp only []
  rw [read_u32_bytes _ _ hlen]
  simp only []
  have := read_terms_bytes sorted [] h
  rw [List.append_nil] at this
  exact this

theorem sorted_node_bounds (ix : Indexer) (L : List Nat) (hinv : ix.consistent L)
    (hL : ∀ x ∈ L, x < 2 ^ 32) (hLlen : L.length < 2 ^ 32) :
    ∀ n ∈ nodes (sort_index ix).inverted_index.buckets,
      n.key.length < 2 ^ 16 ∧ n.doc_ids.length < 2 ^ 32 ∧ ∀ x ∈ n.doc_ids, x < 2 ^ 32 := by
  obtain ⟨hwf, hl, hdocs, hnodes⟩ := hinv
  intro n hn
  rw [sort_index_nodes] at hn
  obtain ⟨n0, hn0, rfl⟩ := List.mem_map.1 hn
  have hperm : (if 0 < n0.doc_ids.length then qsort compare_uint32 n0.doc_ids
      else n0.doc_ids).Perm n0.doc_ids := by
    split
    · exact List.perm_insertionSort _ _
    · exact List.Perm.refl _
  have hsub : n0.doc_ids ⊆ L := fun x hx => (hnodes n0 hn0).2 x hx
  have hlen : n0.doc_ids.length ≤ L.length :=
    (List.subperm_of_subset (hl n0 hn0) hsub).length_le
  refine ⟨?_, ?_, ?_⟩
  · have := (hnodes n0 hn0).1
    show n0.key.length < 2 ^ 16
    omega
  · show (if 0 < n0.doc_ids.length then qsort compare_uint32 n0.doc_ids
      else n0.doc_ids).length < 2 ^ 32
    rw [hperm.length_eq]
    omega
  · intro x hx
    exact hL x (hsub (hperm.subset hx))

theorem round_trip_aux (ix : Indexer) (L : List Nat) (hinv : ix.consistent L)
    (hL : ∀ x ∈ L, x < 2 ^ 32) (hLlen : L.length < 2 ^ 32)
    (hsize : ix.inverted_index.size < 2 ^ 32) :
    ∃ files sorted, (sort_index ix).save_to_file = some files ∧
      (sort_index ix).term_array = some sorted ∧
      sorted.Perm (nodes (sort_index ix).inverted_index.buckets) ∧
      sorted.Pairwise (fun a b => strcmp a.key b.key < 0) ∧
      load_inverted_index files.inverted_file =
        some (sorted.map (fun n => term_entry n.key n.doc_ids)) := by
  have hwf := hinv.1
  have hsome := term_array_some ix hwf hsize
  obtain ⟨sorted, hs⟩ := Option.isSome_iff_exists.1 hsome
  have hsorted : sorted = qsort compare_terms (nodes (sort_index ix).inverted_index.buckets) := by
    unfold term_array at hs
    split at hs
    · simp only [Option.some.injEq] at hs
      exact hs.symm
    · cases hs
  have hperm : sorted.Perm (nodes (sort_index ix).inverted_index.buckets) := by
    rw [hsorted]
    exact List.perm_insertionSort _ _
  have hcount : (sort_index ix).inverted_index.size % 2 ^ 32 = sorted.length := by
    rw [sort_index_size, Nat.mod_eq_of_lt hsize, hperm.length_eq, sort_index_nodes,
      List.length_map]
    exact hwf.2.2.2.2.symm
  have hslen : sorted.length < 2 ^ 32 := by
    rw [← hcount]
    exact Nat.mod_lt _ (by norm_num)
  have hbounds := sorted_node_bounds ix L hinv hL hLlen
  refine ⟨⟨metadata_bytes (sort_index ix).metadata, forward_bytes (sort_index ix).documents,
    inverted_bytes ((sort_index ix).inverted_index.size % 2 ^ 32) sorted⟩, sorted, ?_, hs, hperm,
    (term_array_ascending ix hwf sorted hs).1, ?_⟩
  · unfold save_to_file
    rw [hs]
  · show load_inverted_index
      (inverted_bytes ((sort_index ix).inverted_index.size % 2 ^ 32) sorted) = _
    rw [hcount]
    exact load_inverted_bytes sorted hslen (fun n hn => hbounds n (hperm.subset hn))

/-- C11: for every index built by `add_document` calls with doc IDs below
`2^32`, fewer than `2^32` records and fewer than `2^32` terms, every term has
at most 255 bytes, `save_to_file` after `sort_index` returns, and
`load_inverted_index` on the bytes of its `.inverted` file succeeds and yields
one entry per node of the posting map, with the same term and the same posting
list, `term_length` and `document_frequency` being their lengths, in strictly
ascending order of the terms. -/
theorem inverted_index_round_trip (now : Nat) (stale : IndexMetadata) (opts : IndexOptions)
    (records : List (Nat × List Nat × List Nat × List Nat)) (ix : Indexer)
    (hbuild : Indexer.add_documents ((Indexer.construct now stale).set_options opts) records =
      some ix)
    (hids : ∀ r ∈ records, r.1 < 2 ^ 32) (hrecords : records.length < 2 ^ 32)
    (hsize : ix.inverted_index.size < 2 ^ 32) :
    (∀ n ∈ HashMap.nodes ix.inverted_index.buckets, n.key.length ≤ 255) ∧
    ∃ files sorted, (Indexer.sort_index ix).save_to_file = some files ∧
      (Indexer.sort_index ix).term_array = some sorted ∧
      sorted.Perm (HashMap.nodes (Indexer.sort_index ix).inverted_index.buckets) ∧
      sorted.Pairwise (fun a b => strcmp a.key b.key < 0) ∧
      IndexLoader.load_inverted_index files.inverted_file =
        some (sorted.map (fun n => (⟨n.key, n.key.length, n.doc_ids.length, n.doc_ids⟩ : Term))) := by
  have hinv := add_documents_consistent records [] _ ix (construct_consistent now stale opts) hbuild
  rw [List.nil_append] at hinv
  refine ⟨fun n hn => (hinv.2.2.2 n hn).1, ?_⟩
  exact round_trip_aux ix _ hinv
    (by
      intro x hx
      obtain ⟨r, hr, rfl⟩ := List.mem_map.1 hx
      exact hids r hr)
    (by rw [List.length_map]; exact hrecords) hsize

theorem inverted_index_round_trip_witness :
    ∃ ix, Indexer.add_documents ((Indexer.construct 0 zero_metadata).set_options ⟨false⟩)
        scenario1_records = some ix ∧
      (∀ n ∈ HashMap.nodes ix.inverted_index.buckets, n.key.length ≤ 255) ∧
      ∃ files sorted, (Indexer.sort_index ix).save_to_file = some files ∧
        (Indexer.sort_index ix).term_array = some sorted ∧
        sorted.Perm (HashMap.nodes (Indexer.sort_index ix).inverted_index.buckets) ∧
        sorted.Pairwise (fun a b => strcmp a.key b.key < 0) ∧
        IndexLoader.load_inverted_index files.inverted_file =
          some (sorted.map
            (fun n => (⟨n.key, n.key.length, n.doc_ids.length, n.doc_ids⟩ : Term))) ∧
        IndexLoader.load_inverted_index files.inverted_file =
          some [term_entry [100, 101, 118, 108, 101, 116, 105] [2],
            term_entry [105, 109, 112, 97, 114, 97, 116, 111, 114, 108, 117, 228, 159, 117] [1],
            term_entry [111, 115, 109, 97, 110, 108, 228, 177] [1, 2],
            term_entry [116, 97, 114, 105, 104] [1],
            term_entry [116, 105, 116, 108, 101] [1, 2]] := by
  obtain ⟨ix, h⟩ := add_documents_total scenario1_records (by decide)
    ((Indexer.construct 0 zero_metadata).set_options ⟨false⟩)
  have hdec : (Indexer.add_documents ((Indexer.construct 0 zero_metadata).set_options ⟨false⟩)
      scenario1_records).map (fun ix => decide (ix.inverted_index.size < 2 ^ 32)) =
      some true := by decide!
  rw [h] at hdec
  have hsize : ix.inverted_index.size < 2 ^ 32 := by simpa using hdec
  have hload : (Indexer.add_documents
      ((Indexer.construct 0 zero_metadata).set_options ⟨false⟩) scenario1_records).bind
      (fun ix => ((Indexer.sort_index ix).save_to_file).bind
        (fun files => IndexLoader.load_inverted_index files.inverted_file)) =
      some [term_entry [100, 101, 118, 108, 101, 116, 105] [2],
        term_entry [105, 109, 112, 97, 114, 97, 116, 111, 114, 108, 117, 228, 159, 117] [1],
        term_entry [111, 115, 109, 97, 110, 108, 228, 177] [1, 2],
        term_entry [116, 97, 114, 105, 104] [1],
        term_entry [116, 105, 116, 108, 101] [1, 2]] := by decide!
  rw [h] at hload
  obtain ⟨hkeys, files, sorted, h1, h2, h3, h4, h5⟩ :=
    inverted_index_round_trip 0 zero_metadata ⟨false⟩ scenario1_records ix h
      (by decide) (by decide) hsize
  rw [Option.some_bind, h1, Option.some_bind] at hload
  exact ⟨ix, h, hkeys, files, sorted, h1, h2, h3, h4, h5, hload⟩

theorem strcmp_neg_iff (a : List Nat) : ∀ b, (∀ c ∈ a, 0 < c) → (∀ c ∈ b, 0 < c) →
    (strcmp a b < 0 ↔ bytes_less a b = true) := by
  induction a with
  | nil =>
    intro b _ hb
    cases b with
    | nil => simp [strcmp, bytes_less]
    | cons y ys =>
      have := hb y (List.mem_cons_self _ _)
      simp [strcmp, bytes_less]
      omega
  | cons x xs ih =>
    intro b ha hb
    cases b with
    | nil =>
      simp [strcmp, bytes_less]
    | cons y ys =>
      have hx := ha x (List.mem_cons_self _ _)
      by_cases h : x = y
      · subst h
        have hx0 : x ≠ 0 := by omega
        simp only [strcmp, if_true, if_neg hx0, bytes_less, lt_self_iff_false, decide_False,
          decide_True, Bool.true_and, Bool.false_or]
        exact ih ys (fun c hc => ha c (List.mem_cons_of_mem _ hc))
          (fun c hc => hb c (List.mem_cons_of_mem _ hc))
      · rw [strcmp, if_neg h]
        simp only [bytes_less, h, decide_False, Bool.false_and, Bool.or_false,
          decide_eq_true_eq]
        omega

theorem read_u32_mod (n : Nat) (rest : List Nat) :
    read_u32 (u32_bytes n ++ rest) = some (n % 2 ^ 32, rest) := by
  have e : n % 256 + 256 * (n / 256 % 256) + 65536 * (n / 65536 % 256) +
      16777216 * (n / 16777216 % 256) = n % 2 ^ 32 := by omega
  simp only [u32_bytes, List.cons_append, List.nil_append, read_u32, e]

theorem read_u32_array_mod (l : List Nat) : ∀ (rest : List Nat),
    read_u32_array l.length ((l.map u32_bytes).flatten ++ rest) =
      some (l.map (fun x => x % 2 ^ 32), rest) := by
  induction l with
  | nil =>
    intro rest
    rfl
  | cons a l ih =>
    intro rest
    rw [List.length_cons, read_u32_array, List.map_cons, List.flatten_cons, List.append_assoc,
      read_u32_mod a _]
    simp only [ih rest]
    rfl

/-- The entry that `load_inverted_index` reads back for a node that
`save_to_file` wrote: the counter of the list is written as a `uint32_t` and
so are the doc IDs. -/
theorem read_terms_written (sorted : List HashNode) : ∀ (rest : List Nat),
    (∀ n ∈ sorted, n.key.length < 2 ^ 16) →
    read_terms sorted.length ((sorted.map node_bytes).flatten ++ rest) =
      some (sorted.map (fun n => (⟨n.key, n.key.length, n.doc_ids.length % 2 ^ 32,
        (n.doc_ids.take (n.doc_ids.length % 2 ^ 32)).map (fun x => x % 2 ^ 32)⟩ : Term))) := by
  induction sorted with
  | nil =>
    intro rest _
    rfl
  | cons n l ih =>
    intro rest h
    have h1 := h n (List.mem_cons_self _ _)
    have e1 : n.key.length % 2 ^ 16 = n.key.length := Nat.mod_eq_of_lt h1
    have e2 : (n.doc_ids.take (n.doc_ids.length % 2 ^ 32)).length =
        n.doc_ids.length % 2 ^ 32 := by
      rw [List.length_take]
      exact Nat.min_eq_left (Nat.mod_le _ _)
    rw [List.length_cons, read_terms, List.map_cons, List.flatten_cons, node_bytes, e1,
      List.take_length]
    simp only [List.append_assoc]
    rw [read_u16_bytes _ _ h1]
    simp only [read_bytes_append]
    rw [read_u32_mod]
    simp only [Nat.mod_mod]
    have e3 := read_u32_array_mod (n.doc_ids.take (n.doc_ids.length % 2 ^ 32))
      ((l.map node_bytes).flatten ++ rest)
    rw [e2] at e3
    rw [e3]
    simp only [ih rest (fun m hm => h m (List.mem_cons_of_mem _ hm))]
    rfl

theorem saved_terms_aux (ix : Indexer) (hwf : ix.inverted_index.well_formed)
    (hkeys : ∀ n ∈ nodes ix.inverted_index.buckets, n.key.length ≤ 255)
    (files : IndexFiles) (hf : (sort_index ix).save_to_file = some files) :
    ∃ terms, load_inverted_index files.inverted_file = some terms ∧
      terms.Pairwise (fun a b => strcmp a.term b.term < 0) ∧
      terms.Pairwise (fun a b => bytes_less a.term b.term = true) ∧
      (terms.map Term.term).Perm ((nodes ix.inverted_index.buckets).map HashNode.key) ∧
      ((nodes ix.inverted_index.buckets).map HashNode.key).Nodup := by
  obtain ⟨sorted, hs, hfile⟩ := save_to_file_inverted _ files hf
  obtain ⟨hasc, hperm⟩ := term_array_ascending ix hwf sorted hs
  have hcount : (sort_index ix).inverted_index.size % 2 ^ 32 = sorted.length := by
    unfold term_array at hs
    split at hs
    · next hc =>
      simp only [Option.some.injEq] at hs
      rw [← hs, (qsort_terms_sorted _).2.length_eq]
      exact hc.symm
    · cases hs
  have hslen : sorted.length < 2 ^ 32 := by
    rw [← hcount]
    exact Nat.mod_lt _ (by norm_num)
  have hklen : ∀ n ∈ sorted, n.key.length < 2 ^ 16 := by
    intro n hn
    obtain ⟨n', hn', hk⟩ := List.mem_map.1 (hperm.subset (List.mem_map_of_mem HashNode.key hn))
    have := hkeys n' hn'
    rw [hk] at this
    omega
  have hpos : ∀ n ∈ sorted, ∀ c ∈ n.key, 0 < c := by
    intro n hn
    obtain ⟨n', hn', hk⟩ := List.mem_map.1 (hperm.subset (List.mem_map_of_mem HashNode.key hn))
    rw [← hk]
    exact hwf.2.2.2.1 n' hn'
  have hload : load_inverted_index files.inverted_file =
      some (sorted.map (fun n => (⟨n.key, n.key.length, n.doc_ids.length % 2 ^ 32,
        (n.doc_ids.take (n.doc_ids.length % 2 ^ 32)).map (fun x => x % 2 ^ 32)⟩ : Term))) := by
    rw [hfile, hcount]
    unfold load_inverted_index inverted_bytes
    rw [List.append_assoc, read_u32_bytes _ _ hslen]
    simp only []
    rw [read_u32_bytes _ _ hslen]
    simp only []
    have := read_terms_written sorted [] hklen
    rw [List.append_nil] at this
    exact this
  refine ⟨_, hload, ?_, ?_, ?_, hwf.2.2.1⟩
  · rw [List.pairwise_map]
    exact hasc
  · rw [List.pairwise_map]
    refine List.Pairwise.imp_of_mem ?_ hasc
    intro a b ha hb hab
    exact (strcmp_neg_iff a.key b.key (hpos a ha) (hpos b hb)).1 hab
  · rw [List.map_map]
    exact hperm

/-- C9: after any sequence of `add_document` calls on a new `Indexer` that all
return and `sort_index`, the terms that `load_inverted_index` reads from the
`.inverted` file that `save_to_file` wrote are strictly ascending, under
`strcmp` and under the lexicographic comparison of unsigned bytes, and they
are the keys of the posting map, each exactly once. `save_to_file` writes the
file whenever the map has fewer than `2^32` terms, and the calls all return
exactly when the url and the title of every record have fewer than `2^16`
bytes. -/
theorem saved_terms_strictly_ascending (now : Nat) (stale : IndexMetadata)
    (opts : IndexOptions) (records : List (Nat × List Nat × List Nat × List Nat)) :
    (∀ ix, Indexer.add_documents ((Indexer.construct now stale).set_options opts) records =
        some ix →
      (∀ files, (Indexer.sort_index ix).save_to_file = some files →
        ∃ terms, IndexLoader.load_inverted_index files.inverted_file = some terms ∧
          terms.Pairwise (fun a b => strcmp a.term b.term < 0) ∧
          terms.Pairwise (fun a b => bytes_less a.term b.term = true) ∧
          (terms.map Term.term).Perm
            ((HashMap.nodes ix.inverted_index.buckets).map HashNode.key) ∧
          ((HashMap.nodes ix.inverted_index.buckets).map HashNode.key).Nodup) ∧
      (ix.inverted_index.size < 2 ^ 32 →
        ∃ files, (Indexer.sort_index ix).save_to_file = some files)) ∧
      ((∃ ix, Indexer.add_documents ((Indexer.construct now stale).set_options opts) records =
          some ix) ↔
        ∀ r ∈ records, r.2.1.length < 2 ^ 16 ∧ r.2.2.1.length < 2 ^ 16) := by
  refine ⟨fun ix h => ?_, fun ⟨ix, h⟩ => add_documents_fit records _ ix h,
    fun hfit => add_documents_total records hfit _⟩
  have hinv := add_documents_consistent records [] _ ix (construct_consistent now stale opts) h
  refine ⟨fun files hf => saved_terms_aux ix hinv.1 (fun n hn => (hinv.2.2.2 n hn).1) files hf,
    fun hsize => ?_⟩
  obtain ⟨sorted, hs⟩ := Option.isSome_iff_exists.1 (term_array_some ix hinv.1 hsize)
  refine ⟨⟨metadata_bytes (sort_index ix).metadata, forward_bytes (sort_index ix).documents,
    inverted_bytes ((sort_index ix).inverted_index.size % 2 ^ 32) sorted⟩, ?_⟩
  unfold save_to_file
  rw [hs]

/-- The terms read back from the `.inverted` file written for the records
ingested with the doc IDs 5, 3, 5, 1: `aa`, `bb`, `zz`, in that order. -/
theorem saved_terms_unordered_example :
    (Indexer.add_documents (Indexer.construct 0 zero_metadata) unordered_records).bind
        (fun ix => ((Indexer.sort_index ix).save_to_file).bind
          (fun files => (IndexLoader.load_inverted_index files.inverted_file).map
            (fun terms => terms.map Term.term))) =
      some [[97, 97], [98, 98], [122, 122]] := by
  decide!

end RoundTrip

/-! ### End to end -/

section EndToEnd

/-- C1: for the index that `build_index` writes for scenario 1 without stemming,
`search` returns the empty list for the query `osmanlı` and for the query
`osmanlı tarih`, with and without `DEBUG_SEARCH`. `Indexer::to_lowercase` adds
32 to the byte `C4` of `ı`, so the term is stored as `osmanl` `E4 B1`, while
the lexer leaves the query word as `osmanl` `C4 B1`; the query for the stored
bytes returns `[1, 2]`. -/
theorem scenario1_turkish_word_not_found (debug_search : Bool) :
    Indexer.to_lowercase [111, 115, 109, 97, 110, 108, 196, 177] =
        [111, 115, 109, 97, 110, 108, 228, 177] ∧
      QueryEvaluator.lexed_word [111, 115, 109, 97, 110, 108, 196, 177] =
        [111, 115, 109, 97, 110, 108, 196, 177] ∧
      ((build_index 0 zero_metadata false scenario1_records).bind
        (fun files => search debug_search files
          [111, 115, 109, 97, 110, 108, 196, 177])) = some [] ∧
      ((build_index 0 zero_metadata false scenario1_records).bind
        (fun files => search debug_search files
          [111, 115, 109, 97, 110, 108, 196, 177, 32, 116, 97, 114, 105, 104])) = some [] ∧
      ((build_index 0 zero_metadata false scenario1_records).bind
        (fun files => search debug_search files [111, 115, 109, 97, 110, 108, 228, 177])) =
        some [1, 2] := by
  cases debug_search <;> decide!

/-- C18: built with stemming from the records `1 http://x T kitap` and
`2 http://y T kitaplar`, the index holds the terms `kitap:[1]` and
`kitaplar:[2]`, so the query `kitap` returns `[1]`, not `[1, 2]`: the token
that ends at the end of the text is case-folded and validated but not stemmed.
With a full stop after each content the same token is stemmed to `kitap` and
the query returns `[1, 2]`. -/
theorem last_token_is_not_stemmed (debug_search : Bool) :
    (build_index 0 zero_metadata true scenario2_records).bind
        (fun files => search debug_search files [107, 105, 116, 97, 112]) = some [1] ∧
      (build_index 0 zero_metadata true scenario2_records).bind
        (fun files => search debug_search files [107, 105, 116, 97, 112, 108, 97, 114]) =
        some [2] ∧
      (build_index 0 zero_metadata true scenario2_records_stop).bind
        (fun files => search debug_search files [107, 105, 116, 97, 112]) = some [1, 2] ∧
      TurkishStemmer.stem (Indexer.to_lowercase [107, 105, 116, 97, 112, 108, 97, 114]) =
        some (true, [107, 105, 116, 97, 112]) ∧
      (build_index 0 zero_metadata true scenario2_records).bind
        (fun files => (IndexLoader.load debug_search files).map
          (fun ld => ld.terms.map (fun t => (t.term, t.doc_ids)))) =
        some [([107, 105, 116, 97, 112], [1]),
          ([107, 105, 116, 97, 112, 108, 97, 114], [2])] := by
  cases debug_search <;> decide!

end EndToEnd

/-! ### Complement, empty and unknown queries -/

section Queries

open BooleanQueryParser QueryEvaluator IndexLoader

theorem next_token_not (q : List Nat) :
    next_token (33 :: q) = (⟨TokenType.TOKEN_NOT, []⟩, q) := by
  rw [next_token_unfold]
  simp [skip_whitespace, isspace]

theorem parse_factor_not (f : Nat) (ld : IndexLoader) (ev : QueryEvaluator)
    (operand : List Nat) (ev1 : QueryEvaluator) (r : Option (List Nat))
    (ht : ev.current_token.type = TokenType.TOKEN_NOT)
    (h1 : parse_factor f ld (advance ev) = some (operand, ev1))
    (h2 : negate_postings operand ld.get_total_documents = r) :
    parse_factor (f + 1) ld ev = r.map (fun result => (result, ev1)) := by
  subst h2
  cases h : negate_postings operand ld.get_total_documents <;> simp [parse_factor, ht, h1, h]

theorem not_word_eval_aux (ld : IndexLoader) (w pw : List Nat) (r : Option (List Nat))
    (hw : is_query_word w = true) (hp : word_postings ld (lexed_word w) = some pw)
    (hr : negate_postings pw ld.get_total_documents = r) :
    evaluate ld (33 :: w) = r := by
  obtain ⟨hne, hww⟩ := (is_query_word_iff w).1 hw
  have e0 : ∀ t, advance ⟨33 :: w, t⟩ = ⟨w, ⟨TokenType.TOKEN_NOT, []⟩⟩ := by
    intro t
    simp [advance, next_token_not]
  have e1 : ∀ t, advance ⟨w, t⟩ = ⟨[], ⟨TokenType.TOKEN_WORD, lexed_word w⟩⟩ := by
    intro t
    have := next_token_word w [] hne hww (by simp)
    simp only [List.append_nil] at this
    simp [advance, this, lexed_word]
  have e2 : ∀ t, advance ⟨[], t⟩ = ⟨[], ⟨TokenType.TOKEN_END, []⟩⟩ := by
    intro t
    simp [advance, next_token_nil]
  have hlen : 3 * (33 :: w).length + 3 = (3 * w.length + 2) + 1 + 1 + 1 + 1 := by
    simp only [List.length_cons]
    omega
  have hf : parse_factor ((3 * w.length + 2) + 1 + 1) ld ⟨w, ⟨TokenType.TOKEN_NOT, []⟩⟩ =
      r.map (fun result => (result, ⟨[], ⟨TokenType.TOKEN_END, []⟩⟩)) := by
    refine parse_factor_not _ ld _ pw _ r rfl ?_ hr
    rw [e1]
    refine Eq.trans (parse_factor_word _ ld _ pw ?_ ?_) ?_
    · rfl
    · exact hp
    · rw [e2]
  rw [evaluate, hlen, e0, parse_expression_succ, parse_term_succ, hf]
  cases r with
  | none => rfl
  | some res =>
    simp only [Option.map_some']
    rw [parse_term_loop_stop _ ld _ _ (by simp) (by simp)]
    simp only []
    rw [parse_expression_loop_stop _ ld _ _ (by simp)]

/-- C19 (as stated, refuted): in `full_range_loader` the word `beta` has the
strictly ascending posting list `[5]` and `total_documents` is `2^32 - 1`. The
loop of `negate_postings` then returns for no number of steps (its 32-bit
counter wraps to 0 and never exceeds `total_docs`), and the query `!beta` has
no result. -/
theorem complement_never_returns_for_full_range :
    word_postings full_range_loader (lexed_word [98, 101, 116, 97]) = some [5] ∧
      full_range_loader.get_total_documents = 2 ^ 32 - 1 ∧
      (∀ fuel, negate_loop fuel [5] 1 (2 ^ 32 - 1) [] = none) ∧
      evaluate full_range_loader [33, 98, 101, 116, 97] = none := by
  have hp : word_postings full_range_loader (lexed_word [98, 101, 116, 97]) = some [5] := by
    decide!
  refine ⟨hp, rfl, fun fuel => negate_loop_diverges fuel _ _ _ _ (le_refl _) (by norm_num), ?_⟩
  refine not_word_eval_aux full_range_loader [98, 101, 116, 97] [5] none (by decide) hp ?_
  exact negate_loop_diverges _ _ _ _ _ (le_refl _) (by norm_num)

/-- C19 (amended): for every loader with `total_documents = N < 2^32 - 1` and
every word `w` whose lookup returns a strictly ascending list `P` of positive
IDs (which may exceed `N`), the query `!w` evaluates to `complement_spec P N`,
the ascending list of the `d` in `1..N` that are not in `P`. -/
theorem not_complements_document_range (ld : IndexLoader) (w pw : List Nat)
    (hw : is_query_word w = true) (hp : word_postings ld (lexed_word w) = some pw)
    (hs : pw.Sorted (· < ·)) (hpos : ∀ a ∈ pw, 1 ≤ a)
    (hN : ld.get_total_documents < 2 ^ 32 - 1) :
    evaluate ld (33 :: w) = some (complement_spec pw ld.get_total_documents) ∧
      (complement_spec pw ld.get_total_documents).Sorted (· < ·) ∧
      ∀ d, d ∈ complement_spec pw ld.get_total_documents ↔
        1 ≤ d ∧ d ≤ ld.get_total_documents ∧ d ∉ pw :=
  ⟨not_word_eval_aux ld w pw _ hw hp (negate_postings_eq_aux pw _ hN hs hpos),
    complement_spec_sorted _ _, complement_spec_mem _ _⟩

theorem not_complements_document_range_witness :
    (evaluate sparse_loader (33 :: [98, 101, 116, 97]) =
        some (complement_spec [5] sparse_loader.get_total_documents) ∧
      (complement_spec [5] sparse_loader.get_total_documents).Sorted (· < ·) ∧
      ∀ d, d ∈ complement_spec [5] sparse_loader.get_total_documents ↔
        1 ≤ d ∧ d ≤ sparse_loader.get_total_documents ∧ d ∉ [5]) ∧
      complement_spec [5] sparse_loader.get_total_documents = [1, 2, 3] ∧
      ∀ debug_search : Bool, (build_index 0 zero_metadata false sparse_records).bind
        (fun files => search debug_search files [33, 98, 101, 116, 97]) = some [1, 2, 3] :=
  ⟨not_complements_document_range sparse_loader [98, 101, 116, 97] [5] (by decide) (by decide!)
    (by decide) (by decide) (by decide), by decide,
    fun debug_search => by cases debug_search <;> decide!⟩

theorem find_term_loop_sound (terms : List Term) (key : List Nat) :
    ∀ (fuel : Nat) (left right : Int) (t : Term),
      find_term_loop fuel terms key left right = some (some t) →
      t ∈ terms ∧ strcmp key t.term = 0 := by
  intro fuel
  induction fuel with
  | zero =>
    intro left right t h
    simp [find_term_loop] at h
  | succ f ih =>
    intro left right t h
    rw [find_term_loop] at h
    split at h
    · split at h
      · cases h
      · split at h
        · cases h
        · split at h
          · cases h
          · split at h
            · cases h
            · next mid _ t' hget =>
              simp only at h
              split at h
              · next hc =>
                simp only [Option.some.injEq] at h
                subst h
                exact ⟨List.getElem?_mem hget, hc⟩
              · split at h
                · split at h
                  · cases h
                  · exact ih _ _ _ h
                · split at h
                  · cases h
                  · exact ih _ _ _ h
    · cases h

theorem find_term_absent_aux (ld : IndexLoader) (key : List Nat)
    (hlen : ld.metadata.total_unique_terms = ld.terms.length)
    (hn : ld.terms.length < 2 ^ 31) (hdbg : ld.debug_search = false ∨ ld.terms ≠ [])
    (habs : ∀ t ∈ ld.terms, strcmp key t.term ≠ 0) : ld.find_term key = some none := by
  obtain ⟨r, hr⟩ := find_term_total_aux ld key hlen hn hdbg
  cases r with
  | none => exact hr
  | some t =>
    have := find_term_loop_sound ld.terms key _ _ _ t (find_term_loop_of_some ld key _ hr)
    exact absurd this.2 (habs t this.1)

theorem next_token_spaces (q : List Nat) (h : ∀ c ∈ q, isspace c = true) :
    next_token q = (⟨TokenType.TOKEN_END, []⟩, []) := by
  induction q with
  | nil => exact next_token_nil
  | cons c q ih =>
    rw [next_token_space c q (h c (List.mem_cons_self _ _))]
    exact ih (fun d hd => h d (List.mem_cons_of_mem _ hd))

theorem parse_factor_end (f : Nat) (ld : IndexLoader) (ev : QueryEvaluator)
    (ht : ev.current_token.type = TokenType.TOKEN_END) :
    parse_factor (f + 1) ld ev = some ([], ev) := by
  simp [parse_factor, ht]

theorem blank_query_eval_aux (ld : IndexLoader) (q : List Nat)
    (h : ∀ c ∈ q, isspace c = true) : evaluate ld q = some [] := by
  have e0 : advance ⟨q, ⟨TokenType.TOKEN_END, []⟩⟩ = ⟨[], ⟨TokenType.TOKEN_END, []⟩⟩ := by
    simp [advance, next_token_spaces q h]
  have hlen : 3 * q.length + 3 = 3 * q.length + 1 + 1 + 1 := by omega
  refine evaluate_of ld q [] ⟨[], ⟨TokenType.TOKEN_END, []⟩⟩ ?_
  rw [hlen, e0]
  refine parse_expression_of _ ld _ [] ⟨[], ⟨TokenType.TOKEN_END, []⟩⟩ _ ?_ ?_
  · refine parse_term_of _ ld _ [] ⟨[], ⟨TokenType.TOKEN_END, []⟩⟩ _ ?_ ?_
    · exact parse_factor_end _ ld _ rfl
    · exact parse_term_loop_stop _ ld _ _ (by simp) (by simp)
  · exact parse_expression_loop_stop _ ld _ _ (by simp)

theorem single_word_eval_aux (ld : IndexLoader) (w pw : List Nat)
    (hw : is_query_word w = true) (hp : word_postings ld (lexed_word w) = some pw) :
    evaluate ld w = some pw := by
  obtain ⟨hne, hww⟩ := (is_query_word_iff w).1 hw
  have e1 : ∀ t, advance ⟨w, t⟩ = ⟨[], ⟨TokenType.TOKEN_WORD, lexed_word w⟩⟩ := by
    intro t
    have := next_token_word w [] hne hww (by simp)
    simp only [List.append_nil] at this
    simp [advance, this, lexed_word]
  have e2 : ∀ t, advance ⟨[], t⟩ = ⟨[], ⟨TokenType.TOKEN_END, []⟩⟩ := by
    intro t
    simp [advance, next_token_nil]
  have hlen : 3 * w.length + 3 = 3 * w.length + 1 + 1 + 1 := by omega
  refine evaluate_of ld w pw ⟨[], ⟨TokenType.TOKEN_END, []⟩⟩ ?_
  rw [hlen, e1]
  refine parse_expression_of _ ld _ pw ⟨[], ⟨TokenType.TOKEN_END, []⟩⟩ _ ?_ ?_
  · refine parse_term_of _ ld _ pw ⟨[], ⟨TokenType.TOKEN_END, []⟩⟩ _ ?_ ?_
    · refine Eq.trans (parse_factor_word _ ld _ pw ?_ ?_) ?_
      · rfl
      · exact hp
      · rw [e2]
    · exact parse_term_loop_stop _ ld _ _ (by simp) (by simp)
  · exact parse_expression_loop_stop _ ld _ _ (by simp)

theorem single_word_undefined_aux (ld : IndexLoader) (w : List Nat)
    (hw : is_query_word w = true) (hp : word_postings ld (lexed_word w) = none) :
    evaluate ld w = none := by
  obtain ⟨hne, hww⟩ := (is_query_word_iff w).1 hw
  have e1 : ∀ t, advance ⟨w, t⟩ = ⟨[], ⟨TokenType.TOKEN_WORD, lexed_word w⟩⟩ := by
    intro t
    have := next_token_word w [] hne hww (by simp)
    simp only [List.append_nil] at this
    simp [advance, this, lexed_word]
  have hlen : 3 * w.length + 3 = 3 * w.length + 1 + 1 + 1 := by omega
  have hf : parse_factor (3 * w.length + 1) ld ⟨[], ⟨TokenType.TOKEN_WORD, lexed_word w⟩⟩ =
      none := by
    simp [parse_factor, hp]
  rw [evaluate, hlen, e1, parse_expression_succ, parse_term_succ, hf]

theorem find_term_loop_overflow (terms : List Term) (key : List Nat)
    (hlen : terms.length = 2 ^ 31) (hgt : ∀ t ∈ terms, 0 < strcmp key t.term) :
    ∀ (fuel : Nat) (left : Int), 0 ≤ left → left ≤ 2 ^ 31 - 1 →
      find_term_loop fuel terms key left (2 ^ 31 - 1) = none := by
  intro fuel
  induction fuel with
  | zero => intro left _ _; rfl
  | succ f ih =>
    intro left h0 hle
    have htd : Int.tdiv (2 ^ 31 - 1 - left) 2 = (2 ^ 31 - 1 - left) / 2 :=
      Int.tdiv_eq_ediv (by omega) (by norm_num)
    have hw : int32 (2 ^ 31 - 1 - left) = some (2 ^ 31 - 1 - left) :=
      int32_of_range _ (by omega) (by omega)
    have hm : int32 (left + (2 ^ 31 - 1 - left) / 2) = some (left + (2 ^ 31 - 1 - left) / 2) :=
      int32_of_range _ (by omega) (by omega)
    have hneg : ¬ (left + (2 ^ 31 - 1 - left) / 2 < 0) := by omega
    have hmlt : (left + (2 ^ 31 - 1 - left) / 2).toNat < terms.length := by omega
    have hget : terms[(left + (2 ^ 31 - 1 - left) / 2).toNat]? =
        some terms[(left + (2 ^ 31 - 1 - left) / 2).toNat] := List.getElem?_eq_getElem hmlt
    have hcmp := hgt _ (List.getElem_mem hmlt)
    have hc0 : ¬ strcmp key terms[(left + (2 ^ 31 - 1 - left) / 2).toNat].term = 0 := by omega
    have hc1 : ¬ strcmp key terms[(left + (2 ^ 31 - 1 - left) / 2).toNat].term < 0 := by omega
    rw [find_term_loop, if_pos hle]
    simp only [hw, htd, hm, if_neg hneg, hget, if_neg hc0, if_neg hc1]
    by_cases hov : left + (2 ^ 31 - 1 - left) / 2 + 1 < 2 ^ 31
    · rw [int32_of_range _ (by omega) hov]
      exact ih _ (by omega) (by omega)
    · have : int32 (left + (2 ^ 31 - 1 - left) / 2 + 1) = none := by
        rw [int32, if_neg (fun h => hov h.2)]
      rw [this]

theorem full_terms_length : full_terms.length = 2 ^ 31 := by
  unfold full_terms
  rw [List.length_map, List.length_range]

theorem full_terms_ascending :
    full_terms.Pairwise (fun s t => strcmp s.term t.term < 0) := by
  unfold full_terms
  rw [List.pairwise_map]
  refine List.Pairwise.imp_of_mem ?_ (List.pairwise_lt_range (2 ^ 31))
  intro a b _ hb hab
  have hb' : b < 2 ^ 31 := List.mem_range.1 hb
  exact fixed_digits_lt 8 a b hab (by omega)

theorem full_terms_below (t : Term) (ht : t ∈ full_terms) : 0 < strcmp [122] t.term := by
  unfold full_terms at ht
  obtain ⟨i, hi, rfl⟩ := List.mem_map.1 ht
  have hi' : i < 2 ^ 31 := List.mem_range.1 hi
  have hd : i / 16 ^ 7 < 8 := by omega
  have hne : ¬ (122 = 97 + i / 16 ^ 7) := by omega
  simp only [term_entry, fixed_digits, strcmp]
  rw [if_neg hne]
  omega

theorem find_term_full (key : List Nat) (hgt : ∀ t ∈ full_terms, 0 < strcmp key t.term) :
    (loader_with 0 full_terms).find_term key = none := by
  have e : uint32_pred (2 ^ 31) = 2 ^ 31 - 1 := by
    unfold uint32_pred
    rw [if_neg (by norm_num)]
  have e2 : toInt32 (2 ^ 31 - 1) = 2 ^ 31 - 1 := by
    unfold toInt32
    rw [if_pos (by norm_num)]
    norm_num
  rw [find_term_of_reads _ key (debug_reads_unset _ rfl), loader_with_total, full_terms_length,
    e, e2]
  exact find_term_loop_overflow full_terms key full_terms_length hgt _ 0 (by norm_num)
    (by norm_num)

theorem word_postings_undefined (ld : IndexLoader) (key : List Nat)
    (h : ld.find_term key = none) : word_postings ld key = none := by
  unfold word_postings
  rw [h]

theorem word_postings_absent (ld : IndexLoader) (key : List Nat)
    (h : ld.find_term key = some none) : word_postings ld key = some [] := by
  unfold word_postings
  rw [h]

theorem word_postings_many (ld : IndexLoader) (w : List Nat)
    (hlen : ld.metadata.total_unique_terms = ld.terms.length)
    (h1 : 2 ^ 31 < ld.terms.length) (h2 : ld.terms.length < 2 ^ 32) :
    word_postings ld w = some [] := by
  have hne : ld.terms ≠ [] := by
    intro h
    rw [h] at h1
    simp at h1
  have hf := find_term_many ld w (by rw [hlen]; exact h1) (by rw [hlen]; exact h2)
    (debug_reads_some ld hlen (Or.inr hne))
  unfold word_postings
  rw [hf]

/-- C20 (as stated, refuted): `full_terms` is a strictly ascending term array
of exactly `2^31` entries, none of which is the word `z`. The binary search of
`find_term` for `z` moves `left` up to `2^31 - 1` and then computes `mid + 1`
outside the range of `int`, so the lookup and the query `z` have no defined
result. And on an empty index searched with `DEBUG_SEARCH` set, a query of
one word has no result: the lookup prints `terms[0].term`, which lies outside
the array. -/
theorem absent_word_overflows_in_full_array :
    full_terms.length = 2 ^ 31 ∧
      (loader_with 0 full_terms).metadata.total_unique_terms = full_terms.length ∧
      full_terms.Pairwise (fun s t => strcmp s.term t.term < 0) ∧
      (∀ t ∈ full_terms, t.term ≠ lexed_word [122]) ∧
      (∀ fuel, find_term_loop fuel full_terms (lexed_word [122]) 0 (2 ^ 31 - 1) = none) ∧
      (loader_with 0 full_terms).find_term (lexed_word [122]) = none ∧
      evaluate (loader_with 0 full_terms) [122] = none ∧
      empty_debug_loader.terms = [] ∧ empty_debug_loader.debug_search = true ∧
      ∀ w : List Nat, is_query_word w = true → evaluate empty_debug_loader w = none := by
  have hl : lexed_word [122] = [122] := by decide
  have hf : (loader_with 0 full_terms).find_term (lexed_word [122]) = none := by
    rw [hl]
    exact find_term_full [122] full_terms_below
  refine ⟨full_terms_length, loader_with_total 0 full_terms, full_terms_ascending, ?_, ?_, hf,
    ?_, rfl, rfl, fun w hw => single_word_undefined_aux _ w hw (word_postings_undefined _ _
      (find_term_without_reads _ _ (debug_reads_empty _ rfl rfl)))⟩
  · intro t ht heq
    have := full_terms_below t ht
    rw [hl] at heq
    rw [heq, strcmp_self] at this
    exact absurd this (by decide)
  · intro fuel
    rw [hl]
    exact find_term_loop_overflow full_terms [122] full_terms_length full_terms_below fuel 0
      (by norm_num) (by norm_num)
  · exact single_word_undefined_aux _ [122] (by decide) (word_postings_undefined _ _ hf)

/-- C20 (amended): for every loader the empty query and every query of
whitespace only evaluate to the empty list, with or without `DEBUG_SEARCH`;
for every loader whose term array has fewer than `2^31` entries,
`total_unique_terms` being its length, and is not empty or is searched without
`DEBUG_SEARCH`, a query of one word that equals no term of the array evaluates
to the empty list; and so does every query of one word for a loader whose
term array has more than `2^31` entries. -/
theorem empty_and_unknown_queries_return_empty (ld : IndexLoader) :
    evaluate ld [] = some [] ∧
      (∀ q : List Nat, (∀ c ∈ q, isspace c = true) → evaluate ld q = some []) ∧
      (∀ w : List Nat, ld.metadata.total_unique_terms = ld.terms.length →
        ld.terms.length < 2 ^ 31 → ld.debug_search = false ∨ ld.terms ≠ [] →
        is_query_word w = true → (∀ t ∈ ld.terms, is_c_string t.term = true) →
        (∀ t ∈ ld.terms, t.term ≠ lexed_word w) → evaluate ld w = some []) ∧
      ∀ w : List Nat, ld.metadata.total_unique_terms = ld.terms.length →
        2 ^ 31 < ld.terms.length → ld.terms.length < 2 ^ 32 →
        is_query_word w = true → evaluate ld w = some [] := by
  refine ⟨blank_query_eval_aux ld [] (by simp), fun q hq => blank_query_eval_aux ld q hq, ?_,
    fun w hlen h1 h2 hw =>
      single_word_eval_aux ld w [] hw (word_postings_many ld (lexed_word w) hlen h1 h2)⟩
  intro w hlen hn hdbg hw hterms habs
  refine single_word_eval_aux ld w [] hw ?_
  have hkey : ∀ c ∈ lexed_word w, 0 < c := by
    intro c hc
    obtain ⟨hne, hww⟩ := (is_query_word_iff w).1 hw
    unfold lexed_word BooleanQueryParser.to_lowercase at hc
    obtain ⟨b, hb, rfl⟩ := List.mem_map.1 hc
    have := hww b (List.mem_of_mem_take hb)
    simp only [is_word_byte, isalnum, isalpha, isupper, islower, isdigit, Bool.or_eq_true,
      Bool.and_eq_true, decide_eq_true_eq] at this
    split <;> omega
  have hf := find_term_absent_aux ld (lexed_word w) hlen hn hdbg (by
    intro t ht h0
    exact habs t ht
      (strcmp_eq_zero _ _ hkey (is_c_string_pos _ (hterms t ht)) h0).symm)
  exact word_postings_absent ld _ hf

theorem empty_and_unknown_queries_return_empty_witness :
    evaluate precedence_loader [] = some [] ∧
      evaluate precedence_loader [32, 9, 10, 32] = some [] ∧
      evaluate precedence_loader [100, 101, 118, 108, 101, 116] = some [] ∧
      evaluate empty_debug_loader [] = some [] ∧
      evaluate empty_debug_loader [32, 9, 10, 32] = some [] ∧
      evaluate (loader_with 0 []) [100, 101, 118, 108, 101, 116] = some [] :=
  ⟨(empty_and_unknown_queries_return_empty precedence_loader).1,
    (empty_and_unknown_queries_return_empty precedence_loader).2.1 [32, 9, 10, 32] (by decide),
    (empty_and_unknown_queries_return_empty precedence_loader).2.2.1
      [100, 101, 118, 108, 101, 116] rfl (by decide) (Or.inl rfl) (by decide) (by decide)
      (by decide),
    (empty_and_unknown_queries_return_empty empty_debug_loader).1,
    (empty_and_unknown_queries_return_empty empty_debug_loader).2.1 [32, 9, 10, 32] (by decide),
    (empty_and_unknown_queries_return_empty (loader_with 0 [])).2.2.1
      [100, 101, 118, 108, 101, 116] rfl (by decide) (Or.inl rfl) (by decide) (by decide)
      (by decide)⟩

end Queries

/-! ### Suffix groups of the stemmer -/

section StemmerGroups

open TurkishStemmer

theorem remove_suffix_shorter (word suffix r : List Nat) (hs : suffix ≠ [])
    (h : remove_suffix word suffix = some r) : r <+: word ∧ r.length < word.length := by
  unfold remove_suffix at h
  split at h
  · next hle =>
    simp only [Option.some.injEq] at h
    subst h
    have hpos : 0 < suffix.length := List.length_pos.2 hs
    refine ⟨List.take_prefix _ _, ?_⟩
    rw [List.length_take]
    omega
  · cases h

theorem prefix_ne_iff (r w : List Nat) (h : r <+: w) : r ≠ w ↔ r.length < w.length := by
  constructor
  · intro hne
    rcases Nat.lt_or_ge r.length w.length with hl | hl
    · exact hl
    · exact absurd (h.eq_of_length (Nat.le_antisymm h.length_le hl)) hne
  · intro hl heq
    rw [heq] at hl
    exact Nat.lt_irrefl _ hl

theorem strip_plural_flag (word : List Nat) (m : Bool) (r : List Nat)
    (h : strip_plural word = some (m, r)) :
    r <+: word ∧ (m = true ↔ r.length < word.length) := by
  unfold strip_plural at h
  split at h
  · cases hr : remove_suffix word
        (if ends_with word [108, 97, 114] = true then [108, 97, 114] else [108, 101, 114]) with
    | none =>
      rw [hr] at h
      cases h
    | some w =>
      rw [hr] at h
      simp only [Option.some.injEq, Prod.mk.injEq] at h
      obtain ⟨rfl, rfl⟩ := h
      have := remove_suffix_shorter word _ w (by split <;> simp) hr
      exact ⟨this.1, by simp [this.2]⟩
  · simp only [Option.some.injEq, Prod.mk.injEq] at h
    obtain ⟨rfl, rfl⟩ := h
    exact ⟨List.prefix_refl _, by simp⟩

theorem strip_possessive_flag (m0 : Bool) (word : List Nat) (m : Bool) (r : List Nat)
    (h : strip_possessive m0 word = some (m, r)) :
    r <+: word ∧ (m = true ↔ (m0 = true ∨ r.length < word.length)) := by
  unfold strip_possessive at h
  split at h
  · split at h
    · cases hr : remove_suffix word [105, 109] with
      | none =>
        rw [hr] at h
        cases h
      | some w =>
        rw [hr] at h
        simp only [Option.some.injEq, Prod.mk.injEq] at h
        obtain ⟨rfl, rfl⟩ := h
        have := remove_suffix_shorter word _ w (by simp) hr
        exact ⟨this.1, by simp [this.2]⟩
    · simp only [Option.some.injEq, Prod.mk.injEq] at h
      obtain ⟨rfl, rfl⟩ := h
      exact ⟨List.prefix_refl _, by simp⟩
  · simp only [Option.some.injEq, Prod.mk.injEq] at h
    obtain ⟨rfl, rfl⟩ := h
    exact ⟨List.prefix_refl _, by simp⟩

theorem case_suffix_loop_flag (suffixes : List (List Nat)) (word : List Nat) (m : Bool)
    (r : List Nat) (hne : ∀ s ∈ suffixes, s ≠ [])
    (h : case_suffix_loop suffixes word = some (m, r)) :
    r <+: word ∧ (m = true ↔ r.length < word.length) := by
  induction suffixes with
  | nil =>
    simp only [case_suffix_loop, Option.some.injEq, Prod.mk.injEq] at h
    obtain ⟨rfl, rfl⟩ := h
    exact ⟨List.prefix_refl _, by simp⟩
  | cons s rest ih =>
    rw [case_suffix_loop] at h
    split at h
    · cases hr : remove_suffix word s with
      | none =>
        rw [hr] at h
        cases h
      | some w =>
        rw [hr] at h
        simp only [Option.some.injEq, Prod.mk.injEq] at h
        obtain ⟨rfl, rfl⟩ := h
        have := remove_suffix_shorter word s w (hne s (List.mem_cons_self _ _)) hr
        exact ⟨this.1, by simp [this.2]⟩
    · exact ih (fun t ht => hne t (List.mem_cons_of_mem _ ht)) h

theorem strip_case_flag (m0 : Bool) (word : List Nat) (m : Bool) (r : List Nat)
    (h : strip_case m0 word = some (m, r)) :
    r <+: word ∧ (m = true ↔ (m0 = true ∨ r.length < word.length)) := by
  unfold strip_case at h
  split at h
  · cases hr : case_suffix_loop case_suffixes word with
    | none =>
      rw [hr] at h
      cases h
    | some q =>
      obtain ⟨m3, w3⟩ := q
      rw [hr] at h
      simp only [Option.some.injEq, Prod.mk.injEq] at h
      obtain ⟨rfl, rfl⟩ := h
      have := case_suffix_loop_flag case_suffixes word m3 w3 (by decide) hr
      refine ⟨this.1, ?_⟩
      rw [Bool.or_eq_true, this.2]
  · simp only [Option.some.injEq, Prod.mk.injEq] at h
    obtain ⟨rfl, rfl⟩ := h
    exact ⟨List.prefix_refl _, by simp⟩

theorem stem_flag_aux (word : List Nat) (m : Bool) (r : List Nat)
    (h : stem word = some (m, r)) : m = true ↔ r ≠ word := by
  have hpre := stem_initial word m r h
  rw [prefix_ne_iff r word hpre]
  unfold stem at h
  split at h
  · simp only [Option.some.injEq, Prod.mk.injEq] at h
    obtain ⟨rfl, rfl⟩ := h
    simp
  · cases h1 : strip_plural word with
    | none =>
      rw [h1] at h
      cases h
    | some q1 =>
      obtain ⟨m1, w1⟩ := q1
      rw [h1] at h
      cases h2 : strip_possessive m1 w1 with
      | none =>
        simp only [h2] at h
        cases h
      | some q2 =>
        obtain ⟨m2, w2⟩ := q2
        simp only [h2] at h
        have f1 := strip_plural_flag word m1 w1 h1
        have f2 := strip_possessive_flag m1 w1 m2 w2 h2
        have f3 := strip_case_flag m2 w2 m r h
        have l1 := f1.1.length_le
        have l2 := f2.1.length_le
        have l3 := f3.1.length_le
        rw [f3.2, f2.2, f1.2]
        omega

theorem suffix_split (s w : List Nat) (h : s.isSuffixOf w = true) :
    w = w.take (w.length - s.length) ++ s := by
  obtain ⟨t, rfl⟩ := List.isSuffixOf_iff_suffix.1 h
  rw [List.length_append, Nat.add_sub_cancel, List.take_left]

theorem plural_group_spec_split (word : List Nat) :
    ∃ s ∈ [[], [108, 97, 114], [108, 101, 114]], word = plural_group_spec word ++ s := by
  unfold plural_group_spec
  split
  · next h =>
    rcases h.2 with h1 | h1
    · exact ⟨[108, 97, 114], by simp, suffix_split _ _ h1⟩
    · exact ⟨[108, 101, 114], by simp, suffix_split _ _ h1⟩
  · exact ⟨[], by simp, by simp⟩

theorem possessive_group_spec_split (word : List Nat) :
    ∃ p ∈ [[], [105, 109], [105, 110], [117, 109], [117, 110]],
      word = possessive_group_spec word ++ p := by
  unfold possessive_group_spec
  split
  · next h =>
    rcases h.2 with h1 | h1 | h1 | h1
    · exact ⟨[105, 109], by simp, suffix_split _ _ h1⟩
    · exact ⟨[105, 110], by simp, suffix_split _ _ h1⟩
    · exact ⟨[117, 109], by simp, suffix_split _ _ h1⟩
    · exact ⟨[117, 110], by simp, suffix_split _ _ h1⟩
  · exact ⟨[], by simp, by simp⟩

theorem case_group_spec_split (word : List Nat) :
    ∃ c ∈ [] :: case_suffixes, word = case_group_spec word ++ c := by
  unfold case_group_spec
  split
  · cases hf : case_suffixes.find? (fun s => s.isSuffixOf word) with
    | none => exact ⟨[], by simp, by simp⟩
    | some s =>
      have hs := List.find?_some hf
      have hm := List.mem_of_find?_eq_some hf
      exact ⟨s, List.mem_cons_of_mem _ hm, suffix_split _ _ hs⟩
  · exact ⟨[], by simp, by simp⟩

theorem stem_groups_aux (word : List Nat) (hw : ∀ c ∈ word, 0 < c) :
    ∃ m r, stem word = some (m, r) ∧
      ∃ c p s, word = r ++ c ++ p ++ s ∧ s ∈ [[], [108, 97, 114], [108, 101, 114]] ∧
        p ∈ [[], [105, 109], [105, 110], [117, 109], [117, 110]] ∧
        c ∈ [] :: case_suffixes := by
  by_cases h5 : 5 ≤ word.length
  · obtain ⟨m, hm⟩ := stem_eq_spec_aux word hw h5
    obtain ⟨s, hs, e1⟩ := plural_group_spec_split word
    obtain ⟨p, hp, e2⟩ := possessive_group_spec_split (plural_group_spec word)
    obtain ⟨c, hc, e3⟩ := case_group_spec_split (possessive_group_spec (plural_group_spec word))
    refine ⟨m, _, hm, c, p, s, ?_, hs, hp, hc⟩
    unfold stem_spec
    rw [← e3, ← e2, ← e1]
  · refine ⟨false, word, ?_, [], [], [], by simp, by simp, by simp, by simp⟩
    unfold stem
    rw [if_pos (by omega)]

/-- C28: for a word of bytes 1..255 `stem` returns a flag and a word such that
the flag is `true` exactly when the word it leaves differs from the word it was
given, and the word given is the word left followed by at most one case suffix,
then at most one possessive suffix, then at most one plural suffix: each of
the three groups removes at most one suffix per call. -/
theorem stem_flag_and_groups (word : List Nat) (hw : is_c_string word = true) :
    ∃ m r, TurkishStemmer.stem word = some (m, r) ∧ (m = true ↔ r ≠ word) ∧
      ∃ c p s, word = r ++ c ++ p ++ s ∧ s ∈ [[], [108, 97, 114], [108, 101, 114]] ∧
        p ∈ [[], [105, 109], [105, 110], [117, 109], [117, 110]] ∧
        c ∈ [] :: TurkishStemmer.case_suffixes := by
  obtain ⟨m, r, h, hg⟩ := stem_groups_aux word (is_c_string_pos word hw)
  exact ⟨m, r, h, stem_flag_aux word m r h, hg⟩

theorem stem_flag_and_groups_witness :
    (∃ m r, TurkishStemmer.stem [97, 114, 97, 98, 97, 100, 101, 105, 109, 108, 101, 114] =
        some (m, r) ∧
      (m = true ↔ r ≠ [97, 114, 97, 98, 97, 100, 101, 105, 109, 108, 101, 114]) ∧
      ∃ c p s, [97, 114, 97, 98, 97, 100, 101, 105, 109, 108, 101, 114] = r ++ c ++ p ++ s ∧
        s ∈ [[], [108, 97, 114], [108, 101, 114]] ∧
        p ∈ [[], [105, 109], [105, 110], [117, 109], [117, 110]] ∧
        c ∈ [] :: TurkishStemmer.case_suffixes) ∧
      TurkishStemmer.stem [97, 114, 97, 98, 97, 100, 101, 105, 109, 108, 101, 114] =
        some (true, [97, 114, 97, 98, 97]) ∧
      TurkishStemmer.stem [116, 97, 114, 105, 104] = some (false, [116, 97, 114, 105, 104]) :=
  ⟨stem_flag_and_groups [97, 114, 97, 98, 97, 100, 101, 105, 109, 108, 101, 114] (by decide),
    by decide, by decide⟩

/-- C27: for every word of at most 4 bytes `stem` returns `false` and leaves
the word unchanged. -/
theorem stem_leaves_short_words (word : List Nat) (h : word.length ≤ 4) :
    TurkishStemmer.stem word = some (false, word) := by
  unfold stem
  rw [if_pos (by omega)]

theorem stem_leaves_short_words_witness :
    TurkishStemmer.stem [101, 118] = some (false, [101, 118]) ∧
      TurkishStemmer.stem [98, 117] = some (false, [98, 117]) ∧
      TurkishStemmer.stem [118, 101] = some (false, [118, 101]) :=
  ⟨stem_leaves_short_words [101, 118] (by decide), stem_leaves_short_words [98, 117] (by decide),
    stem_leaves_short_words [118, 101] (by decide)⟩

theorem isSuffixOf_append_right (s b t : List Nat) (h : s.length ≤ t.length) :
    s.isSuffixOf (b ++ t) = s.isSuffixOf t := by
  rw [Bool.eq_iff_iff, List.isSuffixOf_iff_suffix, List.isSuffixOf_iff_suffix]
  constructor
  · intro hs
    exact List.suffix_of_suffix_length_le hs (List.suffix_append b t) h
  · intro hs
    exact hs.trans (List.suffix_append b t)

theorem find_congr (p q : List Nat → Bool) : ∀ l : List (List Nat),
    (∀ s ∈ l, p s = q s) → l.find? p = l.find? q := by
  intro l
  induction l with
  | nil => intro _; rfl
  | cons a l ih =>
    intro h
    rw [List.find?_cons, List.find?_cons, h a (List.mem_cons_self _ _),
      ih (fun s hs => h s (List.mem_cons_of_mem _ hs))]

theorem stem_spec_append (b t s : List Nat) (ht : 5 ≤ t.length)
    (h1 : [108, 97, 114].isSuffixOf t = false) (h2 : [108, 101, 114].isSuffixOf t = false)
    (h3 : [105, 109].isSuffixOf t = false) (h4 : [105, 110].isSuffixOf t = false)
    (h5 : [117, 109].isSuffixOf t = false) (h6 : [117, 110].isSuffixOf t = false)
    (hf : case_suffixes.find? (fun s => s.isSuffixOf t) = some s) :
    stem_spec (b ++ t) = (b ++ t).take ((b ++ t).length - s.length) := by
  have e : ∀ s : List Nat, s.length ≤ 3 → s.isSuffixOf (b ++ t) = s.isSuffixOf t :=
    fun s hs => isSuffixOf_append_right s b _ (by omega)
  have p1 : plural_group_spec (b ++ t) = b ++ t := by
    unfold plural_group_spec
    rw [e _ (by decide), e _ (by decide), h1, h2]
    exact if_neg (fun h => by simpa using h.2)
  have p2 : possessive_group_spec (b ++ t) = b ++ t := by
    unfold possessive_group_spec
    rw [e _ (by decide), e _ (by decide), e _ (by decide), e _ (by decide), h3, h4, h5, h6]
    exact if_neg (fun h => by simpa using h.2)
  have hlen : 4 ≤ (b ++ t).length := by
    rw [List.length_append]
    omega
  have hc : case_suffixes.find? (fun s => s.isSuffixOf (b ++ t)) = some s := by
    rw [← hf]
    apply find_congr
    intro s hs
    exact e s (by revert s; decide)
  unfold stem_spec
  rw [p1, p2]
  unfold case_group_spec
  rw [if_pos hlen, hc]

/-- C26: `stem` keeps a plural suffix that a case suffix follows. The plural
group runs first and finds no plural suffix at the end of the word, so only
the case suffix is removed: `stem` of `evlerde` leaves `evler`, not `ev`, and
`stem` of `kitaplardan` leaves `kitaplar`, not `kitap`, although the comments
of `test_stemmer.cpp` expect `ev` and `kitap`; for every base `b` of bytes
1..255, `stem` of `b` + `ler` + `de` leaves `b` + `ler` and `stem` of
`b` + `lar` + `dan` leaves `b` + `lar`. -/
theorem stem_keeps_plural_before_case_suffix :
    TurkishStemmer.stem [101, 118, 108, 101, 114, 100, 101] =
        some (true, [101, 118, 108, 101, 114]) ∧
      TurkishStemmer.stem [107, 105, 116, 97, 112, 108, 97, 114, 100, 97, 110] =
        some (true, [107, 105, 116, 97, 112, 108, 97, 114]) ∧
      (∀ b : List Nat, is_c_string b = true →
        TurkishStemmer.stem (b ++ [108, 101, 114] ++ [100, 101]) =
          some (true, b ++ [108, 101, 114])) ∧
      (∀ b : List Nat, is_c_string b = true →
        TurkishStemmer.stem (b ++ [108, 97, 114] ++ [100, 97, 110]) =
          some (true, b ++ [108, 97, 114])) := by
  refine ⟨by decide, by decide, ?_, ?_⟩
  · intro b hb
    have hw : ∀ c ∈ b ++ [108, 101, 114] ++ [100, 101], 0 < c := by
      intro c hc
      rcases List.mem_append.1 hc with hc | hc
      · rcases List.mem_append.1 hc with hc | hc
        · exact is_c_string_pos b hb c hc
        · simp only [List.mem_cons, List.mem_singleton, List.not_mem_nil, or_false] at hc
          omega
      · simp only [List.mem_cons, List.mem_singleton, List.not_mem_nil, or_false] at hc
        omega
    obtain ⟨m, hm⟩ := stem_eq_spec_aux _ hw (by simp)
    have hs : stem_spec (b ++ [108, 101, 114] ++ [100, 101]) = b ++ [108, 101, 114] := by
      rw [List.append_assoc]
      rw [stem_spec_append b ([108, 101, 114] ++ [100, 101]) [100, 101] (by decide) (by decide)
        (by decide) (by decide) (by decide) (by decide) (by decide) (by decide)]
      simp [List.take_append]
    rw [hs] at hm
    have hflag := (stem_flag_aux _ m _ hm).2 (by
      intro h
      have := congrArg List.length h
      simp at this)
    rw [hm, hflag]
  · intro b hb
    have hw : ∀ c ∈ b ++ [108, 97, 114] ++ [100, 97, 110], 0 < c := by
      intro c hc
      rcases List.mem_append.1 hc with hc | hc
      · rcases List.mem_append.1 hc with hc | hc
        · exact is_c_string_pos b hb c hc
        · simp only [List.mem_cons, List.mem_singleton, List.not_mem_nil, or_false] at hc
          omega
      · simp only [List.mem_cons, List.mem_singleton, List.not_mem_nil, or_false] at hc
        omega
    obtain ⟨m, hm⟩ := stem_eq_spec_aux _ hw (by simp)
    have hs : stem_spec (b ++ [108, 97, 114] ++ [100, 97, 110]) = b ++ [108, 97, 114] := by
      rw [List.append_assoc]
      rw [stem_spec_append b ([108, 97, 114] ++ [100, 97, 110]) [100, 97, 110] (by decide)
        (by decide) (by decide) (by decide) (by decide) (by decide) (by decide) (by decide)]
      simp [List.take_append]
    rw [hs] at hm
    have hflag := (stem_flag_aux _ m _ hm).2 (by
      intro h
      have := congrArg List.length h
      simp at this)
    rw [hm, hflag]

end StemmerGroups

/-! ### Metadata record -/

section Metadata

open Indexer IndexLoader

/-- C24 (as stated, refuted): in the naturally aligned layout of
`IndexMetadata` the field `total_unique_terms` lies at offset 12 and ends at
16, and `timestamp` lies at offset 16, which is a multiple of 8: the number of
pad bytes between the two fields is 0, not 4. -/
theorem timestamp_follows_without_pad :
    natural_offsets 0 metadata_fields = [0, 4, 6, 8, 12, 16, 24, 28, 32, 36, 40] ∧
      (natural_offsets 0 metadata_fields)[4]? = some 12 ∧
      (natural_offsets 0 metadata_fields)[5]? = some 16 ∧
      16 - (12 + 4) = 0 ∧ 16 % 8 = 0 := by
  decide

theorem metadata_bytes_length (md : IndexMetadata) :
    (metadata_bytes md).length = 40 + md.reserved.length := by
  simp [metadata_bytes, u32_bytes, u16_bytes, u64_bytes]
  omega

/-- C24 (amended): the record of a metadata value with 256 reserved bytes has
296 bytes and no pad: `total_unique_terms` lies at offset 12, `timestamp` at
offset 16 directly behind it, `forward_offset` at 24 and `reserved` from 40
on, which are the offsets of the naturally aligned layout. -/
theorem metadata_record_layout (md : IndexMetadata) (hr : md.reserved.length = 256) :
    (metadata_bytes md).length = 296 ∧
      ((metadata_bytes md).drop 12).take 4 = u32_bytes md.total_unique_terms ∧
      ((metadata_bytes md).drop 16).take 8 = u64_bytes md.timestamp ∧
      ((metadata_bytes md).drop 24).take 4 = u32_bytes md.forward_offset ∧
      (metadata_bytes md).drop 40 = md.reserved ∧
      natural_offsets 0 metadata_fields = [0, 4, 6, 8, 12, 16, 24, 28, 32, 36, 40] := by
  refine ⟨by rw [metadata_bytes_length, hr], ?_, ?_, ?_, ?_, by decide⟩ <;>
    simp [metadata_bytes, u32_bytes, u16_bytes, u64_bytes]

theorem metadata_record_layout_witness :
    (metadata_bytes (Indexer.construct 7 zero_metadata).metadata).length = 296 ∧
      ((metadata_bytes (Indexer.construct 7 zero_metadata).metadata).drop 16).take 8 =
        [7, 0, 0, 0, 0, 0, 0, 0] :=
  ⟨(metadata_record_layout (Indexer.construct 7 zero_metadata).metadata
      (List.length_replicate 256 0)).1,
    (metadata_record_layout (Indexer.construct 7 zero_metadata).metadata
      (List.length_replicate 256 0)).2.2.1.trans
      (by decide)⟩

theorem add_documents_offset_fields (records : List (Nat × List Nat × List Nat × List Nat))
    (a b c d : Nat) : ∀ ix ix' : Indexer, add_documents ix records = some ix' →
    (ix.metadata.forward_offset = a ∧ ix.metadata.forward_size = b ∧
      ix.metadata.inverted_offset = c ∧ ix.metadata.inverted_size = d) →
    (ix'.metadata.forward_offset = a ∧ ix'.metadata.forward_size = b ∧
      ix'.metadata.inverted_offset = c ∧ ix'.metadata.inverted_size = d) := by
  have hstep : ∀ (doc_id : Nat) (ix ix' : Indexer) (term : List Nat),
      (ix.metadata.forward_offset = a ∧ ix.metadata.forward_size = b ∧
        ix.metadata.inverted_offset = c ∧ ix.metadata.inverted_size = d) →
      (∀ c ∈ term, 0 < c) → term.length ≤ 255 → index_term ix doc_id term = some ix' →
      (ix'.metadata.forward_offset = a ∧ ix'.metadata.forward_size = b ∧
        ix'.metadata.inverted_offset = c ∧ ix'.metadata.inverted_size = d) := by
    intro doc_id ix ix' term hP _ _ h
    rw [(index_term_unfold ix ix' doc_id term h).2.2.1]
    exact hP
  induction records with
  | nil =>
    intro ix ix' h hP
    simp only [add_documents, Option.some.injEq] at h
    exact h ▸ hP
  | cons r rest ih =>
    intro ix ix' h hP
    obtain ⟨doc_id, url, title, content⟩ := r
    rw [add_documents] at h
    cases h1 : add_document ix doc_id url title content with
    | none =>
      rw [h1] at h
      cases h
    | some ix1 =>
      rw [h1] at h
      refine ih ix1 ix' h ?_
      rw [add_document_unfold _ _ _ _ _ (add_document_fits _ _ _ _ _ _ h1)] at h1
      unfold tokenize_and_index at h1
      split at h1
      · cases h1
      · next ix2 h2 =>
        split at h1
        · cases h1
        · next ix3 h3 =>
          simp only [Option.some.injEq] at h1
          subst h1
          have q2 := tokenize_loop_preserves
            (fun ix => ix.metadata.forward_offset = a ∧ ix.metadata.forward_size = b ∧
              ix.metadata.inverted_offset = c ∧ ix.metadata.inverted_size = d)
            doc_id (hstep doc_id) content _ ix2 [] false h2 (by simp) (by simp) hP
          exact tokenize_loop_preserves
            (fun ix => ix.metadata.forward_offset = a ∧ ix.metadata.forward_size = b ∧
              ix.metadata.inverted_offset = c ∧ ix.metadata.inverted_size = d)
            doc_id (hstep doc_id) title ix2 ix3 [] false h3 (by simp) (by simp) q2

theorem build_index_meta_file (now : Nat) (stale : IndexMetadata) (use_stemming : Bool)
    (records : List (Nat × List Nat × List Nat × List Nat)) (files : IndexFiles)
    (h : build_index now stale use_stemming records = some files) :
    ∃ md : IndexMetadata, files.meta_file = metadata_bytes md ∧
      md.forward_offset = stale.forward_offset ∧ md.forward_size = stale.forward_size ∧
      md.inverted_offset = stale.inverted_offset ∧ md.inverted_size = stale.inverted_size := by
  unfold build_index at h
  split at h
  · cases h
  · next ix hix =>
    have hinit : ∀ s : Bool,
        (if s = true then (Indexer.construct now stale).set_options ⟨true⟩
          else Indexer.construct now stale).metadata.forward_offset = stale.forward_offset ∧
        (if s = true then (Indexer.construct now stale).set_options ⟨true⟩
          else Indexer.construct now stale).metadata.forward_size = stale.forward_size ∧
        (if s = true then (Indexer.construct now stale).set_options ⟨true⟩
          else Indexer.construct now stale).metadata.inverted_offset = stale.inverted_offset ∧
        (if s = true then (Indexer.construct now stale).set_options ⟨true⟩
          else Indexer.construct now stale).metadata.inverted_size = stale.inverted_size := by
      intro s
      cases s <;> exact ⟨rfl, rfl, rfl, rfl⟩
    have hp := add_documents_offset_fields records _ _ _ _ _ ix hix (hinit use_stemming)
    unfold save_to_file at h
    split at h
    · cases h
    · simp only [Option.some.injEq] at h
      subst h
      exact ⟨(sort_index ix).metadata, rfl, hp⟩

/-- C25: the constructor of `Indexer` does not assign `forward_offset`,
`forward_size`, `inverted_offset` and `inverted_size`, and nothing assigns them
later, so the bytes 24..39 of the `.meta` file that `build_index` writes are
the four values the memory of the `Indexer` held before, not zero: with memory
of `0xFF` bytes the file written for scenario 1 holds sixteen bytes `0xFF`
there and the loader reads `4294967295` for each of the four fields. -/
theorem offset_fields_keep_memory_contents :
    (∀ (now : Nat) (stale : IndexMetadata) (use_stemming : Bool)
        (records : List (Nat × List Nat × List Nat × List Nat)) (files : IndexFiles),
        build_index now stale use_stemming records = some files →
        (files.meta_file.drop 24).take 16 =
          u32_bytes stale.forward_offset ++ u32_bytes stale.forward_size ++
            u32_bytes stale.inverted_offset ++ u32_bytes stale.inverted_size) ∧
      (build_index 0 ones_metadata false scenario1_records).map
          (fun files => (files.meta_file.drop 24).take 16) =
        some (List.replicate 16 255) ∧
      (build_index 0 ones_metadata false scenario1_records).bind
          (fun files => (load_metadata files.meta_file).map
            (fun md => (md.forward_offset, md.forward_size, md.inverted_offset,
              md.inverted_size))) =
        some (4294967295, 4294967295, 4294967295, 4294967295) ∧
      (Indexer.construct 0 ones_metadata).metadata.forward_offset = 4294967295 := by
  refine ⟨?_, by decide!, by decide!, rfl⟩
  intro now stale use_stemming records files h
  obtain ⟨md, hmd, h1, h2, h3, h4⟩ := build_index_meta_file now stale use_stemming records files h
  rw [hmd, ← h1, ← h2, ← h3, ← h4]
  simp [metadata_bytes, u32_bytes, u16_bytes, u64_bytes]

end Metadata

/-! ### TSV reader -/

section Tsv

theorem copy_field_stop (stops : List Nat) (limit : Nat) (w : List Nat) : ∀ (rest : List Nat)
    (i : Nat), (∀ x ∈ w, x ∉ stops) → i + w.length ≤ limit →
    (∀ x ∈ rest.head?, x ∈ stops) → copy_field stops limit (w ++ rest) i = (w, rest) := by
  induction w with
  | nil =>
    intro rest i _ _ hrest
    cases rest with
    | nil => rfl
    | cons c r =>
      rw [List.nil_append, copy_field, if_pos (Or.inl (hrest c (by simp)))]
  | cons a w ih =>
    intro rest i hw hlen hrest
    have ha : a ∉ stops := hw a (List.mem_cons_self _ _)
    rw [List.length_cons] at hlen
    rw [List.cons_append, copy_field, if_neg (by
      rintro (h | h)
      · exact ha h
      · omega)]
    rw [ih rest (i + 1) (fun x hx => hw x (List.mem_cons_of_mem _ hx)) (by omega) hrest]

theorem copy_field_limit (stops : List Nat) (limit : Nat) (w : List Nat) : ∀ (rest : List Nat)
    (i : Nat), (∀ x ∈ w, x ∉ stops) → i + w.length = limit →
    copy_field stops limit (w ++ rest) i = (w, rest) := by
  induction w with
  | nil =>
    intro rest i _ hlen
    cases rest with
    | nil => rfl
    | cons c r =>
      rw [List.nil_append, copy_field, if_pos (Or.inr (by simp at hlen; omega))]
  | cons a w ih =>
    intro rest i hw hlen
    have ha : a ∉ stops := hw a (List.mem_cons_self _ _)
    rw [List.length_cons] at hlen
    rw [List.cons_append, copy_field, if_neg (by
      rintro (h | h)
      · exact ha h
      · omega)]
    rw [ih rest (i + 1) (fun x hx => hw x (List.mem_cons_of_mem _ hx)) (by omega)]

theorem dropWhile_not_tab (d rest : List Nat) (hd : ∀ x ∈ d, x ≠ 9) :
    (d ++ 9 :: rest).dropWhile (fun c => decide (c ≠ 9)) = 9 :: rest := by
  induction d with
  | nil => simp
  | cons a d ih =>
    have ha : a ≠ 9 := hd a (List.mem_cons_self _ _)
    rw [List.cons_append, List.dropWhile_cons_of_pos (by simpa using ha)]
    exact ih (fun x hx => hd x (List.mem_cons_of_mem _ hx))

theorem parse_long_url_aux (d u t c : List Nat) (v : Int)
    (hv : atoi (d ++ 9 :: (u ++ 9 :: (t ++ 9 :: (c ++ [10])))) = some v)
    (hpos : 0 < toUInt32 v) (hd : ∀ x ∈ d, x ≠ 9)
    (hu : ∀ x ∈ u, x ≠ 9) (hu1 : 511 < u.length) (hu2 : u.length ≤ 1023)
    (ht : ∀ x ∈ t, x ≠ 10 ∧ x ≠ 13) (hc : ∀ x ∈ c, x ≠ 10 ∧ x ≠ 13)
    (hlen : t.length + 1 + c.length ≤ 99999) :
    parse_tsv_line (d ++ 9 :: (u ++ 9 :: (t ++ 9 :: (c ++ [10])))) =
      some (some (toUInt32 v, u.take 511, u.drop 512, t ++ 9 :: c)) := by
  have hstop : ∀ (l : List Nat), (∀ x ∈ l, x ≠ 9) → ∀ x ∈ l, x ∉ [9] := by
    intro l hl x hx h
    rw [List.mem_singleton] at h
    exact hl x hx h
  have e1 : copy_field [9] 511 (u ++ 9 :: (t ++ 9 :: (c ++ [10]))) 0 =
      (u.take 511, u.drop 511 ++ 9 :: (t ++ 9 :: (c ++ [10]))) := by
    have := copy_field_limit [9] 511 (u.take 511) (u.drop 511 ++ 9 :: (t ++ 9 :: (c ++ [10]))) 0
      (hstop _ (fun x hx => hu x (List.mem_of_mem_take hx)))
      (by rw [List.length_take]; omega)
    rw [← List.append_assoc, List.take_append_drop] at this
    exact this
  obtain ⟨a, us, hus⟩ : ∃ a us, u.drop 511 = a :: us := by
    cases h : u.drop 511 with
    | nil =>
      have := congrArg List.length h
      rw [List.length_drop] at this
      simp at this
      omega
    | cons a us => exact ⟨a, us, rfl⟩
  have hus2 : us = u.drop 512 := by
    have := congrArg List.tail hus
    rw [List.tail_drop] at this
    simpa using this.symm
  have e2 : copy_field [9] 511 (us ++ 9 :: (t ++ 9 :: (c ++ [10]))) 0 =
      (us, 9 :: (t ++ 9 :: (c ++ [10]))) := by
    refine copy_field_stop [9] 511 us _ 0 (hstop _ ?_) ?_ (by simp)
    · intro x hx
      rw [hus2] at hx
      exact hu x (List.mem_of_mem_drop hx)
    · rw [hus2, List.length_drop]
      omega
  have e3 : copy_field [10, 13] 99999 (t ++ 9 :: (c ++ [10])) 0 = (t ++ 9 :: c, [10]) := by
    have := copy_field_stop [10, 13] 99999 (t ++ 9 :: c) [10] 0 (by
      intro x hx h
      simp only [List.mem_cons, List.mem_singleton, List.not_mem_nil, or_false] at h
      rcases List.mem_append.1 hx with hx | hx
      · have := ht x hx
        omega
      · rcases List.mem_cons.1 hx with hx | hx
        · omega
        · have := hc x hx
          omega) (by simp; omega) (by simp)
    simpa using this
  unfold parse_tsv_line
  rw [hv]
  simp only [dropWhile_not_tab d _ hd, e1, hus, List.cons_append, e2, e3]
  have hne : u.take 511 ≠ [] := by
    intro h
    have h2 := congrArg List.length h
    rw [List.length_take, List.length_nil] at h2
    omega
  rw [if_pos ⟨hpos, hne, by simp⟩, hus2]

/-- C30: a url field of more than 511 bytes shifts the fields. For the line
`1 <TAB> a..a <TAB> T <TAB> c` with 600 bytes `a`, `parse_tsv_line` stores the
first 511 bytes as url, drops the next byte, stores the other 88 bytes `a` as
title and `T <TAB> c` as content, not the title `T` and the content `c`. The
same holds for every line of four fields with a positive `doc_id` and a url
field of 512 to 1023 bytes: the title is the url field from byte 512 on and
the content is the third field, a tab and the fourth field. A line with a
short url field is read field by field. -/
theorem long_url_shifts_the_fields :
    parse_tsv_line long_url_line =
        some (some (1, List.replicate 511 97, List.replicate 88 97, [84, 9, 99])) ∧
      (∀ (d u t c : List Nat) (v : Int),
        atoi (d ++ 9 :: (u ++ 9 :: (t ++ 9 :: (c ++ [10])))) = some v → 0 < toUInt32 v →
        (∀ x ∈ d, x ≠ 9) → (∀ x ∈ u, x ≠ 9) → 511 < u.length → u.length ≤ 1023 →
        (∀ x ∈ t, x ≠ 10 ∧ x ≠ 13) → (∀ x ∈ c, x ≠ 10 ∧ x ≠ 13) →
        t.length + 1 + c.length ≤ 99999 →
        parse_tsv_line (d ++ 9 :: (u ++ 9 :: (t ++ 9 :: (c ++ [10])))) =
          some (some (toUInt32 v, u.take 511, u.drop 512, t ++ 9 :: c))) ∧
      parse_tsv_line [49, 9, 117, 9, 84, 9, 99, 10] = some (some (1, [117], [84], [99])) := by
  refine ⟨by decide!, ?_, by decide!⟩
  intro d u t c v hv hpos hd hu hu1 hu2 ht hc hlen
  exact parse_long_url_aux d u t c v hv hpos hd hu hu1 hu2 ht hc hlen

end Tsv

/-! ### Lexer: bytes that are dropped, case folding, closing parenthesis -/

section LexerRelations

open BooleanQueryParser

theorem word_loop_eq (q : List Nat) :
    word_loop q [] = ((q.takeWhile is_word_byte).take 255, q.dropWhile is_word_byte) := by
  have h := word_loop_append (q.takeWhile is_word_byte) [] (q.dropWhile is_word_byte)
    (fun c hc => List.mem_takeWhile_imp hc)
    (by
      intro c hc
      have := List.head?_dropWhile_not is_word_byte q
      rw [Option.mem_def] at hc
      rw [hc] at this
      simpa using this)
    (by simp)
  rw [List.takeWhile_append_dropWhile, List.nil_append] at h
  exact h

theorem next_token_cons (c : Nat) (r : List Nat) (hsp : isspace c = false) :
    next_token (c :: r) =
      if c = 40 then (⟨TokenType.TOKEN_LPAREN, []⟩, r)
      else if c = 41 then (⟨TokenType.TOKEN_RPAREN, []⟩, r)
      else if c = 33 then (⟨TokenType.TOKEN_NOT, []⟩, r)
      else if c = 124 ∧ r.head? = some 124 then (⟨TokenType.TOKEN_OR, []⟩, r.tail)
      else if c = 38 ∧ r.head? = some 38 then (⟨TokenType.TOKEN_AND, []⟩, r.tail)
      else if is_word_byte c = true then
        (⟨TokenType.TOKEN_WORD, to_lowercase (((c :: r).takeWhile is_word_byte).take 255)⟩,
          (c :: r).dropWhile is_word_byte)
      else next_token r := by
  have hskip : skip_whitespace (c :: r) = c :: r := by
    simp [skip_whitespace, List.dropWhile_cons, hsp]
  rw [next_token_unfold, hskip]
  simp only [word_loop_eq]
  by_cases hw : is_word_byte c = true
  · have hlen : 0 < (((c :: r).takeWhile is_word_byte).take 255).length := by
      rw [List.takeWhile_cons_of_pos hw]
      simp
    simp only [hw, if_true, hlen]
  · have hlen : ¬ 0 < (((c :: r).takeWhile is_word_byte).take 255).length := by
      rw [List.takeWhile_cons_of_neg hw]
      simp
    simp only [hw, hlen, if_false]
    rfl

theorem next_token_length (q : List Nat) :
    (next_token q).2.length ≤ q.length ∧
      ((next_token q).1.type ≠ TokenType.TOKEN_END → (next_token q).2.length < q.length) ∧
      ((next_token q).1.type = TokenType.TOKEN_END →
        next_token q = (⟨TokenType.TOKEN_END, []⟩, [])) := by
  induction q with
  | nil =>
    rw [next_token_nil]
    simp
  | cons c r ih =>
    by_cases hsp : isspace c = true
    · rw [next_token_space c r hsp, List.length_cons]
      exact ⟨by omega, fun h => by have := ih.2.1 h; omega, ih.2.2⟩
    · rw [next_token_cons c r (by simpa using hsp), List.length_cons]
      have htail : r.tail.length ≤ r.length := by
        rw [List.length_tail]
        omega
      have hdrop : ((c :: r).dropWhile is_word_byte).length ≤ (c :: r).length :=
        (List.dropWhile_sublist _).length_le
      split
      · simp
      · split
        · simp
        · split
          · simp
          · split
            · simp only [ne_eq, reduceCtorEq, not_false_eq_true, forall_const, false_implies,
                and_true]
              omega
            · split
              · simp only [ne_eq, reduceCtorEq, not_false_eq_true, forall_const, false_implies,
                  and_true]
                omega
              · split
                · next hw =>
                  rw [List.dropWhile_cons_of_pos hw]
                  have : (r.dropWhile is_word_byte).length ≤ r.length :=
                    (List.dropWhile_sublist _).length_le
                  simp only [ne_eq, reduceCtorEq, not_false_eq_true, forall_const,
                    false_implies, and_true]
                  omega
                · exact ⟨by omega, fun h => by have := ih.2.1 h; omega, ih.2.2⟩

theorem tokens_loop_complete (fuel : Nat) : ∀ q : List Nat, q.length < fuel →
    (tokens_loop fuel q).getLast? = some ⟨TokenType.TOKEN_END, []⟩ := by
  induction fuel with
  | zero => intro q h; omega
  | succ f ih =>
    intro q h
    rw [tokens_loop]
    by_cases he : (next_token q).1.type = TokenType.TOKEN_END
    · rw [if_pos he, (next_token_length q).2.2 he]
      rfl
    · rw [if_neg he]
      have hl := (next_token_length q).2.1 he
      have hrec := ih (next_token q).2 (by omega)
      rw [List.getLast?_cons, hrec]
      rfl

theorem takeWhile_append_stop (l q : List Nat) (x : Nat)
    (hx : is_word_byte x = false) :
    (l ++ x :: q).takeWhile is_word_byte = l.takeWhile is_word_byte ∧
      (l ++ x :: q).dropWhile is_word_byte = l.dropWhile is_word_byte ++ x :: q := by
  induction l with
  | nil => simp [List.takeWhile_cons, List.dropWhile_cons, hx]
  | cons a l ih =>
    by_cases ha : is_word_byte a = true
    · simp only [List.cons_append, List.takeWhile_cons_of_pos ha, List.dropWhile_cons_of_pos ha,
        ih.1, ih.2, and_self]
    · simp only [List.cons_append, List.takeWhile_cons_of_neg ha, List.dropWhile_cons_of_neg ha,
        and_self]

theorem next_token_dropped (c : Nat) (q : List Nat) (hsp : isspace c = false)
    (hw : is_word_byte c = false)
    (hop : c ≠ 40 ∧ c ≠ 41 ∧ c ≠ 33 ∧ (c = 124 → q.head? ≠ some 124) ∧
      (c = 38 → q.head? ≠ some 38)) :
    next_token (c :: q) = next_token q := by
  rw [next_token_cons c q hsp, if_neg hop.1, if_neg hop.2.1, if_neg hop.2.2.1,
    if_neg (fun h => hop.2.2.2.1 h.1 h.2), if_neg (fun h => hop.2.2.2.2 h.1 h.2),
    if_neg (by simp [hw])]

theorem next_token_unrecognised (c : Nat) (q2 : List Nat) (hsp : isspace c = false)
    (hw : is_word_byte c = false)
    (hop : c ≠ 40 ∧ c ≠ 41 ∧ c ≠ 33 ∧ c ≠ 38 ∧ c ≠ 124) : ∀ p : List Nat,
    (next_token (p ++ c :: q2)).1 = (next_token (p ++ 32 :: q2)).1 ∧
      ((next_token (p ++ c :: q2)).2 = (next_token (p ++ 32 :: q2)).2 ∨
        ∃ p', (next_token (p ++ c :: q2)).2 = p' ++ c :: q2 ∧
          (next_token (p ++ 32 :: q2)).2 = p' ++ 32 :: q2) := by
  have h32 : is_word_byte 32 = false := by decide
  intro p
  induction p with
  | nil =>
    rw [List.nil_append, List.nil_append, next_token_space 32 q2 (by decide),
      next_token_dropped c q2 hsp hw
        ⟨hop.1, hop.2.1, hop.2.2.1, fun h => absurd h hop.2.2.2.2, fun h => absurd h hop.2.2.2.1⟩]
    exact ⟨rfl, Or.inl rfl⟩
  | cons a p ih =>
    by_cases ha : isspace a = true
    · rw [List.cons_append, List.cons_append, next_token_space a _ ha, next_token_space a _ ha]
      exact ih
    · have hhead : ∀ k : Nat, k = 124 ∨ k = 38 →
          ((p ++ c :: q2).head? = some k ↔ (p ++ 32 :: q2).head? = some k) := by
        intro k hk
        cases p with
        | nil =>
          simp only [List.nil_append, List.head?_cons, Option.some.injEq]
          constructor
          · intro h
            rcases hk with hk | hk <;> omega
          · intro h
            rcases hk with hk | hk <;> omega
        | cons b p' => simp
      have htail : (∃ b p', p = b :: p') →
          (p ++ c :: q2).tail = p.tail ++ c :: q2 ∧ (p ++ 32 :: q2).tail = p.tail ++ 32 :: q2 := by
        rintro ⟨b, p', rfl⟩
        exact ⟨rfl, rfl⟩
      have hne : ∀ k x : Nat, (p ++ x :: q2).head? = some k → x ≠ k → ∃ b p', p = b :: p' := by
        intro k x h hx
        cases p with
        | nil =>
          simp only [List.nil_append, List.head?_cons, Option.some.injEq] at h
          exact absurd h hx
        | cons b p' => exact ⟨b, p', rfl⟩
      rw [List.cons_append, List.cons_append, next_token_cons a _ (by simpa using ha),
        next_token_cons a _ (by simpa using ha)]
      by_cases h1 : a = 40
      · rw [if_pos h1, if_pos h1]
        exact ⟨rfl, Or.inr ⟨p, rfl, rfl⟩⟩
      rw [if_neg h1, if_neg h1]
      by_cases h2 : a = 41
      · rw [if_pos h2, if_pos h2]
        exact ⟨rfl, Or.inr ⟨p, rfl, rfl⟩⟩
      rw [if_neg h2, if_neg h2]
      by_cases h3 : a = 33
      · rw [if_pos h3, if_pos h3]
        exact ⟨rfl, Or.inr ⟨p, rfl, rfl⟩⟩
      rw [if_neg h3, if_neg h3]
      by_cases h4 : a = 124 ∧ (p ++ c :: q2).head? = some 124
      · have h4' : a = 124 ∧ (p ++ 32 :: q2).head? = some 124 :=
          ⟨h4.1, (hhead 124 (Or.inl rfl)).1 h4.2⟩
        rw [if_pos h4, if_pos h4']
        have hp := htail (hne 124 c h4.2 hop.2.2.2.2)
        exact ⟨rfl, Or.inr ⟨p.tail, hp.1, hp.2⟩⟩
      have h4' : ¬ (a = 124 ∧ (p ++ 32 :: q2).head? = some 124) :=
        fun h => h4 ⟨h.1, (hhead 124 (Or.inl rfl)).2 h.2⟩
      rw [if_neg h4, if_neg h4']
      by_cases h5 : a = 38 ∧ (p ++ c :: q2).head? = some 38
      · have h5' : a = 38 ∧ (p ++ 32 :: q2).head? = some 38 :=
          ⟨h5.1, (hhead 38 (Or.inr rfl)).1 h5.2⟩
        rw [if_pos h5, if_pos h5']
        have hp := htail (hne 38 c h5.2 hop.2.2.2.1)
        exact ⟨rfl, Or.inr ⟨p.tail, hp.1, hp.2⟩⟩
      have h5' : ¬ (a = 38 ∧ (p ++ 32 :: q2).head? = some 38) :=
        fun h => h5 ⟨h.1, (hhead 38 (Or.inr rfl)).2 h.2⟩
      rw [if_neg h5, if_neg h5']
      by_cases h6 : is_word_byte a = true
      · rw [if_pos h6, if_pos h6]
        have e1 := takeWhile_append_stop (a :: p) q2 c hw
        have e2 := takeWhile_append_stop (a :: p) q2 32 h32
        rw [List.cons_append] at e1 e2
        rw [e1.1, e1.2, e2.1, e2.2]
        exact ⟨rfl, Or.inr ⟨_, rfl, rfl⟩⟩
      · rw [if_neg h6, if_neg h6]
        exact ih

theorem tokens_loop_unrecognised (c : Nat) (q2 : List Nat) (hsp : isspace c = false)
    (hw : is_word_byte c = false)
    (hop : c ≠ 40 ∧ c ≠ 41 ∧ c ≠ 33 ∧ c ≠ 38 ∧ c ≠ 124) (fuel : Nat) : ∀ p : List Nat,
    tokens_loop fuel (p ++ c :: q2) = tokens_loop fuel (p ++ 32 :: q2) := by
  induction fuel with
  | zero => intro p; rfl
  | succ f ih =>
    intro p
    obtain ⟨h1, h2⟩ := next_token_unrecognised c q2 hsp hw hop p
    rw [tokens_loop, tokens_loop, h1]
    rcases h2 with h2 | ⟨p', h3, h4⟩
    · rw [h2]
    · rw [h3, h4, ih p']

/-- C29: an unrecognised byte in a query acts like a space. For every byte `c`
that is not NUL, not white space, not a word byte and none of `(`, `)`, `!`,
`&`, `|`, and for all strings `q1` and `q2`, the lexer gives the same token
sequence, ending with `TOKEN_END`, for `q1` + `c` + `q2` as for
`q1` + space + `q2`, and `next_token` at `c` returns what it returns behind
`c`; a `&` that no `&` follows and a `|` that no `|` follows are dropped in
the same way. -/
theorem unrecognised_byte_acts_like_space (c : Nat) (q1 q2 : List Nat) (_hc : c ≠ 0)
    (hsp : isspace c = false) (hw : BooleanQueryParser.is_word_byte c = false)
    (hop : c ≠ 40 ∧ c ≠ 41 ∧ c ≠ 33 ∧ c ≠ 38 ∧ c ≠ 124) :
    token_sequence (q1 ++ c :: q2) = token_sequence (q1 ++ 32 :: q2) ∧
      (token_sequence (q1 ++ c :: q2)).getLast? = some ⟨TokenType.TOKEN_END, []⟩ ∧
      BooleanQueryParser.next_token (c :: q2) = BooleanQueryParser.next_token q2 ∧
      (q2.head? ≠ some 38 →
        BooleanQueryParser.next_token (38 :: q2) = BooleanQueryParser.next_token q2) ∧
      (q2.head? ≠ some 124 →
        BooleanQueryParser.next_token (124 :: q2) = BooleanQueryParser.next_token q2) := by
  refine ⟨?_, tokens_loop_complete _ _ (Nat.lt_succ_self _), ?_, ?_, ?_⟩
  · unfold token_sequence
    have hl : (q1 ++ c :: q2).length = (q1 ++ 32 :: q2).length := by simp
    rw [hl]
    exact tokens_loop_unrecognised c q2 hsp hw hop _ q1
  · exact next_token_dropped c q2 hsp hw
      ⟨hop.1, hop.2.1, hop.2.2.1, fun h => absurd h hop.2.2.2.2, fun h => absurd h hop.2.2.2.1⟩
  · intro h
    exact next_token_dropped 38 q2 (by decide) (by decide)
      ⟨by decide, by decide, by decide, fun h' => absurd h' (by decide), fun _ => h⟩
  · intro h
    exact next_token_dropped 124 q2 (by decide) (by decide)
      ⟨by decide, by decide, by decide, fun _ => h, fun h' => absurd h' (by decide)⟩

theorem unrecognised_byte_acts_like_space_witness :
    (token_sequence ([97, 98] ++ 35 :: [99, 38, 100]) =
        token_sequence ([97, 98] ++ 32 :: [99, 38, 100]) ∧
      (token_sequence ([97, 98] ++ 35 :: [99, 38, 100])).getLast? =
        some ⟨TokenType.TOKEN_END, []⟩ ∧
      BooleanQueryParser.next_token (35 :: [99, 38, 100]) =
        BooleanQueryParser.next_token [99, 38, 100] ∧
      (([99, 38, 100] : List Nat).head? ≠ some 38 →
        BooleanQueryParser.next_token (38 :: [99, 38, 100]) =
          BooleanQueryParser.next_token [99, 38, 100]) ∧
      (([99, 38, 100] : List Nat).head? ≠ some 124 →
        BooleanQueryParser.next_token (124 :: [99, 38, 100]) =
          BooleanQueryParser.next_token [99, 38, 100])) ∧
      token_sequence ([97, 98] ++ 35 :: [99, 38, 100]) =
        [⟨TokenType.TOKEN_WORD, [97, 98]⟩, ⟨TokenType.TOKEN_WORD, [99]⟩,
          ⟨TokenType.TOKEN_WORD, [100]⟩, ⟨TokenType.TOKEN_END, []⟩] :=
  ⟨unrecognised_byte_acts_like_space 35 [97, 98] [99, 38, 100] (by decide) (by decide)
    (by decide) (by decide), by decide!⟩

theorem fold_byte_facts (c : Nat) :
    isspace (if 65 ≤ c ∧ c ≤ 90 then c - 65 + 97 else c) = isspace c ∧
      is_word_byte (if 65 ≤ c ∧ c ≤ 90 then c - 65 + 97 else c) = is_word_byte c ∧
      (∀ k : Nat, k < 65 ∨ 122 < k → ((if 65 ≤ c ∧ c ≤ 90 then c - 65 + 97 else c) = k ↔ c = k)) ∧
      ¬ (65 ≤ (if 65 ≤ c ∧ c ≤ 90 then c - 65 + 97 else c) ∧
        (if 65 ≤ c ∧ c ≤ 90 then c - 65 + 97 else c) ≤ 90) := by
  by_cases h : 65 ≤ c ∧ c ≤ 90
  · rw [if_pos h]
    refine ⟨?_, ?_, ?_, ?_⟩
    · have e1 : isspace (c - 65 + 97) = false := by
        simp only [isspace, Bool.or_eq_false_iff, Bool.and_eq_false_iff, decide_eq_false_iff_not]
        omega
      have e2 : isspace c = false := by
        simp only [isspace, Bool.or_eq_false_iff, Bool.and_eq_false_iff, decide_eq_false_iff_not]
        omega
      rw [e1, e2]
    · have e1 : is_word_byte (c - 65 + 97) = true := by
        simp only [is_word_byte, isalnum, isalpha, isupper, islower, isdigit, Bool.or_eq_true,
          Bool.and_eq_true, decide_eq_true_eq]
        omega
      have e2 : is_word_byte c = true := by
        simp only [is_word_byte, isalnum, isalpha, isupper, islower, isdigit, Bool.or_eq_true,
          Bool.and_eq_true, decide_eq_true_eq]
        omega
      rw [e1, e2]
    · intro k hk
      constructor <;> intro h' <;> omega
    · omega
  · rw [if_neg h]
    exact ⟨rfl, rfl, fun _ _ => Iff.rfl, h⟩

theorem query_fold_cons (c : Nat) (r : List Nat) :
    to_lowercase (c :: r) = (if 65 ≤ c ∧ c ≤ 90 then c - 65 + 97 else c) :: to_lowercase r := rfl

theorem query_fold_twice (w : List Nat) : to_lowercase (to_lowercase w) = to_lowercase w := by
  induction w with
  | nil => rfl
  | cons c r ih =>
    rw [query_fold_cons, query_fold_cons, ih]
    have h := (fold_byte_facts c).2.2.2
    rw [if_neg h]

theorem query_fold_word_run (q : List Nat) :
    (to_lowercase q).takeWhile is_word_byte = to_lowercase (q.takeWhile is_word_byte) ∧
      (to_lowercase q).dropWhile is_word_byte = to_lowercase (q.dropWhile is_word_byte) := by
  induction q with
  | nil => exact ⟨rfl, rfl⟩
  | cons c r ih =>
    rw [query_fold_cons]
    by_cases hc : is_word_byte c = true
    · have hc' := (fold_byte_facts c).2.1.trans hc
      rw [List.takeWhile_cons_of_pos hc', List.dropWhile_cons_of_pos hc',
        List.takeWhile_cons_of_pos hc, List.dropWhile_cons_of_pos hc, ih.1, ih.2,
        query_fold_cons]
      exact ⟨rfl, rfl⟩
    · have hc' : ¬ is_word_byte (if 65 ≤ c ∧ c ≤ 90 then c - 65 + 97 else c) = true := by
        rw [(fold_byte_facts c).2.1]
        exact hc
      rw [List.takeWhile_cons_of_neg hc', List.dropWhile_cons_of_neg hc',
        List.takeWhile_cons_of_neg hc, List.dropWhile_cons_of_neg hc, query_fold_cons]
      exact ⟨rfl, rfl⟩

theorem query_fold_take (n : Nat) (w : List Nat) :
    to_lowercase (w.take n) = (to_lowercase w).take n := by
  unfold to_lowercase
  rw [List.map_take]

theorem query_fold_head (r : List Nat) (k : Nat) (hk : k < 65 ∨ 122 < k) :
    ((to_lowercase r).head? = some k ↔ r.head? = some k) ∧
      (to_lowercase r).tail = to_lowercase r.tail := by
  cases r with
  | nil => exact ⟨Iff.rfl, rfl⟩
  | cons b r' =>
    rw [query_fold_cons]
    simp only [List.head?_cons, Option.some.injEq, List.tail_cons, and_true]
    exact (fold_byte_facts b).2.2.1 k hk

theorem next_token_folded (q : List Nat) :
    next_token (to_lowercase q) = ((next_token q).1, to_lowercase (next_token q).2) := by
  induction q with
  | nil => rw [show to_lowercase [] = [] from rfl, next_token_nil]; rfl
  | cons a r ih =>
    have hf := fold_byte_facts a
    rw [query_fold_cons]
    by_cases ha : isspace a = true
    · rw [next_token_space _ _ (hf.1.trans ha), next_token_space a r ha]
      exact ih
    · have ha' : isspace a = false := by simpa using ha
      rw [next_token_cons _ _ (hf.1.trans ha'), next_token_cons a r ha']
      have k40 := hf.2.2.1 40 (Or.inl (by decide))
      have k41 := hf.2.2.1 41 (Or.inl (by decide))
      have k33 := hf.2.2.1 33 (Or.inl (by decide))
      have k124 := hf.2.2.1 124 (Or.inr (by decide))
      have k38 := hf.2.2.1 38 (Or.inl (by decide))
      have t124 := query_fold_head r 124 (Or.inr (by decide))
      have t38 := query_fold_head r 38 (Or.inl (by decide))
      by_cases h1 : a = 40
      · rw [if_pos (k40.2 h1), if_pos h1]
      rw [if_neg (fun h => h1 (k40.1 h)), if_neg h1]
      by_cases h2 : a = 41
      · rw [if_pos (k41.2 h2), if_pos h2]
      rw [if_neg (fun h => h2 (k41.1 h)), if_neg h2]
      by_cases h3 : a = 33
      · rw [if_pos (k33.2 h3), if_pos h3]
      rw [if_neg (fun h => h3 (k33.1 h)), if_neg h3]
      by_cases h4 : a = 124 ∧ r.head? = some 124
      · rw [if_pos ⟨k124.2 h4.1, t124.1.2 h4.2⟩, if_pos h4, t124.2]
      rw [if_neg (fun h => h4 ⟨k124.1 h.1, t124.1.1 h.2⟩), if_neg h4]
      by_cases h5 : a = 38 ∧ r.head? = some 38
      · rw [if_pos ⟨k38.2 h5.1, t38.1.2 h5.2⟩, if_pos h5, t38.2]
      rw [if_neg (fun h => h5 ⟨k38.1 h.1, t38.1.1 h.2⟩), if_neg h5]
      by_cases h6 : is_word_byte a = true
      · rw [if_pos (hf.2.1.trans h6), if_pos h6, ← query_fold_cons,
          (query_fold_word_run (a :: r)).1, (query_fold_word_run (a :: r)).2,
          ← query_fold_take, query_fold_twice]
      · rw [if_neg (fun h => h6 (hf.2.1.symm.trans h)), if_neg h6]
        exact ih

theorem next_token_word_folded (q : List Nat) :
    ∀ c ∈ (next_token q).1.word, ¬ (65 ≤ c ∧ c ≤ 90) := by
  induction q with
  | nil => rw [next_token_nil]; intro c hc; cases hc
  | cons a r ih =>
    by_cases ha : isspace a = true
    · rw [next_token_space a r ha]
      exact ih
    · rw [next_token_cons a r (by simpa using ha)]
      split_ifs
      · intro c hc; cases hc
      · intro c hc; cases hc
      · intro c hc; cases hc
      · intro c hc; cases hc
      · intro c hc; cases hc
      · intro c hc
        simp only [to_lowercase, List.mem_map] at hc
        obtain ⟨b, _, rfl⟩ := hc
        exact (fold_byte_facts b).2.2.2
      · exact ih

theorem next_token_closing (q : List Nat) :
    ((next_token q).1.type ≠ TokenType.TOKEN_END →
        next_token (q ++ [41]) = ((next_token q).1, (next_token q).2 ++ [41])) ∧
      ((next_token q).1.type = TokenType.TOKEN_END →
        next_token (q ++ [41]) = (⟨TokenType.TOKEN_RPAREN, []⟩, [])) := by
  induction q with
  | nil =>
    rw [next_token_nil, List.nil_append, next_token_cons 41 [] (by decide)]
    exact ⟨fun h => absurd rfl h, fun _ => rfl⟩
  | cons a r ih =>
    by_cases ha : isspace a = true
    · rw [List.cons_append, next_token_space a r ha, next_token_space a _ ha]
      exact ih
    · have ha' : isspace a = false := by simpa using ha
      have hhead : ∀ k : Nat, k ≠ 41 → ((r ++ [41]).head? = some k ↔ r.head? = some k) := by
        intro k hk
        cases r with
        | nil =>
          simp only [List.nil_append, List.head?_cons, Option.some.injEq, List.head?_nil]
          constructor
          · intro h; exact absurd h.symm hk
          · intro h; cases h
        | cons b r' => simp
      have htail : ∀ k : Nat, r.head? = some k → (r ++ [41]).tail = r.tail ++ [41] := by
        intro k h
        cases r with
        | nil => cases h
        | cons b r' => rfl
      rw [List.cons_append, next_token_cons a r ha', next_token_cons a _ ha']
      by_cases h1 : a = 40
      · rw [if_pos h1, if_pos h1]
        exact ⟨fun _ => rfl, fun h => by cases h⟩
      rw [if_neg h1, if_neg h1]
      by_cases h2 : a = 41
      · rw [if_pos h2, if_pos h2]
        exact ⟨fun _ => rfl, fun h => by cases h⟩
      rw [if_neg h2, if_neg h2]
      by_cases h3 : a = 33
      · rw [if_pos h3, if_pos h3]
        exact ⟨fun _ => rfl, fun h => by cases h⟩
      rw [if_neg h3, if_neg h3]
      by_cases h4 : a = 124 ∧ r.head? = some 124
      · rw [if_pos h4, if_pos ⟨h4.1, (hhead 124 (by decide)).2 h4.2⟩, htail 124 h4.2]
        exact ⟨fun _ => rfl, fun h => by cases h⟩
      have h4' : ¬ (a = 124 ∧ (r ++ [41]).head? = some 124) :=
        fun h => h4 ⟨h.1, (hhead 124 (by decide)).1 h.2⟩
      rw [if_neg h4, if_neg h4']
      by_cases h5 : a = 38 ∧ r.head? = some 38
      · rw [if_pos h5, if_pos ⟨h5.1, (hhead 38 (by decide)).2 h5.2⟩, htail 38 h5.2]
        exact ⟨fun _ => rfl, fun h => by cases h⟩
      have h5' : ¬ (a = 38 ∧ (r ++ [41]).head? = some 38) :=
        fun h => h5 ⟨h.1, (hhead 38 (by decide)).1 h.2⟩
      rw [if_neg h5, if_neg h5']
      by_cases h6 : is_word_byte a = true
      · rw [if_pos h6, if_pos h6]
        have e := takeWhile_append_stop (a :: r) [] 41 (by decide)
        rw [List.cons_append] at e
        rw [e.1, e.2]
        exact ⟨fun _ => rfl, fun h => by cases h⟩
      · rw [if_neg h6, if_neg h6]
        exact ih

end LexerRelations

/-! ### Parser: fuel and related runs -/

section ParserRelations

open BooleanQueryParser QueryEvaluator

theorem parse_factor_succ (f : Nat) (ld : IndexLoader) (ev : QueryEvaluator) :
    parse_factor (f + 1) ld ev =
      if ev.current_token.type = TokenType.TOKEN_NOT then
        match parse_factor f ld (advance ev) with
        | none => none
        | some (operand, ev1) =>
          match negate_postings operand ld.get_total_documents with
          | none => none
          | some result => some (result, ev1)
      else if ev.current_token.type = TokenType.TOKEN_LPAREN then
        match parse_expression f ld (advance ev) with
        | none => none
        | some (result, ev1) =>
          some (result, if ev1.current_token.type = TokenType.TOKEN_RPAREN then advance ev1 else ev1)
      else if ev.current_token.type = TokenType.TOKEN_WORD then
        match word_postings ld ev.current_token.word with
        | none => none
        | some result => some (result, advance ev)
      else some ([], ev) := rfl

theorem parse_simulation (R : QueryEvaluator → QueryEvaluator → Prop) (ld : IndexLoader)
    (htype : ∀ e1 e2, R e1 e2 →
      (e1.current_token.type = TokenType.TOKEN_NOT ↔ e2.current_token.type = TokenType.TOKEN_NOT) ∧
      (e1.current_token.type = TokenType.TOKEN_LPAREN ↔
        e2.current_token.type = TokenType.TOKEN_LPAREN) ∧
      (e1.current_token.type = TokenType.TOKEN_WORD ↔
        e2.current_token.type = TokenType.TOKEN_WORD) ∧
      (e1.current_token.type = TokenType.TOKEN_AND ↔ e2.current_token.type = TokenType.TOKEN_AND) ∧
      (e1.current_token.type = TokenType.TOKEN_OR ↔ e2.current_token.type = TokenType.TOKEN_OR) ∧
      (e1.current_token.type = TokenType.TOKEN_WORD →
        e1.current_token.word = e2.current_token.word))
    (hadv : ∀ e1 e2, R e1 e2 →
      e1.current_token.type ≠ TokenType.TOKEN_END →
      e1.current_token.type ≠ TokenType.TOKEN_RPAREN → R (advance e1) (advance e2))
    (hclose : ∀ e1 e2, R e1 e2 →
      R (if e1.current_token.type = TokenType.TOKEN_RPAREN then advance e1 else e1)
        (if e2.current_token.type = TokenType.TOKEN_RPAREN then advance e2 else e2)) :
    ∀ f : Nat,
      (∀ e1 e2, R e1 e2 →
        related_results R (parse_expression f ld e1) (parse_expression f ld e2)) ∧
      (∀ left e1 e2, R e1 e2 →
        related_results R (parse_expression_loop f ld left e1)
          (parse_expression_loop f ld left e2)) ∧
      (∀ e1 e2, R e1 e2 → related_results R (parse_term f ld e1) (parse_term f ld e2)) ∧
      (∀ left e1 e2, R e1 e2 →
        related_results R (parse_term_loop f ld left e1) (parse_term_loop f ld left e2)) ∧
      (∀ e1 e2, R e1 e2 → related_results R (parse_factor f ld e1) (parse_factor f ld e2)) := by
  intro f
  induction f with
  | zero =>
    exact ⟨fun _ _ _ => Or.inl ⟨rfl, rfl⟩, fun _ _ _ _ => Or.inl ⟨rfl, rfl⟩,
      fun _ _ _ => Or.inl ⟨rfl, rfl⟩, fun _ _ _ _ => Or.inl ⟨rfl, rfl⟩,
      fun _ _ _ => Or.inl ⟨rfl, rfl⟩⟩
  | succ f ih =>
    obtain ⟨ihE, ihEL, ihT, ihTL, ihF⟩ := ih
    refine ⟨?_, ?_, ?_, ?_, ?_⟩
    · intro e1 e2 hR
      rw [parse_expression_succ, parse_expression_succ]
      rcases ihT e1 e2 hR with ⟨h1, h2⟩ | ⟨r, a1, a2, h1, h2, hR'⟩
      · rw [h1, h2]
        exact Or.inl ⟨rfl, rfl⟩
      · rw [h1, h2]
        exact ihEL r a1 a2 hR'
    · intro left e1 e2 hR
      rw [parse_expression_loop_succ, parse_expression_loop_succ]
      have ht := htype e1 e2 hR
      by_cases h : e1.current_token.type = TokenType.TOKEN_OR
      · rw [if_pos h, if_pos (ht.2.2.2.2.1.1 h)]
        have hR1 := hadv e1 e2 hR (by rw [h]; decide) (by rw [h]; decide)
        rcases ihT _ _ hR1 with ⟨h1, h2⟩ | ⟨r, a1, a2, h1, h2, hR'⟩
        · rw [h1, h2]
          exact Or.inl ⟨rfl, rfl⟩
        · rw [h1, h2]
          exact ihEL _ a1 a2 hR'
      · rw [if_neg h, if_neg (fun h' => h (ht.2.2.2.2.1.2 h'))]
        exact Or.inr ⟨left, e1, e2, rfl, rfl, hR⟩
    · intro e1 e2 hR
      rw [parse_term_succ, parse_term_succ]
      rcases ihF e1 e2 hR with ⟨h1, h2⟩ | ⟨r, a1, a2, h1, h2, hR'⟩
      · rw [h1, h2]
        exact Or.inl ⟨rfl, rfl⟩
      · rw [h1, h2]
        exact ihTL r a1 a2 hR'
    · intro left e1 e2 hR
      rw [parse_term_loop_succ, parse_term_loop_succ]
      have ht := htype e1 e2 hR
      by_cases hA : e1.current_token.type = TokenType.TOKEN_AND
      · have hA2 := ht.2.2.2.1.1 hA
        rw [if_pos (Or.inl hA), if_pos (Or.inl hA2), if_pos hA, if_pos hA2]
        have hR1 := hadv e1 e2 hR (by rw [hA]; decide) (by rw [hA]; decide)
        rcases ihF _ _ hR1 with ⟨h1, h2⟩ | ⟨r, a1, a2, h1, h2, hR'⟩
        · rw [h1, h2]
          exact Or.inl ⟨rfl, rfl⟩
        · rw [h1, h2]
          exact ihTL _ a1 a2 hR'
      · have hA2 : ¬ e2.current_token.type = TokenType.TOKEN_AND := fun h' => hA (ht.2.2.2.1.2 h')
        by_cases hW : e1.current_token.type = TokenType.TOKEN_WORD
        · have hW2 := ht.2.2.1.1 hW
          rw [if_pos (Or.inr hW), if_pos (Or.inr hW2), if_neg hA, if_neg hA2]
          rcases ihF _ _ hR with ⟨h1, h2⟩ | ⟨r, a1, a2, h1, h2, hR'⟩
          · rw [h1, h2]
            exact Or.inl ⟨rfl, rfl⟩
          · rw [h1, h2]
            exact ihTL _ a1 a2 hR'
        · have hW2 : ¬ e2.current_token.type = TokenType.TOKEN_WORD :=
            fun h' => hW (ht.2.2.1.2 h')
          rw [if_neg (fun h => h.elim hA hW), if_neg (fun h => h.elim hA2 hW2)]
          exact Or.inr ⟨left, e1, e2, rfl, rfl, hR⟩
    · intro e1 e2 hR
      rw [parse_factor_succ, parse_factor_succ]
      have ht := htype e1 e2 hR
      by_cases hN : e1.current_token.type = TokenType.TOKEN_NOT
      · rw [if_pos hN, if_pos (ht.1.1 hN)]
        have hR1 := hadv e1 e2 hR (by rw [hN]; decide) (by rw [hN]; decide)
        rcases ihF _ _ hR1 with ⟨h1, h2⟩ | ⟨r, a1, a2, h1, h2, hR'⟩
        · rw [h1, h2]
          exact Or.inl ⟨rfl, rfl⟩
        · rw [h1, h2]
          cases hn : negate_postings r ld.get_total_documents with
          | none => exact Or.inl ⟨by simp only [hn], by simp only [hn]⟩
          | some res => exact Or.inr ⟨res, a1, a2, by simp only [hn], by simp only [hn], hR'⟩
      rw [if_neg hN, if_neg (fun h' => hN (ht.1.2 h'))]
      by_cases hL : e1.current_token.type = TokenType.TOKEN_LPAREN
      · rw [if_pos hL, if_pos (ht.2.1.1 hL)]
        have hR1 := hadv e1 e2 hR (by rw [hL]; decide) (by rw [hL]; decide)
        rcases ihE _ _ hR1 with ⟨h1, h2⟩ | ⟨r, a1, a2, h1, h2, hR'⟩
        · rw [h1, h2]
          exact Or.inl ⟨rfl, rfl⟩
        · rw [h1, h2]
          exact Or.inr ⟨r, _, _, rfl, rfl, hclose a1 a2 hR'⟩
      rw [if_neg hL, if_neg (fun h' => hL (ht.2.1.2 h'))]
      by_cases hW : e1.current_token.type = TokenType.TOKEN_WORD
      · rw [if_pos hW, if_pos (ht.2.2.1.1 hW), ← ht.2.2.2.2.2 hW]
        have hR1 := hadv e1 e2 hR (by rw [hW]; decide) (by rw [hW]; decide)
        cases hp : word_postings ld e1.current_token.word with
        | none => exact Or.inl ⟨rfl, rfl⟩
        | some res => exact Or.inr ⟨res, _, _, rfl, rfl, hR1⟩
      rw [if_neg hW, if_neg (fun h' => hW (ht.2.2.1.2 h'))]
      exact Or.inr ⟨[], e1, e2, rfl, rfl, hR⟩

theorem advance_remaining (ev : QueryEvaluator) :
    (advance ev).remaining ≤ ev.parser.length ∧ ev.parser.length ≤ ev.remaining := by
  obtain ⟨h1, h2, h3⟩ := next_token_length ev.parser
  refine ⟨?_, Nat.le_add_right _ _⟩
  unfold QueryEvaluator.remaining advance
  by_cases h : (next_token ev.parser).1.type = TokenType.TOKEN_END
  · simp only [h, if_true, h3 h, List.length_nil]
    omega
  · simp only [h, if_false]
    have := h2 h
    omega

theorem advance_remaining_lt (ev : QueryEvaluator)
    (h : ev.current_token.type ≠ TokenType.TOKEN_END) :
    (advance ev).remaining + 1 ≤ ev.remaining := by
  have h1 := (advance_remaining ev).1
  unfold QueryEvaluator.remaining at *
  rw [if_neg h]
  omega

theorem parse_remaining (ld : IndexLoader) : ∀ f : Nat,
    (∀ ev r ev1, parse_expression f ld ev = some (r, ev1) → ev1.remaining ≤ ev.remaining) ∧
    (∀ left ev r ev1, parse_expression_loop f ld left ev = some (r, ev1) →
      ev1.remaining ≤ ev.remaining) ∧
    (∀ ev r ev1, parse_term f ld ev = some (r, ev1) → ev1.remaining ≤ ev.remaining) ∧
    (∀ left ev r ev1, parse_term_loop f ld left ev = some (r, ev1) →
      ev1.remaining ≤ ev.remaining) ∧
    (∀ ev r ev1, parse_factor f ld ev = some (r, ev1) → ev1.remaining ≤ ev.remaining) := by
  intro f
  induction f with
  | zero =>
    exact ⟨fun _ _ _ h => (by cases h), fun _ _ _ _ h => (by cases h),
      fun _ _ _ h => (by cases h), fun _ _ _ _ h => (by cases h), fun _ _ _ h => (by cases h)⟩
  | succ f ih =>
    obtain ⟨ihE, ihEL, ihT, ihTL, ihF⟩ := ih
    have hadv : ∀ ev : QueryEvaluator, (advance ev).remaining ≤ ev.remaining :=
      fun ev => (advance_remaining ev).1.trans (advance_remaining ev).2
    refine ⟨?_, ?_, ?_, ?_, ?_⟩
    · intro ev r ev1 h
      rw [parse_expression_succ] at h
      cases h1 : parse_term f ld ev with
      | none => rw [h1] at h; cases h
      | some p =>
        obtain ⟨l, a⟩ := p
        rw [h1] at h
        exact (ihEL l a r ev1 h).trans (ihT ev l a h1)
    · intro left ev r ev1 h
      rw [parse_expression_loop_succ] at h
      by_cases hO : ev.current_token.type = TokenType.TOKEN_OR
      · rw [if_pos hO] at h
        cases h1 : parse_term f ld (advance ev) with
        | none => rw [h1] at h; cases h
        | some p =>
          obtain ⟨l, a⟩ := p
          rw [h1] at h
          exact ((ihEL _ a r ev1 h).trans (ihT _ l a h1)).trans (hadv ev)
      · rw [if_neg hO] at h
        cases h
        exact Nat.le_refl _
    · intro ev r ev1 h
      rw [parse_term_succ] at h
      cases h1 : parse_factor f ld ev with
      | none => rw [h1] at h; cases h
      | some p =>
        obtain ⟨l, a⟩ := p
        rw [h1] at h
        exact (ihTL l a r ev1 h).trans (ihF ev l a h1)
    · intro left ev r ev1 h
      rw [parse_term_loop_succ] at h
      by_cases hc : ev.current_token.type = TokenType.TOKEN_AND ∨
          ev.current_token.type = TokenType.TOKEN_WORD
      · rw [if_pos hc] at h
        have hle : (if ev.current_token.type = TokenType.TOKEN_AND then advance ev else ev).remaining
            ≤ ev.remaining := by
          split_ifs
          · exact hadv ev
          · exact Nat.le_refl _
        cases h1 : parse_factor f ld
            (if ev.current_token.type = TokenType.TOKEN_AND then advance ev else ev) with
        | none => rw [h1] at h; cases h
        | some p =>
          obtain ⟨l, a⟩ := p
          rw [h1] at h
          exact ((ihTL _ a r ev1 h).trans (ihF _ l a h1)).trans hle
      · rw [if_neg hc] at h
        cases h
        exact Nat.le_refl _
    · intro ev r ev1 h
      rw [parse_factor_succ] at h
      by_cases hN : ev.current_token.type = TokenType.TOKEN_NOT
      · rw [if_pos hN] at h
        cases h1 : parse_factor f ld (advance ev) with
        | none => rw [h1] at h; cases h
        | some p =>
          obtain ⟨l, a⟩ := p
          rw [h1] at h
          cases hn : negate_postings l ld.get_total_documents with
          | none => simp only [hn] at h; cases h
          | some res =>
            simp only [hn, Option.some.injEq, Prod.mk.injEq] at h
            rw [← h.2]
            exact (ihF _ l a h1).trans (hadv ev)
      rw [if_neg hN] at h
      by_cases hL : ev.current_token.type = TokenType.TOKEN_LPAREN
      · rw [if_pos hL] at h
        cases h1 : parse_expression f ld (advance ev) with
        | none => rw [h1] at h; cases h
        | some p =>
          obtain ⟨l, a⟩ := p
          rw [h1] at h
          simp only [Option.some.injEq, Prod.mk.injEq] at h
          rw [← h.2]
          have hle : (if a.current_token.type = TokenType.TOKEN_RPAREN then advance a else a).remaining
              ≤ a.remaining := by
            split_ifs
            · exact hadv a
            · exact Nat.le_refl _
          exact (hle.trans (ihE _ l a h1)).trans (hadv ev)
      rw [if_neg hL] at h
      by_cases hW : ev.current_token.type = TokenType.TOKEN_WORD
      · rw [if_pos hW] at h
        cases hp : word_postings ld ev.current_token.word with
        | none => simp only [hp] at h; cases h
        | some res =>
          simp only [hp, Option.some.injEq, Prod.mk.injEq] at h
          rw [← h.2]
          exact hadv ev
      rw [if_neg hW] at h
      cases h
      exact Nat.le_refl _

theorem parse_fuel (ld : IndexLoader) : ∀ f1 f2 : Nat,
    (∀ ev, 3 * ev.remaining + 3 ≤ f1 → 3 * ev.remaining + 3 ≤ f2 →
      parse_expression f1 ld ev = parse_expression f2 ld ev) ∧
    (∀ left ev, 3 * ev.remaining + 2 ≤ f1 → 3 * ev.remaining + 2 ≤ f2 →
      parse_expression_loop f1 ld left ev = parse_expression_loop f2 ld left ev) ∧
    (∀ ev, 3 * ev.remaining + 2 ≤ f1 → 3 * ev.remaining + 2 ≤ f2 →
      parse_term f1 ld ev = parse_term f2 ld ev) ∧
    (∀ left ev, 3 * ev.remaining + 1 ≤ f1 → 3 * ev.remaining + 1 ≤ f2 →
      parse_term_loop f1 ld left ev = parse_term_loop f2 ld left ev) ∧
    (∀ ev, 3 * ev.remaining + 1 ≤ f1 → 3 * ev.remaining + 1 ≤ f2 →
      parse_factor f1 ld ev = parse_factor f2 ld ev) := by
  intro f1
  induction f1 with
  | zero =>
    intro f2
    exact ⟨fun _ h => by omega, fun _ _ h => by omega, fun _ h => by omega,
      fun _ _ h => by omega, fun _ h => by omega⟩
  | succ f1 ih =>
    intro f2
    cases f2 with
    | zero =>
      exact ⟨fun _ _ h => by omega, fun _ _ _ h => by omega, fun _ _ h => by omega,
        fun _ _ _ h => by omega, fun _ _ h => by omega⟩
    | succ f2 =>
      obtain ⟨ihE, ihEL, ihT, ihTL, ihF⟩ := ih f2
      obtain ⟨mE, mEL, mT, mTL, mF⟩ := parse_remaining ld f2
      refine ⟨?_, ?_, ?_, ?_, ?_⟩
      · intro ev h1 h2
        rw [parse_expression_succ, parse_expression_succ, ihT ev (by omega) (by omega)]
        cases hp : parse_term f2 ld ev with
        | none => rfl
        | some p =>
          obtain ⟨l, a⟩ := p
          have := mT ev l a hp
          exact ihEL l a (by omega) (by omega)
      · intro left ev h1 h2
        rw [parse_expression_loop_succ, parse_expression_loop_succ]
        by_cases hO : ev.current_token.type = TokenType.TOKEN_OR
        · have hlt := advance_remaining_lt ev (by rw [hO]; decide)
          rw [if_pos hO, if_pos hO, ihT (advance ev) (by omega) (by omega)]
          cases hp : parse_term f2 ld (advance ev) with
          | none => rfl
          | some p =>
            obtain ⟨l, a⟩ := p
            have := mT _ l a hp
            exact ihEL _ a (by omega) (by omega)
        · rw [if_neg hO, if_neg hO]
      · intro ev h1 h2
        rw [parse_term_succ, parse_term_succ, ihF ev (by omega) (by omega)]
        cases hp : parse_factor f2 ld ev with
        | none => rfl
        | some p =>
          obtain ⟨l, a⟩ := p
          have := mF ev l a hp
          exact ihTL l a (by omega) (by omega)
      · intro left ev h1 h2
        rw [parse_term_loop_succ, parse_term_loop_succ]
        by_cases hA : ev.current_token.type = TokenType.TOKEN_AND
        · have hlt := advance_remaining_lt ev (by rw [hA]; decide)
          rw [if_pos (Or.inl hA), if_pos (Or.inl hA), if_pos hA,
            ihF (advance ev) (by omega) (by omega)]
          cases hp : parse_factor f2 ld (advance ev) with
          | none => rfl
          | some p =>
            obtain ⟨l, a⟩ := p
            have := mF _ l a hp
            exact ihTL _ a (by omega) (by omega)
        · by_cases hW : ev.current_token.type = TokenType.TOKEN_WORD
          · have hlt := advance_remaining_lt ev (by rw [hW]; decide)
            rw [if_pos (Or.inr hW), if_pos (Or.inr hW), if_neg hA]
            obtain ⟨g1, rfl⟩ : ∃ g1, f1 = g1 + 1 := ⟨f1 - 1, by omega⟩
            obtain ⟨g2, rfl⟩ : ∃ g2, f2 = g2 + 1 := ⟨f2 - 1, by omega⟩
            have hstep : ∀ g : Nat, parse_factor (g + 1) ld ev =
                match word_postings ld ev.current_token.word with
                | none => none
                | some result => some (result, advance ev) := by
              intro g
              have hN : ¬ ev.current_token.type = TokenType.TOKEN_NOT := by rw [hW]; decide
              have hL : ¬ ev.current_token.type = TokenType.TOKEN_LPAREN := by rw [hW]; decide
              rw [parse_factor_succ, if_neg hN, if_neg hL, if_pos hW]
            rw [hstep g1, hstep g2]
            cases hp : word_postings ld ev.current_token.word with
            | none => rfl
            | some res => exact ihTL _ (advance ev) (by omega) (by omega)
          · rw [if_neg (fun h => h.elim hA hW), if_neg (fun h => h.elim hA hW)]
      · intro ev h1 h2
        rw [parse_factor_succ, parse_factor_succ]
        by_cases hN : ev.current_token.type = TokenType.TOKEN_NOT
        · have hlt := advance_remaining_lt ev (by rw [hN]; decide)
          rw [if_pos hN, if_pos hN, ihF (advance ev) (by omega) (by omega)]
        rw [if_neg hN, if_neg hN]
        by_cases hL : ev.current_token.type = TokenType.TOKEN_LPAREN
        · have hlt := advance_remaining_lt ev (by rw [hL]; decide)
          rw [if_pos hL, if_pos hL, ihE (advance ev) (by omega) (by omega)]
        rw [if_neg hL, if_neg hL]

theorem evaluate_fuel (ld : IndexLoader) (query : List Nat) (f : Nat)
    (hf : 3 * query.length + 3 ≤ f) :
    evaluate ld query =
      match parse_expression f ld (advance ⟨query, ⟨TokenType.TOKEN_END, []⟩⟩) with
      | none => none
      | some (result, _) => some result := by
  have h := (advance_remaining ⟨query, ⟨TokenType.TOKEN_END, []⟩⟩).1
  have h' : (advance ⟨query, ⟨TokenType.TOKEN_END, []⟩⟩).remaining ≤ query.length := h
  unfold evaluate
  have e := (parse_fuel ld (3 * query.length + 3) f).1 _
    (show 3 * (advance ⟨query, ⟨TokenType.TOKEN_END, []⟩⟩).remaining + 3 ≤ 3 * query.length + 3
      from by omega)
    (show 3 * (advance ⟨query, ⟨TokenType.TOKEN_END, []⟩⟩).remaining + 3 ≤ f from by omega)
  rw [e]

theorem evaluate_related (R : QueryEvaluator → QueryEvaluator → Prop) (ld : IndexLoader)
    (q1 q2 : List Nat) (f : Nat) (h1 : 3 * q1.length + 3 ≤ f) (h2 : 3 * q2.length + 3 ≤ f)
    (h : related_results R
      (parse_expression f ld (advance ⟨q1, ⟨TokenType.TOKEN_END, []⟩⟩))
      (parse_expression f ld (advance ⟨q2, ⟨TokenType.TOKEN_END, []⟩⟩))) :
    evaluate ld q1 = evaluate ld q2 := by
  rw [evaluate_fuel ld q1 f h1, evaluate_fuel ld q2 f h2]
  rcases h with ⟨e1, e2⟩ | ⟨r, a1, a2, e1, e2, _⟩
  · rw [e1, e2]
  · rw [e1, e2]

theorem parse_total (ld : IndexLoader)
    (hw : ∀ w, ∃ ps, word_postings ld w = some ps)
    (hn : ∀ l, ∃ r, negate_postings l ld.get_total_documents = some r) : ∀ f : Nat,
    (∀ ev, 3 * ev.remaining + 3 ≤ f → ∃ r, parse_expression f ld ev = some r) ∧
    (∀ left ev, 3 * ev.remaining + 2 ≤ f → ∃ r, parse_expression_loop f ld left ev = some r) ∧
    (∀ ev, 3 * ev.remaining + 2 ≤ f → ∃ r, parse_term f ld ev = some r) ∧
    (∀ left ev, 3 * ev.remaining + 1 ≤ f → ∃ r, parse_term_loop f ld left ev = some r) ∧
    (∀ ev, 3 * ev.remaining + 1 ≤ f → ∃ r, parse_factor f ld ev = some r) := by
  intro f
  induction f with
  | zero =>
    exact ⟨fun _ h => by omega, fun _ _ h => by omega, fun _ h => by omega,
      fun _ _ h => by omega, fun _ h => by omega⟩
  | succ f ih =>
    obtain ⟨ihE, ihEL, ihT, ihTL, ihF⟩ := ih
    obtain ⟨mE, mEL, mT, mTL, mF⟩ := parse_remaining ld f
    refine ⟨?_, ?_, ?_, ?_, ?_⟩
    · intro ev h1
      obtain ⟨⟨l, a⟩, hp⟩ := ihT ev (by omega)
      have := mT ev l a hp
      rw [parse_expression_succ, hp]
      exact ihEL l a (by omega)
    · intro left ev h1
      rw [parse_expression_loop_succ]
      by_cases hO : ev.current_token.type = TokenType.TOKEN_OR
      · have hlt := advance_remaining_lt ev (by rw [hO]; decide)
        obtain ⟨⟨l, a⟩, hp⟩ := ihT (advance ev) (by omega)
        have := mT _ l a hp
        rw [if_pos hO, hp]
        exact ihEL _ a (by omega)
      · rw [if_neg hO]
        exact ⟨_, rfl⟩
    · intro ev h1
      obtain ⟨⟨l, a⟩, hp⟩ := ihF ev (by omega)
      have := mF ev l a hp
      rw [parse_term_succ, hp]
      exact ihTL l a (by omega)
    · intro left ev h1
      rw [parse_term_loop_succ]
      by_cases hA : ev.current_token.type = TokenType.TOKEN_AND
      · have hlt := advance_remaining_lt ev (by rw [hA]; decide)
        obtain ⟨⟨l, a⟩, hp⟩ := ihF (advance ev) (by omega)
        have := mF _ l a hp
        rw [if_pos (Or.inl hA), if_pos hA, hp]
        exact ihTL _ a (by omega)
      · by_cases hW : ev.current_token.type = TokenType.TOKEN_WORD
        · have hlt := advance_remaining_lt ev (by rw [hW]; decide)
          obtain ⟨g, rfl⟩ : ∃ g, f = g + 1 := ⟨f - 1, by omega⟩
          obtain ⟨ps, hps⟩ := hw ev.current_token.word
          rw [if_pos (Or.inr hW), if_neg hA, parse_factor_word g ld ev ps hW hps]
          exact ihTL _ (advance ev) (by omega)
        · rw [if_neg (fun h => h.elim hA hW)]
          exact ⟨_, rfl⟩
    · intro ev h1
      rw [parse_factor_succ]
      by_cases hN : ev.current_token.type = TokenType.TOKEN_NOT
      · have hlt := advance_remaining_lt ev (by rw [hN]; decide)
        obtain ⟨⟨l, a⟩, hp⟩ := ihF (advance ev) (by omega)
        obtain ⟨r, hr⟩ := hn l
        rw [if_pos hN, hp]
        simp only [hr]
        exact ⟨_, rfl⟩
      rw [if_neg hN]
      by_cases hL : ev.current_token.type = TokenType.TOKEN_LPAREN
      · have hlt := advance_remaining_lt ev (by rw [hL]; decide)
        obtain ⟨⟨l, a⟩, hp⟩ := ihE (advance ev) (by omega)
        rw [if_pos hL, hp]
        exact ⟨_, rfl⟩
      rw [if_neg hL]
      by_cases hW : ev.current_token.type = TokenType.TOKEN_WORD
      · obtain ⟨ps, hps⟩ := hw ev.current_token.word
        rw [if_pos hW, hps]
        exact ⟨_, rfl⟩
      rw [if_neg hW]
      exact ⟨_, rfl⟩

theorem evaluate_returns (ld : IndexLoader) (query : List Nat)
    (hw : ∀ w, ∃ ps, word_postings ld w = some ps)
    (hd : ld.get_total_documents < 2 ^ 32 - 1) : ∃ r, evaluate ld query = some r := by
  have h := (advance_remaining ⟨query, ⟨TokenType.TOKEN_END, []⟩⟩).1
  have h' : (advance ⟨query, ⟨TokenType.TOKEN_END, []⟩⟩).remaining ≤ query.length := h
  obtain ⟨⟨r, a⟩, hp⟩ := (parse_total ld hw
    (fun l => Option.isSome_iff_exists.1 (negate_postings_isSome_aux l _ hd))
    (3 * query.length + 3)).1 _
    (show 3 * (advance ⟨query, ⟨TokenType.TOKEN_END, []⟩⟩).remaining + 3 ≤ 3 * query.length + 3
      from by omega)
  unfold evaluate
  rw [hp]
  exact ⟨r, rfl⟩

theorem evaluate_total (ld : IndexLoader) (query : List Nat)
    (hlen : ld.metadata.total_unique_terms = ld.terms.length) (ht : ld.terms.length < 2 ^ 31)
    (hdbg : ld.debug_search = false ∨ ld.terms ≠ [])
    (hd : ld.get_total_documents < 2 ^ 32 - 1) : ∃ r, evaluate ld query = some r :=
  evaluate_returns ld query (fun w => word_postings_total_aux ld w hlen ht hdbg) hd

theorem folded_query_eval_aux (ld : IndexLoader) (q : List Nat) :
    evaluate ld (to_lowercase q) = evaluate ld q := by
  have hlen : (to_lowercase q).length = q.length := by
    unfold to_lowercase
    exact List.length_map _ _
  have hadv : ∀ e1 e2 : QueryEvaluator, e2 = ⟨to_lowercase e1.parser, e1.current_token⟩ →
      advance e2 = ⟨to_lowercase (advance e1).parser, (advance e1).current_token⟩ := by
    intro e1 e2 h
    rw [h]
    unfold advance
    simp only [next_token_folded]
  have hsim := (parse_simulation
    (fun e1 e2 => e2 = ⟨to_lowercase e1.parser, e1.current_token⟩) ld
    (fun e1 e2 h => by
      rw [h]
      exact ⟨Iff.rfl, Iff.rfl, Iff.rfl, Iff.rfl, Iff.rfl, fun _ => rfl⟩)
    (fun e1 e2 h _ _ => hadv e1 e2 h)
    (fun e1 e2 h => by
      have ht : e2.current_token.type = e1.current_token.type := by rw [h]
      rw [ht]
      by_cases hr : e1.current_token.type = TokenType.TOKEN_RPAREN
      · rw [if_pos hr, if_pos hr]
        exact hadv e1 e2 h
      · rw [if_neg hr, if_neg hr]
        exact h) (3 * q.length + 3)).1
  exact (evaluate_related _ ld q (to_lowercase q) (3 * q.length + 3) (Nat.le_refl _)
    (by rw [hlen]) (hsim _ _ (hadv ⟨q, _⟩ ⟨to_lowercase q, _⟩ rfl))).symm

theorem closing_paren_eval_aux (ld : IndexLoader) (q : List Nat) :
    evaluate ld (40 :: q) = evaluate ld (40 :: (q ++ [41])) := by
  have hend : ∀ t : QueryToken, advance ⟨[], t⟩ = ⟨[], ⟨TokenType.TOKEN_END, []⟩⟩ := by
    intro t
    unfold advance
    rw [next_token_nil]
  have hadv : ∀ e1 e2 : QueryEvaluator, e2 = ⟨e1.parser ++ [41], e1.current_token⟩ →
      advance e2 = ⟨(advance e1).parser ++ [41], (advance e1).current_token⟩ ∨
        (advance e1 = ⟨[], ⟨TokenType.TOKEN_END, []⟩⟩ ∧
          advance e2 = ⟨[], ⟨TokenType.TOKEN_RPAREN, []⟩⟩) ∨ advance e1 = advance e2 := by
    intro e1 e2 h
    rw [h]
    obtain ⟨c1, c2⟩ := next_token_closing e1.parser
    by_cases he : (next_token e1.parser).1.type = TokenType.TOKEN_END
    · refine Or.inr (Or.inl ⟨?_, ?_⟩)
      · unfold advance
        rw [(next_token_length e1.parser).2.2 he]
      · unfold advance
        simp only [c2 he]
    · refine Or.inl ?_
      unfold advance
      simp only [c1 he]
  have hsim := (parse_simulation
    (fun e1 e2 => e2 = ⟨e1.parser ++ [41], e1.current_token⟩ ∨
      (e1 = ⟨[], ⟨TokenType.TOKEN_END, []⟩⟩ ∧ e2 = ⟨[], ⟨TokenType.TOKEN_RPAREN, []⟩⟩) ∨
      e1 = e2) ld
    (fun e1 e2 h => by
      rcases h with h | ⟨h1, h2⟩ | h
      · rw [h]
        exact ⟨Iff.rfl, Iff.rfl, Iff.rfl, Iff.rfl, Iff.rfl, fun _ => rfl⟩
      · rw [h1, h2]
        exact ⟨by decide, by decide, by decide, by decide, by decide, fun _ => rfl⟩
      · rw [h]
        exact ⟨Iff.rfl, Iff.rfl, Iff.rfl, Iff.rfl, Iff.rfl, fun _ => rfl⟩)
    (fun e1 e2 h hne _ => by
      rcases h with h | ⟨h1, _⟩ | h
      · exact hadv e1 e2 h
      · rw [h1] at hne
        exact absurd rfl hne
      · rw [h]
        exact Or.inr (Or.inr rfl))
    (fun e1 e2 h => by
      rcases h with h | ⟨h1, h2⟩ | h
      · have ht : e2.current_token.type = e1.current_token.type := by rw [h]
        rw [ht]
        by_cases hr : e1.current_token.type = TokenType.TOKEN_RPAREN
        · rw [if_pos hr, if_pos hr]
          exact hadv e1 e2 h
        · rw [if_neg hr, if_neg hr]
          exact Or.inl h
      · subst h1 h2
        refine Or.inr (Or.inr ?_)
        show (⟨[], ⟨TokenType.TOKEN_END, []⟩⟩ : QueryEvaluator) =
          advance ⟨[], ⟨TokenType.TOKEN_RPAREN, []⟩⟩
        rw [hend]
      · rw [h]
        exact Or.inr (Or.inr rfl)) (3 * (q.length + 2) + 3)).1
  have e1 : ∀ (r : List Nat) (t : QueryToken),
      advance ⟨40 :: r, t⟩ = ⟨r, ⟨TokenType.TOKEN_LPAREN, []⟩⟩ := by
    intro r t
    unfold advance
    simp only [next_token_cons 40 r (by decide), if_true]
  have hrel := hsim ⟨q, ⟨TokenType.TOKEN_LPAREN, []⟩⟩ ⟨q ++ [41], ⟨TokenType.TOKEN_LPAREN, []⟩⟩
    (Or.inl rfl)
  rw [← e1 q ⟨TokenType.TOKEN_END, []⟩, ← e1 (q ++ [41]) ⟨TokenType.TOKEN_END, []⟩] at hrel
  exact evaluate_related _ ld (40 :: q) (40 :: (q ++ [41])) (3 * (q.length + 2) + 3)
    (by simp only [List.length_cons]; omega)
    (by simp only [List.length_cons, List.length_append, List.length_nil]; omega) hrel

/-- C22: queries are case-insensitive on ASCII: for every index and every
query string `q`, `evaluate` gives the same result for `q` with every byte
`A`..`Z` replaced by its lowercase counterpart as for `q`, a list when the
index has fewer than `2^31` terms, is not empty or is searched without
`DEBUG_SEARCH`, and `total_documents` is below `2^32 - 1`; and the word of a
token that `next_token` returns holds no byte in `A`..`Z`. On the index of the
precedence scenario `B || C` and `b || c` both give `[2, 3, 4]`. -/
theorem queries_fold_ascii_case (ld : IndexLoader) (q : List Nat) :
    evaluate ld (BooleanQueryParser.to_lowercase q) = evaluate ld q ∧
      (ld.metadata.total_unique_terms = ld.terms.length → ld.terms.length < 2 ^ 31 →
        ld.debug_search = false ∨ ld.terms ≠ [] →
        ld.get_total_documents < 2 ^ 32 - 1 → ∃ r, evaluate ld q = some r) ∧
      (∀ c ∈ (BooleanQueryParser.next_token q).1.word, ¬ (65 ≤ c ∧ c ≤ 90)) ∧
      evaluate precedence_loader [66, 32, 124, 124, 32, 67] = some [2, 3, 4] ∧
      evaluate precedence_loader [98, 32, 124, 124, 32, 99] = some [2, 3, 4] :=
  ⟨folded_query_eval_aux ld q, evaluate_total ld q, next_token_word_folded q, by decide!,
    by decide!⟩

/-- C21: a missing closing parenthesis is tolerated: for every index and every
query string `q`, `evaluate` gives the same result for `(` followed by `q` as
for `(` followed by `q` followed by `)`, a list when the index has fewer than
`2^31` terms, is not empty or is searched without `DEBUG_SEARCH`, and
`total_documents` is below `2^32 - 1`. On the index of the precedence scenario
`(b || c` and `(b || c)` both give `[2, 3, 4]`. -/
theorem missing_closing_paren_tolerated (ld : IndexLoader) (q : List Nat) :
    evaluate ld (40 :: q) = evaluate ld (40 :: (q ++ [41])) ∧
      (ld.metadata.total_unique_terms = ld.terms.length → ld.terms.length < 2 ^ 31 →
        ld.debug_search = false ∨ ld.terms ≠ [] →
        ld.get_total_documents < 2 ^ 32 - 1 → ∃ r, evaluate ld (40 :: q) = some r) ∧
      evaluate precedence_loader [40, 98, 32, 124, 124, 32, 99] = some [2, 3, 4] ∧
      evaluate precedence_loader [40, 98, 32, 124, 124, 32, 99, 41] = some [2, 3, 4] :=
  ⟨closing_paren_eval_aux ld q, evaluate_total ld (40 :: q), by decide!, by decide!⟩

end ParserRelations

/-! ### Token count of a document -/

section TokenCount

open HashMap Indexer

end TokenCount

/-! ### Double complement -/

section DoubleComplement

theorem complement_spec_twice (A : List Nat) (N : Nat) (hA : A.Sorted (· < ·))
    (hr : ∀ a ∈ A, 1 ≤ a ∧ a ≤ N) : complement_spec (complement_spec A N) N = A := by
  refine List.eq_of_perm_of_sorted ?_ (complement_spec_sorted _ N) hA
  refine (List.perm_ext_iff_of_nodup (complement_spec_sorted _ N).nodup hA.nodup).2 ?_
  intro d
  rw [complement_spec_mem, complement_spec_mem]
  constructor
  · rintro ⟨h1, h2, h3⟩
    by_contra hd
    exact h3 ⟨h1, h2, hd⟩
  · intro hd
    exact ⟨(hr d hd).1, (hr d hd).2, fun h => h.2.2 hd⟩

/-- C34: double complement is the identity on in-range lists: for every
`N < 2^32 - 1` and every strictly ascending list `A` with all elements in
`1..N`, `negate_postings A N` returns a list `B`, and `negate_postings B N`
returns `A`. -/
theorem negate_postings_twice (A : List Nat) (N : Nat) (hN : N < 2 ^ 32 - 1)
    (hA : A.Sorted (· < ·)) (hr : ∀ a ∈ A, 1 ≤ a ∧ a ≤ N) :
    ∃ B, negate_postings A N = some B ∧ negate_postings B N = some A := by
  refine ⟨complement_spec A N, negate_postings_eq_aux A N hN hA (fun a ha => (hr a ha).1), ?_⟩
  rw [negate_postings_eq_aux _ N hN (complement_spec_sorted A N)
    (fun a ha => ((complement_spec_mem A N a).1 ha).1), complement_spec_twice A N hA hr]

theorem negate_postings_twice_witness :
    (∃ B, negate_postings [2, 3, 6] 7 = some B ∧ negate_postings B 7 = some [2, 3, 6]) ∧
      negate_postings [2, 3, 6] 7 = some [1, 4, 5, 7] ∧
      negate_postings [1, 4, 5, 7] 7 = some [2, 3, 6] ∧
      negate_postings [] 0 = some [] :=
  ⟨negate_postings_twice [2, 3, 6] 7 (by norm_num) (by decide) (by decide), by decide,
    by decide, by decide⟩

end DoubleComplement

/-! ### Parser: strictly ascending results -/

section ParserInvariant

open BooleanQueryParser QueryEvaluator

theorem word_postings_sorted (ld : IndexLoader) (w ps : List Nat)
    (hs : ∀ t ∈ ld.terms, t.doc_ids.Sorted (· < ·)) (h : word_postings ld w = some ps) :
    ps.Sorted (· < ·) := by
  unfold word_postings at h
  cases hf : ld.find_term w with
  | none =>
    rw [hf] at h
    cases h
  | some o =>
    rw [hf] at h
    cases o with
    | none =>
      simp only [Option.some.injEq] at h
      rw [← h]
      exact List.sorted_nil
    | some t =>
      simp only [Option.some.injEq] at h
      rw [← h]
      have ht := (find_term_loop_sound ld.terms w _ _ _ t (find_term_loop_of_some ld w _ hf)).1
      exact List.Pairwise.sublist (List.take_sublist _ _) (hs t ht)

theorem parse_sorted (ld : IndexLoader) (hs : ∀ t ∈ ld.terms, t.doc_ids.Sorted (· < ·)) :
    ∀ f : Nat,
    (∀ ev r ev1, parse_expression f ld ev = some (r, ev1) → r.Sorted (· < ·)) ∧
    (∀ left ev r ev1, left.Sorted (· < ·) →
      parse_expression_loop f ld left ev = some (r, ev1) → r.Sorted (· < ·)) ∧
    (∀ ev r ev1, parse_term f ld ev = some (r, ev1) → r.Sorted (· < ·)) ∧
    (∀ left ev r ev1, left.Sorted (· < ·) →
      parse_term_loop f ld left ev = some (r, ev1) → r.Sorted (· < ·)) ∧
    (∀ ev r ev1, parse_factor f ld ev = some (r, ev1) → r.Sorted (· < ·)) := by
  intro f
  induction f with
  | zero =>
    exact ⟨fun _ _ _ h => (by cases h), fun _ _ _ _ _ h => (by cases h),
      fun _ _ _ h => (by cases h), fun _ _ _ _ _ h => (by cases h), fun _ _ _ h => (by cases h)⟩
  | succ f ih =>
    obtain ⟨ihE, ihEL, ihT, ihTL, ihF⟩ := ih
    refine ⟨?_, ?_, ?_, ?_, ?_⟩
    · intro ev r ev1 h
      rw [parse_expression_succ] at h
      cases h1 : parse_term f ld ev with
      | none => rw [h1] at h; cases h
      | some p =>
        obtain ⟨l, a⟩ := p
        rw [h1] at h
        exact ihEL l a r ev1 (ihT ev l a h1) h
    · intro left ev r ev1 hl h
      rw [parse_expression_loop_succ] at h
      by_cases hO : ev.current_token.type = TokenType.TOKEN_OR
      · rw [if_pos hO] at h
        cases h1 : parse_term f ld (advance ev) with
        | none => rw [h1] at h; cases h
        | some p =>
          obtain ⟨l, a⟩ := p
          rw [h1] at h
          exact ihEL _ a r ev1 (union_sorted_aux left l hl (ihT _ l a h1)) h
      · rw [if_neg hO] at h
        simp only [Option.some.injEq, Prod.mk.injEq] at h
        rw [← h.1]
        exact hl
    · intro ev r ev1 h
      rw [parse_term_succ] at h
      cases h1 : parse_factor f ld ev with
      | none => rw [h1] at h; cases h
      | some p =>
        obtain ⟨l, a⟩ := p
        rw [h1] at h
        exact ihTL l a r ev1 (ihF ev l a h1) h
    · intro left ev r ev1 hl h
      rw [parse_term_loop_succ] at h
      by_cases hc : ev.current_token.type = TokenType.TOKEN_AND ∨
          ev.current_token.type = TokenType.TOKEN_WORD
      · rw [if_pos hc] at h
        cases h1 : parse_factor f ld
            (if ev.current_token.type = TokenType.TOKEN_AND then advance ev else ev) with
        | none => rw [h1] at h; cases h
        | some p =>
          obtain ⟨l, a⟩ := p
          rw [h1] at h
          exact ihTL _ a r ev1 (intersect_sorted_aux left l hl (ihF _ l a h1)) h
      · rw [if_neg hc] at h
        simp only [Option.some.injEq, Prod.mk.injEq] at h
        rw [← h.1]
        exact hl
    · intro ev r ev1 h
      rw [parse_factor_succ] at h
      by_cases hN : ev.current_token.type = TokenType.TOKEN_NOT
      · rw [if_pos hN] at h
        cases h1 : parse_factor f ld (advance ev) with
        | none => rw [h1] at h; cases h
        | some p =>
          obtain ⟨l, a⟩ := p
          rw [h1] at h
          cases hn : negate_postings l ld.get_total_documents with
          | none => simp only [hn] at h; cases h
          | some res =>
            simp only [hn, Option.some.injEq, Prod.mk.injEq] at h
            rw [← h.1]
            exact negate_postings_sorted_aux l _ res hn
      rw [if_neg hN] at h
      by_cases hL : ev.current_token.type = TokenType.TOKEN_LPAREN
      · rw [if_pos hL] at h
        cases h1 : parse_expression f ld (advance ev) with
        | none => rw [h1] at h; cases h
        | some p =>
          obtain ⟨l, a⟩ := p
          rw [h1] at h
          simp only [Option.some.injEq, Prod.mk.injEq] at h
          rw [← h.1]
          exact ihE _ l a h1
      rw [if_neg hL] at h
      by_cases hW : ev.current_token.type = TokenType.TOKEN_WORD
      · rw [if_pos hW] at h
        cases hp : word_postings ld ev.current_token.word with
        | none => simp only [hp] at h; cases h
        | some res =>
          simp only [hp, Option.some.injEq, Prod.mk.injEq] at h
          rw [← h.1]
          exact word_postings_sorted ld _ res hs hp
      rw [if_neg hW] at h
      simp only [Option.some.injEq, Prod.mk.injEq] at h
      rw [← h.1]
      exact List.sorted_nil

theorem evaluate_sorted_aux (ld : IndexLoader) (q r : List Nat)
    (hs : ∀ t ∈ ld.terms, t.doc_ids.Sorted (· < ·)) (h : evaluate ld q = some r) :
    r.Sorted (· < ·) := by
  unfold evaluate at h
  cases hp : parse_expression (3 * q.length + 3) ld (advance ⟨q, ⟨TokenType.TOKEN_END, []⟩⟩) with
  | none => rw [hp] at h; cases h
  | some p =>
    obtain ⟨l, a⟩ := p
    rw [hp] at h
    simp only [Option.some.injEq] at h
    rw [← h]
    exact (parse_sorted ld hs _).1 _ l a hp

/-- C31: for every query string and every loaded index whose posting lists are
all strictly ascending, a list that `evaluate` returns is strictly ascending
and free of duplicates, and `evaluate` returns a list when the index has fewer
than `2^31` terms, is not empty or is searched without `DEBUG_SEARCH`, and
`total_documents` is below `2^32 - 1`. The same holds for the list of every
call of `parse_expression`, `parse_term` and `parse_factor`, and the loops of
`parse_expression` and `parse_term` keep a strictly ascending `left` strictly
ascending, so every operand passed to `intersect_postings`, `union_postings`
and `negate_postings` is strictly ascending. -/
theorem evaluate_result_ascending (ld : IndexLoader) (q : List Nat)
    (hs : ∀ t ∈ ld.terms, t.doc_ids.Sorted (· < ·)) :
    (∀ r, evaluate ld q = some r → r.Sorted (· < ·) ∧ r.Nodup) ∧
      (ld.metadata.total_unique_terms = ld.terms.length → ld.terms.length < 2 ^ 31 →
        ld.debug_search = false ∨ ld.terms ≠ [] → ld.get_total_documents < 2 ^ 32 - 1 →
        ∃ r, evaluate ld q = some r ∧ r.Sorted (· < ·) ∧ r.Nodup) ∧
      ∀ f : Nat,
        (∀ ev r ev1, parse_expression f ld ev = some (r, ev1) → r.Sorted (· < ·)) ∧
        (∀ left ev r ev1, left.Sorted (· < ·) →
          parse_expression_loop f ld left ev = some (r, ev1) → r.Sorted (· < ·)) ∧
        (∀ ev r ev1, parse_term f ld ev = some (r, ev1) → r.Sorted (· < ·)) ∧
        (∀ left ev r ev1, left.Sorted (· < ·) →
          parse_term_loop f ld left ev = some (r, ev1) → r.Sorted (· < ·)) ∧
        (∀ ev r ev1, parse_factor f ld ev = some (r, ev1) → r.Sorted (· < ·)) := by
  refine ⟨fun r h => ⟨evaluate_sorted_aux ld q r hs h, (evaluate_sorted_aux ld q r hs h).nodup⟩,
    ?_, parse_sorted ld hs⟩
  intro hlen ht hdbg hd
  obtain ⟨r, hr⟩ := evaluate_total ld q hlen ht hdbg hd
  exact ⟨r, hr, evaluate_sorted_aux ld q r hs hr, (evaluate_sorted_aux ld q r hs hr).nodup⟩

theorem evaluate_result_ascending_witness :
    (∀ r, evaluate precedence_loader [33, 97, 32, 124, 124, 32, 98, 32, 99] = some r →
        r.Sorted (· < ·) ∧ r.Nodup) ∧
      evaluate precedence_loader [33, 97, 32, 124, 124, 32, 98, 32, 99] = some [2, 3, 4] ∧
      ∀ t ∈ precedence_loader.terms, t.doc_ids.Sorted (· < ·) :=
  ⟨(evaluate_result_ascending precedence_loader [33, 97, 32, 124, 124, 32, 98, 32, 99]
      (by decide)).1, by decide!, by decide⟩

end ParserInvariant

/-! ### Parser: termination -/

section Termination

open BooleanQueryParser QueryEvaluator

theorem parse_factor_not_diverges (ld : IndexLoader)
    (hd : 2 ^ 32 - 1 ≤ ld.get_total_documents) (f : Nat) (ev : QueryEvaluator)
    (ht : ev.current_token.type = TokenType.TOKEN_NOT) : parse_factor f ld ev = none := by
  cases f with
  | zero => rfl
  | succ f =>
    rw [parse_factor_succ, if_pos ht]
    cases h1 : parse_factor f ld (advance ev) with
    | none => rfl
    | some p =>
      obtain ⟨l, a⟩ := p
      have hn : negate_postings l ld.get_total_documents = none :=
        negate_loop_diverges _ _ _ _ _ hd (by norm_num)
      simp only [hn]

theorem parse_expression_not_diverges (ld : IndexLoader)
    (hd : 2 ^ 32 - 1 ≤ ld.get_total_documents) (f : Nat) (ev : QueryEvaluator)
    (ht : ev.current_token.type = TokenType.TOKEN_NOT) : parse_expression f ld ev = none := by
  cases f with
  | zero => rfl
  | succ f =>
    rw [parse_expression_succ]
    cases f with
    | zero => rfl
    | succ f =>
      rw [parse_term_succ, parse_factor_not_diverges ld hd f ev ht]

theorem advance_not (q : List Nat) (t : QueryToken) :
    advance ⟨33 :: q, t⟩ = ⟨q, ⟨TokenType.TOKEN_NOT, []⟩⟩ := by
  unfold advance
  simp only [next_token_cons 33 q (by decide)]
  rfl

theorem not_query_diverges (ld : IndexLoader) (hd : 2 ^ 32 - 1 ≤ ld.get_total_documents)
    (q : List Nat) :
    (∀ f, parse_expression f ld (advance ⟨33 :: q, ⟨TokenType.TOKEN_END, []⟩⟩) = none) ∧
      evaluate ld (33 :: q) = none := by
  have h : ∀ f, parse_expression f ld (advance ⟨33 :: q, ⟨TokenType.TOKEN_END, []⟩⟩) = none := by
    intro f
    rw [advance_not]
    exact parse_expression_not_diverges ld hd f _ rfl
  refine ⟨h, ?_⟩
  unfold evaluate
  rw [h]

/-- C33 (as stated, refuted): in `full_range_loader`, `total_documents` is
`2^32 - 1`. For every query `q`, the evaluation of `!` followed by `q` has no
result, whatever bound is put on the depth of the calls: the operand of the
`!` goes to `negate_postings`, whose loop does not end. -/
theorem negation_never_returns_for_full_range :
    full_range_loader.get_total_documents = 2 ^ 32 - 1 ∧
      (∀ (q : List Nat) (fuel : Nat),
        parse_expression fuel full_range_loader
          (advance ⟨33 :: q, ⟨TokenType.TOKEN_END, []⟩⟩) = none) ∧
      (∀ (l : List Nat) (fuel : Nat), negate_loop fuel l 1 (2 ^ 32 - 1) [] = none) ∧
      ∀ q : List Nat, evaluate full_range_loader (33 :: q) = none :=
  ⟨rfl, fun q f => (not_query_diverges full_range_loader (le_refl _) q).1 f,
    fun l fuel => negate_loop_diverges fuel l 1 _ [] (le_refl _) (by norm_num),
    fun q => (not_query_diverges full_range_loader (le_refl _) q).2⟩

theorem parse_factor_word_result (f : Nat) (ld : IndexLoader) (ev : QueryEvaluator)
    (r : List Nat) (ev1 : QueryEvaluator) (hW : ev.current_token.type = TokenType.TOKEN_WORD)
    (h : parse_factor f ld ev = some (r, ev1)) : ev1 = advance ev := by
  cases f with
  | zero => cases h
  | succ f =>
    have hN : ¬ ev.current_token.type = TokenType.TOKEN_NOT := by rw [hW]; decide
    have hL : ¬ ev.current_token.type = TokenType.TOKEN_LPAREN := by rw [hW]; decide
    rw [parse_factor_succ, if_neg hN, if_neg hL, if_pos hW] at h
    cases hp : word_postings ld ev.current_token.word with
    | none => simp only [hp] at h; cases h
    | some res =>
      simp only [hp, Option.some.injEq, Prod.mk.injEq] at h
      exact h.2.symm

theorem loop_step_consumes (ld : IndexLoader) (f : Nat) (ev : QueryEvaluator) (r : List Nat)
    (ev1 : QueryEvaluator) :
    ((ev.current_token.type = TokenType.TOKEN_AND ∨
        ev.current_token.type = TokenType.TOKEN_WORD) →
      parse_factor f ld
          (if ev.current_token.type = TokenType.TOKEN_AND then advance ev else ev) =
        some (r, ev1) → ev1.remaining < ev.remaining) ∧
      (ev.current_token.type = TokenType.TOKEN_OR →
        parse_term f ld (advance ev) = some (r, ev1) → ev1.remaining < ev.remaining) := by
  constructor
  · intro hc h
    by_cases hA : ev.current_token.type = TokenType.TOKEN_AND
    · rw [if_pos hA] at h
      have h1 := (parse_remaining ld f).2.2.2.2 _ r ev1 h
      have h2 := advance_remaining_lt ev (by rw [hA]; decide)
      omega
    · have hW : ev.current_token.type = TokenType.TOKEN_WORD := hc.resolve_left hA
      rw [if_neg hA] at h
      rw [parse_factor_word_result f ld ev r ev1 hW h]
      have h2 := advance_remaining_lt ev (by rw [hW]; decide)
      omega
  · intro hO h
    have h1 := (parse_remaining ld f).2.2.1 _ r ev1 h
    have h2 := advance_remaining_lt ev (by rw [hO]; decide)
    omega

theorem tokens_loop_fuel : ∀ (f g : Nat) (s : List Nat), s.length + 1 ≤ f → s.length + 1 ≤ g →
    tokens_loop f s = tokens_loop g s := by
  intro f
  induction f with
  | zero =>
    intro g s h
    omega
  | succ f ih =>
    intro g s hf hg
    obtain ⟨g, rfl⟩ : ∃ g', g = g' + 1 := ⟨g - 1, by omega⟩
    rw [tokens_loop, tokens_loop]
    by_cases he : (next_token s).1.type = TokenType.TOKEN_END
    · rw [if_pos he, if_pos he]
    · rw [if_neg he, if_neg he]
      have := (next_token_length s).2.1 he
      rw [ih g _ (by omega) (by omega)]

theorem advance_token_mem : ∀ (n : Nat) (s : List Nat) (t : QueryToken),
    (advance^[n + 1] ⟨s, t⟩).current_token ∈ tokens_loop (s.length + 1) s := by
  intro n
  induction n with
  | zero =>
    intro s t
    rw [tokens_loop]
    show (next_token s).1 ∈ _
    split <;> simp
  | succ n ih =>
    intro s t
    rw [Function.iterate_succ_apply]
    have h := ih (next_token s).2 (next_token s).1
    have hadv : advance ⟨s, t⟩ = ⟨(next_token s).2, (next_token s).1⟩ := rfl
    rw [hadv]
    rw [tokens_loop]
    by_cases he : (next_token s).1.type = TokenType.TOKEN_END
    · rw [if_pos he]
      have h3 := (next_token_length s).2.2 he
      rw [h3] at h ⊢
      have h1 : tokens_loop ([] : List Nat).length.succ [] = [⟨TokenType.TOKEN_END, []⟩] := by
        rw [tokens_loop, next_token_nil]
        rfl
      rw [h1] at h
      exact h
    · rw [if_neg he]
      have hl := (next_token_length s).2.1 he
      rw [tokens_loop_fuel _ s.length _ (le_refl _) (by omega)] at h
      exact List.mem_cons_of_mem _ h

theorem parse_total_inv (ld : IndexLoader) (I : QueryEvaluator → Prop)
    (hadv : ∀ ev, I ev → I (advance ev))
    (hw : ∀ ev, I ev → ev.current_token.type = TokenType.TOKEN_WORD →
      ∃ ps, word_postings ld ev.current_token.word = some ps)
    (hn : ∀ ev, I ev → ev.current_token.type = TokenType.TOKEN_NOT →
      ∀ l, ∃ r, negate_postings l ld.get_total_documents = some r) : ∀ f : Nat,
    (∀ ev, I ev → 3 * ev.remaining + 3 ≤ f →
      ∃ r ev1, parse_expression f ld ev = some (r, ev1) ∧ I ev1) ∧
    (∀ left ev, I ev → 3 * ev.remaining + 2 ≤ f →
      ∃ r ev1, parse_expression_loop f ld left ev = some (r, ev1) ∧ I ev1) ∧
    (∀ ev, I ev → 3 * ev.remaining + 2 ≤ f →
      ∃ r ev1, parse_term f ld ev = some (r, ev1) ∧ I ev1) ∧
    (∀ left ev, I ev → 3 * ev.remaining + 1 ≤ f →
      ∃ r ev1, parse_term_loop f ld left ev = some (r, ev1) ∧ I ev1) ∧
    (∀ ev, I ev → 3 * ev.remaining + 1 ≤ f →
      ∃ r ev1, parse_factor f ld ev = some (r, ev1) ∧ I ev1) := by
  intro f
  induction f with
  | zero =>
    exact ⟨fun _ _ h => by omega, fun _ _ _ h => by omega, fun _ _ h => by omega,
      fun _ _ _ h => by omega, fun _ _ h => by omega⟩
  | succ f ih =>
    obtain ⟨ihE, ihEL, ihT, ihTL, ihF⟩ := ih
    obtain ⟨mE, mEL, mT, mTL, mF⟩ := parse_remaining ld f
    refine ⟨?_, ?_, ?_, ?_, ?_⟩
    · intro ev hI h1
      obtain ⟨l, a, hp, hIa⟩ := ihT ev hI (by omega)
      have := mT ev l a hp
      rw [parse_expression_succ, hp]
      exact ihEL l a hIa (by omega)
    · intro left ev hI h1
      rw [parse_expression_loop_succ]
      by_cases hO : ev.current_token.type = TokenType.TOKEN_OR
      · have hlt := advance_remaining_lt ev (by rw [hO]; decide)
        obtain ⟨l, a, hp, hIa⟩ := ihT (advance ev) (hadv ev hI) (by omega)
        have := mT _ l a hp
        rw [if_pos hO, hp]
        exact ihEL _ a hIa (by omega)
      · rw [if_neg hO]
        exact ⟨_, _, rfl, hI⟩
    · intro ev hI h1
      obtain ⟨l, a, hp, hIa⟩ := ihF ev hI (by omega)
      have := mF ev l a hp
      rw [parse_term_succ, hp]
      exact ihTL l a hIa (by omega)
    · intro left ev hI h1
      rw [parse_term_loop_succ]
      by_cases hA : ev.current_token.type = TokenType.TOKEN_AND
      · have hlt := advance_remaining_lt ev (by rw [hA]; decide)
        obtain ⟨l, a, hp, hIa⟩ := ihF (advance ev) (hadv ev hI) (by omega)
        have := mF _ l a hp
        rw [if_pos (Or.inl hA), if_pos hA, hp]
        exact ihTL _ a hIa (by omega)
      · by_cases hW : ev.current_token.type = TokenType.TOKEN_WORD
        · have hlt := advance_remaining_lt ev (by rw [hW]; decide)
          obtain ⟨g, rfl⟩ : ∃ g, f = g + 1 := ⟨f - 1, by omega⟩
          obtain ⟨ps, hps⟩ := hw ev hI hW
          rw [if_pos (Or.inr hW), if_neg hA, parse_factor_word g ld ev ps hW hps]
          exact ihTL _ (advance ev) (hadv ev hI) (by omega)
        · rw [if_neg (fun h => h.elim hA hW)]
          exact ⟨_, _, rfl, hI⟩
    · intro ev hI h1
      rw [parse_factor_succ]
      by_cases hN : ev.current_token.type = TokenType.TOKEN_NOT
      · have hlt := advance_remaining_lt ev (by rw [hN]; decide)
        obtain ⟨l, a, hp, hIa⟩ := ihF (advance ev) (hadv ev hI) (by omega)
        obtain ⟨r, hr⟩ := hn ev hI hN l
        rw [if_pos hN, hp]
        simp only [hr]
        exact ⟨_, _, rfl, hIa⟩
      rw [if_neg hN]
      by_cases hL : ev.current_token.type = TokenType.TOKEN_LPAREN
      · have hlt := advance_remaining_lt ev (by rw [hL]; decide)
        obtain ⟨l, a, hp, hIa⟩ := ihE (advance ev) (hadv ev hI) (by omega)
        rw [if_pos hL, hp]
        refine ⟨_, _, rfl, ?_⟩
        split
        · exact hadv a hIa
        · exact hIa
      rw [if_neg hL]
      by_cases hW : ev.current_token.type = TokenType.TOKEN_WORD
      · obtain ⟨ps, hps⟩ := hw ev hI hW
        rw [if_pos hW, hps]
        exact ⟨_, _, rfl, hadv ev hI⟩
      rw [if_neg hW]
      exact ⟨_, _, rfl, hI⟩

theorem evaluate_of_tokens (ld : IndexLoader) (q : List Nat)
    (hwords : ∀ t ∈ token_sequence q, t.type = TokenType.TOKEN_WORD →
      ∃ ps, word_postings ld t.word = some ps)
    (hnot : (∃ t ∈ token_sequence q, t.type = TokenType.TOKEN_NOT) →
      ld.get_total_documents < 2 ^ 32 - 1) :
    ∃ r, evaluate ld q = some r := by
  have hmem : ∀ n, (advance^[n] (advance ⟨q, ⟨TokenType.TOKEN_END, []⟩⟩)).current_token ∈
      token_sequence q := by
    intro n
    have := advance_token_mem n q ⟨TokenType.TOKEN_END, []⟩
    rw [Function.iterate_succ_apply] at this
    exact this
  have h := (advance_remaining ⟨q, ⟨TokenType.TOKEN_END, []⟩⟩).1
  have h' : (advance ⟨q, ⟨TokenType.TOKEN_END, []⟩⟩).remaining ≤ q.length := h
  obtain ⟨r, a, hp, _⟩ := (parse_total_inv ld
    (fun ev => ∀ n, (advance^[n] ev).current_token ∈ token_sequence q)
    (fun ev hI n => by
      have := hI (n + 1)
      rw [Function.iterate_succ_apply] at this
      exact this)
    (fun ev hI hW => hwords _ (hI 0) hW)
    (fun ev hI hN l => Option.isSome_iff_exists.1
      (negate_postings_isSome_aux l _ (hnot ⟨_, hI 0, hN⟩)))
    (3 * q.length + 3)).1 _ hmem
    (show 3 * (advance ⟨q, ⟨TokenType.TOKEN_END, []⟩⟩).remaining + 3 ≤ 3 * q.length + 3
      from by omega)
  unfold evaluate
  rw [hp]
  exact ⟨r, rfl⟩

/-- C33 (amended): `evaluate` returns a list for every query in which the
lookup of every `TOKEN_WORD` of its token sequence returns and, when the
sequence holds a `!`, `total_documents` is below `2^32 - 1`; a larger bound on
the depth of the calls gives the same result. For every index: `advance` at a
token other than `TOKEN_END` lowers the number of bytes and tokens left; the
calls that `parse_factor` makes at `!` and `(` start behind that token; every
iteration of the loop of `parse_term` and of the loop of `parse_expression`
ends with less left than it began with; no call returns with more left than it
began with; and `next_token` consumes at least one byte or returns `TOKEN_END`
with nothing left. The lookup of every word returns in an index of fewer than
`2^31` terms that is not empty or is searched without `DEBUG_SEARCH`, and in
an index of more than `2^31` terms, `total_unique_terms` being the length of
the term array. -/
theorem evaluate_terminates (ld : IndexLoader) (q : List Nat)
    (hwords : ∀ t ∈ token_sequence q, t.type = TokenType.TOKEN_WORD →
      ∃ ps, word_postings ld t.word = some ps)
    (hnot : (∃ t ∈ token_sequence q, t.type = TokenType.TOKEN_NOT) →
      ld.get_total_documents < 2 ^ 32 - 1) :
    (∃ r, evaluate ld q = some r) ∧
      (∀ f, 3 * q.length + 3 ≤ f →
        parse_expression f ld (advance ⟨q, ⟨TokenType.TOKEN_END, []⟩⟩) =
          parse_expression (3 * q.length + 3) ld (advance ⟨q, ⟨TokenType.TOKEN_END, []⟩⟩)) ∧
      (∀ ev : QueryEvaluator, ev.current_token.type ≠ TokenType.TOKEN_END →
        (advance ev).remaining < ev.remaining) ∧
      (∀ (f : Nat) (ev : QueryEvaluator) (r : List Nat) (ev1 : QueryEvaluator),
        ((ev.current_token.type = TokenType.TOKEN_AND ∨
            ev.current_token.type = TokenType.TOKEN_WORD) →
          parse_factor f ld
              (if ev.current_token.type = TokenType.TOKEN_AND then advance ev else ev) =
            some (r, ev1) → ev1.remaining < ev.remaining) ∧
        (ev.current_token.type = TokenType.TOKEN_OR →
          parse_term f ld (advance ev) = some (r, ev1) → ev1.remaining < ev.remaining) ∧
        (parse_expression f ld ev = some (r, ev1) → ev1.remaining ≤ ev.remaining) ∧
        (parse_term f ld ev = some (r, ev1) → ev1.remaining ≤ ev.remaining) ∧
        (parse_factor f ld ev = some (r, ev1) → ev1.remaining ≤ ev.remaining)) ∧
      (∀ s : List Nat, (BooleanQueryParser.next_token s).2.length < s.length ∨
        BooleanQueryParser.next_token s = (⟨TokenType.TOKEN_END, []⟩, [])) ∧
      (ld.metadata.total_unique_terms = ld.terms.length →
        (ld.terms.length < 2 ^ 31 ∧ (ld.debug_search = false ∨ ld.terms ≠ [])) ∨
          (2 ^ 31 < ld.terms.length ∧ ld.terms.length < 2 ^ 32) →
        ∀ w, ∃ ps, word_postings ld w = some ps) := by
  refine ⟨evaluate_of_tokens ld q hwords hnot, ?_, ?_, ?_, ?_, ?_⟩
  · intro f hf
    have h := (advance_remaining ⟨q, ⟨TokenType.TOKEN_END, []⟩⟩).1
    have h' : (advance ⟨q, ⟨TokenType.TOKEN_END, []⟩⟩).remaining ≤ q.length := h
    exact (parse_fuel ld f (3 * q.length + 3)).1 _ (by omega) (by omega)
  · intro ev hne
    exact advance_remaining_lt ev hne
  · intro f ev r ev1
    exact ⟨(loop_step_consumes ld f ev r ev1).1, (loop_step_consumes ld f ev r ev1).2,
      (parse_remaining ld f).1 ev r ev1, (parse_remaining ld f).2.2.1 ev r ev1,
      (parse_remaining ld f).2.2.2.2 ev r ev1⟩
  · intro s
    by_cases he : (next_token s).1.type = TokenType.TOKEN_END
    · exact Or.inr ((next_token_length s).2.2 he)
    · exact Or.inl ((next_token_length s).2.1 he)
  · intro hlen hsize w
    rcases hsize with ⟨ht, hdbg⟩ | ⟨h1, h2⟩
    · exact word_postings_total_aux ld w hlen ht hdbg
    · exact ⟨[], word_postings_many ld w hlen h1 h2⟩

theorem evaluate_terminates_witness :
    ((∃ r, evaluate precedence_loader [33, 40, 97, 32, 38, 38, 32, 35, 98, 41, 32, 124] =
        some r) ∧
      evaluate precedence_loader [33, 40, 97, 32, 38, 38, 32, 35, 98, 41, 32, 124] =
        some [1, 2, 3, 4]) ∧
      (∀ t ∈ token_sequence [33, 40, 41, 32, 124, 124], t.type ≠ TokenType.TOKEN_WORD) ∧
      (∃ r, evaluate empty_debug_loader [33, 40, 41, 32, 124, 124] = some r) ∧
      evaluate empty_debug_loader [33, 40, 41, 32, 124, 124] = some [] :=
  ⟨⟨(evaluate_terminates precedence_loader [33, 40, 97, 32, 38, 38, 32, 35, 98, 41, 32, 124]
      (fun t _ _ => word_postings_total_aux precedence_loader t.word rfl (by decide)
        (Or.inl rfl)) (fun _ => by decide)).1, by decide!⟩, by decide!,
    (evaluate_terminates empty_debug_loader [33, 40, 41, 32, 124, 124]
      (fun t ht hW => absurd hW ((by decide! :
        ∀ t ∈ token_sequence [33, 40, 41, 32, 124, 124], t.type ≠ TokenType.TOKEN_WORD) t ht))
      (fun _ => by decide)).1, by decide!⟩

end Termination

/-! ### Lexer: shape of the words -/

section WordTokens

open BooleanQueryParser QueryEvaluator

theorem folded_word_byte (c : Nat) (h : is_word_byte c = true) :
    islower (if 65 ≤ c ∧ c ≤ 90 then c - 65 + 97 else c) = true ∨
      isdigit (if 65 ≤ c ∧ c ≤ 90 then c - 65 + 97 else c) = true ∨
      (if 65 ≤ c ∧ c ≤ 90 then c - 65 + 97 else c) = 45 ∨
      (if 65 ≤ c ∧ c ≤ 90 then c - 65 + 97 else c) = 39 ∨
      128 ≤ (if 65 ≤ c ∧ c ≤ 90 then c - 65 + 97 else c) := by
  simp only [is_word_byte, isalnum, isalpha, isupper, islower, isdigit, Bool.or_eq_true,
    Bool.and_eq_true, decide_eq_true_eq] at h ⊢
  by_cases hu : 65 ≤ c ∧ c ≤ 90
  · rw [if_pos hu]
    omega
  · rw [if_neg hu]
    omega

theorem next_token_word_shape (q : List Nat) :
    (next_token q).1.type = TokenType.TOKEN_WORD →
      (next_token q).1.word ≠ [] ∧ (next_token q).1.word.length ≤ 255 ∧
      ∀ c ∈ (next_token q).1.word,
        islower c = true ∨ isdigit c = true ∨ c = 45 ∨ c = 39 ∨ 128 ≤ c := by
  induction q with
  | nil => rw [next_token_nil]; intro h; cases h
  | cons a r ih =>
    by_cases ha : isspace a = true
    · rw [next_token_space a r ha]
      exact ih
    · rw [next_token_cons a r (by simpa using ha)]
      split_ifs with h1 h2 h3 h4 h5 h6
      · intro h; cases h
      · intro h; cases h
      · intro h; cases h
      · intro h; cases h
      · intro h; cases h
      · intro _
        refine ⟨?_, ?_, ?_⟩
        · rw [List.takeWhile_cons_of_pos h6]
          simp [to_lowercase]
        · simp only [to_lowercase, List.length_map, List.length_take]
          omega
        · intro c hc
          simp only [to_lowercase, List.mem_map] at hc
          obtain ⟨b, hb, rfl⟩ := hc
          exact folded_word_byte b (List.mem_takeWhile_imp (List.mem_of_mem_take hb))
      · exact ih

theorem tokens_loop_mem (fuel : Nat) : ∀ (q : List Nat) (t : QueryToken),
    t ∈ tokens_loop fuel q → ∃ s, t = (next_token s).1 := by
  induction fuel with
  | zero => intro q t h; cases h
  | succ f ih =>
    intro q t h
    rw [tokens_loop] at h
    split_ifs at h
    · rw [List.mem_singleton] at h
      exact ⟨q, h⟩
    · rcases List.mem_cons.1 h with h | h
      · exact ⟨q, h⟩
      · exact ih _ t h

/-- C32: the word of every WORD token that `next_token` returns is not empty,
has at most 255 bytes, and each of its bytes is an ASCII lowercase letter, a
digit, `-`, `'` or at least `0x80`; none is `_`. So for a term that contains
`_` there is no query on which `next_token` returns that term as a WORD, and
no token sequence holds it. The tokenizer of the index takes `_` as a token
byte: the record with the content `foo_bar` is indexed under the term
`foo_bar`, while the query `foo_bar` is lexed as the words `foo` and `bar` and
finds nothing. -/
theorem word_tokens_never_hold_underscore :
    (∀ q : List Nat, (BooleanQueryParser.next_token q).1.type = TokenType.TOKEN_WORD →
      (BooleanQueryParser.next_token q).1.word ≠ [] ∧
      (BooleanQueryParser.next_token q).1.word.length ≤ 255 ∧
      ∀ c ∈ (BooleanQueryParser.next_token q).1.word,
        (islower c = true ∨ isdigit c = true ∨ c = 45 ∨ c = 39 ∨ 128 ≤ c) ∧ c ≠ 95) ∧
      (∀ term : List Nat, 95 ∈ term → ∀ q : List Nat,
        (BooleanQueryParser.next_token q).1 ≠ ⟨TokenType.TOKEN_WORD, term⟩ ∧
        (⟨TokenType.TOKEN_WORD, term⟩ : QueryToken) ∉ token_sequence q) ∧
      is_token_byte 95 = true ∧
      term_candidates [102, 111, 111, 95, 98, 97, 114] = [[102, 111, 111, 95, 98, 97, 114]] ∧
      Indexer.is_valid_term [102, 111, 111, 95, 98, 97, 114] = true ∧
      token_sequence [102, 111, 111, 95, 98, 97, 114] =
        [⟨TokenType.TOKEN_WORD, [102, 111, 111]⟩, ⟨TokenType.TOKEN_WORD, [98, 97, 114]⟩,
          ⟨TokenType.TOKEN_END, []⟩] ∧
      (∀ debug_search : Bool,
        ((build_index 0 zero_metadata false underscore_records).bind
            (IndexLoader.load debug_search)).map
          (fun ld => ld.terms.map (fun t => (t.term, t.doc_ids))) =
        some [([102, 111, 111, 95, 98, 97, 114], [1])]) ∧
      ∀ debug_search : Bool, (build_index 0 zero_metadata false underscore_records).bind
          (fun files => search debug_search files [102, 111, 111, 95, 98, 97, 114]) =
        some [] := by
  have hshape : ∀ q : List Nat, (next_token q).1.type = TokenType.TOKEN_WORD →
      (next_token q).1.word ≠ [] ∧ (next_token q).1.word.length ≤ 255 ∧
      ∀ c ∈ (next_token q).1.word,
        (islower c = true ∨ isdigit c = true ∨ c = 45 ∨ c = 39 ∨ 128 ≤ c) ∧ c ≠ 95 := by
    intro q hq
    obtain ⟨h1, h2, h3⟩ := next_token_word_shape q hq
    refine ⟨h1, h2, fun c hc => ⟨h3 c hc, ?_⟩⟩
    have := h3 c hc
    simp only [islower, isdigit, Bool.and_eq_true, decide_eq_true_eq] at this
    omega
  have hno : ∀ term : List Nat, 95 ∈ term → ∀ s : List Nat,
      (next_token s).1 ≠ ⟨TokenType.TOKEN_WORD, term⟩ := by
    intro term hterm s h
    have := (hshape s (by rw [h])).2.2 95 (by rw [h]; exact hterm)
    exact this.2 rfl
  refine ⟨hshape, ?_, by decide, by decide!, by decide, by decide!,
    fun debug_search => by cases debug_search <;> decide!,
    fun debug_search => by cases debug_search <;> decide!⟩
  intro term hterm q
  refine ⟨hno term hterm q, ?_⟩
  intro hmem
  obtain ⟨s, hs⟩ := tokens_loop_mem _ q _ hmem
  exact hno term hterm s hs.symm

end WordTokens

/-! ### Stemmer: length of the result -/

section StemBounds

open TurkishStemmer

theorem remove_suffix_length (word suffix r : List Nat)
    (h : remove_suffix word suffix = some r) :
    suffix.length ≤ word.length ∧ r.length + suffix.length = word.length := by
  unfold remove_suffix at h
  by_cases hl : suffix.length ≤ word.length
  · rw [if_pos hl] at h
    simp only [Option.some.injEq] at h
    rw [← h, List.length_take]
    omega
  · rw [if_neg hl] at h
    cases h

theorem strip_plural_length (word : List Nat) (m : Bool) (r : List Nat)
    (h : strip_plural word = some (m, r)) :
    r.length ≤ word.length ∧ word.length ≤ r.length + 3 := by
  unfold strip_plural at h
  split_ifs at h with h1 h2
  · cases hr : remove_suffix word [108, 97, 114] with
    | none => rw [hr] at h; cases h
    | some w =>
      rw [hr] at h
      simp only [Option.some.injEq, Prod.mk.injEq] at h
      have := remove_suffix_length _ _ _ hr
      rw [← h.2]
      simp only [List.length_cons, List.length_nil] at this
      omega
  · cases hr : remove_suffix word [108, 101, 114] with
    | none => rw [hr] at h; cases h
    | some w =>
      rw [hr] at h
      simp only [Option.some.injEq, Prod.mk.injEq] at h
      have := remove_suffix_length _ _ _ hr
      rw [← h.2]
      simp only [List.length_cons, List.length_nil] at this
      omega
  · simp only [Option.some.injEq, Prod.mk.injEq] at h
    rw [← h.2]
    omega

theorem strip_possessive_length (m0 : Bool) (word : List Nat) (m : Bool) (r : List Nat)
    (h : strip_possessive m0 word = some (m, r)) :
    r.length ≤ word.length ∧ word.length ≤ r.length + 2 ∧ (2 ≤ word.length → 2 ≤ r.length) := by
  unfold strip_possessive at h
  split_ifs at h with h1 h2
  · cases hr : remove_suffix word [105, 109] with
    | none => rw [hr] at h; cases h
    | some w =>
      rw [hr] at h
      simp only [Option.some.injEq, Prod.mk.injEq] at h
      have := remove_suffix_length _ _ _ hr
      rw [← h.2]
      simp only [List.length_cons, List.length_nil] at this
      omega
  · simp only [Option.some.injEq, Prod.mk.injEq] at h
    rw [← h.2]
    omega
  · simp only [Option.some.injEq, Prod.mk.injEq] at h
    rw [← h.2]
    omega

theorem case_suffix_loop_length (suffixes : List (List Nat)) (word : List Nat) (m : Bool)
    (r : List Nat) (hs : ∀ s ∈ suffixes, s.length ≤ 3)
    (h : case_suffix_loop suffixes word = some (m, r)) :
    r.length ≤ word.length ∧ word.length ≤ r.length + 3 := by
  induction suffixes with
  | nil =>
    simp only [case_suffix_loop, Option.some.injEq, Prod.mk.injEq] at h
    rw [← h.2]
    omega
  | cons s rest ih =>
    rw [case_suffix_loop] at h
    by_cases he : ends_with word s = true
    · rw [if_pos he] at h
      cases hr : remove_suffix word s with
      | none => rw [hr] at h; cases h
      | some w =>
        rw [hr] at h
        simp only [Option.some.injEq, Prod.mk.injEq] at h
        have := remove_suffix_length _ _ _ hr
        have := hs s (List.mem_cons_self _ _)
        rw [← h.2]
        omega
    · rw [if_neg he] at h
      exact ih (fun s hs' => hs s (List.mem_cons_of_mem _ hs')) h

theorem strip_case_length (m0 : Bool) (word : List Nat) (m : Bool) (r : List Nat)
    (h : strip_case m0 word = some (m, r)) :
    r.length ≤ word.length ∧ word.length ≤ r.length + 3 ∧ (1 ≤ word.length → 1 ≤ r.length) := by
  unfold strip_case at h
  split_ifs at h with h1
  · cases hc : case_suffix_loop case_suffixes word with
    | none => rw [hc] at h; cases h
    | some p =>
      obtain ⟨mm, w⟩ := p
      rw [hc] at h
      simp only [Option.some.injEq, Prod.mk.injEq] at h
      have := case_suffix_loop_length case_suffixes word mm w (by decide) hc
      rw [← h.2]
      omega
  · simp only [Option.some.injEq, Prod.mk.injEq] at h
    rw [← h.2]
    omega

theorem stem_length_aux (word : List Nat) (m : Bool) (r : List Nat)
    (h : stem word = some (m, r)) :
    r.length ≤ word.length ∧ word.length ≤ r.length + 8 ∧ (word ≠ [] → r ≠ []) := by
  unfold stem at h
  by_cases h5 : word.length < 5
  · rw [if_pos h5] at h
    simp only [Option.some.injEq, Prod.mk.injEq] at h
    rw [← h.2]
    exact ⟨le_refl _, by omega, fun hw => hw⟩
  · rw [if_neg h5] at h
    cases h1 : strip_plural word with
    | none => rw [h1] at h; cases h
    | some p1 =>
      obtain ⟨m1, w1⟩ := p1
      rw [h1] at h
      cases h2 : strip_possessive m1 w1 with
      | none => simp only [h2] at h; cases h
      | some p2 =>
        obtain ⟨m2, w2⟩ := p2
        simp only [h2] at h
        have a1 := strip_plural_length word m1 w1 h1
        have a2 := strip_possessive_length m1 w1 m2 w2 h2
        have a3 := strip_case_length m2 w2 m r h
        refine ⟨by omega, by omega, fun _ => ?_⟩
        have : 1 ≤ r.length := by omega
        intro hr
        rw [hr] at this
        simp at this

/-- C35: for every word `stem` returns, so no call of `remove_suffix` is asked
to remove more bytes than the word has; the word left is an initial part of
the word given, at most 8 bytes shorter, and not empty unless the word given
is empty. The bound 8 is reached (`kitapndaimlar` is left as `kitap`), and the
word left can have one byte: `stem` of `andalar` leaves `a`, so that with
stemming the token `andalar`, which passes `is_valid_term`, gives the term
`a`, which does not, and is not counted as a term of the text. -/
theorem stem_result_bounds :
    (∀ word : List Nat, ∃ m r, TurkishStemmer.stem word = some (m, r) ∧ r <+: word ∧
      word.length ≤ r.length + 8 ∧ (word ≠ [] → r ≠ [])) ∧
      (∀ word suffix r : List Nat, TurkishStemmer.remove_suffix word suffix = some r →
        suffix.length ≤ word.length) ∧
      TurkishStemmer.stem [97, 110, 100, 97, 108, 97, 114] = some (true, [97]) ∧
      Indexer.is_valid_term [97, 110, 100, 97, 108, 97, 114] = true ∧
      Indexer.is_valid_term [97] = false ∧
      TurkishStemmer.stem [107, 105, 116, 97, 112, 110, 100, 97, 105, 109, 108, 97, 114] =
        some (true, [107, 105, 116, 97, 112]) ∧
      derived_terms true [97, 110, 100, 97, 108, 97, 114, 32] = [[97]] ∧
      accepted_count true [97, 110, 100, 97, 108, 97, 114, 32] = 0 ∧
      accepted_count false [97, 110, 100, 97, 108, 97, 114, 32] = 1 := by
  refine ⟨?_, fun word suffix r h => (remove_suffix_length word suffix r h).1, by decide,
    by decide, by decide, by decide, by decide!, by decide!, by decide!⟩
  intro word
  obtain ⟨⟨m, r⟩, h⟩ := stem_total word
  have hl := stem_length_aux word m r h
  exact ⟨m, r, h, stem_initial word m r h, hl.2.1, hl.2.2⟩

end StemBounds

/-! ### Term search of the builder -/

section SearchTerm

open HashMap Indexer

theorem chain_find_absent (m : HashMap) (key : List Nat) (hwf : m.well_formed)
    (hkey : ∀ c ∈ key, 0 < c) (habs : ∀ n ∈ nodes m.buckets, n.key ≠ key) :
    chain_find (bucket_get m.buckets (m.hash key)) key = none := by
  cases h : chain_find (bucket_get m.buckets (m.hash key)) key with
  | none => rfl
  | some node =>
    obtain ⟨hmem, hcmp⟩ := chain_find_some _ _ _ h
    obtain ⟨p, hp, _, hnp⟩ := mem_bucket_get _ _ _ hmem
    have hn : node ∈ nodes m.buckets := (mem_nodes _ _).2 ⟨p, hp, hnp⟩
    exact absurd (strcmp_eq_zero node.key key (hwf.2.2.2.1 node hn) hkey hcmp) (habs node hn)

theorem chain_find_present (m : HashMap) (key : List Nat) (hwf : m.well_formed)
    (hkey : ∀ c ∈ key, 0 < c) (n : HashNode) (hn : n ∈ nodes m.buckets) (hk : n.key = key) :
    chain_find (bucket_get m.buckets (m.hash key)) key = some n := by
  cases h : chain_find (bucket_get m.buckets (m.hash key)) key with
  | none =>
    exact absurd (List.mem_map.2 ⟨n, hn, hk⟩) (key_absent_of_chain_find_none m key hwf h)
  | some node =>
    obtain ⟨hmem, hcmp⟩ := chain_find_some _ _ _ h
    obtain ⟨p, hp, _, hnp⟩ := mem_bucket_get _ _ _ hmem
    have hnode : node ∈ nodes m.buckets := (mem_nodes _ _).2 ⟨p, hp, hnp⟩
    have hkey' := strcmp_eq_zero node.key key (hwf.2.2.2.1 node hnode) hkey hcmp
    rw [List.inj_on_of_nodup_map hwf.2.2.1 hnode hn (hkey'.trans hk.symm)]

theorem search_term_aux (ix : Indexer) (term : List Nat)
    (hwf : ix.inverted_index.well_formed) (hterm : ∀ c ∈ term, 0 < c) :
    ((∀ n ∈ nodes ix.inverted_index.buckets, n.key ≠ to_lowercase (term.take 255)) →
      (search_term ix term).2 = [] ∧
      (search_term ix term).1.inverted_index.size = ix.inverted_index.size + 1 ∧
      (nodes (search_term ix term).1.inverted_index.buckets).Perm
        (⟨to_lowercase (term.take 255), []⟩ :: nodes ix.inverted_index.buckets) ∧
      (search_term ix term).1.documents = ix.documents ∧
      (search_term ix term).1.metadata = ix.metadata ∧
      (search_term ix term).1.options = ix.options) ∧
    (∀ n ∈ nodes ix.inverted_index.buckets, n.key = to_lowercase (term.take 255) →
      search_term ix term = (ix, n.doc_ids)) := by
  have hkey : ∀ c ∈ to_lowercase (term.take 255), 0 < c :=
    to_lowercase_pos _ (fun c hc => hterm c (List.mem_of_mem_take hc))
  constructor
  · intro habs
    have h := chain_find_absent ix.inverted_index _ hwf hkey habs
    unfold search_term
    rw [get_or_create_new _ _ h]
    exact ⟨rfl, rfl, nodes_insert_perm _ _ _ hwf.1, rfl, rfl, rfl⟩
  · intro n hn hk
    have h := chain_find_present ix.inverted_index _ hwf hkey n hn hk
    unfold search_term
    rw [get_or_create_found _ _ n h]

/-- C36: `search_term` is not read-only. For an `Indexer` with a well-formed
posting map and a term `t`, the key is the case-folded copy of the first 255
bytes of `t` (of all of `t` when it has at most 255 bytes). When no node of
the map has this key, the call returns an empty list, `size` grows by one, the
map holds the nodes it held and one node with this key and an empty list, and
the documents, the metadata and the options stay as they are. When a node has
this key, the call returns the list of that node and the `Indexer` is
unchanged. -/
theorem search_term_inserts_missing_key (ix : Indexer) (term : List Nat)
    (hwf : ix.inverted_index.well_formed) (hterm : ∀ c ∈ term, 0 < c) :
    ((∀ n ∈ HashMap.nodes ix.inverted_index.buckets,
        n.key ≠ Indexer.to_lowercase (term.take 255)) →
      (Indexer.search_term ix term).2 = [] ∧
      (Indexer.search_term ix term).1.inverted_index.size = ix.inverted_index.size + 1 ∧
      (HashMap.nodes (Indexer.search_term ix term).1.inverted_index.buckets).Perm
        (⟨Indexer.to_lowercase (term.take 255), []⟩ ::
          HashMap.nodes ix.inverted_index.buckets) ∧
      (Indexer.search_term ix term).1.documents = ix.documents ∧
      (Indexer.search_term ix term).1.metadata = ix.metadata ∧
      (Indexer.search_term ix term).1.options = ix.options) ∧
    (∀ n ∈ HashMap.nodes ix.inverted_index.buckets,
      n.key = Indexer.to_lowercase (term.take 255) →
      Indexer.search_term ix term = (ix, n.doc_ids)) :=
  search_term_aux ix term hwf hterm

theorem search_term_inserts_missing_key_witness :
    (((∀ n ∈ HashMap.nodes (Indexer.construct 0 zero_metadata).inverted_index.buckets,
          n.key ≠ Indexer.to_lowercase (([69, 118] : List Nat).take 255)) →
        (Indexer.search_term (Indexer.construct 0 zero_metadata) [69, 118]).2 = [] ∧
        (Indexer.search_term (Indexer.construct 0 zero_metadata)
            [69, 118]).1.inverted_index.size =
          (Indexer.construct 0 zero_metadata).inverted_index.size + 1 ∧
        (HashMap.nodes
            (Indexer.search_term (Indexer.construct 0 zero_metadata)
              [69, 118]).1.inverted_index.buckets).Perm
          (⟨Indexer.to_lowercase (([69, 118] : List Nat).take 255), []⟩ ::
            HashMap.nodes (Indexer.construct 0 zero_metadata).inverted_index.buckets) ∧
        (Indexer.search_term (Indexer.construct 0 zero_metadata) [69, 118]).1.documents =
          (Indexer.construct 0 zero_metadata).documents ∧
        (Indexer.search_term (Indexer.construct 0 zero_metadata) [69, 118]).1.metadata =
          (Indexer.construct 0 zero_metadata).metadata ∧
        (Indexer.search_term (Indexer.construct 0 zero_metadata) [69, 118]).1.options =
          (Indexer.construct 0 zero_metadata).options) ∧
      (∀ n ∈ HashMap.nodes (Indexer.construct 0 zero_metadata).inverted_index.buckets,
        n.key = Indexer.to_lowercase (([69, 118] : List Nat).take 255) →
        Indexer.search_term (Indexer.construct 0 zero_metadata) [69, 118] =
          (Indexer.construct 0 zero_metadata, n.doc_ids))) ∧
      HashMap.nodes (Indexer.construct 0 zero_metadata).inverted_index.buckets = [] ∧
      HashMap.nodes
          (Indexer.search_term (Indexer.construct 0 zero_metadata)
            [69, 118]).1.inverted_index.buckets =
        [⟨[101, 118], []⟩] ∧
      (Indexer.search_term (Indexer.construct 0 zero_metadata)
          [69, 118]).1.inverted_index.size = 1 ∧
      Indexer.search_term (Indexer.search_term (Indexer.construct 0 zero_metadata) [69, 118]).1
          [101, 86] =
        ((Indexer.search_term (Indexer.construct 0 zero_metadata) [69, 118]).1, []) ∧
      (Indexer.tokenize_and_index one_document_indexer 7 [101, 118]).map
          (fun ix => ((Indexer.search_term ix [69, 86]).2,
            decide ((Indexer.search_term ix [69, 86]).1 = ix))) =
        some ([7], true) :=
  ⟨search_term_inserts_missing_key (Indexer.construct 0 zero_metadata) [69, 118]
      (create_well_formed 100000).1 (by decide),
    by decide!, by decide!, by decide!, by decide!, by decide!⟩

end SearchTerm

end Search
